import Mathlib

/-!
Glyph atlas and text layout of `core/font_writer.cpp`, the point index of
`quadtree/quadtree.h` and the boolean settings of `core/settings.cpp`.

A shallow embedding of `FontWriter::CharacterAtlas` (namespace `FontWriter`):

* `generate_character_map` (atlas size, glyph cells, texture coordinates, both the
  branch that reads a cached image and the branch that builds the image),
* `calculate_distance_field` and `unpack_mono_bitmap`,
* `get_bounding_box` and `write_text`,

of `QuadTreeNode::add`, `QuadTreeNode::split` and `QuadTree::add` (namespace `Quadtree`) and
of `Settings::get_boolean_from_keyword` (namespace `Settings`).

Conventions of the embedding.

* `unsigned int` values are natural numbers, every unsigned addition and
  multiplication of the source is followed by `u32` (reduction modulo `2 ^ 32`).
* `int` values are integers.
* `float` values are exact rationals (`ℚ`); a conversion of a float to an integer type
  is truncation toward zero. The pen of `write_text` is also given with the rounding of
  the type `float` (`write_text_rounded`, `binary32`).
* A store through `operator[]` is `List.set`; the loop that builds the image stores inside
  the image when `image_fits` holds (`built_stores_inside`).
* FreeType, the image codec and OpenGL are outside of the source: the rasteriser is a
  function from character codes to glyph slots, a cached image is an optional record,
  draw calls are recorded as a list of placements.
-/

namespace FontWriter

/-! ## Constants and machine integers -/

/-- Padding around every glyph: `static const unsigned int font_padding = 12`. -/
def font_padding : Nat := 12

/-- Raster size of the atlas: `static const unsigned int base_font_size = 32`. -/
def base_font_size : Nat := 32

/-- Half width of the sampling window: `static const int sample_depth = 10`. -/
def sample_depth : Int := 10

/-- Wrap-around of `unsigned int` arithmetic. -/
def u32 (n : Nat) : Nat := n % 2 ^ 32

/-- Unsigned subtraction `a - b` of two `unsigned int` values. -/
def u32_sub (a b : Nat) : Nat := (a + (2 ^ 32 - b % 2 ^ 32)) % 2 ^ 32

/-- Conversion of an `int` to `unsigned int`. -/
def u32_of_int (z : Int) : Nat := (z % 2 ^ 32).toNat

/-- Conversion of an `unsigned int` to `int`. -/
def int_of_u32 (n : Nat) : Int :=
  if n % 2 ^ 32 < 2 ^ 31 then ((n % 2 ^ 32 : Nat) : Int) else ((n % 2 ^ 32 : Nat) : Int) - 2 ^ 32

/-- Conversion of a float (an exact rational here) to an integer type: the fractional
part is discarded (truncation toward zero). -/
def trunc (q : ℚ) : Int := if 0 ≤ q then ⌊q⌋ else ⌈q⌉

/-- Effect of `v.resize(n, x)` on a `std::vector`. -/
def resize {α : Type} (v : List α) (n : Nat) (x : α) : List α :=
  v.take n ++ List.replicate (n - v.length) x

/-! ## Data model -/

/-- The `Glyph` record of `font_writer.h`. -/
structure Glyph where
  width : Int
  height : Int
  tx1 : ℚ
  ty1 : ℚ
  tx2 : ℚ
  ty2 : ℚ
  horizontal_bearing : Int
  vertical_bearing : Int
  horizontal_advance : Int
deriving DecidableEq, Repr

/-- The default constructor `Glyph()`: every field is zero. -/
def Glyph.zero : Glyph :=
  { width := 0, height := 0, tx1 := 0, ty1 := 0, tx2 := 0, ty2 := 0,
    horizontal_bearing := 0, vertical_bearing := 0, horizontal_advance := 0 }

/-- The fields of FreeType's `FT_Bitmap` that the source reads. -/
structure FT_Bitmap where
  rows : Nat
  width : Nat
  pitch : Int
  buffer : List Nat
deriving DecidableEq, Repr

/-- The fields of FreeType's `FT_Glyph_Metrics` that the source reads (26.6 fixed point). -/
structure FT_Glyph_Metrics where
  horiBearingX : Int
  horiBearingY : Int
  horiAdvance : Int
deriving DecidableEq, Repr

/-- The part of `face->glyph` that the source reads after `FT_Load_Char`. -/
structure FT_GlyphSlot where
  bitmap : FT_Bitmap
  metrics : FT_Glyph_Metrics
deriving DecidableEq, Repr

/-- What `PNG::load_image_buffer_from_png` hands back for the cache file. -/
structure PngImage where
  data : List Nat
  width : Nat
  height : Nat
  col : Int
  bit_depth : Int
deriving DecidableEq, Repr

/-- The members of `CharacterAtlas` that the embedded functions read or write. -/
structure CharacterAtlas where
  glyphs : List Glyph
  pt : Nat
  texture_width : Nat
  texture_height : Nat
  cstart : Nat
  ccount : Nat
  expanded_data : List Nat
deriving DecidableEq, Repr

/-- State of a `CharacterAtlas` when its constructor calls `generate_character_map`:
the members are set from the arguments and `glyphs.resize(ccount)` has run. -/
def CharacterAtlas.init (pt cstart ccount : Nat) : CharacterAtlas :=
  { glyphs := resize [] ccount Glyph.zero, pt := pt, texture_width := 0, texture_height := 0,
    cstart := cstart, ccount := ccount, expanded_data := [] }

/-! ## `unpack_mono_bitmap` -/

/-- Assignment `v[idx] = x` through an `int` index. -/
def set_at {α : Type} (v : List α) (idx : Int) (x : α) : List α :=
  if 0 ≤ idx then v.set idx.toNat x else v

/-- The function `CharacterAtlas::unpack_mono_bitmap`: one boolean per pixel of the glyph
bitmap, surrounded by `font_padding` pixels of `false` on every side. -/
def unpack_mono_bitmap (bitmap : FT_Bitmap) : List Bool :=
  let result := List.replicate
    (u32 (u32 (bitmap.rows + 2 * font_padding) * u32 (bitmap.width + 2 * font_padding))) false
  (List.range (int_of_u32 bitmap.rows).toNat).foldl (fun result (y : Nat) =>
    (List.range bitmap.pitch.toNat).foldl (fun result (byte_index : Nat) =>
      let byte_value := bitmap.buffer.getD ((y : Int) * bitmap.pitch + byte_index).toNat 0
      let num_bits_done : Int := byte_index * 8
      let rowstart : Int := int_of_u32
        (u32 (u32 (u32 (u32 (y + font_padding) * u32 (bitmap.width + 2 * font_padding))
          + u32_of_int ((byte_index : Int) * 8)) + font_padding))
      (List.range (min 8 (int_of_u32 (u32_sub bitmap.width (u32_of_int num_bits_done)))).toNat).foldl
        (fun result (bit_index : Nat) =>
          set_at result (rowstart + bit_index) (byte_value.testBit (7 - bit_index)))
        result)
      result)
    result

/-! ## `calculate_distance_field` -/

/-- Square of `max_dist = sqrt(2 * sample_depth * sample_depth)`. -/
def max_dist_sq : Nat := (2 * sample_depth * sample_depth).toNat

/-- The search of `calculate_distance_field` for pixel `(l, k)`: the running minimum
`distance`, started at `max_dist`, over the window of half width `sample_depth` clipped
to the image, of the distance to the pixels whose value differs from that of `(l, k)`.
Every float in this loop is the square root of a natural number (`max_dist` and
`sqrt((i-l)*(i-l) + (j-k)*(j-k))`), and `std::min` of square roots is the square root of
the minimum: the result is the SQUARE of the final value of `distance`. -/
def min_dist_sq (data : List Bool) (width height : Int) (l k : Int) : Nat :=
  (List.range (2 * sample_depth + 1).toNat).foldl (fun distance (tj : Nat) =>
    let j : Int := k - sample_depth + tj
    (List.range (2 * sample_depth + 1).toNat).foldl (fun distance (ti : Nat) =>
      let i : Int := l - sample_depth + ti
      if 0 ≤ i ∧ i < width ∧ 0 ≤ j ∧ j < height then
        if data.getD (l + width * k).toNat false != data.getD (i + width * j).toNat false then
          min distance (((i - l) * (i - l)).toNat + ((j - k) * (j - k)).toNat)
        else distance
      else distance) distance) max_dist_sq

/-- Least natural number whose square is at least `n`. -/
def ceil_sqrt (n : Nat) : Nat := if Nat.sqrt n * Nat.sqrt n = n then Nat.sqrt n else Nat.sqrt n + 1

/-- The byte stored for a pixel whose final `distance` has square `d2`: the truncation of
`(0.5 + (distance / max_dist) * 0.5) * 255` for an inside pixel and of
`(0.5 - (distance / max_dist) * 0.5) * 255` for an outside pixel, over the reals.
With `x = 255 * distance / max_dist` these are `⌊(255 + x) / 2⌋ = (255 + ⌊x⌋) / 2` and
`⌊(255 - x) / 2⌋ = (255 - ⌈x⌉) / 2`, and `x` is the square root of
`255 * 255 * d2 / max_dist_sq` (see `sdf_byte_inside_eq_floor`, `sdf_byte_outside_eq_floor`). -/
def sdf_byte (inside : Bool) (d2 : Nat) : Nat :=
  if inside then (255 + Nat.sqrt (255 * 255 * d2 / max_dist_sq)) / 2
  else (255 - ceil_sqrt ((255 * 255 * d2 + (max_dist_sq - 1)) / max_dist_sq)) / 2

/-- The function `CharacterAtlas::calculate_distance_field`: every entry `l + k * width`
with `l < width`, `k < height` of `distance_field` is overwritten. -/
def calculate_distance_field (distance_field : List Nat) (data : List Bool)
    (width height : Int) : List Nat :=
  (List.range height.toNat).foldl (fun distance_field (k : Nat) =>
    (List.range width.toNat).foldl (fun distance_field (l : Nat) =>
      let distance := min_dist_sq data width height l k
      set_at distance_field ((l : Int) + k * width)
        (sdf_byte (data.getD ((l : Int) + width * k).toNat false) distance))
      distance_field)
    distance_field

/-! ## `generate_character_map` -/

/-- The character codes visited by `for(unsigned int i=cstart; i<cstart+ccount; i++)`. -/
def char_codes (cstart ccount : Nat) : List Nat :=
  List.range' cstart (u32 (cstart + ccount) - cstart)

/-- The locals `gx`, `gy`, `width`, `height` of one iteration of a texture-coordinate loop:
the glyph of that iteration owns the pixels `[gx, gx + width) x [gy, gy + height)`. -/
structure Cell where
  gx : Nat
  gy : Nat
  width : Nat
  height : Nat
deriving DecidableEq, Repr

/-- Variables of the first loop of `generate_character_map`. -/
structure CollectState where
  glyphs : List Glyph
  char_bitmaps : List (List Bool)
  img_width : Nat
  img_height : Nat
  temp_x : Nat
  temp_y : Nat
  counter : Nat

/-- Body of the first loop of `generate_character_map` (lines 410-451): rasterise the
character `i`, store its metrics and bitmap, extend the current row and close the row
after every `charmap_width` glyphs. -/
def collect_step (ft : Nat → FT_GlyphSlot) (cstart charmap_width : Nat)
    (s : CollectState) (i : Nat) : CollectState :=
  let counter := u32 (s.counter + 1)
  let glyph := ft i
  let width := u32 (glyph.bitmap.width + 2 * font_padding)
  let height := u32 (glyph.bitmap.rows + 2 * font_padding)
  let idx := u32_sub i cstart
  let g := s.glyphs.getD idx Glyph.zero
  let glyphs := s.glyphs.set idx
    { g with
      width := int_of_u32 glyph.bitmap.width
      height := int_of_u32 glyph.bitmap.rows
      horizontal_bearing := glyph.metrics.horiBearingX.tdiv 64
      vertical_bearing := glyph.metrics.horiBearingY.tdiv 64
      horizontal_advance := glyph.metrics.horiAdvance.tdiv 64 }
  let char_bitmaps := s.char_bitmaps.set idx (unpack_mono_bitmap glyph.bitmap)
  let temp_x := u32 (s.temp_x + width)
  let temp_y := max s.temp_y height
  if counter % charmap_width = 0 then
    { glyphs := glyphs, char_bitmaps := char_bitmaps, counter := 0,
      img_width := max s.img_width temp_x, img_height := u32 (s.img_height + temp_y),
      temp_x := 0, temp_y := 0 }
  else
    { glyphs := glyphs, char_bitmaps := char_bitmaps, counter := counter,
      img_width := s.img_width, img_height := s.img_height,
      temp_x := temp_x, temp_y := temp_y }

/-- Variables of the second and third loop of `generate_character_map`; `cells` records
the locals of every iteration that has run. -/
structure PlaceState where
  glyphs : List Glyph
  expanded_data : List Nat
  gx : Nat
  gy : Nat
  temp_y : Nat
  counter : Nat
  cells : List Cell

/-- Texture coordinates written for the glyph of one iteration (lines 486-489 and 531-534). -/
def with_tex (g : Glyph) (gx gy width height img_width img_height : Nat) : Glyph :=
  { g with
    tx1 := (gx : ℚ) / (img_width : ℚ)
    tx2 := (u32 (gx + width) : ℚ) / (img_width : ℚ)
    ty1 := (u32 (gy + height) : ℚ) / (img_height : ℚ)
    ty2 := (gy : ℚ) / (img_height : ℚ) }

/-- Body of the loop of the branch that found a cache file (lines 481-499). -/
def cached_step (cstart charmap_width img_width img_height : Nat)
    (s : PlaceState) (i : Nat) : PlaceState :=
  let counter := u32 (s.counter + 1)
  let idx := u32_sub i cstart
  let g := s.glyphs.getD idx Glyph.zero
  let width := u32 (u32_of_int g.width + 2 * font_padding)
  let height := u32 (u32_of_int g.height + 2 * font_padding)
  let glyphs := s.glyphs.set idx (with_tex g s.gx s.gy width height img_width img_height)
  let cells := s.cells ++ [{ gx := s.gx, gy := s.gy, width := width, height := height }]
  let gx := u32 (s.gx + width)
  let temp_y := max s.temp_y height
  if counter % charmap_width = 0 then
    { glyphs := glyphs, expanded_data := s.expanded_data, counter := counter,
      gx := 0, gy := u32 (s.gy + temp_y), temp_y := 0, cells := cells }
  else
    { glyphs := glyphs, expanded_data := s.expanded_data, counter := counter,
      gx := gx, gy := s.gy, temp_y := temp_y, cells := cells }

/-- The copy of one distance field into the atlas image (lines 525-529). The store
`expanded_data[(l+gx) + (k+gy)*img_width] = ...` of line 527 is an unchecked `operator[]`
of `std::vector`: it is defined when its index is below `expanded_data.size()`, and
`List.set` is that store then; `image_fits` below is the condition under which every store
of the loop is inside the vector (`built_stores_inside`). At an index outside the vector
the behaviour of the program is undefined, while `List.set` leaves the list as it is. The
layout (`img_width`, `img_height`, the cells and the texture coordinates) is computed
without reading the image. -/
def blit (expanded_data distance_field : List Nat) (gx gy width height img_width : Nat) :
    List Nat :=
  (List.range height).foldl (fun expanded_data (k : Nat) =>
    (List.range width).foldl (fun expanded_data (l : Nat) =>
      expanded_data.set (u32 (u32 (l + gx) + u32 (u32 (k + gy) * img_width)))
        (distance_field.getD (u32 (l + u32 (width * k))) 0))
      expanded_data)
    expanded_data

/-- Body of the loop of the branch that builds the atlas image (lines 514-544). -/
def build_step (char_bitmaps : List (List Bool)) (cstart charmap_width img_width img_height : Nat)
    (s : PlaceState) (i : Nat) : PlaceState :=
  let counter := u32 (s.counter + 1)
  let idx := u32_sub i cstart
  let g := s.glyphs.getD idx Glyph.zero
  let width := u32 (u32_of_int g.width + 2 * font_padding)
  let height := u32 (u32_of_int g.height + 2 * font_padding)
  let distance_field := calculate_distance_field (List.replicate (u32 (width * height)) 0)
    (char_bitmaps.getD idx []) (int_of_u32 width) (int_of_u32 height)
  let expanded_data := blit s.expanded_data distance_field s.gx s.gy width height img_width
  let glyphs := s.glyphs.set idx (with_tex g s.gx s.gy width height img_width img_height)
  let cells := s.cells ++ [{ gx := s.gx, gy := s.gy, width := width, height := height }]
  let gx := u32 (s.gx + width)
  let temp_y := max s.temp_y height
  if counter % charmap_width = 0 then
    { glyphs := glyphs, expanded_data := expanded_data, counter := counter,
      gx := 0, gy := u32 (s.gy + temp_y), temp_y := 0, cells := cells }
  else
    { glyphs := glyphs, expanded_data := expanded_data, counter := counter,
      gx := gx, gy := s.gy, temp_y := temp_y, cells := cells }

/-- The ways in which `generate_character_map` stops without an atlas. -/
inductive Fault where
  | division_by_zero
  | invalid_number_of_colors
  | invalid_bit_depth
deriving DecidableEq, Repr

/-- What `generate_character_map` leaves behind: the atlas object, and the final values of
its locals `img_width`, `img_height` together with the cells of the glyphs. -/
structure Generated where
  atlas : CharacterAtlas
  img_width : Nat
  img_height : Nat
  cells : List Cell

/-- The function `CharacterAtlas::generate_character_map`. `ft` is the rasteriser
(`FT_Load_Char` for a character code), `cache` is the image of `filename + ".png"` when
`stat` finds that file. `counter % charmap_width` with `charmap_width = 0` is a division by
zero; `exit(-1)` is the fault of the two checks of the cached image. -/
def generate_character_map (a : CharacterAtlas) (ft : Nat → FT_GlyphSlot)
    (cache : Option PngImage) : Except Fault Generated :=
  let charmap_width := Nat.sqrt a.ccount
  if charmap_width = 0 then Except.error Fault.division_by_zero else
  let s1 := (char_codes a.cstart a.ccount).foldl (collect_step ft a.cstart charmap_width)
    { glyphs := a.glyphs, char_bitmaps := List.replicate a.ccount [],
      img_width := 0, img_height := 0, temp_x := 0, temp_y := 0, counter := 0 }
  let img_width := s1.img_width
  let img_height :=
    if s1.counter % charmap_width ≠ 0 then u32 (s1.img_height + s1.temp_y) else s1.img_height
  match cache with
  | some png =>
    if png.col ≠ 0 then Except.error Fault.invalid_number_of_colors
    else if png.bit_depth ≠ 8 then Except.error Fault.invalid_bit_depth
    else
      let s2 := (char_codes a.cstart a.ccount).foldl
        (cached_step a.cstart charmap_width img_width img_height)
        { glyphs := s1.glyphs, expanded_data := png.data,
          gx := 0, gy := 0, temp_y := 0, counter := 0, cells := [] }
      Except.ok
        { atlas := { a with glyphs := s2.glyphs, expanded_data := s2.expanded_data,
                            texture_width := png.width, texture_height := png.height }
          img_width := img_width, img_height := img_height, cells := s2.cells }
  | none =>
      let s3 := (char_codes a.cstart a.ccount).foldl
        (build_step s1.char_bitmaps a.cstart charmap_width img_width img_height)
        { glyphs := s1.glyphs,
          expanded_data := resize a.expanded_data (u32 (img_width * img_height)) 0,
          gx := 0, gy := 0, temp_y := 0, counter := 0, cells := [] }
      Except.ok
        { atlas := { a with glyphs := s3.glyphs, expanded_data := s3.expanded_data,
                            texture_width := img_width, texture_height := img_height }
          img_width := img_width, img_height := img_height, cells := s3.cells }

/-! ## The layout as a function of the glyph dimensions

The three loops of `generate_character_map` read nothing of a glyph but
`bitmap.width` and `bitmap.rows` when they compute `img_width`, `img_height`, `gx` and
`gy`. The definitions below are these computations on the list of the dimensions, in the
order of the loops; `generate_layout` proves that `generate_character_map` computes them. -/

/-- Size of a glyph cell along one axis: `n + 2 * font_padding` in `unsigned int`. -/
def padded (n : Nat) : Nat := u32 (n + 2 * font_padding)

/-- The locals `img_width`, `img_height`, `temp_x`, `temp_y`, `counter` of the first loop. -/
structure SizeState where
  img_width : Nat
  img_height : Nat
  temp_x : Nat
  temp_y : Nat
  counter : Nat
deriving DecidableEq, Repr

/-- What one iteration of the first loop does to the size locals, for a glyph of
dimensions `d = (bitmap.width, bitmap.rows)`. -/
def size_step (charmap_width : Nat) (s : SizeState) (d : Nat × Nat) : SizeState :=
  let counter := u32 (s.counter + 1)
  let temp_x := u32 (s.temp_x + padded d.1)
  let temp_y := max s.temp_y (padded d.2)
  if counter % charmap_width = 0 then
    { counter := 0, img_width := max s.img_width temp_x,
      img_height := u32 (s.img_height + temp_y), temp_x := 0, temp_y := 0 }
  else
    { counter := counter, img_width := s.img_width, img_height := s.img_height,
      temp_x := temp_x, temp_y := temp_y }

/-- The size locals after the first loop and the statement that follows it (lines 453-455):
the pair `(img_width, img_height)`. -/
def atlas_size (charmap_width : Nat) (ds : List (Nat × Nat)) : Nat × Nat :=
  let s := ds.foldl (size_step charmap_width)
    { img_width := 0, img_height := 0, temp_x := 0, temp_y := 0, counter := 0 }
  (s.img_width,
   if s.counter % charmap_width ≠ 0 then u32 (s.img_height + s.temp_y) else s.img_height)

/-- The cells of the glyphs of dimensions `ds`, when the texture-coordinate loop starts
with the given values of `gx`, `gy`, `temp_y`, `counter`. -/
def cells_from (charmap_width : Nat) :
    List (Nat × Nat) → Nat → Nat → Nat → Nat → List Cell
  | [], _, _, _, _ => []
  | d :: ds, gx, gy, temp_y, counter =>
    { gx := gx, gy := gy, width := padded d.1, height := padded d.2 } ::
      (if u32 (counter + 1) % charmap_width = 0 then
        cells_from charmap_width ds 0 (u32 (gy + max temp_y (padded d.2))) 0 (u32 (counter + 1))
      else
        cells_from charmap_width ds (u32 (gx + padded d.1)) gy (max temp_y (padded d.2))
          (u32 (counter + 1)))

/-- The cells of the glyphs of dimensions `ds` (the loop starts with all locals zero). -/
def atlas_cells (charmap_width : Nat) (ds : List (Nat × Nat)) : List Cell :=
  cells_from charmap_width ds 0 0 0 0

/-- The dimensions `(bitmap.width, bitmap.rows)` of the glyphs of an atlas, in the order
of the character codes `cstart, cstart + 1, ...`. -/
def glyph_dims (a : CharacterAtlas) (ft : Nat → FT_GlyphSlot) : List (Nat × Nat) :=
  (List.range a.ccount).map
    (fun j => ((ft (a.cstart + j)).bitmap.width, (ft (a.cstart + j)).bitmap.rows))

/-- No unsigned addition of the first loop, nor of the statement after it, wraps around,
from the given size locals on. -/
def size_fits (charmap_width : Nat) : List (Nat × Nat) → SizeState → Bool
  | [], s =>
    if s.counter % charmap_width ≠ 0 then decide (s.img_height + s.temp_y < 2 ^ 32) else true
  | d :: ds, s =>
    decide (s.counter + 1 < 2 ^ 32) && decide (d.1 + 2 * font_padding < 2 ^ 32) &&
    decide (d.2 + 2 * font_padding < 2 ^ 32) &&
    decide (s.temp_x + padded d.1 < 2 ^ 32) &&
    (if u32 (s.counter + 1) % charmap_width = 0 then
      decide (s.img_height + max s.temp_y (padded d.2) < 2 ^ 32) else true) &&
    size_fits charmap_width ds (size_step charmap_width s d)

/-- No unsigned addition of a texture-coordinate loop wraps around, from the given values
of `gx`, `gy`, `temp_y`, `counter` on. -/
def cells_fit (charmap_width : Nat) : List (Nat × Nat) → Nat → Nat → Nat → Nat → Bool
  | [], _, _, _, _ => true
  | d :: ds, gx, gy, temp_y, counter =>
    decide (counter + 1 < 2 ^ 32) && decide (d.1 + 2 * font_padding < 2 ^ 32) &&
    decide (d.2 + 2 * font_padding < 2 ^ 32) &&
    decide (gx + padded d.1 < 2 ^ 32) && decide (gy + padded d.2 < 2 ^ 32) &&
    (if u32 (counter + 1) % charmap_width = 0 then
      decide (gy + max temp_y (padded d.2) < 2 ^ 32) &&
      cells_fit charmap_width ds 0 (u32 (gy + max temp_y (padded d.2))) 0 (u32 (counter + 1))
    else
      cells_fit charmap_width ds (u32 (gx + padded d.1)) gy (max temp_y (padded d.2))
        (u32 (counter + 1)))

/-- No 32-bit overflow in `generate_character_map`: the bound `cstart + ccount` of its
loops and every unsigned addition of its three loops stay below `2 ^ 32`. -/
def no_overflow (a : CharacterAtlas) (ft : Nat → FT_GlyphSlot) : Bool :=
  decide (a.cstart + a.ccount < 2 ^ 32) &&
  size_fits (Nat.sqrt a.ccount) (glyph_dims a ft)
    { img_width := 0, img_height := 0, temp_x := 0, temp_y := 0, counter := 0 } &&
  cells_fit (Nat.sqrt a.ccount) (glyph_dims a ft) 0 0 0 0

/-- The four texture coordinates stored in a glyph. -/
def Glyph.tex (g : Glyph) : ℚ × ℚ × ℚ × ℚ := (g.tx1, g.tx2, g.ty1, g.ty2)

/-- Bitmap dimensions of a glyph. -/
def Glyph.dims (g : Glyph) : Int × Int := (g.width, g.height)

/-- The texture coordinates `(tx1, tx2, ty1, ty2)` that lines 486-489 and 531-534 compute
from the locals of an iteration. -/
def Cell.tex (c : Cell) (img_width img_height : Nat) : ℚ × ℚ × ℚ × ℚ :=
  ((c.gx : ℚ) / (img_width : ℚ), (u32 (c.gx + c.width) : ℚ) / (img_width : ℚ),
   (u32 (c.gy + c.height) : ℚ) / (img_height : ℚ), (c.gy : ℚ) / (img_height : ℚ))

/-- The cell of no glyph (default of a list access). -/
def Cell.zero : Cell := { gx := 0, gy := 0, width := 0, height := 0 }

/-- Everything of a `PlaceState` but the image: what a texture-coordinate loop computes
for the glyph table. -/
def PlaceState.layout (s : PlaceState) : List Glyph × Nat × Nat × Nat × Nat × List Cell :=
  (s.glyphs, s.gx, s.gy, s.temp_y, s.counter, s.cells)

/-- The size locals of the first loop. -/
def CollectState.size (s : CollectState) : SizeState :=
  { img_width := s.img_width, img_height := s.img_height, temp_x := s.temp_x,
    temp_y := s.temp_y, counter := s.counter }

/-- The pixel `(px, py)` lies in the cell: `gx ≤ px < gx + width`, `gy ≤ py < gy + height`. -/
def Cell.covers (c : Cell) (px py : Nat) : Prop :=
  c.gx ≤ px ∧ px < c.gx + c.width ∧ c.gy ≤ py ∧ py < c.gy + c.height

/-- The point `(u, v)` lies in the texture rectangle of the glyph, which spans `tx1 .. tx2`
horizontally and `ty2 .. ty1` vertically. -/
def Glyph.covers (g : Glyph) (u v : ℚ) : Prop :=
  g.tx1 ≤ u ∧ u < g.tx2 ∧ g.ty2 ≤ v ∧ v < g.ty1

/-- Cell `c` comes before cell `d` in the layout: `d` is to the right of `c` in the row of
`c`, or `d` is in a row below the bottom of `c`. -/
def Cell.before (c d : Cell) : Prop :=
  (c.gy = d.gy ∧ c.gx + c.width ≤ d.gx) ∨ c.gy + c.height ≤ d.gy

/-- The texture coordinates `(tx1, tx2, ty1, ty2)` of all glyphs as a function of the number
of glyphs and of their dimensions alone. -/
def layout_tex (ccount : Nat) (ds : List (Nat × Nat)) : List (ℚ × ℚ × ℚ × ℚ) :=
  (atlas_cells (Nat.sqrt ccount) ds).map
    (fun c => c.tex (atlas_size (Nat.sqrt ccount) ds).1 (atlas_size (Nat.sqrt ccount) ds).2)

/-- Stated from the spec ("width is the max cumulative row width across rows", the rows
being the consecutive groups of `cols` glyphs, the last of which may be partially filled):
the largest sum of the padded widths of a row. -/
def spec_atlas_width (cols : Nat) (ds : List (Nat × Nat)) : Nat :=
  ((ds.toChunks cols).map (fun row => (row.map (fun d => d.1 + 2 * 12)).sum)).foldr max 0

/-- A glyph slot with a bitmap of one pixel. -/
def narrow_slot : FT_GlyphSlot :=
  { bitmap := { rows := 1, width := 1, pitch := 1, buffer := [128] }
    metrics := { horiBearingX := 0, horiBearingY := 64, horiAdvance := 128 } }

/-- A glyph slot with a bitmap of one row of a hundred pixels. -/
def wide_slot : FT_GlyphSlot :=
  { bitmap := { rows := 1, width := 100, pitch := 13, buffer := List.replicate 13 255 }
    metrics := { horiBearingX := 0, horiBearingY := 64, horiAdvance := 6400 } }

/-- A font whose character 69 is wide and whose other characters are narrow. -/
def wide_last_ft (i : Nat) : FT_GlyphSlot := if i = 69 then wide_slot else narrow_slot

/-! ## `get_bounding_box` and `write_text`

`utf8::next` (`util/utf8.h`) decodes the next code point of the line; a well-formed line
is given here by the sequence of the code points that the calls of `utf8::next` return,
each an `uint32_t`. -/

/-- The function `CharacterAtlas::get_bounding_box`. `box` holds the values of `*width` and
`*height` before the call, the result holds their values after the call. -/
def get_bounding_box (a : CharacterAtlas) (box : Int × Int) (line : List Nat) : Int × Int :=
  let scale : ℚ := (a.pt : ℚ) / (base_font_size : ℚ)
  let box : Int × Int := (0, box.2)
  let box : Int × Int := (box.1, 0)
  if line.length = 0 then box
  else
    line.foldl (fun (box : Int × Int) (c : Nat) =>
      if u32_sub c a.cstart < a.glyphs.length then
        (trunc ((box.1 : ℚ) +
            ((a.glyphs.getD (u32_sub c a.cstart) Glyph.zero).horizontal_advance : ℚ) * scale),
          max box.2
            (trunc (((a.glyphs.getD (u32_sub c a.cstart) Glyph.zero).vertical_bearing : ℚ)
              * scale)))
      else box) box

/-- One draw call of `write_text`: the translation `(cxx, cyy, z + count / 1e6)` applied to
the projection, and the byte offset of the four indices of the glyph. -/
structure Placement where
  x : ℚ
  y : ℚ
  z : ℚ
  offset : Nat
deriving DecidableEq, Repr

/-- The loop of `write_text` (lines 170-193) from the pen position `xx` and the value
`count` on: the draw calls in the order in which they are issued. The operations on the
`float` variables are taken exactly here (the pen is a rational number); the rounding of the
type `float` is in `write_text_loop_rounded` below, of which this is the case of a rounding
that changes nothing (`write_text_loop_rounded_id`). -/
def write_text_loop (a : CharacterAtlas) (yy z scale : ℚ) : List Nat → ℚ → Nat → List Placement
  | [], _, _ => []
  | c :: rest, xx, count =>
    if a.glyphs.length ≤ u32_sub c a.cstart then
      write_text_loop a yy z scale rest xx (u32 (count + 1))
    else
      { x := xx, y := yy, z := z + (u32 (count + 1) : ℚ) / 1000000,
        offset := 4 * u32_sub c a.cstart * 4 } ::
      write_text_loop a yy z scale rest
        (xx + ((a.glyphs.getD (u32_sub c a.cstart) Glyph.zero).horizontal_advance : ℚ) * scale)
        (u32 (count + 1))

/-- The function `CharacterAtlas::write_text`: the draw calls it issues. -/
def write_text (a : CharacterAtlas) (x y z : ℚ) (line : List Nat) : List Placement :=
  if line.length = 0 then []
  else write_text_loop a y z ((a.pt : ℚ) / (base_font_size : ℚ)) line x 0

/-- The code point `c` has a glyph in the atlas: `cstart ≤ c < cstart + ccount`. -/
def CharacterAtlas.in_range (a : CharacterAtlas) (c : Nat) : Bool :=
  decide (a.cstart ≤ c ∧ c < a.cstart + a.ccount)

/-- The glyph table entry of the code point `c`. -/
def CharacterAtlas.glyph (a : CharacterAtlas) (c : Nat) : Glyph :=
  a.glyphs.getD (c - a.cstart) Glyph.zero

/-- An atlas of the two characters 65 and 66 at point size 14: the first glyph has
advance 10 and bearing -5, the second has advance 7 and bearing 10. -/
def two_glyph_atlas : CharacterAtlas :=
  { glyphs := [{ Glyph.zero with horizontal_advance := 10, vertical_bearing := -5 },
               { Glyph.zero with horizontal_advance := 7, vertical_bearing := 10 }]
    pt := 14, texture_width := 64, texture_height := 32, cstart := 65, ccount := 2,
    expanded_data := [] }

/-- A font with other bitmaps and metrics than `wide_last_ft`, whose characters
`97 .. 101` have the bitmap dimensions of the characters `65 .. 69` of `wide_last_ft`. -/
def shifted_ft (i : Nat) : FT_GlyphSlot :=
  if i = 101 then
    { bitmap := { rows := 1, width := 100, pitch := 13, buffer := List.replicate 13 0 }
      metrics := { horiBearingX := 64, horiBearingY := 640, horiAdvance := 7000 } }
  else
    { bitmap := { rows := 1, width := 1, pitch := 1, buffer := [0] }
      metrics := { horiBearingX := 64, horiBearingY := 640, horiAdvance := 200 } }

/-- A cached image in the accepted format (greyscale, 8 bits). -/
def cached_png : PngImage :=
  { data := List.replicate 3750 0, width := 50, height := 75, col := 0, bit_depth := 8 }

/-- A cached image in the accepted format whose size is one pixel. -/
def small_png : PngImage :=
  { data := [0], width := 1, height := 1, col := 0, bit_depth := 8 }

/-! ## Lines that are not well formed

`utf8::next(it, end)` belongs to the UTF8-CPP header `util/utf8.h`, which is not among the
sources. `write_text` and `get_bounding_box` use its return value as the code point without
any test, so the only way in which a call can fail is by not returning: UTF8-CPP throws an
exception. A line is given below by the outcomes of the successive calls of `utf8::next`:
`some c` when the call returns the code point `c`, `none` when it throws. Neither function
contains a `try` block. -/

/-- The loop of `write_text` (lines 170-193) on the outcomes of the calls of `utf8::next`:
the draw calls issued, and whether the loop was left by an exception. -/
def write_text_loop_utf8 (a : CharacterAtlas) (yy z scale : ℚ) :
    List (Option Nat) → ℚ → Nat → List Placement × Bool
  | [], _, _ => ([], false)
  | none :: _, _, _ => ([], true)
  | some c :: rest, xx, count =>
    if a.glyphs.length ≤ u32_sub c a.cstart then
      write_text_loop_utf8 a yy z scale rest xx (u32 (count + 1))
    else
      ({ x := xx, y := yy, z := z + (u32 (count + 1) : ℚ) / 1000000,
         offset := 4 * u32_sub c a.cstart * 4 } ::
        (write_text_loop_utf8 a yy z scale rest
          (xx + ((a.glyphs.getD (u32_sub c a.cstart) Glyph.zero).horizontal_advance : ℚ) * scale)
          (u32 (count + 1))).1,
       (write_text_loop_utf8 a yy z scale rest
          (xx + ((a.glyphs.getD (u32_sub c a.cstart) Glyph.zero).horizontal_advance : ℚ) * scale)
          (u32 (count + 1))).2)

/-- The function `CharacterAtlas::write_text` on the outcomes of the calls of `utf8::next`:
the draw calls issued, and whether an exception leaves the function. -/
def write_text_utf8 (a : CharacterAtlas) (x y z : ℚ) (line : List (Option Nat)) :
    List Placement × Bool :=
  if line.length = 0 then ([], false)
  else write_text_loop_utf8 a y z ((a.pt : ℚ) / (base_font_size : ℚ)) line x 0

/-- The loop of `get_bounding_box` (lines 222-232) on the outcomes of the calls of
`utf8::next`: the values of `*width` and `*height` when the loop is left, and whether it was
left by an exception. -/
def bounding_box_loop_utf8 (a : CharacterAtlas) (scale : ℚ) :
    List (Option Nat) → Int × Int → (Int × Int) × Bool
  | [], box => (box, false)
  | none :: _, box => (box, true)
  | some c :: rest, box =>
    bounding_box_loop_utf8 a scale rest
      (if u32_sub c a.cstart < a.glyphs.length then
        (trunc ((box.1 : ℚ) +
            ((a.glyphs.getD (u32_sub c a.cstart) Glyph.zero).horizontal_advance : ℚ) * scale),
          max box.2
            (trunc (((a.glyphs.getD (u32_sub c a.cstart) Glyph.zero).vertical_bearing : ℚ)
              * scale)))
      else box)

/-- The function `CharacterAtlas::get_bounding_box` on the outcomes of the calls of
`utf8::next`: the values of `*width` and `*height` when the function is left, and whether an
exception leaves it. -/
def get_bounding_box_utf8 (a : CharacterAtlas) (box : Int × Int) (line : List (Option Nat)) :
    (Int × Int) × Bool :=
  let box : Int × Int := (0, box.2)
  let box : Int × Int := (box.1, 0)
  if line.length = 0 then (box, false)
  else bounding_box_loop_utf8 a ((a.pt : ℚ) / (base_font_size : ℚ)) line box

/-! ## The sample depth as a parameter

`calculate_distance_field` reads its sample radius from the constant `sample_depth`. The
definitions below are the body of its pixel loop with that constant replaced by a
parameter `sd`; `pixel_byte_at_sample_depth` proves that `sd = sample_depth` gives the
bytes of `calculate_distance_field`. -/

/-- Square of `max_dist = sqrt(2 * sample_depth * sample_depth)` when the constant
`sample_depth` has the value `sd`. -/
def max_dist_sq_at (sd : Int) : Nat := (2 * sd * sd).toNat

/-- The search of `calculate_distance_field` for pixel `(l, k)` when the constant
`sample_depth` has the value `sd`: the square of the final value of `distance`. -/
def min_dist_sq_at (sd : Int) (data : List Bool) (width height : Int) (l k : Int) : Nat :=
  (List.range (2 * sd + 1).toNat).foldl (fun distance (tj : Nat) =>
    let j : Int := k - sd + tj
    (List.range (2 * sd + 1).toNat).foldl (fun distance (ti : Nat) =>
      let i : Int := l - sd + ti
      if 0 ≤ i ∧ i < width ∧ 0 ≤ j ∧ j < height then
        if data.getD (l + width * k).toNat false != data.getD (i + width * j).toNat false then
          min distance (((i - l) * (i - l)).toNat + ((j - k) * (j - k)).toNat)
        else distance
      else distance) distance) (max_dist_sq_at sd)

/-- The byte that `calculate_distance_field` computes for pixel `(l, k)` when the constant
`sample_depth` has the value `sd`, over the reals with truncation: `none` when
`max_dist = 0`, for then `distance / max_dist` is a division by zero (in IEEE arithmetic
the quotient `0 / 0` is a NaN, whose conversion to a byte is undefined). -/
def pixel_byte_at (sd : Int) (data : List Bool) (width height : Int) (l k : Int) :
    Option Nat :=
  let distance := min_dist_sq_at sd data width height l k
  if max_dist_sq_at sd = 0 then none
  else if data.getD (l + width * k).toNat false then
    some ((255 + Nat.sqrt (255 * 255 * distance / max_dist_sq_at sd)) / 2)
  else
    some ((255 - ceil_sqrt ((255 * 255 * distance + (max_dist_sq_at sd - 1))
      / max_dist_sq_at sd)) / 2)

/-! ## Rows of the layout -/

/-- What one iteration of a texture-coordinate loop does to the locals
`(gx, gy, temp_y, counter)`, for a glyph of dimensions `d` (the recursion of `cells_from`). -/
def pen_step (charmap_width : Nat) (p : Nat × Nat × Nat × Nat) (d : Nat × Nat) :
    Nat × Nat × Nat × Nat :=
  if u32 (p.2.2.2 + 1) % charmap_width = 0 then
    (0, u32 (p.2.1 + max p.2.2.1 (padded d.2)), 0, u32 (p.2.2.2 + 1))
  else
    (u32 (p.1 + padded d.1), p.2.1, max p.2.2.1 (padded d.2), u32 (p.2.2.2 + 1))

/-- Row `r` of the row-major layout with `cols` columns: the glyphs `cols * r`, ...,
`cols * r + cols - 1`, as far as they exist (the last row may be partially filled). -/
def layout_row (cols : Nat) (ds : List (Nat × Nat)) (r : Nat) : List (Nat × Nat) :=
  (ds.drop (cols * r)).take cols

/-- The glyphs before glyph `i` in the row of glyph `i` (row `i / cols`). -/
def row_before (cols : Nat) (ds : List (Nat × Nat)) (i : Nat) : List (Nat × Nat) :=
  (ds.take i).drop (cols * (i / cols))

/-- Sum of the padded widths `width + 2 * 12` of a list of glyphs. -/
def row_width (row : List (Nat × Nat)) : Nat := (row.map (fun d => d.1 + 2 * 12)).sum

/-- Largest padded height `height + 2 * 12` of a list of glyphs. -/
def row_height (row : List (Nat × Nat)) : Nat := (row.map (fun d => d.2 + 2 * 12)).foldr max 0

/-- Stated from the spec ("atlas height = sum of row heights including a partial last
row", a row's height being the max padded glyph height in that row). -/
def spec_atlas_height (cols : Nat) (ds : List (Nat × Nat)) : Nat :=
  ((List.range ((ds.length + cols - 1) / cols)).map
    (fun r => row_height (layout_row cols ds r))).sum

/-- Stated from the spec: the column offset of glyph `i`, the sum of the padded widths of
the glyphs before it in its row. -/
def spec_gx (cols : Nat) (ds : List (Nat × Nat)) (i : Nat) : Nat :=
  row_width (row_before cols ds i)

/-- Stated from the spec: the row offset of glyph `i`, the sum of the heights of the rows
before the row of glyph `i`. -/
def spec_gy (cols : Nat) (ds : List (Nat × Nat)) (i : Nat) : Nat :=
  ((List.range (i / cols)).map (fun r => row_height (layout_row cols ds r))).sum

/-! ## `static_load` -/

/-- The vectors `positions`, `texture_coordinates` and `indices` of a `CharacterAtlas`. -/
structure Buffers where
  positions : List (ℚ × ℚ)
  texture_coordinates : List (ℚ × ℚ)
  indices : List Nat
deriving DecidableEq, Repr

/-- The four positions that `static_load` pushes for glyph `c` (lines 248-254). -/
def quad_positions (a : CharacterAtlas) (c : Nat) : List (ℚ × ℚ) :=
  let scale : ℚ := (a.pt : ℚ) / (base_font_size : ℚ)
  let pts : ℚ := scale * (font_padding : ℚ)
  let g := a.glyphs.getD c Glyph.zero
  let fx : ℚ := (g.horizontal_bearing : ℚ) * scale
  let fy : ℚ := -((g.height - g.vertical_bearing : Int) : ℚ) * scale
  [(fx - pts, fy + pts + (g.height : ℚ) * scale),
   (fx - pts, fy - pts),
   (fx + pts + (g.width : ℚ) * scale, fy + pts + (g.height : ℚ) * scale),
   (fx + pts + (g.width : ℚ) * scale, fy - pts)]

/-- The four texture coordinates that `static_load` pushes for glyph `c` (lines 256-259). -/
def quad_tex (a : CharacterAtlas) (c : Nat) : List (ℚ × ℚ) :=
  let g := a.glyphs.getD c Glyph.zero
  [(g.tx1, g.ty2), (g.tx1, g.ty1), (g.tx2, g.ty2), (g.tx2, g.ty1)]

/-- The four indices pushed after four positions: `positions.size() - 4`, ...,
`positions.size() - 1`, stored as `unsigned int` (lines 261-264 and 277-280). -/
def quad_indices (positions : List (ℚ × ℚ)) : List Nat :=
  [u32 (positions.length - 4), u32 (positions.length - 3), u32 (positions.length - 2),
   u32 (positions.length - 1)]

/-- Body of the loop of `static_load` (lines 246-265) for glyph `c`. -/
def static_load_step (a : CharacterAtlas) (b : Buffers) (c : Nat) : Buffers :=
  let positions := b.positions ++ quad_positions a c
  let texture_coordinates := b.texture_coordinates ++ quad_tex a c
  { positions := positions, texture_coordinates := texture_coordinates,
    indices := b.indices ++ quad_indices positions }

/-- The function `CharacterAtlas::static_load`, as far as it fills `positions`,
`texture_coordinates` and `indices`: one quad per glyph, then the quad of the whole
atlas (lines 267-280). -/
def static_load (a : CharacterAtlas) : Buffers :=
  let b := (List.range a.ccount).foldl (static_load_step a)
    { positions := [], texture_coordinates := [], indices := [] }
  let positions := b.positions ++
    [((0 : ℚ), (a.texture_height : ℚ)), (0, 0),
     ((a.texture_width : ℚ), (a.texture_height : ℚ)), ((a.texture_width : ℚ), 0)]
  let texture_coordinates := b.texture_coordinates ++
    [((0 : ℚ), (0 : ℚ)), (0, 1), (1, 0), (1, 1)]
  { positions := positions, texture_coordinates := texture_coordinates,
    indices := b.indices ++ quad_indices positions }

/-- The function `CharacterAtlas::draw_charmap_on_screen`, as far as it selects indices:
the byte offset `sizeof(GL_UNSIGNED_INT) * ccount * 4` of the four indices it draws. -/
def draw_charmap_on_screen (a : CharacterAtlas) : Nat := 4 * a.ccount * 4

/-! ## The padding of a glyph cell -/

/-- Distance along one axis from the coordinate `p` of a pixel of a padded cell to the
glyph, which occupies the coordinates `font_padding, ..., font_padding + n - 1`. -/
def axis_distance (n p : Nat) : Nat :=
  if p < 12 then 12 - p else if 12 + n ≤ p then p - (12 + n - 1) else 0

/-- Chebyshev distance from the pixel `(l, k)` of the padded cell of a glyph of `width`
columns and `rows` rows to the rectangle of the glyph. -/
def chebyshev_distance (width rows l k : Nat) : Nat :=
  max (axis_distance width l) (axis_distance rows k)

/-! ## The image of the atlas -/

/-- The vector `distance_field` of the iteration of glyph `j` of the loop that builds the
image, after the call of `calculate_distance_field` (lines 519-523): the distance field of
the bitmap of the glyph, of the padded size of the glyph. -/
def glyph_field (a : CharacterAtlas) (ft : Nat → FT_GlyphSlot) (j : Nat) : List Nat :=
  calculate_distance_field
    (List.replicate (u32 (padded (ft (a.cstart + j)).bitmap.width *
      padded (ft (a.cstart + j)).bitmap.rows)) 0)
    (unpack_mono_bitmap (ft (a.cstart + j)).bitmap)
    (int_of_u32 (padded (ft (a.cstart + j)).bitmap.width))
    (int_of_u32 (padded (ft (a.cstart + j)).bitmap.rows))

/-- The arguments `expanded_data`, `texture_width`, `texture_height` of the call
`PNG::write_image_buffer_to_png` that ends the branch that builds the image (line 547);
nothing when `generate_character_map` takes the other branch or stops. -/
def stored_image (a : CharacterAtlas) (ft : Nat → FT_GlyphSlot) (cache : Option PngImage) :
    Option (List Nat × Nat × Nat) :=
  match cache, generate_character_map a ft cache with
  | none, Except.ok r =>
    some (r.atlas.expanded_data, r.atlas.texture_width, r.atlas.texture_height)
  | _, _ => none

/-- The copies of the distance fields `cf.2` into the cells `cf.1` of the image, in the
order of the list (the calls of `blit` of the loop that builds the image). -/
def blit_cells (img_width : Nat) (cfs : List (Cell × List Nat)) (expanded_data : List Nat) :
    List Nat :=
  cfs.foldl (fun expanded_data cf =>
    blit expanded_data cf.2 cf.1.gx cf.1.gy cf.1.width cf.1.height img_width) expanded_data

/-- The loop that builds the image stays inside the image: no unsigned operation of
`generate_character_map` wraps around (`no_overflow`, and the product
`img_width * img_height` of the `resize`), and every row of the layout is at most
`img_width` wide. The store of line 527 is an unchecked `operator[]`; without this
condition the loop can write outside the vector `expanded_data`. -/
def image_fits (a : CharacterAtlas) (ft : Nat → FT_GlyphSlot) : Bool :=
  no_overflow a ft &&
  (List.range a.ccount).all (fun (rr : Nat) =>
    decide (row_width (layout_row (Nat.sqrt a.ccount) (glyph_dims a ft) rr) ≤
      (atlas_size (Nat.sqrt a.ccount) (glyph_dims a ft)).1)) &&
  decide ((atlas_size (Nat.sqrt a.ccount) (glyph_dims a ft)).1 *
    (atlas_size (Nat.sqrt a.ccount) (glyph_dims a ft)).2 < 2 ^ 32)

/-- Every store `expanded_data[(l+gx) + (k+gy)*img_width] = ...` (line 527) of the copies
into the cells `cells` has its index, computed in `unsigned int`, below `size`: with
`size = expanded_data.size()` no store of the loop is outside the vector. -/
def stores_inside (cells : List Cell) (img_width size : Nat) : Bool :=
  cells.all (fun c =>
    (List.range c.height).all (fun (k : Nat) =>
      (List.range c.width).all (fun (l : Nat) =>
        decide (u32 (u32 (l + c.gx) + u32 (u32 (k + c.gy) * img_width)) < size))))

/-! ## The pen of `write_text` as a `float`

The members `tx1 .. ty2`, the pen `xx` and the scale of `write_text` are of type `float`.
`write_text_loop` above takes the operations on them exactly. The definitions below pass
the result of every `float` operation of `write_text` through a rounding function `fl`:
`fl = binary32` is the arithmetic of the type `float`, and the identity is the exact
arithmetic of `write_text_loop`. -/

/-- The integer nearest to `q`, the even one of the two when `q` lies halfway between two
integers. -/
def round_half_even (q : ℚ) : Int :=
  if q - (⌊q⌋ : ℚ) < 1 / 2 then ⌊q⌋
  else if 1 / 2 < q - (⌊q⌋ : ℚ) then ⌊q⌋ + 1
  else if ⌊q⌋ % 2 = 0 then ⌊q⌋ else ⌊q⌋ + 1

/-- The value of type `float` (IEEE 754 binary32, round to nearest, ties to even) that an
operation with the exact result `q` yields: the multiple of `2 ^ (e - 23)` nearest to `q`,
where `2 ^ e` is the largest power of two not above `|q|` and `e` is at least `-126` (24
significant bits; the subnormal numbers share the spacing `2 ^ (-149)`). Results beyond the
largest finite `float`, which the type replaces by an infinity, are not distinguished. -/
def binary32 (q : ℚ) : ℚ :=
  if q = 0 then 0
  else (round_half_even (q / (2 : ℚ) ^ (max (Int.log 2 |q|) (-126) - 23)) : ℚ) *
    (2 : ℚ) ^ (max (Int.log 2 |q|) (-126) - 23)

/-- The loop of `write_text` (lines 170-193) with the result of every `float` operation
passed through `fl`, each operation on its own: the conversions of `count` and of
`horizontal_advance` to `float`, the quotient `count / 1e6f`, the sum `z + count / 1e6f`,
the product `horizontal_advance * scale` and the sum that
`xx += horizontal_advance * scale` stores in the pen `xx`. -/
def write_text_loop_rounded (fl : ℚ → ℚ) (a : CharacterAtlas) (yy z scale : ℚ) :
    List Nat → ℚ → Nat → List Placement
  | [], _, _ => []
  | c :: rest, xx, count =>
    if a.glyphs.length ≤ u32_sub c a.cstart then
      write_text_loop_rounded fl a yy z scale rest xx (u32 (count + 1))
    else
      { x := xx, y := yy, z := fl (z + fl (fl (u32 (count + 1) : ℚ) / fl 1000000)),
        offset := 4 * u32_sub c a.cstart * 4 } ::
      write_text_loop_rounded fl a yy z scale rest
        (fl (xx + fl (fl ((a.glyphs.getD (u32_sub c a.cstart) Glyph.zero).horizontal_advance : ℚ)
          * scale)))
        (u32 (count + 1))

/-- The function `CharacterAtlas::write_text` with the result of every `float` operation
passed through `fl`; the scale is `pt / (float)base_font_size`. The arguments `x`, `y`, `z`
are of type `float` already. -/
def write_text_rounded (fl : ℚ → ℚ) (a : CharacterAtlas) (x y z : ℚ) (line : List Nat) :
    List Placement :=
  if line.length = 0 then []
  else write_text_loop_rounded fl a y z (fl (fl (a.pt : ℚ) / fl (base_font_size : ℚ))) line x 0

/-- The value of the pen `xx` after the statements `xx += horizontal_advance * scale` for
the advances `advs`, in order, every `float` operation rounded by `fl`. -/
def float_pen (fl : ℚ → ℚ) (scale : ℚ) (advs : List Int) (xx : ℚ) : ℚ :=
  advs.foldl (fun (xx : ℚ) (adv : Int) => fl (xx + fl (fl (adv : ℚ) * scale))) xx

end FontWriter

namespace Quadtree

/-! ## `quadtree/quadtree.h`

A `QuadTreeNode*` is a value of the type `QuadTreeNode` below: the null pointer or a node
with its members. `split` and `add` change the node in place: here they return the node
after the call. The member `parent` is written by the constructor alone and read by no
function, it has no place in the embedding. The coordinates (`double` in the source) are
exact rationals. `add` and `split` call each other: `add` carries a bound on the depth of
the calls that are still allowed, and stops with `out_of_fuel` when the bound is used up. -/

/-- The class `QuadTreeObject<T>`: the pointer `objptr` is an address. -/
structure QuadTreeObject where
  objptr : Nat
  x : ℚ
  y : ℚ
deriving DecidableEq, Repr

/-- A pointer to a `QuadTreeNode<T>`: `null`, or a node with the members `objects`, `cx`,
`cy`, `width`, `height`, `level` and `children[0]`, ..., `children[3]`. -/
inductive QuadTreeNode where
  | null : QuadTreeNode
  | node (objects : List QuadTreeObject) (cx cy width height : ℚ) (level : Nat)
      (c0 c1 c2 c3 : QuadTreeNode) : QuadTreeNode
deriving DecidableEq, Repr

/-- The ways in which a call does not return. -/
inductive Stop where
  | out_of_fuel
  | null_dereference
deriving DecidableEq, Repr

/-- The constructor `QuadTreeNode(_cx, _cy, _width, _height, _level, _parent)`: the four
children are null pointers, `objects` is empty. -/
def QuadTreeNode.create (cx cy width height : ℚ) (level : Nat) : QuadTreeNode :=
  QuadTreeNode.node [] cx cy width height level QuadTreeNode.null QuadTreeNode.null
    QuadTreeNode.null QuadTreeNode.null

/-- The function `QuadTreeNode::has_children`. -/
def QuadTreeNode.has_children : QuadTreeNode → Bool
  | QuadTreeNode.null => false
  | QuadTreeNode.node _ _ _ _ _ _ c0 _ _ _ => decide (c0 ≠ QuadTreeNode.null)

/-- The statement `this->objects.clear()`. -/
def QuadTreeNode.clear_objects : QuadTreeNode → QuadTreeNode
  | QuadTreeNode.null => QuadTreeNode.null
  | QuadTreeNode.node _ cx cy width height level c0 c1 c2 c3 =>
    QuadTreeNode.node [] cx cy width height level c0 c1 c2 c3

/-- The loop `for(auto obj: this->objects) { this->add(obj); }` of `split`, for the
function `add` that the calls reach. -/
def QuadTreeNode.migrate (add : QuadTreeNode → QuadTreeObject → Except Stop QuadTreeNode) :
    List QuadTreeObject → QuadTreeNode → Except Stop QuadTreeNode
  | [], n => Except.ok n
  | obj :: rest, n =>
    match add n obj with
    | Except.ok n1 => QuadTreeNode.migrate add rest n1
    | Except.error e => Except.error e

/-- The function `QuadTreeNode::split`, for the function `add` that its calls reach. -/
def QuadTreeNode.split (add : QuadTreeNode → QuadTreeObject → Except Stop QuadTreeNode) :
    QuadTreeNode → Except Stop QuadTreeNode
  | QuadTreeNode.null => Except.error Stop.null_dereference
  | QuadTreeNode.node objects cx cy width height level c0 c1 c2 c3 =>
    if c0 ≠ QuadTreeNode.null then
      Except.ok (QuadTreeNode.node objects cx cy width height level c0 c1 c2 c3)
    else
      let new_width := width / 2
      let new_height := height / 2
      let n := QuadTreeNode.node objects cx cy width height level
        (QuadTreeNode.create (cx + new_width / 2) (cy + new_height / 2) new_width new_height
          ((level + 1) % 2 ^ 32))
        (QuadTreeNode.create (cx - new_width / 2) (cy + new_height / 2) new_width new_height
          ((level + 1) % 2 ^ 32))
        (QuadTreeNode.create (cx - new_width / 2) (cy - new_height / 2) new_width new_height
          ((level + 1) % 2 ^ 32))
        (QuadTreeNode.create (cx + new_width / 2) (cy - new_height / 2) new_width new_height
          ((level + 1) % 2 ^ 32))
      match QuadTreeNode.migrate add objects n with
      | Except.ok n1 => Except.ok n1.clear_objects
      | Except.error e => Except.error e

/-- The function `QuadTreeNode::add`; `fuel` bounds the depth of the calls. -/
def QuadTreeNode.add : Nat → QuadTreeNode → QuadTreeObject → Except Stop QuadTreeNode
  | 0, _, _ => Except.error Stop.out_of_fuel
  | _ + 1, QuadTreeNode.null, _ => Except.error Stop.null_dereference
  | fuel + 1, QuadTreeNode.node objects cx cy width height level c0 c1 c2 c3, obj =>
    if c0 = QuadTreeNode.null then
      if 5 ≤ (objects ++ [obj]).length then
        QuadTreeNode.split (QuadTreeNode.add fuel)
          (QuadTreeNode.node (objects ++ [obj]) cx cy width height level c0 c1 c2 c3)
      else
        Except.ok (QuadTreeNode.node (objects ++ [obj]) cx cy width height level c0 c1 c2 c3)
    else if obj.x > cx ∧ obj.y > cy then
      match QuadTreeNode.add fuel c0 obj with
      | Except.ok c => Except.ok (QuadTreeNode.node objects cx cy width height level c c1 c2 c3)
      | Except.error e => Except.error e
    else if obj.x < cx ∧ obj.y > cy then
      match QuadTreeNode.add fuel c1 obj with
      | Except.ok c => Except.ok (QuadTreeNode.node objects cx cy width height level c0 c c2 c3)
      | Except.error e => Except.error e
    else if obj.x < cx ∧ obj.y < cy then
      match QuadTreeNode.add fuel c2 obj with
      | Except.ok c => Except.ok (QuadTreeNode.node objects cx cy width height level c0 c1 c c3)
      | Except.error e => Except.error e
    else
      match QuadTreeNode.add fuel c3 obj with
      | Except.ok c => Except.ok (QuadTreeNode.node objects cx cy width height level c0 c1 c2 c)
      | Except.error e => Except.error e

/-- The class `QuadTree<T>`: its member `root`. -/
structure QuadTree where
  root : QuadTreeNode
deriving DecidableEq, Repr

/-- The constructor `QuadTree()`. -/
def QuadTree.empty : QuadTree := { root := QuadTreeNode.null }

/-- The constructor `QuadTree(_cx, _cy, _width, _height)`. -/
def QuadTree.create (cx cy width height : ℚ) : QuadTree :=
  { root := QuadTreeNode.create cx cy width height 0 }

/-- The function `QuadTree::add`: a tree without root is left as it is (a message is
printed). -/
def QuadTree.add (fuel : Nat) (t : QuadTree) (obj : Nat) (x y : ℚ) : Except Stop QuadTree :=
  if t.root ≠ QuadTreeNode.null then
    match t.root.add fuel { objptr := obj, x := x, y := y } with
    | Except.ok n => Except.ok { root := n }
    | Except.error e => Except.error e
  else Except.ok t

/-- A sequence of calls of `QuadTree::add`, one for every entry `(objptr, x, y)`. -/
def QuadTree.add_all (fuel : Nat) : QuadTree → List QuadTreeObject → Except Stop QuadTree
  | t, [] => Except.ok t
  | t, obj :: rest =>
    match t.add fuel obj.objptr obj.x obj.y with
    | Except.ok t1 => QuadTree.add_all fuel t1 rest
    | Except.error e => Except.error e

/-! ### Properties of a tree of nodes -/

/-- The entries `(objptr, x, y)` stored in the nodes of a tree, node by node. -/
def QuadTreeNode.all_objects : QuadTreeNode → List QuadTreeObject
  | QuadTreeNode.null => []
  | QuadTreeNode.node objects _ _ _ _ _ c0 c1 c2 c3 =>
    objects ++ (c0.all_objects ++ (c1.all_objects ++ (c2.all_objects ++ c3.all_objects)))

/-- The members `cx`, `cy`, `width`, `height`, `level` of a node (nothing for the null
pointer). -/
def QuadTreeNode.frame : QuadTreeNode → Option (ℚ × ℚ × ℚ × ℚ × Nat)
  | QuadTreeNode.null => none
  | QuadTreeNode.node _ cx cy width height level _ _ _ _ => some (cx, cy, width, height, level)

/-- The pointer `c` is a child of a node of the given size and level: it is not null, its
level is the level of the parent plus one (in `unsigned int`), its width and height are
half of those of the parent. -/
def QuadTreeNode.child_of (width height : ℚ) (level : Nat) : QuadTreeNode → Prop
  | QuadTreeNode.null => False
  | QuadTreeNode.node _ _ _ w h l _ _ _ _ =>
    l = (level + 1) % 2 ^ 32 ∧ w = width / 2 ∧ h = height / 2

/-- Every node of the tree has no child and at most four objects, or four children and no
object; every child has the level and the size that belong to its parent. -/
def QuadTreeNode.shape : QuadTreeNode → Prop
  | QuadTreeNode.null => True
  | QuadTreeNode.node objects _ _ width height level c0 c1 c2 c3 =>
    ((c0 = QuadTreeNode.null ∧ c1 = QuadTreeNode.null ∧ c2 = QuadTreeNode.null ∧
        c3 = QuadTreeNode.null ∧ objects.length ≤ 4) ∨
      (objects = [] ∧ c0.child_of width height level ∧ c1.child_of width height level ∧
        c2.child_of width height level ∧ c3.child_of width height level)) ∧
    c0.shape ∧ c1.shape ∧ c2.shape ∧ c3.shape

/-- The point `(x, y)` lies in the bounding box of the given centre and size:
`[cx - width / 2, cx + width / 2] x [cy - height / 2, cy + height / 2]`. -/
def in_box (cx cy width height x y : ℚ) : Prop :=
  cx - width / 2 ≤ x ∧ x ≤ cx + width / 2 ∧ cy - height / 2 ≤ y ∧ y ≤ cy + height / 2

/-- Every object of the tree is stored in a node whose bounding box contains the position
of the object. -/
def QuadTreeNode.contained : QuadTreeNode → Prop
  | QuadTreeNode.null => True
  | QuadTreeNode.node objects cx cy width height _ c0 c1 c2 c3 =>
    (∀ obj ∈ objects, in_box cx cy width height obj.x obj.y) ∧
    c0.contained ∧ c1.contained ∧ c2.contained ∧ c3.contained

/-- Five entries, one in each quadrant of the box of centre `(0, 0)` and size `8 x 8` and a
second one in the first quadrant. -/
def five_objects : List QuadTreeObject :=
  [{ objptr := 1, x := 1, y := 1 }, { objptr := 2, x := -1, y := 1 },
   { objptr := 3, x := -1, y := -1 }, { objptr := 4, x := 1, y := -1 },
   { objptr := 5, x := 3, y := 3 }]

/-- The tree of `five_objects`: the root has split once. -/
def five_tree : QuadTree :=
  { root := QuadTreeNode.node [] 0 0 8 8 0
      (QuadTreeNode.node [{ objptr := 1, x := 1, y := 1 }, { objptr := 5, x := 3, y := 3 }]
        2 2 4 4 1 QuadTreeNode.null QuadTreeNode.null QuadTreeNode.null QuadTreeNode.null)
      (QuadTreeNode.node [{ objptr := 2, x := -1, y := 1 }]
        (-2) 2 4 4 1 QuadTreeNode.null QuadTreeNode.null QuadTreeNode.null QuadTreeNode.null)
      (QuadTreeNode.node [{ objptr := 3, x := -1, y := -1 }]
        (-2) (-2) 4 4 1 QuadTreeNode.null QuadTreeNode.null QuadTreeNode.null QuadTreeNode.null)
      (QuadTreeNode.node [{ objptr := 4, x := 1, y := -1 }]
        2 (-2) 4 4 1 QuadTreeNode.null QuadTreeNode.null QuadTreeNode.null QuadTreeNode.null) }

/-- Five entries inside the box of centre `(0, 0)` and size `8 x 8`, the last of which lies
on the vertical centre line of the box, above the centre. -/
def centre_line_objects : List QuadTreeObject :=
  [{ objptr := 1, x := 1, y := 1 }, { objptr := 2, x := -1, y := 1 },
   { objptr := 3, x := -1, y := -1 }, { objptr := 4, x := 1, y := -1 },
   { objptr := 5, x := 0, y := 1 }]

/-- The tree of `centre_line_objects`. -/
def centre_line_tree : QuadTree :=
  { root := QuadTreeNode.node [] 0 0 8 8 0
      (QuadTreeNode.node [{ objptr := 1, x := 1, y := 1 }]
        2 2 4 4 1 QuadTreeNode.null QuadTreeNode.null QuadTreeNode.null QuadTreeNode.null)
      (QuadTreeNode.node [{ objptr := 2, x := -1, y := 1 }]
        (-2) 2 4 4 1 QuadTreeNode.null QuadTreeNode.null QuadTreeNode.null QuadTreeNode.null)
      (QuadTreeNode.node [{ objptr := 3, x := -1, y := -1 }]
        (-2) (-2) 4 4 1 QuadTreeNode.null QuadTreeNode.null QuadTreeNode.null QuadTreeNode.null)
      (QuadTreeNode.node [{ objptr := 4, x := 1, y := -1 }, { objptr := 5, x := 0, y := 1 }]
        2 (-2) 4 4 1 QuadTreeNode.null QuadTreeNode.null QuadTreeNode.null QuadTreeNode.null) }

/-- Four entries on the vertical centre line of the box of centre `(0, 0)` and size
`16 x 16`, above the centre. -/
def line_objects : List QuadTreeObject :=
  [{ objptr := 1, x := 0, y := 1 }, { objptr := 2, x := 0, y := 2 },
   { objptr := 3, x := 0, y := 3 }, { objptr := 4, x := 0, y := 4 }]

/-- The tree of `line_objects`: a root without children that holds the four entries. -/
def line_tree : QuadTree :=
  { root := QuadTreeNode.node line_objects 0 0 16 16 0
      QuadTreeNode.null QuadTreeNode.null QuadTreeNode.null QuadTreeNode.null }

/-- A fifth entry on the same line. -/
def line_fifth : QuadTreeObject := { objptr := 5, x := 0, y := 5 }

end Quadtree

namespace Settings

/-! ## `core/settings.cpp`

`Settings::root` is a `boost::property_tree::ptree` read from the settings file. Boost is
not among the sources: the tree is given here by what `root.get<std::string>(keyword)`
does, which returns the string stored under the path `keyword`, and throws
`ptree_bad_path` when the tree has no such path (`none`). A `std::string` is given by
the list of its characters. -/

/-- The tree `Settings::root`, as the outcome of `root.get<std::string>(keyword)`. -/
structure ptree where
  get : String → Option String

/-- The comparison of `std::char_traits<char>` on the common prefix of two strings followed
by the comparison of the lengths, which is what `std::string::compare` computes: negative
when the first string comes first, zero when the strings are equal, positive otherwise.
The standard fixes the sign of the result only; `-1` and `1` stand for the negative and
the positive results. -/
def compare_chars : List Char → List Char → Int
  | [], [] => 0
  | [], _ :: _ => -1
  | _ :: _, [] => 1
  | a :: s, b :: t =>
    if a.toNat < b.toNat then -1 else if b.toNat < a.toNat then 1 else compare_chars s t

/-- The call `s.compare(t)` of `std::string`. -/
def compare (s t : String) : Int := compare_chars s.toList t.toList

/-- The function `Settings::get_boolean_from_keyword`: the result of `compare` is an `int`,
converted to the return type `bool` (any value but zero is `true`). `none` when
`root.get` throws. -/
def get_boolean_from_keyword (root : ptree) (keyword : String) : Option Bool :=
  match root.get keyword with
  | none => none
  | some value => some (decide (compare value "true" ≠ 0))

/-- The condition of `Display::Display` (line 52 of `core/display.cpp`). -/
def full_screen_keyword : String := "settings.screen.full_screen"

/-- A settings tree that holds the single entry `settings.screen.full_screen` with the
given value. -/
def screen_settings (value : String) : ptree :=
  { get := fun keyword => if keyword = full_screen_keyword then some value else none }

end Settings

namespace FontWriter

/-! ## Machine arithmetic -/

theorem u32_of_lt {n : Nat} (h : n < 2 ^ 32) : u32 n = n := Nat.mod_eq_of_lt h

theorem u32_sub_add_left (c j : Nat) (h : c + j < 2 ^ 32) : u32_sub (c + j) c = j := by
  unfold u32_sub
  have hc : c % 2 ^ 32 = c := Nat.mod_eq_of_lt (by omega)
  rw [hc]
  omega

theorem u32_of_int_of_u32 (n : Nat) : u32_of_int (int_of_u32 n) = n % 2 ^ 32 := by
  unfold u32_of_int int_of_u32
  have h : n % 2 ^ 32 < 2 ^ 32 := Nat.mod_lt _ (by norm_num)
  split <;> omega

theorem padded_of_int (n : Nat) :
    u32 (u32_of_int (int_of_u32 n) + 2 * font_padding) = padded n := by
  rw [u32_of_int_of_u32]
  unfold padded u32
  omega

theorem char_codes_eq (cstart ccount : Nat) (h : cstart + ccount < 2 ^ 32) :
    char_codes cstart ccount = (List.range ccount).map (fun j => cstart + j) := by
  unfold char_codes
  rw [u32_of_lt h, Nat.add_sub_cancel_left, List.range'_eq_map_range]

/-! ## Vectors -/

theorem getD_set_self {α : Type} (l : List α) (k : Nat) (x d : α) (h : k < l.length) :
    (l.set k x).getD k d = x := by
  simp [List.getD_eq_getElem?_getD, List.getElem?_set, h]

theorem getD_set_other {α : Type} (l : List α) (k j : Nat) (x d : α) (h : k ≠ j) :
    (l.set k x).getD j d = l.getD j d := by
  simp [List.getD_eq_getElem?_getD, List.getElem?_set, h]

theorem getD_append_left {α : Type} (l l2 : List α) (j : Nat) (d : α) (h : j < l.length) :
    (l ++ l2).getD j d = l.getD j d := by
  simp [List.getD_eq_getElem?_getD, List.getElem?_append_left h]

theorem getD_append_length {α : Type} (l : List α) (x d : α) :
    (l ++ [x]).getD l.length d = x := by
  simp [List.getD_eq_getElem?_getD]

/-! ## The first loop -/

theorem collect_step_size (ft : Nat → FT_GlyphSlot) (cstart cw : Nat) (s : CollectState)
    (i : Nat) :
    (collect_step ft cstart cw s i).size =
      size_step cw s.size ((ft i).bitmap.width, (ft i).bitmap.rows) := by
  simp only [collect_step, size_step, CollectState.size, padded]
  split <;> rfl

theorem collect_fold_size (ft : Nat → FT_GlyphSlot) (cstart cw : Nat) (is : List Nat)
    (s : CollectState) :
    (is.foldl (collect_step ft cstart cw) s).size =
      (is.map (fun i => ((ft i).bitmap.width, (ft i).bitmap.rows))).foldl (size_step cw)
        s.size := by
  induction is generalizing s with
  | nil => rfl
  | cons i is ih => simp only [List.foldl_cons, List.map_cons]; rw [ih, collect_step_size]

theorem collect_step_length (ft : Nat → FT_GlyphSlot) (cstart cw : Nat) (s : CollectState)
    (i : Nat) : (collect_step ft cstart cw s i).glyphs.length = s.glyphs.length := by
  simp only [collect_step]
  split <;> simp

theorem collect_step_other (ft : Nat → FT_GlyphSlot) (cstart cw : Nat) (s : CollectState)
    (i j : Nat) (h : u32_sub i cstart ≠ j) :
    (collect_step ft cstart cw s i).glyphs.getD j Glyph.zero = s.glyphs.getD j Glyph.zero := by
  simp only [collect_step]
  split <;> exact getD_set_other _ _ _ _ _ h

theorem collect_step_self (ft : Nat → FT_GlyphSlot) (cstart cw : Nat) (s : CollectState)
    (i : Nat) (h : u32_sub i cstart < s.glyphs.length) :
    ((collect_step ft cstart cw s i).glyphs.getD (u32_sub i cstart) Glyph.zero).dims =
      (int_of_u32 (ft i).bitmap.width, int_of_u32 (ft i).bitmap.rows) := by
  simp only [collect_step]
  split <;> rw [getD_set_self _ _ _ _ h] <;> rfl

theorem collect_fold_dims (ft : Nat → FT_GlyphSlot) (cstart cw : Nat) (s0 : CollectState)
    (m : Nat) (hm : m ≤ s0.glyphs.length) (hc : cstart + m ≤ 2 ^ 32) :
    (((List.range m).map (fun j => cstart + j)).foldl (collect_step ft cstart cw) s0).glyphs.length
        = s0.glyphs.length ∧
    ∀ j, j < m →
      ((((List.range m).map (fun j => cstart + j)).foldl
          (collect_step ft cstart cw) s0).glyphs.getD j Glyph.zero).dims =
        (int_of_u32 (ft (cstart + j)).bitmap.width, int_of_u32 (ft (cstart + j)).bitmap.rows) := by
  induction m with
  | zero => simp
  | succ m ih =>
    obtain ⟨hlen, hd⟩ := ih (by omega) (by omega)
    rw [List.range_succ, List.map_append, List.foldl_append]
    simp only [List.map_cons, List.map_nil, List.foldl_cons, List.foldl_nil]
    have hidx : u32_sub (cstart + m) cstart = m := u32_sub_add_left _ _ (by omega)
    refine ⟨by rw [collect_step_length, hlen], fun j hj => ?_⟩
    by_cases hjm : j = m
    · subst hjm
      have := collect_step_self ft cstart cw
        (((List.range j).map (fun j => cstart + j)).foldl (collect_step ft cstart cw) s0)
        (cstart + j) (by rw [hidx, hlen]; omega)
      rw [hidx] at this
      exact this
    · rw [collect_step_other _ _ _ _ _ _ (by rw [hidx]; omega)]
      exact hd j (by omega)

/-! ## The texture-coordinate loops -/

theorem build_step_layout (bm : List (List Bool)) (cstart cw W H : Nat) (s t : PlaceState)
    (i : Nat) (h : s.layout = t.layout) :
    (build_step bm cstart cw W H s i).layout = (cached_step cstart cw W H t i).layout := by
  simp only [PlaceState.layout, Prod.mk.injEq] at h
  obtain ⟨h1, h2, h3, h4, h5, h6⟩ := h
  simp only [build_step, cached_step, h1, h2, h3, h4, h5, h6]
  split <;> rfl

theorem build_fold_layout (bm : List (List Bool)) (cstart cw W H : Nat) (is : List Nat)
    (s t : PlaceState) (h : s.layout = t.layout) :
    (is.foldl (build_step bm cstart cw W H) s).layout =
      (is.foldl (cached_step cstart cw W H) t).layout := by
  induction is generalizing s t with
  | nil => exact h
  | cons i is ih =>
    simp only [List.foldl_cons]
    exact ih _ _ (build_step_layout bm cstart cw W H s t i h)

theorem cached_step_length (cstart cw W H : Nat) (s : PlaceState) (i : Nat) :
    (cached_step cstart cw W H s i).glyphs.length = s.glyphs.length := by
  simp only [cached_step]
  split <;> simp

theorem cached_step_dims (cstart cw W H : Nat) (s : PlaceState) (i k : Nat) :
    ((cached_step cstart cw W H s i).glyphs.getD k Glyph.zero).dims =
      (s.glyphs.getD k Glyph.zero).dims := by
  have key : ((s.glyphs.set (u32_sub i cstart)
      (with_tex (s.glyphs.getD (u32_sub i cstart) Glyph.zero) s.gx s.gy
        (u32 (u32_of_int (s.glyphs.getD (u32_sub i cstart) Glyph.zero).width + 2 * font_padding))
        (u32 (u32_of_int (s.glyphs.getD (u32_sub i cstart) Glyph.zero).height + 2 * font_padding))
        W H)).getD k Glyph.zero).dims = (s.glyphs.getD k Glyph.zero).dims := by
    by_cases hk : u32_sub i cstart = k
    · subst hk
      by_cases hlt : u32_sub i cstart < s.glyphs.length
      · rw [getD_set_self _ _ _ _ hlt]; rfl
      · rw [List.set_eq_of_length_le (by omega)]
    · rw [getD_set_other _ _ _ _ _ hk]
  simp only [cached_step]
  split <;> exact key

theorem cached_fold_cells (cstart cw W H : Nat) (D : Nat → Nat × Nat) (is : List Nat)
    (s : PlaceState)
    (h : ∀ i ∈ is, (s.glyphs.getD (u32_sub i cstart) Glyph.zero).dims =
      (int_of_u32 (D i).1, int_of_u32 (D i).2)) :
    (is.foldl (cached_step cstart cw W H) s).cells =
      s.cells ++ cells_from cw (is.map D) s.gx s.gy s.temp_y s.counter := by
  induction is generalizing s with
  | nil => simp [cells_from]
  | cons i is ih =>
    simp only [List.foldl_cons, List.map_cons]
    rw [ih]
    · have hi := h i (List.mem_cons_self _ _)
      simp only [Glyph.dims, Prod.mk.injEq] at hi
      simp only [cached_step, cells_from, hi.1, hi.2, padded_of_int]
      split <;> simp
    · intro i2 hi2
      rw [cached_step_dims]
      exact h i2 (List.mem_cons_of_mem _ hi2)

theorem cached_fold_tex (cstart cw W H : Nat) (s0 : PlaceState) (m : Nat)
    (hm : m ≤ s0.glyphs.length) (hc : cstart + m ≤ 2 ^ 32) (h0 : s0.cells = []) :
    (((List.range m).map (fun j => cstart + j)).foldl
        (cached_step cstart cw W H) s0).glyphs.length = s0.glyphs.length ∧
    (((List.range m).map (fun j => cstart + j)).foldl
        (cached_step cstart cw W H) s0).cells.length = m ∧
    ∀ j, j < m →
      ((((List.range m).map (fun j => cstart + j)).foldl
          (cached_step cstart cw W H) s0).glyphs.getD j Glyph.zero).tex =
        ((((List.range m).map (fun j => cstart + j)).foldl
          (cached_step cstart cw W H) s0).cells.getD j Cell.zero).tex W H := by
  induction m with
  | zero => simp [h0]
  | succ m ih =>
    obtain ⟨hlen, hcl, hd⟩ := ih (by omega) (by omega)
    rw [List.range_succ, List.map_append, List.foldl_append]
    simp only [List.map_cons, List.map_nil, List.foldl_cons, List.foldl_nil]
    have hidx : u32_sub (cstart + m) cstart = m := u32_sub_add_left _ _ (by omega)
    generalize ((List.range m).map (fun j => cstart + j)).foldl
      (cached_step cstart cw W H) s0 = r at hlen hcl hd
    have hg : (cached_step cstart cw W H r (cstart + m)).glyphs =
        r.glyphs.set m (with_tex (r.glyphs.getD m Glyph.zero) r.gx r.gy
          (u32 (u32_of_int (r.glyphs.getD m Glyph.zero).width + 2 * font_padding))
          (u32 (u32_of_int (r.glyphs.getD m Glyph.zero).height + 2 * font_padding)) W H) := by
      simp only [cached_step, hidx]
      split <;> rfl
    have hcells : (cached_step cstart cw W H r (cstart + m)).cells =
        r.cells ++ [Cell.mk r.gx r.gy
          (u32 (u32_of_int (r.glyphs.getD m Glyph.zero).width + 2 * font_padding))
          (u32 (u32_of_int (r.glyphs.getD m Glyph.zero).height + 2 * font_padding))] := by
      simp only [cached_step, hidx]
      split <;> rfl
    refine ⟨by rw [cached_step_length, hlen], by rw [hcells]; simp [hcl], fun j hj => ?_⟩
    rw [hg, hcells]
    by_cases hjm : j = m
    · subst hjm
      rw [getD_set_self _ _ _ _ (by omega)]
      have := getD_append_length r.cells
        (Cell.mk r.gx r.gy
          (u32 (u32_of_int (r.glyphs.getD j Glyph.zero).width + 2 * font_padding))
          (u32 (u32_of_int (r.glyphs.getD j Glyph.zero).height + 2 * font_padding)))
        Cell.zero
      rw [hcl] at this
      rw [this]
      rfl
    · rw [getD_set_other _ _ _ _ _ (by omega), getD_append_left _ _ _ _ (by omega)]
      exact hd j (by omega)

/-! ## `generate_character_map` computes the layout -/

theorem codes_map_dims (a : CharacterAtlas) (ft : Nat → FT_GlyphSlot) :
    ((List.range a.ccount).map (fun j => a.cstart + j)).map
      (fun i => ((ft i).bitmap.width, (ft i).bitmap.rows)) = glyph_dims a ft := by
  simp [glyph_dims, List.map_map, Function.comp_def]

theorem cached_fold_layout (a : CharacterAtlas) (ft : Nat → FT_GlyphSlot) (cw W H : Nat)
    (s0 : PlaceState) (hlen : s0.glyphs.length = a.ccount) (hc : a.cstart + a.ccount < 2 ^ 32)
    (hd : ∀ j, j < a.ccount → (s0.glyphs.getD j Glyph.zero).dims =
      (int_of_u32 (ft (a.cstart + j)).bitmap.width, int_of_u32 (ft (a.cstart + j)).bitmap.rows))
    (hcells : s0.cells = []) (hgx : s0.gx = 0) (hgy : s0.gy = 0) (hty : s0.temp_y = 0)
    (hcnt : s0.counter = 0) :
    (((List.range a.ccount).map (fun j => a.cstart + j)).foldl
        (cached_step a.cstart cw W H) s0).cells = atlas_cells cw (glyph_dims a ft) ∧
    (((List.range a.ccount).map (fun j => a.cstart + j)).foldl
        (cached_step a.cstart cw W H) s0).glyphs.length = a.ccount ∧
    ∀ j, j < a.ccount →
      ((((List.range a.ccount).map (fun j => a.cstart + j)).foldl
        (cached_step a.cstart cw W H) s0).glyphs.getD j Glyph.zero).tex =
      ((atlas_cells cw (glyph_dims a ft)).getD j Cell.zero).tex W H := by
  have hcellsEq := cached_fold_cells a.cstart cw W H
    (fun i => ((ft i).bitmap.width, (ft i).bitmap.rows))
    ((List.range a.ccount).map (fun j => a.cstart + j)) s0 (by
      intro i hi
      simp only [List.mem_map, List.mem_range] at hi
      obtain ⟨j, hj, rfl⟩ := hi
      rw [u32_sub_add_left _ _ (by omega)]
      exact hd j hj)
  rw [codes_map_dims, hcells, hgx, hgy, hty, hcnt, List.nil_append] at hcellsEq
  obtain ⟨h1, _, h3⟩ := cached_fold_tex a.cstart cw W H s0 a.ccount (by omega) (by omega) hcells
  refine ⟨hcellsEq, by rw [h1, hlen], fun j hj => ?_⟩
  rw [h3 j hj, hcellsEq]
  rfl

/-- The function `generate_character_map` returns, for a non-empty character range without
wrap-around of `cstart + ccount` and a cache image that is absent or passes the two format
checks, and what it returns is the layout of the glyph dimensions: `img_width`,
`img_height` are `atlas_size`, the cells are `atlas_cells`, and glyph `j` carries the
texture coordinates of cell `j`. -/
theorem generate_layout (a : CharacterAtlas) (ft : Nat → FT_GlyphSlot)
    (cache : Option PngImage) (hlen : a.glyphs.length = a.ccount)
    (hc : a.cstart + a.ccount < 2 ^ 32) (hn : 1 ≤ a.ccount)
    (hcache : ∀ png, cache = some png → png.col = 0 ∧ png.bit_depth = 8) :
    ∃ r, generate_character_map a ft cache = Except.ok r ∧
      r.img_width = (atlas_size (Nat.sqrt a.ccount) (glyph_dims a ft)).1 ∧
      r.img_height = (atlas_size (Nat.sqrt a.ccount) (glyph_dims a ft)).2 ∧
      r.cells = atlas_cells (Nat.sqrt a.ccount) (glyph_dims a ft) ∧
      r.atlas.glyphs.length = a.ccount ∧
      ∀ j, j < a.ccount →
        (r.atlas.glyphs.getD j Glyph.zero).tex =
          ((atlas_cells (Nat.sqrt a.ccount) (glyph_dims a ft)).getD j Cell.zero).tex
            r.img_width r.img_height := by
  have hcw : Nat.sqrt a.ccount ≠ 0 := by
    have := Nat.sqrt_pos.mpr hn
    omega
  obtain ⟨hl1, hd1⟩ := collect_fold_dims ft a.cstart (Nat.sqrt a.ccount)
    { glyphs := a.glyphs, char_bitmaps := List.replicate a.ccount [],
      img_width := 0, img_height := 0, temp_x := 0, temp_y := 0, counter := 0 }
    a.ccount (by simp [hlen]) (by omega)
  have hsz := collect_fold_size ft a.cstart (Nat.sqrt a.ccount)
    ((List.range a.ccount).map (fun j => a.cstart + j))
    { glyphs := a.glyphs, char_bitmaps := List.replicate a.ccount [],
      img_width := 0, img_height := 0, temp_x := 0, temp_y := 0, counter := 0 }
  rw [codes_map_dims] at hsz
  simp only [CollectState.size] at hsz
  simp only at hl1
  unfold generate_character_map
  simp only [hcw, if_false, char_codes_eq _ _ hc]
  generalize ((List.range a.ccount).map (fun j => a.cstart + j)).foldl
    (collect_step ft a.cstart (Nat.sqrt a.ccount))
    { glyphs := a.glyphs, char_bitmaps := List.replicate a.ccount [],
      img_width := 0, img_height := 0, temp_x := 0, temp_y := 0, counter := 0 } = s1
    at hl1 hd1 hsz
  have hW : s1.img_width = (atlas_size (Nat.sqrt a.ccount) (glyph_dims a ft)).1 := by
    simp only [atlas_size, ← hsz]
  have hH : (if s1.counter % Nat.sqrt a.ccount ≠ 0 then u32 (s1.img_height + s1.temp_y)
      else s1.img_height) = (atlas_size (Nat.sqrt a.ccount) (glyph_dims a ft)).2 := by
    simp only [atlas_size, ← hsz]
  cases cache with
  | some png =>
    obtain ⟨hcol, hbd⟩ := hcache png rfl
    simp only [hcol, hbd, ne_eq, not_true_eq_false, if_false]
    obtain ⟨k1, k2, k3⟩ := cached_fold_layout a ft (Nat.sqrt a.ccount) s1.img_width
      (if s1.counter % Nat.sqrt a.ccount ≠ 0 then u32 (s1.img_height + s1.temp_y)
        else s1.img_height)
      { glyphs := s1.glyphs, expanded_data := png.data,
        gx := 0, gy := 0, temp_y := 0, counter := 0, cells := [] }
      (by rw [hl1, hlen]) hc hd1 rfl rfl rfl rfl rfl
    exact ⟨_, rfl, hW, hH, k1, k2, k3⟩
  | none =>
    simp only
    have hlay := build_fold_layout s1.char_bitmaps a.cstart (Nat.sqrt a.ccount) s1.img_width
      (if s1.counter % Nat.sqrt a.ccount ≠ 0 then u32 (s1.img_height + s1.temp_y)
        else s1.img_height)
      ((List.range a.ccount).map (fun j => a.cstart + j))
      { glyphs := s1.glyphs,
        expanded_data := resize a.expanded_data
          (u32 (s1.img_width * (if s1.counter % Nat.sqrt a.ccount ≠ 0 then
            u32 (s1.img_height + s1.temp_y) else s1.img_height))) 0,
        gx := 0, gy := 0, temp_y := 0, counter := 0, cells := [] }
      { glyphs := s1.glyphs,
        expanded_data := resize a.expanded_data
          (u32 (s1.img_width * (if s1.counter % Nat.sqrt a.ccount ≠ 0 then
            u32 (s1.img_height + s1.temp_y) else s1.img_height))) 0,
        gx := 0, gy := 0, temp_y := 0, counter := 0, cells := [] } rfl
    simp only [PlaceState.layout, Prod.mk.injEq] at hlay
    obtain ⟨k1, k2, k3⟩ := cached_fold_layout a ft (Nat.sqrt a.ccount) s1.img_width
      (if s1.counter % Nat.sqrt a.ccount ≠ 0 then u32 (s1.img_height + s1.temp_y)
        else s1.img_height)
      { glyphs := s1.glyphs,
        expanded_data := resize a.expanded_data
          (u32 (s1.img_width * (if s1.counter % Nat.sqrt a.ccount ≠ 0 then
            u32 (s1.img_height + s1.temp_y) else s1.img_height))) 0,
        gx := 0, gy := 0, temp_y := 0, counter := 0, cells := [] }
      (by rw [hl1, hlen]) hc hd1 rfl rfl rfl rfl rfl
    refine ⟨_, rfl, hW, hH, ?_, ?_, ?_⟩
    · simp only [hlay.2.2.2.2.2]; exact k1
    · simp only [hlay.1]; exact k2
    · simp only [hlay.1]; exact k3

/-! ## Cells do not overlap -/

theorem cells_from_length (cw : Nat) (ds : List (Nat × Nat)) (gx gy ty cnt : Nat) :
    (cells_from cw ds gx gy ty cnt).length = ds.length := by
  induction ds generalizing gx gy ty cnt with
  | nil => rfl
  | cons d ds ih =>
    simp only [cells_from, List.length_cons]
    split <;> rw [ih]

theorem cells_from_region (cw : Nat) (ds : List (Nat × Nat)) (gx gy ty cnt : Nat)
    (hfit : cells_fit cw ds gx gy ty cnt = true) :
    ∀ c ∈ cells_from cw ds gx gy ty cnt, (c.gy = gy ∧ gx ≤ c.gx) ∨ gy + ty ≤ c.gy := by
  induction ds generalizing gx gy ty cnt with
  | nil => intro c hc; simp [cells_from] at hc
  | cons d ds ih =>
    intro c hc
    simp only [cells_fit, Bool.and_eq_true, decide_eq_true_eq] at hfit
    obtain ⟨⟨⟨⟨⟨_, _⟩, _⟩, hx⟩, _⟩, hrest⟩ := hfit
    simp only [cells_from, List.mem_cons] at hc
    rcases hc with rfl | hc
    · left; exact ⟨rfl, le_refl _⟩
    · by_cases hb : u32 (cnt + 1) % cw = 0
      · simp only [hb, if_true, Bool.and_eq_true, decide_eq_true_eq] at hrest hc
        obtain ⟨hy, hrest⟩ := hrest
        rw [u32_of_lt hy] at hrest hc
        have := ih _ _ _ _ hrest c hc
        right
        have hmax : ty ≤ max ty (padded d.2) := le_max_left _ _
        omega
      · simp only [hb, if_false] at hrest hc
        rw [u32_of_lt hx] at hrest hc
        have := ih _ _ _ _ hrest c hc
        have hmax : ty ≤ max ty (padded d.2) := le_max_left _ _
        rcases this with ⟨h1, h2⟩ | h2
        · left; exact ⟨h1, by omega⟩
        · right; omega

theorem cells_from_pairwise (cw : Nat) (ds : List (Nat × Nat)) (gx gy ty cnt : Nat)
    (hfit : cells_fit cw ds gx gy ty cnt = true) :
    (cells_from cw ds gx gy ty cnt).Pairwise Cell.before := by
  induction ds generalizing gx gy ty cnt with
  | nil => simp [cells_from]
  | cons d ds ih =>
    have hfit0 := hfit
    simp only [cells_fit, Bool.and_eq_true, decide_eq_true_eq] at hfit
    obtain ⟨⟨⟨⟨⟨_, _⟩, _⟩, hx⟩, _⟩, hrest⟩ := hfit
    simp only [cells_from, List.pairwise_cons]
    by_cases hb : u32 (cnt + 1) % cw = 0
    · simp only [hb, if_true, Bool.and_eq_true, decide_eq_true_eq] at hrest ⊢
      obtain ⟨hy, hrest⟩ := hrest
      refine ⟨fun c hc => ?_, ih _ _ _ _ hrest⟩
      have hreg := cells_from_region cw ds _ _ _ _ hrest c hc
      rw [u32_of_lt hy] at hreg
      have hmax : padded d.2 ≤ max ty (padded d.2) := le_max_right _ _
      right
      show gy + padded d.2 ≤ c.gy
      omega
    · simp only [hb, if_false] at hrest ⊢
      refine ⟨fun c hc => ?_, ih _ _ _ _ hrest⟩
      have hreg := cells_from_region cw ds _ _ _ _ hrest c hc
      rw [u32_of_lt hx] at hreg
      have hmax : padded d.2 ≤ max ty (padded d.2) := le_max_right _ _
      rcases hreg with ⟨h1, h2⟩ | h2
      · left; exact ⟨h1.symm, h2⟩
      · right
        show gy + padded d.2 ≤ c.gy
        omega

theorem before_not_covers (c d : Cell) (h : c.before d) (px py : Nat) :
    ¬ (c.covers px py ∧ d.covers px py) := by
  unfold Cell.before at h
  unfold Cell.covers
  omega

theorem cells_from_getD (cw : Nat) (ds : List (Nat × Nat)) (gx gy ty cnt : Nat)
    (hfit : cells_fit cw ds gx gy ty cnt = true) (j : Nat) (hj : j < ds.length) :
    ((cells_from cw ds gx gy ty cnt).getD j Cell.zero).width
        = (ds.getD j (0, 0)).1 + 2 * font_padding ∧
    ((cells_from cw ds gx gy ty cnt).getD j Cell.zero).height
        = (ds.getD j (0, 0)).2 + 2 * font_padding ∧
    ((cells_from cw ds gx gy ty cnt).getD j Cell.zero).gx +
      ((cells_from cw ds gx gy ty cnt).getD j Cell.zero).width < 2 ^ 32 ∧
    ((cells_from cw ds gx gy ty cnt).getD j Cell.zero).gy +
      ((cells_from cw ds gx gy ty cnt).getD j Cell.zero).height < 2 ^ 32 := by
  induction ds generalizing gx gy ty cnt j with
  | nil => simp at hj
  | cons d ds ih =>
    simp only [cells_fit, Bool.and_eq_true, decide_eq_true_eq] at hfit
    obtain ⟨⟨⟨⟨⟨_, hw⟩, hh⟩, hx⟩, hy⟩, hrest⟩ := hfit
    cases j with
    | zero =>
      simp only [cells_from, List.getD_cons_zero]
      refine ⟨u32_of_lt hw, u32_of_lt hh, hx, hy⟩
    | succ j =>
      simp only [cells_from, List.getD_cons_succ]
      simp only [List.length_cons, Nat.add_lt_add_iff_right] at hj
      by_cases hb : u32 (cnt + 1) % cw = 0
      · simp only [hb, if_true, Bool.and_eq_true, decide_eq_true_eq] at hrest ⊢
        exact ih _ _ _ _ hrest.2 j hj
      · simp only [hb, if_false] at hrest ⊢
        exact ih _ _ _ _ hrest j hj

theorem glyph_dims_length (a : CharacterAtlas) (ft : Nat → FT_GlyphSlot) :
    (glyph_dims a ft).length = a.ccount := by
  simp [glyph_dims]

theorem glyph_dims_getD (a : CharacterAtlas) (ft : Nat → FT_GlyphSlot) (j : Nat)
    (hj : j < a.ccount) :
    (glyph_dims a ft).getD j (0, 0) =
      ((ft (a.cstart + j)).bitmap.width, (ft (a.cstart + j)).bitmap.rows) := by
  simp [glyph_dims, List.getD_eq_getElem?_getD, List.getElem?_map, List.getElem?_range hj]

theorem atlas_cells_before (cw : Nat) (ds : List (Nat × Nat))
    (hfit : cells_fit cw ds 0 0 0 0 = true) (i j : Nat) (hij : i < j) (hj : j < ds.length) :
    ((atlas_cells cw ds).getD i Cell.zero).before ((atlas_cells cw ds).getD j Cell.zero) := by
  have hp := cells_from_pairwise cw ds 0 0 0 0 hfit
  rw [List.pairwise_iff_getElem] at hp
  have hlen := cells_from_length cw ds 0 0 0 0
  have hi' : i < (cells_from cw ds 0 0 0 0).length := by omega
  have hj' : j < (cells_from cw ds 0 0 0 0).length := by omega
  have := hp i j hi' hj' hij
  unfold atlas_cells
  rw [List.getD_eq_getElem _ _ hi', List.getD_eq_getElem _ _ hj']
  exact this

theorem before_not_tex_covers (g1 g2 : Glyph) (c1 c2 : Cell) (W H : Nat)
    (h1 : g1.tex = c1.tex W H) (h2 : g2.tex = c2.tex W H)
    (hx : c1.gx + c1.width < 2 ^ 32) (hy : c1.gy + c1.height < 2 ^ 32)
    (hb : c1.before c2) (u v : ℚ) : ¬ (g1.covers u v ∧ g2.covers u v) := by
  simp only [Glyph.tex, Cell.tex, Prod.mk.injEq, u32_of_lt hx, u32_of_lt hy] at h1 h2
  obtain ⟨_, h12, h13, _⟩ := h1
  obtain ⟨h21, _, _, h24⟩ := h2
  rintro ⟨⟨_, hu1, _, hv1⟩, ⟨hu2, _, hv2, _⟩⟩
  rcases hb with ⟨_, hb⟩ | hb
  · have hle : g1.tx2 ≤ g2.tx1 := by
      rw [h12, h21]
      exact div_le_div_of_nonneg_right (by exact_mod_cast hb) (Nat.cast_nonneg _)
    linarith
  · have hle : g1.ty1 ≤ g2.ty2 := by
      rw [h13, h24]
      exact div_le_div_of_nonneg_right (by exact_mod_cast hb) (Nat.cast_nonneg _)
    linarith

/-! ## The last row and the atlas width -/

theorem sqrt_five : Nat.sqrt 5 = 2 := by norm_num [Nat.sqrt, Nat.sqrt.iter]

theorem wide_last_dims :
    glyph_dims (CharacterAtlas.init 14 65 5) wide_last_ft =
      [(1, 1), (1, 1), (1, 1), (1, 1), (100, 1)] := by
  decide

/-- C2 at the range of five characters `65 .. 69` (two columns) with four glyphs of
width 1 and a last glyph of width 100: `generate_character_map` ends with
`img_width = 50`, the width of the two full rows, although the third row, which holds the
last glyph alone, is `124` wide; `img_width` is not the largest row width. -/
theorem img_width_misses_last_row :
    ∃ r, generate_character_map (CharacterAtlas.init 14 65 5) wide_last_ft none = Except.ok r ∧
      r.img_width = 50 ∧
      spec_atlas_width (Nat.sqrt 5)
        (glyph_dims (CharacterAtlas.init 14 65 5) wide_last_ft) = 124 := by
  obtain ⟨r, hr, hW, _⟩ := generate_layout (CharacterAtlas.init 14 65 5) wide_last_ft none
    (by decide) (by decide) (by decide) (by intro png h; cases h)
  refine ⟨r, hr, ?_, ?_⟩
  · rw [hW, wide_last_dims]
    simp only [CharacterAtlas.init, sqrt_five]
    decide
  · rw [wide_last_dims, sqrt_five]
    decide

/-- C3 at the same input: the glyph of character 69 is stored with
`tx2 = 124 / 50`, which is greater than 1. -/
theorem tex_exceeds_one :
    ∃ r, generate_character_map (CharacterAtlas.init 14 65 5) wide_last_ft none = Except.ok r ∧
      (r.atlas.glyphs.getD 4 Glyph.zero).tx2 = 124 / 50 ∧
      1 < (r.atlas.glyphs.getD 4 Glyph.zero).tx2 := by
  obtain ⟨r, hr, hW, _, _, _, htex⟩ := generate_layout (CharacterAtlas.init 14 65 5)
    wide_last_ft none (by decide) (by decide) (by decide) (by intro png h; cases h)
  have h4 := htex 4 (by decide)
  rw [hW, wide_last_dims] at h4
  simp only [CharacterAtlas.init, sqrt_five] at h4
  have hcell : (atlas_cells 2 [(1, 1), (1, 1), (1, 1), (1, 1), (100, 1)]).getD 4 Cell.zero =
      { gx := 0, gy := 50, width := 124, height := 25 } := by decide
  have hsize : (atlas_size 2 [(1, 1), (1, 1), (1, 1), (1, 1), (100, 1)]).1 = 50 := by decide
  rw [hcell, hsize] at h4
  simp only [Glyph.tex, Cell.tex, Prod.mk.injEq] at h4
  have h2 : (r.atlas.glyphs.getD 4 Glyph.zero).tx2 = 124 / 50 := by
    rw [h4.2.1]
    have : u32 (0 + 124) = 124 := by decide
    rw [this]
    norm_num
  exact ⟨r, hr, h2, by rw [h2]; norm_num⟩

theorem no_overflow_wide_last : no_overflow (CharacterAtlas.init 14 65 5) wide_last_ft = true := by
  unfold no_overflow
  rw [wide_last_dims]
  simp only [CharacterAtlas.init, sqrt_five]
  decide

theorem narrow_five_dims :
    glyph_dims (CharacterAtlas.init 14 60 5) wide_last_ft =
      [(1, 1), (1, 1), (1, 1), (1, 1), (1, 1)] := by
  decide

theorem no_overflow_narrow_five :
    no_overflow (CharacterAtlas.init 14 60 5) wide_last_ft = true := by
  unfold no_overflow
  rw [narrow_five_dims]
  simp only [CharacterAtlas.init, sqrt_five]
  decide

/-- The five characters `60 .. 64` of `wide_last_ft` have bitmaps of one pixel: the layout
has the rows of widths 50, 50 and 25 and the image is 50 by 75 pixels. -/
theorem image_fits_narrow_five :
    image_fits (CharacterAtlas.init 14 60 5) wide_last_ft = true := by
  unfold image_fits
  rw [no_overflow_narrow_five, narrow_five_dims]
  simp only [CharacterAtlas.init, sqrt_five]
  decide

theorem shifted_five_dims :
    glyph_dims (CharacterAtlas.init 20 92 5) shifted_ft =
      [(1, 1), (1, 1), (1, 1), (1, 1), (1, 1)] := by
  decide

theorem no_overflow_shifted_five :
    no_overflow (CharacterAtlas.init 20 92 5) shifted_ft = true := by
  unfold no_overflow
  rw [shifted_five_dims]
  simp only [CharacterAtlas.init, sqrt_five]
  decide

theorem image_fits_shifted_five :
    image_fits (CharacterAtlas.init 20 92 5) shifted_ft = true := by
  unfold image_fits
  rw [no_overflow_shifted_five, shifted_five_dims]
  simp only [CharacterAtlas.init, sqrt_five]
  decide

/-! ## Both branches store the same texture coordinates -/

theorem list_eq_of_getD {α : Type} (l1 l2 : List α) (d : α) (n : Nat) (h1 : l1.length = n)
    (h2 : l2.length = n) (h : ∀ j, j < n → l1.getD j d = l2.getD j d) : l1 = l2 := by
  apply List.ext_getElem (by rw [h1, h2])
  intro j hj1 hj2
  have := h j (by omega)
  rw [List.getD_eq_getElem _ _ hj1, List.getD_eq_getElem _ _ hj2] at this
  exact this

theorem generate_tex (a : CharacterAtlas) (ft : Nat → FT_GlyphSlot)
    (cache : Option PngImage) (hlen : a.glyphs.length = a.ccount)
    (hc : a.cstart + a.ccount < 2 ^ 32) (hn : 1 ≤ a.ccount)
    (hcache : ∀ png, cache = some png → png.col = 0 ∧ png.bit_depth = 8) :
    ∃ r, generate_character_map a ft cache = Except.ok r ∧
      r.atlas.glyphs.map Glyph.tex = layout_tex a.ccount (glyph_dims a ft) := by
  obtain ⟨r, hr, hW, hH, _, hl, htex⟩ := generate_layout a ft cache hlen hc hn hcache
  refine ⟨r, hr, ?_⟩
  have hcl : (atlas_cells (Nat.sqrt a.ccount) (glyph_dims a ft)).length = a.ccount := by
    rw [atlas_cells, cells_from_length, glyph_dims_length]
  apply list_eq_of_getD _ _ (Glyph.zero.tex) a.ccount (by simp [hl])
    (by simp [layout_tex, hcl])
  intro j hj
  have e1 : (r.atlas.glyphs.map Glyph.tex).getD j Glyph.zero.tex =
      (r.atlas.glyphs.getD j Glyph.zero).tex := by
    simp [List.getD_eq_getElem?_getD, List.getElem?_map, List.getElem?_eq_getElem (hl ▸ hj)]
  have e2 : (layout_tex a.ccount (glyph_dims a ft)).getD j Glyph.zero.tex =
      ((atlas_cells (Nat.sqrt a.ccount) (glyph_dims a ft)).getD j Cell.zero).tex
        (atlas_size (Nat.sqrt a.ccount) (glyph_dims a ft)).1
        (atlas_size (Nat.sqrt a.ccount) (glyph_dims a ft)).2 := by
    simp [layout_tex, List.getD_eq_getElem?_getD, List.getElem?_map,
      List.getElem?_eq_getElem (hcl ▸ hj)]
  rw [e1, e2, htex j hj, hW, hH]

/-! ## The distance field: which entry holds which value -/

theorem set_at_nat {α : Type} (v : List α) (n : Nat) (x : α) :
    set_at v (n : Int) x = v.set n x := by
  simp [set_at]

theorem row_fold_getD {α : Type} (g : Nat → α) (base : Nat) (d : α) (m : Nat) (v : List α)
    (hv : base + m ≤ v.length) :
    ((List.range m).foldl (fun (w : List α) (l : Nat) => w.set (l + base) (g l)) v).length
        = v.length ∧
    (∀ l, l < m →
      ((List.range m).foldl (fun (w : List α) (l : Nat) => w.set (l + base) (g l)) v).getD
        (l + base) d = g l) ∧
    (∀ idx, idx < base ∨ base + m ≤ idx →
      ((List.range m).foldl (fun (w : List α) (l : Nat) => w.set (l + base) (g l)) v).getD
        idx d = v.getD idx d) := by
  induction m with
  | zero => simp
  | succ m ih =>
    obtain ⟨h1, h2, h3⟩ := ih (by omega)
    rw [List.range_succ, List.foldl_append]
    simp only [List.foldl_cons, List.foldl_nil]
    refine ⟨by rw [List.length_set, h1], fun l hl => ?_, fun idx hidx => ?_⟩
    · by_cases hlm : l = m
      · subst hlm
        exact getD_set_self _ _ _ _ (by rw [h1]; omega)
      · rw [getD_set_other _ _ _ _ _ (by omega)]
        exact h2 l (by omega)
    · rw [getD_set_other _ _ _ _ _ (by omega)]
      exact h3 idx (by omega)

theorem grid_fold_getD {α : Type} (f : Nat → Nat → α) (W : Nat) (d : α) (H : Nat)
    (v : List α) (hv : W * H ≤ v.length) :
    ((List.range H).foldl (fun (w : List α) (k : Nat) =>
      (List.range W).foldl (fun (w : List α) (l : Nat) => w.set (l + k * W) (f l k)) w) v).length
        = v.length ∧
    (∀ l k, l < W → k < H →
      ((List.range H).foldl (fun (w : List α) (k : Nat) =>
        (List.range W).foldl (fun (w : List α) (l : Nat) => w.set (l + k * W) (f l k)) w) v).getD
          (l + k * W) d = f l k) ∧
    (∀ idx, W * H ≤ idx →
      ((List.range H).foldl (fun (w : List α) (k : Nat) =>
        (List.range W).foldl (fun (w : List α) (l : Nat) => w.set (l + k * W) (f l k)) w) v).getD
          idx d = v.getD idx d) := by
  induction H with
  | zero => simp
  | succ H ih =>
    have hmul : W * (H + 1) = W * H + W := by ring
    have hHW : H * W = W * H := Nat.mul_comm _ _
    obtain ⟨h1, h2, h3⟩ := ih (by omega)
    rw [List.range_succ, List.foldl_append]
    simp only [List.foldl_cons, List.foldl_nil]
    obtain ⟨r1, r2, r3⟩ := row_fold_getD (fun l => f l H) (H * W) d W
      ((List.range H).foldl (fun (w : List α) (k : Nat) =>
        (List.range W).foldl (fun (w : List α) (l : Nat) => w.set (l + k * W) (f l k)) w) v)
      (by rw [h1]; omega)
    refine ⟨by rw [r1, h1], fun l k hl hk => ?_, fun idx hidx => ?_⟩
    · by_cases hkH : k = H
      · subst hkH
        exact r2 l hl
      · have hk' : k < H := by omega
        have hlt : l + k * W < H * W := by
          have : (k + 1) * W ≤ H * W := Nat.mul_le_mul_right W (by omega)
          have e : (k + 1) * W = k * W + W := by ring
          omega
        rw [r3 _ (Or.inl hlt)]
        exact h2 l k hl hk'
    · rw [r3 _ (Or.inr (by omega))]
      exact h3 idx (by omega)

theorem calculate_distance_field_getD (df : List Nat) (data : List Bool) (W H : Nat)
    (hdf : W * H ≤ df.length) (l k : Nat) (hl : l < W) (hk : k < H) :
    (calculate_distance_field df data (W : Int) (H : Int)).getD (l + k * W) 0 =
      sdf_byte (data.getD (l + W * k) false)
        (min_dist_sq data (W : Int) (H : Int) (l : Int) (k : Int)) := by
  have key := (grid_fold_getD
    (fun l k => sdf_byte (data.getD (l + W * k) false)
      (min_dist_sq data (W : Int) (H : Int) (l : Int) (k : Int))) W 0 H df hdf).2.1 l k hl hk
  have conv : calculate_distance_field df data (W : Int) (H : Int) =
      (List.range H).foldl (fun (w : List Nat) (k : Nat) =>
        (List.range W).foldl (fun (w : List Nat) (l : Nat) => w.set (l + k * W)
          (sdf_byte (data.getD (l + W * k) false)
            (min_dist_sq data (W : Int) (H : Int) (l : Int) (k : Int)))) w) df := by
    unfold calculate_distance_field
    simp only [Int.toNat_ofNat]
    refine congrArg (fun f => List.foldl f df (List.range H)) ?_
    funext w k
    refine congrArg (fun f => List.foldl f w (List.range W)) ?_
    funext w l
    have e1 : (l : Int) + (k : Int) * (W : Int) = ((l + k * W : Nat) : Int) := by push_cast; ring
    have e2 : ((l : Int) + (W : Int) * (k : Int)).toNat = l + W * k := by
      have : (l : Int) + (W : Int) * (k : Int) = ((l + W * k : Nat) : Int) := by push_cast; ring
      rw [this, Int.toNat_ofNat]
    rw [e1, set_at_nat, e2]
  rw [conv]
  exact key

/-! ## The distance field: range of the bytes -/

theorem max_dist_sq_eq : max_dist_sq = 200 := by decide

theorem foldl_le_init {β : Type} (f : Nat → β → Nat) (hf : ∀ a b, f a b ≤ a) (l : List β)
    (a : Nat) : l.foldl f a ≤ a := by
  induction l generalizing a with
  | nil => exact le_refl _
  | cons b l ih => exact le_trans (ih (f a b)) (hf a b)

theorem min_dist_sq_le (data : List Bool) (width height l k : Int) :
    min_dist_sq data width height l k ≤ max_dist_sq := by
  unfold min_dist_sq
  apply foldl_le_init
  intro a tj
  apply foldl_le_init
  intro a ti
  dsimp only
  split
  · split
    · exact min_le_left _ _
    · exact le_refl _
  · exact le_refl _

theorem sdf_byte_inside_range (d2 : Nat) (h : d2 ≤ max_dist_sq) :
    127 ≤ sdf_byte true d2 ∧ sdf_byte true d2 ≤ 255 := by
  rw [max_dist_sq_eq] at h
  simp only [sdf_byte, if_true, max_dist_sq_eq]
  have hs : Nat.sqrt (255 * 255 * d2 / 200) < 256 := by
    rw [Nat.sqrt_lt']
    omega
  omega

theorem sdf_byte_outside_range (d2 : Nat) : sdf_byte false d2 ≤ 127 := by
  simp only [sdf_byte, Bool.false_eq_true, if_false]
  omega

/-- C5. For every bitmap `data`, every image size `W x H` and every pixel `(l, k)` of
the image, the byte that `calculate_distance_field` stores at `l + k * W` lies in
`[127, 255]` when the pixel is inside (`data[l + W * k]` is true) and in `[0, 127]` when
it is outside. -/
theorem distance_field_byte_range (df : List Nat) (data : List Bool) (W H : Nat)
    (hdf : W * H ≤ df.length) (l k : Nat) (hl : l < W) (hk : k < H) :
    (data.getD (l + W * k) false = true →
      127 ≤ (calculate_distance_field df data (W : Int) (H : Int)).getD (l + k * W) 0 ∧
      (calculate_distance_field df data (W : Int) (H : Int)).getD (l + k * W) 0 ≤ 255) ∧
    (data.getD (l + W * k) false = false →
      (calculate_distance_field df data (W : Int) (H : Int)).getD (l + k * W) 0 ≤ 127) := by
  rw [calculate_distance_field_getD df data W H hdf l k hl hk]
  constructor
  · intro hin
    rw [hin]
    exact sdf_byte_inside_range _ (min_dist_sq_le _ _ _ _ _)
  · intro hout
    rw [hout]
    exact sdf_byte_outside_range _

/-- Witness of `distance_field_byte_range`: the pixel `(1, 0)` of a bitmap of two by two
pixels. -/
theorem distance_field_byte_range_witness :
    2 * 2 ≤ (List.replicate 4 0).length ∧ 1 < 2 ∧ 0 < 2 ∧
    (([true, false, false, true] : List Bool).getD (1 + 2 * 0) false = true →
      127 ≤ (calculate_distance_field (List.replicate 4 0) [true, false, false, true]
        ((2 : Nat) : Int) ((2 : Nat) : Int)).getD (1 + 0 * 2) 0 ∧
      (calculate_distance_field (List.replicate 4 0) [true, false, false, true]
        ((2 : Nat) : Int) ((2 : Nat) : Int)).getD (1 + 0 * 2) 0 ≤ 255) ∧
    (([true, false, false, true] : List Bool).getD (1 + 2 * 0) false = false →
      (calculate_distance_field (List.replicate 4 0) [true, false, false, true]
        ((2 : Nat) : Int) ((2 : Nat) : Int)).getD (1 + 0 * 2) 0 ≤ 127) :=
  ⟨by decide, by decide, by decide,
    distance_field_byte_range (List.replicate 4 0) [true, false, false, true] 2 2 (by decide)
      1 0 (by decide) (by decide)⟩

/-! ## The distance field: the bytes are the truncated values of the source expressions -/

theorem ceil_sqrt_spec (n : Nat) :
    n ≤ ceil_sqrt n * ceil_sqrt n ∧ (ceil_sqrt n - 1) * (ceil_sqrt n - 1) < n ∨ (n = 0 ∧ ceil_sqrt n = 0) := by
  unfold ceil_sqrt
  by_cases h : Nat.sqrt n * Nat.sqrt n = n
  · simp only [h, if_true]
    by_cases h0 : Nat.sqrt n = 0
    · right
      rw [h0] at h
      exact ⟨by omega, h0⟩
    · left
      refine ⟨by omega, ?_⟩
      obtain ⟨m, hm⟩ : ∃ m, Nat.sqrt n = m + 1 := ⟨Nat.sqrt n - 1, by omega⟩
      rw [hm] at h ⊢
      simp only [Nat.add_sub_cancel]
      nlinarith
  · simp only [h, if_false]
    left
    refine ⟨le_of_lt (Nat.lt_succ_sqrt n), ?_⟩
    simp only [Nat.add_sub_cancel]
    exact lt_of_le_of_ne (Nat.sqrt_le n) h

/-- The distance ratio scaled to the byte range: `255 * distance / max_dist`. -/
theorem scaled_dist_eq (d2 : Nat) :
    255 * (Real.sqrt d2 / Real.sqrt max_dist_sq) = Real.sqrt ((255 * 255 * d2 : Nat) / (200 : ℝ)) := by
  rw [max_dist_sq_eq]
  have h255 : (255 : ℝ) = Real.sqrt (255 * 255) := by
    rw [Real.sqrt_mul_self (by norm_num)]
  rw [← Real.sqrt_div (Nat.cast_nonneg _)]
  conv_lhs => rw [h255]
  rw [← Real.sqrt_mul (by norm_num)]
  congr 1
  push_cast
  ring

theorem sdf_byte_inside_eq_floor (d2 : Nat) :
    sdf_byte true d2 =
      ⌊((1 / 2 : ℝ) + (Real.sqrt d2 / Real.sqrt max_dist_sq) * (1 / 2)) * 255⌋₊ := by
  symm
  have hx := scaled_dist_eq d2
  set x := Real.sqrt ((255 * 255 * d2 : Nat) / (200 : ℝ)) with hxdef
  have hx0 : 0 ≤ x := Real.sqrt_nonneg _
  have ha : ((1 / 2 : ℝ) + (Real.sqrt d2 / Real.sqrt max_dist_sq) * (1 / 2)) * 255 = (255 + x) / 2 := by
    rw [← hx]; ring
  rw [ha, Nat.floor_eq_iff (by positivity)]
  simp only [sdf_byte, if_true, max_dist_sq_eq]
  set q := 255 * 255 * d2 / 200 with hq
  set s := Nat.sqrt q with hs
  have hy0 : (0 : ℝ) ≤ ((255 * 255 * d2 : Nat) : ℝ) / 200 := by positivity
  have hq1 : (q : ℝ) ≤ ((255 * 255 * d2 : Nat) : ℝ) / 200 := by
    rw [le_div_iff₀ (by norm_num)]
    have : q * 200 ≤ 255 * 255 * d2 := Nat.div_mul_le_self _ _
    exact_mod_cast this
  have hq2 : ((255 * 255 * d2 : Nat) : ℝ) / 200 < (q : ℝ) + 1 := by
    rw [div_lt_iff₀ (by norm_num)]
    have : 255 * 255 * d2 < (q + 1) * 200 := by omega
    exact_mod_cast this
  have hs1 : (s : ℝ) ≤ x := by
    rw [hxdef, Real.le_sqrt (Nat.cast_nonneg _) hy0]
    have : s ^ 2 ≤ q := Nat.sqrt_le' q
    have : ((s : ℝ)) ^ 2 ≤ q := by exact_mod_cast this
    linarith
  have hs2 : x < (s : ℝ) + 1 := by
    rw [hxdef, Real.sqrt_lt' (by positivity)]
    have : q + 1 ≤ (s + 1) ^ 2 := by
      have := Nat.lt_succ_sqrt' q
      exact this
    have : ((q : ℝ)) + 1 ≤ ((s : ℝ) + 1) ^ 2 := by exact_mod_cast this
    linarith
  have hn1 : 2 * ((255 + s) / 2) ≤ 255 + s := by omega
  have hn2 : 255 + s ≤ 2 * ((255 + s) / 2) + 1 := by omega
  have hn1' : (2 : ℝ) * (((255 + s) / 2 : Nat) : ℝ) ≤ 255 + s := by exact_mod_cast hn1
  have hn2' : (255 : ℝ) + s ≤ 2 * (((255 + s) / 2 : Nat) : ℝ) + 1 := by exact_mod_cast hn2
  constructor <;> linarith

theorem sdf_byte_outside_eq_floor (d2 : Nat) (h : d2 ≤ max_dist_sq) :
    sdf_byte false d2 =
      ⌊((1 / 2 : ℝ) - (Real.sqrt d2 / Real.sqrt max_dist_sq) * (1 / 2)) * 255⌋₊ := by
  symm
  have hx := scaled_dist_eq d2
  set x := Real.sqrt ((255 * 255 * d2 : Nat) / (200 : ℝ)) with hxdef
  have hx0 : 0 ≤ x := Real.sqrt_nonneg _
  have ha : ((1 / 2 : ℝ) - (Real.sqrt d2 / Real.sqrt max_dist_sq) * (1 / 2)) * 255 = (255 - x) / 2 := by
    rw [← hx]; ring
  rw [max_dist_sq_eq] at h
  have hy0 : (0 : ℝ) ≤ ((255 * 255 * d2 : Nat) : ℝ) / 200 := by positivity
  have hx255 : x ≤ 255 := by
    rw [hxdef, Real.sqrt_le_left (by norm_num), div_le_iff₀ (by norm_num)]
    have : 255 * 255 * d2 ≤ 255 ^ 2 * 200 := by omega
    exact_mod_cast this
  rw [ha, Nat.floor_eq_iff (by linarith)]
  simp only [sdf_byte, Bool.false_eq_true, if_false, max_dist_sq_eq]
  set q := (255 * 255 * d2 + (200 - 1)) / 200 with hq
  have hspec := ceil_sqrt_spec q
  generalize ceil_sqrt q = c at hspec ⊢
  have hq1 : ((255 * 255 * d2 : Nat) : ℝ) / 200 ≤ (q : ℝ) := by
    rw [div_le_iff₀ (by norm_num)]
    have : 255 * 255 * d2 ≤ q * 200 := by omega
    exact_mod_cast this
  have hq2 : (q : ℝ) < ((255 * 255 * d2 : Nat) : ℝ) / 200 + 1 := by
    rw [← sub_lt_iff_lt_add, lt_div_iff₀ (by norm_num)]
    have : q * 200 < 255 * 255 * d2 + 200 := by omega
    have : (q : ℝ) * 200 < ((255 * 255 * d2 : Nat) : ℝ) + 200 := by exact_mod_cast this
    linarith
  have hqle : q ≤ 65025 := by omega
  have hc255 : c ≤ 255 := by
    rcases hspec with ⟨_, h2⟩ | ⟨_, h2⟩
    · by_contra hcon
      have : 255 ≤ c - 1 := by omega
      have : 255 * 255 ≤ (c - 1) * (c - 1) := Nat.mul_le_mul this this
      omega
    · omega
  have hc1 : x ≤ (c : ℝ) := by
    rw [hxdef, Real.sqrt_le_left (Nat.cast_nonneg _)]
    rcases hspec with ⟨h1, _⟩ | ⟨h1, h2⟩
    · have : (q : ℝ) ≤ (c : ℝ) ^ 2 := by
        have : q ≤ c ^ 2 := by rw [sq]; exact h1
        exact_mod_cast this
      linarith
    · rw [h1] at hq1
      have : (c : ℝ) = 0 := by exact_mod_cast h2
      rw [this]
      simp only [Nat.cast_zero] at hq1
      linarith
  have hc2 : (c : ℝ) < x + 1 := by
    rcases hspec with ⟨_, h2⟩ | ⟨_, h2⟩
    · by_cases hc0 : c = 0
      · rw [hc0]; simp only [Nat.cast_zero]; linarith
      · obtain ⟨m, hm⟩ : ∃ m, c = m + 1 := ⟨c - 1, by omega⟩
        rw [hm] at h2 ⊢
        simp only [Nat.add_sub_cancel] at h2
        have hm1 : (m : ℝ) < x := by
          rw [hxdef, Real.lt_sqrt (Nat.cast_nonneg _)]
          have : m ^ 2 + 1 ≤ q := by rw [sq]; omega
          have : (m : ℝ) ^ 2 + 1 ≤ q := by exact_mod_cast this
          linarith
        push_cast
        linarith
    · have : (c : ℝ) = 0 := by exact_mod_cast h2
      rw [this]; linarith
  have hn1 : 2 * ((255 - c) / 2) + c ≤ 255 := by omega
  have hn2 : 255 ≤ 2 * ((255 - c) / 2) + 1 + c := by omega
  have hn1' : (2 : ℝ) * (((255 - c) / 2 : Nat) : ℝ) + c ≤ 255 := by exact_mod_cast hn1
  have hn2' : (255 : ℝ) ≤ 2 * (((255 - c) / 2 : Nat) : ℝ) + 1 + c := by exact_mod_cast hn2
  constructor <;> linarith


/-! ## The distance field of the complemented bitmap -/

theorem getD_map_not (data : List Bool) (n : Nat) (h : n < data.length) :
    (data.map not).getD n false = !(data.getD n false) := by
  simp [List.getD_eq_getElem?_getD, List.getElem?_map, List.getElem?_eq_getElem h]

theorem pixel_index_lt (W H i j : Nat) (hi : i < W) (hj : j < H) : i + W * j < W * H := by
  have h1 : W * (j + 1) ≤ W * H := Nat.mul_le_mul_left W (by omega)
  have h2 : W * (j + 1) = W * j + W := by ring
  omega

theorem pixel_index_int (W H : Nat) (i j : Int) (hi0 : 0 ≤ i) (hi : i < W) (hj0 : 0 ≤ j)
    (hj : j < H) : (i + (W : Int) * j).toNat < W * H := by
  obtain ⟨i', rfl⟩ := Int.eq_ofNat_of_zero_le hi0
  obtain ⟨j', rfl⟩ := Int.eq_ofNat_of_zero_le hj0
  have e : ((i' : Int) + (W : Int) * (j' : Int)) = ((i' + W * j' : Nat) : Int) := by push_cast; ring
  rw [e, Int.toNat_ofNat]
  exact pixel_index_lt W H i' j' (by exact_mod_cast hi) (by exact_mod_cast hj)

theorem min_dist_sq_complement (data : List Bool) (W H : Nat) (hdata : data.length = W * H)
    (l k : Nat) (hl : l < W) (hk : k < H) :
    min_dist_sq (data.map not) (W : Int) (H : Int) (l : Int) (k : Int) =
      min_dist_sq data (W : Int) (H : Int) (l : Int) (k : Int) := by
  unfold min_dist_sq
  apply List.foldl_ext
  intro acc tj _
  apply List.foldl_ext
  intro acc ti _
  dsimp only
  by_cases hg : 0 ≤ (l : Int) - sample_depth + ti ∧ (l : Int) - sample_depth + ti < W ∧
      0 ≤ (k : Int) - sample_depth + tj ∧ (k : Int) - sample_depth + tj < H
  · have h1 : ((l : Int) + (W : Int) * (k : Int)).toNat < data.length := by
      rw [hdata]
      exact pixel_index_int W H l k (by omega) (by exact_mod_cast hl) (by omega)
        (by exact_mod_cast hk)
    have h2 : (((l : Int) - sample_depth + ti) + (W : Int) * ((k : Int) - sample_depth + tj)).toNat
        < data.length := by
      rw [hdata]
      exact pixel_index_int W H _ _ hg.1 hg.2.1 hg.2.2.1 hg.2.2.2
    rw [if_pos hg, if_pos hg, getD_map_not _ _ h1, getD_map_not _ _ h2]
    cases data.getD ((l : Int) + (W : Int) * (k : Int)).toNat false <;>
      cases data.getD (((l : Int) - sample_depth + ti) +
        (W : Int) * ((k : Int) - sample_depth + tj)).toNat false <;> rfl
  · rw [if_neg hg, if_neg hg]

theorem sdf_byte_sum (d2 : Nat) (h : d2 ≤ max_dist_sq) :
    sdf_byte true d2 + sdf_byte false d2 = 254 ∨ sdf_byte true d2 + sdf_byte false d2 = 255 := by
  rw [max_dist_sq_eq] at h
  simp only [sdf_byte, if_true, Bool.false_eq_true, if_false, max_dist_sq_eq]
  have hspec := ceil_sqrt_spec ((255 * 255 * d2 + (200 - 1)) / 200)
  generalize hq2 : (255 * 255 * d2 + (200 - 1)) / 200 = q2 at hspec ⊢
  generalize hq1 : 255 * 255 * d2 / 200 = q1
  generalize ceil_sqrt q2 = c at hspec ⊢
  have hq12 : q1 ≤ q2 ∧ q2 ≤ q1 + 1 ∧ q2 ≤ 65025 := by omega
  have hsc : Nat.sqrt q1 ≤ c := by
    rcases hspec with ⟨h1, _⟩ | ⟨h1, h2⟩
    · have : Nat.sqrt q1 < c + 1 := by
        rw [Nat.sqrt_lt]
        have : c * c < (c + 1) * (c + 1) := by nlinarith
        omega
      omega
    · have : q1 = 0 := by omega
      rw [this]
      simp
  have hcs : c ≤ Nat.sqrt q1 + 1 := by
    rcases hspec with ⟨_, h2⟩ | ⟨_, h2⟩
    · have : c - 1 ≤ Nat.sqrt q1 := by
        rw [Nat.le_sqrt]
        omega
      omega
    · omega
  have hs : Nat.sqrt q1 < 256 := by
    rw [Nat.sqrt_lt']
    omega
  have hc : c ≤ 255 := by
    rcases hspec with ⟨_, h2⟩ | ⟨_, h2⟩
    · by_contra hcon
      have h255 : 255 ≤ c - 1 := by omega
      have : 255 * 255 ≤ (c - 1) * (c - 1) := Nat.mul_le_mul h255 h255
      omega
    · omega
  omega

/-- C6. For every bitmap `data` of size `W x H` and every pixel `(l, k)`: the search
of `calculate_distance_field` ends with the same distance for the complemented bitmap as
for `data`, and the two bytes stored at `l + k * W` (for `data` and for its complement)
add up to 254 or to 255. -/
theorem distance_field_complement (df1 df2 : List Nat) (data : List Bool) (W H : Nat)
    (hdata : data.length = W * H) (hdf1 : W * H ≤ df1.length) (hdf2 : W * H ≤ df2.length)
    (l k : Nat) (hl : l < W) (hk : k < H) :
    min_dist_sq (data.map not) (W : Int) (H : Int) (l : Int) (k : Int) =
      min_dist_sq data (W : Int) (H : Int) (l : Int) (k : Int) ∧
    ((calculate_distance_field df1 (data.map not) (W : Int) (H : Int)).getD (l + k * W) 0 +
      (calculate_distance_field df2 data (W : Int) (H : Int)).getD (l + k * W) 0 = 254 ∨
     (calculate_distance_field df1 (data.map not) (W : Int) (H : Int)).getD (l + k * W) 0 +
      (calculate_distance_field df2 data (W : Int) (H : Int)).getD (l + k * W) 0 = 255) := by
  have hmin := min_dist_sq_complement data W H hdata l k hl hk
  refine ⟨hmin, ?_⟩
  rw [calculate_distance_field_getD df1 (data.map not) W H hdf1 l k hl hk,
    calculate_distance_field_getD df2 data W H hdf2 l k hl hk, hmin,
    getD_map_not data _ (by rw [hdata]; exact pixel_index_lt W H l k hl hk)]
  have hsum := sdf_byte_sum _ (min_dist_sq_le data (W : Int) (H : Int) (l : Int) (k : Int))
  cases data.getD (l + W * k) false
  · simp only [Bool.not_false]
    exact hsum
  · simp only [Bool.not_true]
    rw [Nat.add_comm]
    exact hsum

/-- Witness of `distance_field_complement`: the pixel `(1, 0)` of a bitmap of two by two
pixels. -/
theorem distance_field_complement_witness :
    ([true, false, false, true] : List Bool).length = 2 * 2 ∧
    2 * 2 ≤ (List.replicate 4 0).length ∧ 2 * 2 ≤ (List.replicate 4 7).length ∧ 1 < 2 ∧ 0 < 2 ∧
    (min_dist_sq (([true, false, false, true] : List Bool).map not) ((2 : Nat) : Int)
        ((2 : Nat) : Int) ((1 : Nat) : Int) ((0 : Nat) : Int) =
      min_dist_sq [true, false, false, true] ((2 : Nat) : Int) ((2 : Nat) : Int)
        ((1 : Nat) : Int) ((0 : Nat) : Int) ∧
    ((calculate_distance_field (List.replicate 4 0)
        (([true, false, false, true] : List Bool).map not)
        ((2 : Nat) : Int) ((2 : Nat) : Int)).getD (1 + 0 * 2) 0 +
      (calculate_distance_field (List.replicate 4 7) [true, false, false, true]
        ((2 : Nat) : Int) ((2 : Nat) : Int)).getD (1 + 0 * 2) 0 = 254 ∨
     (calculate_distance_field (List.replicate 4 0)
        (([true, false, false, true] : List Bool).map not)
        ((2 : Nat) : Int) ((2 : Nat) : Int)).getD (1 + 0 * 2) 0 +
      (calculate_distance_field (List.replicate 4 7) [true, false, false, true]
        ((2 : Nat) : Int) ((2 : Nat) : Int)).getD (1 + 0 * 2) 0 = 255)) :=
  ⟨by decide, by decide, by decide, by decide, by decide,
    distance_field_complement (List.replicate 4 0) (List.replicate 4 7)
      [true, false, false, true] 2 2 (by decide) (by decide) (by decide) 1 0 (by decide)
      (by decide)⟩

/-! ## Text measurement -/

theorem guard_iff_in_range (a : CharacterAtlas) (c : Nat) (hlen : a.glyphs.length = a.ccount)
    (hc : a.cstart + a.ccount ≤ 2 ^ 32) (hcu : c < 2 ^ 32) :
    u32_sub c a.cstart < a.glyphs.length ↔ a.in_range c = true := by
  unfold u32_sub CharacterAtlas.in_range
  rw [hlen, decide_eq_true_eq]
  omega

theorem in_range_index (a : CharacterAtlas) (c : Nat) (hc : a.cstart + a.ccount ≤ 2 ^ 32)
    (hin : a.in_range c = true) : u32_sub c a.cstart = c - a.cstart := by
  unfold CharacterAtlas.in_range at hin
  rw [decide_eq_true_eq] at hin
  unfold u32_sub
  omega

theorem in_range_guard (a : CharacterAtlas) (c : Nat) (hlen : a.glyphs.length = a.ccount)
    (hc : a.cstart + a.ccount ≤ 2 ^ 32) (hin : a.in_range c = true) :
    u32_sub c a.cstart < a.glyphs.length := by
  have := hin
  unfold CharacterAtlas.in_range at this
  rw [decide_eq_true_eq] at this
  exact (guard_iff_in_range a c hlen hc (by omega)).mpr hin

theorem box_fold_fst (a : CharacterAtlas) (scale : ℚ) (line : List Nat)
    (hlen : a.glyphs.length = a.ccount) (hc : a.cstart + a.ccount ≤ 2 ^ 32)
    (hin : ∀ c ∈ line, a.in_range c = true) (w h : Int) :
    (line.foldl (fun (box : Int × Int) (c : Nat) =>
      if u32_sub c a.cstart < a.glyphs.length then
        (trunc ((box.1 : ℚ) +
            ((a.glyphs.getD (u32_sub c a.cstart) Glyph.zero).horizontal_advance : ℚ) * scale),
          max box.2
            (trunc (((a.glyphs.getD (u32_sub c a.cstart) Glyph.zero).vertical_bearing : ℚ)
              * scale)))
      else box) (w, h)) =
    (line.foldl (fun (w : Int) (c : Nat) =>
        trunc ((w : ℚ) + ((a.glyph c).horizontal_advance : ℚ) * scale)) w,
     line.foldl (fun (h : Int) (c : Nat) =>
        max h (trunc (((a.glyph c).vertical_bearing : ℚ) * scale))) h) := by
  induction line generalizing w h with
  | nil => rfl
  | cons c line ih =>
    have hcin := hin c (List.mem_cons_self _ _)
    have hg := in_range_guard a c hlen hc hcin
    rw [in_range_index a c hc hcin] at hg
    simp only [List.foldl_cons, in_range_index a c hc hcin, if_pos hg]
    rw [ih (fun c' hc' => hin c' (List.mem_cons_of_mem _ hc'))]
    rfl

theorem get_bounding_box_eq (a : CharacterAtlas) (box : Int × Int) (line : List Nat)
    (hlen : a.glyphs.length = a.ccount) (hc : a.cstart + a.ccount ≤ 2 ^ 32)
    (hin : ∀ c ∈ line, a.in_range c = true) :
    get_bounding_box a box line =
      (line.foldl (fun (w : Int) (c : Nat) =>
          trunc ((w : ℚ) + ((a.glyph c).horizontal_advance : ℚ) * ((a.pt : ℚ) / 32))) 0,
       line.foldl (fun (h : Int) (c : Nat) =>
          max h (trunc (((a.glyph c).vertical_bearing : ℚ) * ((a.pt : ℚ) / 32)))) 0) := by
  unfold get_bounding_box
  cases line with
  | nil => rfl
  | cons c line =>
    simp only [List.length_cons, Nat.add_one_ne_zero, if_false]
    have := box_fold_fst a ((a.pt : ℚ) / (base_font_size : ℚ)) (c :: line) hlen hc hin 0 0
    rw [this]
    simp [base_font_size]

theorem trunc_int_add (w : Int) (r : ℚ) (hw : 0 ≤ w) (hr : 0 ≤ r) :
    trunc ((w : ℚ) + r) = w + ⌊r⌋ := by
  have hw' : (0 : ℚ) ≤ (w : ℚ) := by exact_mod_cast hw
  unfold trunc
  rw [if_pos (by linarith), Int.floor_int_add]

theorem width_fold_floor (f : Nat → ℚ) (line : List Nat) (hf : ∀ c ∈ line, 0 ≤ f c) (w : Int)
    (hw : 0 ≤ w) :
    line.foldl (fun (w : Int) (c : Nat) => trunc ((w : ℚ) + f c)) w =
      w + (line.map (fun c => ⌊f c⌋)).sum := by
  induction line generalizing w with
  | nil => simp
  | cons c line ih =>
    have hfc := hf c (List.mem_cons_self _ _)
    simp only [List.foldl_cons, List.map_cons, List.sum_cons]
    rw [trunc_int_add w (f c) hw hfc,
      ih (fun c' hc' => hf c' (List.mem_cons_of_mem _ hc')) _
        (add_nonneg hw (Int.floor_nonneg.mpr hfc))]
    ring

theorem height_fold_max (t : Nat → Int) (line : List Nat) (h : Int) (hh : 0 ≤ h) :
    line.foldl (fun (h : Int) (c : Nat) => max h (t c)) h =
      max h ((line.map t).foldr max 0) := by
  induction line generalizing h with
  | nil => simp [hh]
  | cons c line ih =>
    simp only [List.foldl_cons, List.map_cons, List.foldr_cons]
    rw [ih _ (le_trans hh (le_max_left _ _)), max_assoc]

/-- C7 as stated fails: for the single character 65 of `two_glyph_atlas` (advance 10,
point size 14) `get_bounding_box` sets `*width` to 4, not to `10 * (14 / 32) = 4.375`. -/
theorem bounding_box_width_not_exact :
    (get_bounding_box two_glyph_atlas (0, 0) [65]).1 = 4 ∧
    (((get_bounding_box two_glyph_atlas (0, 0) [65]).1 : Int) : ℚ) ≠
      (((two_glyph_atlas.glyph 65).horizontal_advance : Int) : ℚ) *
        ((two_glyph_atlas.pt : ℚ) / 32) := by
  have h : (get_bounding_box two_glyph_atlas (0, 0) [65]).1 = 4 := by
    rw [get_bounding_box_eq two_glyph_atlas (0, 0) [65] (by decide) (by decide) (by decide)]
    norm_num [two_glyph_atlas, CharacterAtlas.glyph, Glyph.zero, trunc, Int.floor_eq_iff]
  refine ⟨h, ?_⟩
  rw [h]
  norm_num [two_glyph_atlas, CharacterAtlas.glyph, Glyph.zero]

/-- C7 (amended). For every line whose code points are all in range, `get_bounding_box`
sets `*width` to the value obtained from 0 by replacing, for each code point in order, the
running width `w` by the truncation of `w + horizontal_advance * scale` (`scale = pt / 32`
taken exactly; `*width` is an `int`). When the advances are non-negative this is the sum
over the code points of `⌊horizontal_advance * scale⌋`. -/
theorem bounding_box_width (a : CharacterAtlas) (box : Int × Int) (line : List Nat)
    (hlen : a.glyphs.length = a.ccount) (hc : a.cstart + a.ccount ≤ 2 ^ 32)
    (hin : ∀ c ∈ line, a.in_range c = true) :
    (get_bounding_box a box line).1 =
      line.foldl (fun (w : Int) (c : Nat) =>
        trunc ((w : ℚ) + ((a.glyph c).horizontal_advance : ℚ) * ((a.pt : ℚ) / 32))) 0 ∧
    ((∀ c ∈ line, 0 ≤ (a.glyph c).horizontal_advance) →
      (get_bounding_box a box line).1 =
        (line.map (fun c => ⌊((a.glyph c).horizontal_advance : ℚ) * ((a.pt : ℚ) / 32)⌋)).sum) := by
  rw [get_bounding_box_eq a box line hlen hc hin]
  refine ⟨rfl, fun hadv => ?_⟩
  have := width_fold_floor
    (fun c => ((a.glyph c).horizontal_advance : ℚ) * ((a.pt : ℚ) / 32)) line
    (fun c hcm => mul_nonneg (by exact_mod_cast hadv c hcm) (by positivity)) 0 (le_refl _)
  simp only [zero_add] at this
  exact this

/-- Witness of `bounding_box_width`: the line of the characters 65 and 66 of
`two_glyph_atlas`. -/
theorem bounding_box_width_witness :
    two_glyph_atlas.glyphs.length = two_glyph_atlas.ccount ∧
    two_glyph_atlas.cstart + two_glyph_atlas.ccount ≤ 2 ^ 32 ∧
    (∀ c ∈ [65, 66], two_glyph_atlas.in_range c = true) ∧
    (∀ c ∈ [65, 66], 0 ≤ (two_glyph_atlas.glyph c).horizontal_advance) ∧
    ((get_bounding_box two_glyph_atlas (3, 9) [65, 66]).1 =
      [65, 66].foldl (fun (w : Int) (c : Nat) =>
        trunc ((w : ℚ) + ((two_glyph_atlas.glyph c).horizontal_advance : ℚ) *
          ((two_glyph_atlas.pt : ℚ) / 32))) 0 ∧
    ((∀ c ∈ [65, 66], 0 ≤ (two_glyph_atlas.glyph c).horizontal_advance) →
      (get_bounding_box two_glyph_atlas (3, 9) [65, 66]).1 =
        ([65, 66].map (fun c => ⌊((two_glyph_atlas.glyph c).horizontal_advance : ℚ) *
          ((two_glyph_atlas.pt : ℚ) / 32)⌋)).sum)) :=
  ⟨by decide, by decide, by decide, by decide,
    bounding_box_width two_glyph_atlas (3, 9) [65, 66] (by decide) (by decide) (by decide)⟩

/-- C8 as stated fails: for the single character 65 of `two_glyph_atlas` (bearing -5)
`get_bounding_box` sets `*height` to 0, not to `-5 * (14 / 32)`; for the single character
66 (bearing 10) it sets `*height` to 4, not to `10 * (14 / 32) = 4.375`. -/
theorem bounding_box_height_not_exact :
    (get_bounding_box two_glyph_atlas (0, 0) [65]).2 = 0 ∧
    (((get_bounding_box two_glyph_atlas (0, 0) [65]).2 : Int) : ℚ) ≠
      (((two_glyph_atlas.glyph 65).vertical_bearing : Int) : ℚ) *
        ((two_glyph_atlas.pt : ℚ) / 32) ∧
    (get_bounding_box two_glyph_atlas (0, 0) [66]).2 = 4 ∧
    (((get_bounding_box two_glyph_atlas (0, 0) [66]).2 : Int) : ℚ) ≠
      (((two_glyph_atlas.glyph 66).vertical_bearing : Int) : ℚ) *
        ((two_glyph_atlas.pt : ℚ) / 32) := by
  have h1 : (get_bounding_box two_glyph_atlas (0, 0) [65]).2 = 0 := by
    rw [get_bounding_box_eq two_glyph_atlas (0, 0) [65] (by decide) (by decide) (by decide)]
    norm_num [two_glyph_atlas, CharacterAtlas.glyph, Glyph.zero, trunc, Int.ceil_le]
  have h2 : (get_bounding_box two_glyph_atlas (0, 0) [66]).2 = 4 := by
    rw [get_bounding_box_eq two_glyph_atlas (0, 0) [66] (by decide) (by decide) (by decide)]
    norm_num [two_glyph_atlas, CharacterAtlas.glyph, Glyph.zero, trunc, Int.floor_eq_iff]
  refine ⟨h1, ?_, h2, ?_⟩
  · rw [h1]
    norm_num [two_glyph_atlas, CharacterAtlas.glyph, Glyph.zero]
  · rw [h2]
    norm_num [two_glyph_atlas, CharacterAtlas.glyph, Glyph.zero]

/-- C8 (amended). For every line whose code points are all in range, `get_bounding_box`
sets `*height` to the largest of 0 and the truncations (toward zero) of
`vertical_bearing * scale` of the code points (`scale = pt / 32` taken exactly; `*height`
is an `int` that starts at 0); for a single character the height is
`max 0 (trunc (bearing * scale))`. -/
theorem bounding_box_height (a : CharacterAtlas) (box : Int × Int) (line : List Nat)
    (hlen : a.glyphs.length = a.ccount) (hc : a.cstart + a.ccount ≤ 2 ^ 32)
    (hin : ∀ c ∈ line, a.in_range c = true) :
    (get_bounding_box a box line).2 =
      (line.map (fun c =>
        trunc (((a.glyph c).vertical_bearing : ℚ) * ((a.pt : ℚ) / 32)))).foldr max 0 ∧
    (∀ c, line = [c] →
      (get_bounding_box a box line).2 =
        max 0 (trunc (((a.glyph c).vertical_bearing : ℚ) * ((a.pt : ℚ) / 32)))) := by
  rw [get_bounding_box_eq a box line hlen hc hin]
  have := height_fold_max
    (fun c => trunc (((a.glyph c).vertical_bearing : ℚ) * ((a.pt : ℚ) / 32))) line 0 (le_refl _)
  have hnn : ∀ l : List Int, 0 ≤ l.foldr max 0 := by
    intro l
    induction l with
    | nil => exact le_refl _
    | cons x l ih => exact le_trans ih (le_max_right _ _)
  rw [max_eq_right (hnn _)] at this
  refine ⟨this, fun c hl => ?_⟩
  subst hl
  simp [max_comm]

/-- Witness of `bounding_box_height`: the line of the characters 65 and 66 of
`two_glyph_atlas`. -/
theorem bounding_box_height_witness :
    two_glyph_atlas.glyphs.length = two_glyph_atlas.ccount ∧
    two_glyph_atlas.cstart + two_glyph_atlas.ccount ≤ 2 ^ 32 ∧
    (∀ c ∈ [65, 66], two_glyph_atlas.in_range c = true) ∧
    ((get_bounding_box two_glyph_atlas (3, 9) [65, 66]).2 =
      ([65, 66].map (fun c =>
        trunc (((two_glyph_atlas.glyph c).vertical_bearing : ℚ) *
          ((two_glyph_atlas.pt : ℚ) / 32)))).foldr max 0 ∧
    (∀ c, [65, 66] = [c] →
      (get_bounding_box two_glyph_atlas (3, 9) [65, 66]).2 =
        max 0 (trunc (((two_glyph_atlas.glyph c).vertical_bearing : ℚ) *
          ((two_glyph_atlas.pt : ℚ) / 32))))) :=
  ⟨by decide, by decide, by decide,
    bounding_box_height two_glyph_atlas (3, 9) [65, 66] (by decide) (by decide) (by decide)⟩

/-- C9. Whatever the atlas and whatever `*width` and `*height` held before the call,
`get_bounding_box` on the empty line leaves `*width = 0` and `*height = 0`. -/
theorem bounding_box_empty (a : CharacterAtlas) (box : Int × Int) :
    get_bounding_box a box [] = (0, 0) := by
  rfl

/-! ## Text placement -/

theorem write_text_loop_at (a : CharacterAtlas) (yy z sc : ℚ)
    (hlen : a.glyphs.length = a.ccount) (hc : a.cstart + a.ccount ≤ 2 ^ 32)
    (pre post : List Nat) (c : Nat) (hu : ∀ c' ∈ pre, c' < 2 ^ 32)
    (hin : a.in_range c = true) (xx : ℚ) (count : Nat) :
    ∃ p, (write_text_loop a yy z sc (pre ++ c :: post) xx count)[(pre.filter a.in_range).length]?
        = some p ∧
      p.x = xx + ((pre.filter a.in_range).map
        (fun c' => ((a.glyph c').horizontal_advance : ℚ) * sc)).sum ∧
      p.y = yy ∧ p.offset = 4 * (c - a.cstart) * 4 := by
  induction pre generalizing xx count with
  | nil =>
    have hg := in_range_guard a c hlen hc hin
    simp only [List.nil_append, write_text_loop, if_neg (not_le.mpr hg), List.filter_nil,
      List.length_nil, List.getElem?_cons_zero, List.map_nil, List.sum_nil, add_zero]
    exact ⟨_, rfl, rfl, rfl, by rw [in_range_index a c hc hin]⟩
  | cons c' pre ih =>
    have hu' : ∀ c'' ∈ pre, c'' < 2 ^ 32 := fun c'' h => hu c'' (List.mem_cons_of_mem _ h)
    by_cases hin' : a.in_range c' = true
    · have hg := in_range_guard a c' hlen hc hin'
      obtain ⟨p, hp, hx, hy, ho⟩ := ih hu'
        (xx + ((a.glyphs.getD (u32_sub c' a.cstart) Glyph.zero).horizontal_advance : ℚ) * sc)
        (u32 (count + 1))
      refine ⟨p, ?_, ?_, hy, ho⟩
      · simp only [List.cons_append, write_text_loop, if_neg (not_le.mpr hg),
          List.filter_cons, hin', if_true, List.length_cons, List.getElem?_cons_succ]
        exact hp
      · rw [hx, in_range_index a c' hc hin']
        simp only [List.filter_cons, hin', if_true, List.map_cons, List.sum_cons,
          CharacterAtlas.glyph]
        ring
    · have hg : ¬ u32_sub c' a.cstart < a.glyphs.length := fun h =>
        hin' ((guard_iff_in_range a c' hlen hc (hu c' (List.mem_cons_self _ _))).mp h)
      obtain ⟨p, hp, hx, hy, ho⟩ := ih hu' xx (u32 (count + 1))
      refine ⟨p, ?_, ?_, hy, ho⟩
      · simp only [List.cons_append, write_text_loop, if_pos (not_lt.mp hg),
          List.filter_cons, hin', Bool.false_eq_true, if_false]
        exact hp
      · rw [hx]
        simp only [List.filter_cons, hin', Bool.false_eq_true, if_false]

/-! ## The pen of `write_text` as a `float` -/

theorem round_half_even_int (n : Int) : round_half_even (n : ℚ) = n := by
  unfold round_half_even
  rw [Int.floor_intCast]
  simp

theorem round_half_even_below (n : Int) (r : ℚ) (h0 : 0 ≤ r) (h1 : r < 1 / 2) :
    round_half_even ((n : ℚ) + r) = n := by
  have hf : ⌊(n : ℚ) + r⌋ = n := by
    rw [Int.floor_eq_iff]
    constructor <;> linarith
  unfold round_half_even
  rw [hf, if_pos (by linarith)]

theorem binary32_eq (q : ℚ) (e : Int) (h1 : (2 : ℚ) ^ e ≤ |q|) (h2 : |q| < (2 : ℚ) ^ (e + 1))
    (he : -126 ≤ e) :
    binary32 q = (round_half_even (q / (2 : ℚ) ^ (e - 23)) : ℚ) * (2 : ℚ) ^ (e - 23) := by
  have hpos : (0 : ℚ) < |q| := lt_of_lt_of_le (zpow_pos (by norm_num) e) h1
  have hq : q ≠ 0 := abs_pos.mp hpos
  have hlog : Int.log 2 |q| = e := by
    have a1 : e ≤ Int.log 2 |q| :=
      (Int.zpow_le_iff_le_log (by norm_num) hpos).mp (by exact_mod_cast h1)
    have a2 : Int.log 2 |q| < e + 1 :=
      (Int.lt_zpow_iff_log_lt (by norm_num) hpos).mp (by exact_mod_cast h2)
    omega
  unfold binary32
  rw [if_neg hq, hlog, max_eq_left he]

/-- A number with 24 significant bits is a `float`. -/
theorem binary32_exact (q : ℚ) (e n : Int) (hn : q = (n : ℚ) * (2 : ℚ) ^ (e - 23))
    (h1 : (2 : ℚ) ^ e ≤ |q|) (h2 : |q| < (2 : ℚ) ^ (e + 1)) (he : -126 ≤ e) :
    binary32 q = q := by
  rw [binary32_eq q e h1 h2 he]
  have hp : (2 : ℚ) ^ (e - 23) ≠ 0 := zpow_ne_zero _ (by norm_num)
  have : q / (2 : ℚ) ^ (e - 23) = (n : ℚ) := by
    rw [hn]
    field_simp
  rw [this, round_half_even_int, hn]

theorem binary32_14 : binary32 14 = 14 := by
  apply binary32_exact 14 3 14680064
  · norm_num [zpow_neg]
  · norm_num
  · norm_num
  · norm_num

theorem binary32_32 : binary32 32 = 32 := by
  apply binary32_exact 32 5 8388608
  · norm_num [zpow_neg]
  · norm_num
  · norm_num
  · norm_num

theorem binary32_10 : binary32 10 = 10 := by
  apply binary32_exact 10 3 10485760
  · norm_num [zpow_neg]
  · norm_num
  · norm_num
  · norm_num

theorem binary32_scale : binary32 (14 / 32) = 14 / 32 := by
  apply binary32_exact (14 / 32) (-2) 14680064
  · norm_num [zpow_neg]
  · rw [abs_of_pos (by norm_num)]
    norm_num [zpow_neg]
  · rw [abs_of_pos (by norm_num)]
    norm_num [zpow_neg]
  · norm_num

theorem binary32_advance : binary32 (10 * (14 / 32)) = 35 / 8 := by
  have e : (10 : ℚ) * (14 / 32) = 35 / 8 := by norm_num
  rw [e]
  apply binary32_exact (35 / 8) 2 9175040
  · norm_num [zpow_neg]
  · norm_num [abs_of_pos]
  · norm_num [abs_of_pos]
  · norm_num

theorem round_half_even_above (n : Int) (r : ℚ) (h0 : 1 / 2 < r) (h1 : r < 1) :
    round_half_even ((n : ℚ) + r) = n + 1 := by
  have hf : ⌊(n : ℚ) + r⌋ = n := by
    rw [Int.floor_eq_iff]
    constructor <;> linarith
  unfold round_half_even
  rw [hf, if_neg (by linarith), if_pos (by linarith)]

/-- The literal `0.1f`: the `float` nearest to `1 / 10` is `13421773 / 2 ^ 27`. -/
theorem binary32_tenth : binary32 (1 / 10) = 13421773 / 134217728 := by
  rw [binary32_eq (1 / 10) (-4) (by rw [abs_of_pos (by norm_num)]; norm_num [zpow_neg])
    (by rw [abs_of_pos (by norm_num)]; norm_num [zpow_neg]) (by norm_num)]
  have e : ((1 : ℚ) / 10) / (2 : ℚ) ^ ((-4 : Int) - 23) = ((13421772 : Int) : ℚ) + 4 / 5 := by
    norm_num [zpow_neg]
  rw [e, round_half_even_above 13421772 (4 / 5) (by norm_num) (by norm_num)]
  norm_num [zpow_neg]

theorem binary32_origin : binary32 (13421773 / 134217728) = 13421773 / 134217728 := by
  apply binary32_exact (13421773 / 134217728) (-4) 13421773
  · norm_num [zpow_neg]
  · rw [abs_of_pos (by norm_num)]
    norm_num [zpow_neg]
  · rw [abs_of_pos (by norm_num)]
    norm_num [zpow_neg]
  · norm_num

/-- The sum `0.1f + 4.375` lies between two neighbouring values of the type `float`, which
are `2 ^ (-21)` apart there; the nearer one is `9384755 / 2 ^ 21`, below the sum. -/
theorem binary32_pen :
    binary32 (13421773 / 134217728 + 35 / 8) = 9384755 / 2097152 := by
  rw [binary32_eq (13421773 / 134217728 + 35 / 8) 2 (by rw [abs_of_pos (by norm_num)]; norm_num)
    (by rw [abs_of_pos (by norm_num)]; norm_num) (by norm_num)]
  have e : ((13421773 : ℚ) / 134217728 + 35 / 8) / (2 : ℚ) ^ ((2 : Int) - 23) =
      ((9384755 : Int) : ℚ) + 13 / 64 := by norm_num [zpow_neg]
  rw [e, round_half_even_below 9384755 (13 / 64) (by norm_num) (by norm_num)]
  norm_num [zpow_neg]

theorem write_text_loop_rounded_id (a : CharacterAtlas) (yy z sc : ℚ) (line : List Nat)
    (xx : ℚ) (count : Nat) :
    write_text_loop_rounded (fun q => q) a yy z sc line xx count =
      write_text_loop a yy z sc line xx count := by
  induction line generalizing xx count with
  | nil => rfl
  | cons c rest ih =>
    simp only [write_text_loop_rounded, write_text_loop, ih]

theorem write_text_rounded_id (a : CharacterAtlas) (x y z : ℚ) (line : List Nat) :
    write_text_rounded (fun q => q) a x y z line = write_text a x y z line := by
  simp only [write_text_rounded, write_text, write_text_loop_rounded_id]

theorem write_text_loop_rounded_at (fl : ℚ → ℚ) (a : CharacterAtlas) (yy z sc : ℚ)
    (hlen : a.glyphs.length = a.ccount) (hc : a.cstart + a.ccount ≤ 2 ^ 32)
    (pre post : List Nat) (c : Nat) (hu : ∀ c' ∈ pre, c' < 2 ^ 32)
    (hin : a.in_range c = true) (xx : ℚ) (count : Nat) :
    ∃ p, (write_text_loop_rounded fl a yy z sc (pre ++ c :: post) xx count)[
        (pre.filter a.in_range).length]? = some p ∧
      p.x = float_pen fl sc
        ((pre.filter a.in_range).map (fun c' => (a.glyph c').horizontal_advance)) xx ∧
      p.y = yy ∧ p.offset = 4 * (c - a.cstart) * 4 := by
  induction pre generalizing xx count with
  | nil =>
    have hg := in_range_guard a c hlen hc hin
    simp only [List.nil_append, write_text_loop_rounded, if_neg (not_le.mpr hg),
      List.filter_nil, List.length_nil, List.getElem?_cons_zero, List.map_nil, float_pen,
      List.foldl_nil]
    exact ⟨_, rfl, rfl, rfl, by rw [in_range_index a c hc hin]⟩
  | cons c' pre ih =>
    have hu' : ∀ c'' ∈ pre, c'' < 2 ^ 32 := fun c'' h => hu c'' (List.mem_cons_of_mem _ h)
    by_cases hin' : a.in_range c' = true
    · have hg := in_range_guard a c' hlen hc hin'
      obtain ⟨p, hp, hx, hy, ho⟩ := ih hu'
        (fl (xx + fl (fl ((a.glyphs.getD (u32_sub c' a.cstart) Glyph.zero).horizontal_advance : ℚ)
          * sc)))
        (u32 (count + 1))
      refine ⟨p, ?_, ?_, hy, ho⟩
      · simp only [List.cons_append, write_text_loop_rounded, if_neg (not_le.mpr hg),
          List.filter_cons, hin', if_true, List.length_cons, List.getElem?_cons_succ]
        exact hp
      · rw [hx, in_range_index a c' hc hin']
        simp only [List.filter_cons, hin', if_true, List.map_cons, float_pen, List.foldl_cons,
          CharacterAtlas.glyph]
    · have hg : ¬ u32_sub c' a.cstart < a.glyphs.length := fun h =>
        hin' ((guard_iff_in_range a c' hlen hc (hu c' (List.mem_cons_self _ _))).mp h)
      obtain ⟨p, hp, hx, hy, ho⟩ := ih hu' xx (u32 (count + 1))
      refine ⟨p, ?_, ?_, hy, ho⟩
      · simp only [List.cons_append, write_text_loop_rounded, if_pos (not_lt.mp hg),
          List.filter_cons, hin', Bool.false_eq_true, if_false]
        exact hp
      · rw [hx]
        simp only [List.filter_cons, hin', Bool.false_eq_true, if_false]

/-- C10 as stated fails: the line of the two in-range code points 65, 66 written with
`two_glyph_atlas` (advance 10, point size 14, so `advance * scale = 4.375`) at the origin
`x = 0.1f`, the `float` `13421773 / 2 ^ 27`. The pen is a `float`: the sum `0.1f + 4.375` is
stored as `9384755 / 2 ^ 21`, the second draw call gets this horizontal translation, and the
two translations differ by `587202547 / 2 ^ 27`, which is less than `advance * scale`. -/
theorem float_pen_not_exact :
    binary32 (1 / 10) = 13421773 / 134217728 ∧
    two_glyph_atlas.in_range 65 = true ∧ two_glyph_atlas.in_range 66 = true ∧
    ((two_glyph_atlas.glyph 65).horizontal_advance : ℚ) * ((two_glyph_atlas.pt : ℚ) / 32)
      = 35 / 8 ∧
    ∃ p1 p2, write_text_rounded binary32 two_glyph_atlas (13421773 / 134217728) 5 0 [65, 66]
        = [p1, p2] ∧
      p1.x = 13421773 / 134217728 ∧ p2.x = 9384755 / 2097152 ∧
      p2.x - p1.x = 587202547 / 134217728 ∧
      p2.x - p1.x ≠
        ((two_glyph_atlas.glyph 65).horizontal_advance : ℚ) * ((two_glyph_atlas.pt : ℚ) / 32) := by
  have hadv : ((two_glyph_atlas.glyph 65).horizontal_advance : ℚ) *
      ((two_glyph_atlas.pt : ℚ) / 32) = 35 / 8 := by
    have h1 : (two_glyph_atlas.glyph 65).horizontal_advance = 10 := by decide
    have h2 : two_glyph_atlas.pt = 14 := rfl
    rw [h1, h2]
    norm_num
  refine ⟨binary32_tenth, by decide, by decide, hadv, ?_⟩
  have g1 : ¬ two_glyph_atlas.glyphs.length ≤ u32_sub 65 two_glyph_atlas.cstart := by decide
  have g2 : ¬ two_glyph_atlas.glyphs.length ≤ u32_sub 66 two_glyph_atlas.cstart := by decide
  have h1 : (two_glyph_atlas.glyphs.getD (u32_sub 65 two_glyph_atlas.cstart)
      Glyph.zero).horizontal_advance = 10 := by decide
  have h2 : two_glyph_atlas.pt = 14 := rfl
  have h3 : base_font_size = 32 := rfl
  have hpen : binary32 ((13421773 / 134217728 : ℚ) + binary32 (binary32 ((10 : Int) : ℚ) *
      binary32 (binary32 ((14 : Nat) : ℚ) / binary32 ((32 : Nat) : ℚ)))) = 9384755 / 2097152 := by
    have c1 : (((10 : Int) : ℚ)) = 10 := by norm_num
    have c2 : (((14 : Nat) : ℚ)) = 14 := by norm_num
    have c3 : (((32 : Nat) : ℚ)) = 32 := by norm_num
    rw [c1, c2, c3, binary32_14, binary32_32, binary32_scale, binary32_10, binary32_advance,
      binary32_pen]
  refine ⟨Placement.mk (13421773 / 134217728) 5
      (binary32 (0 + binary32 (binary32 (u32 (0 + 1) : ℚ) / binary32 1000000)))
      (4 * u32_sub 65 two_glyph_atlas.cstart * 4),
    Placement.mk (9384755 / 2097152) 5
      (binary32 (0 + binary32 (binary32 (u32 (u32 (0 + 1) + 1) : ℚ) / binary32 1000000)))
      (4 * u32_sub 66 two_glyph_atlas.cstart * 4), ?_, rfl, rfl, ?_, ?_⟩
  · simp only [write_text_rounded, List.length_cons, List.length_nil, Nat.add_one_ne_zero,
      if_false, write_text_loop_rounded, if_neg g1, if_neg g2, h1, h2, h3, hpen]
  · norm_num
  · rw [hadv]
    norm_num

/-- C10 (amended). For every line `pre ++ c :: post` of `uint32_t` code points with `c` in
range and every origin `(x, y)`: the draw call that `write_text` issues for `c` (it comes
after as many draw calls as there are in-range code points in `pre`, and it draws the glyph
of `c`) is translated by `y` vertically and, horizontally, by the value of the `float` pen:
`x` to which `horizontal_advance * scale` has been added for every in-range code point of
`pre`, in order, each `float` operation rounded (`fl`), with `scale = pt / 32`. With the
operations taken exactly (`write_text`, which is `write_text_rounded` for the rounding that
changes nothing) the translation is `x` plus the sum of `horizontal_advance * (pt / 32)`,
and the translations of a line of two in-range code points differ by the advance of the
first times `pt / 32`; with rounding the second translation is the rounded sum
`fl (x + advance * scale)`. -/
theorem write_text_pen (fl : ℚ → ℚ) (a : CharacterAtlas) (x y z : ℚ) (pre post : List Nat)
    (c : Nat) (hlen : a.glyphs.length = a.ccount) (hc : a.cstart + a.ccount ≤ 2 ^ 32)
    (hu : ∀ c' ∈ pre, c' < 2 ^ 32) (hin : a.in_range c = true) :
    (∃ p, (write_text_rounded fl a x y z (pre ++ c :: post))[(pre.filter a.in_range).length]?
        = some p ∧
      p.x = float_pen fl (fl (fl (a.pt : ℚ) / fl 32))
        ((pre.filter a.in_range).map (fun c' => (a.glyph c').horizontal_advance)) x ∧
      p.y = y ∧ p.offset = 4 * (c - a.cstart) * 4) ∧
    write_text_rounded (fun q => q) a x y z (pre ++ c :: post) =
      write_text a x y z (pre ++ c :: post) ∧
    (∃ p, (write_text a x y z (pre ++ c :: post))[(pre.filter a.in_range).length]? = some p ∧
      p.x = x + ((pre.filter a.in_range).map
        (fun c' => ((a.glyph c').horizontal_advance : ℚ) * ((a.pt : ℚ) / 32))).sum ∧
      p.y = y ∧ p.offset = 4 * (c - a.cstart) * 4) ∧
    (∀ c1 c2, a.in_range c1 = true → a.in_range c2 = true →
      (∃ p1 p2, write_text a x y z [c1, c2] = [p1, p2] ∧
        p2.x - p1.x = ((a.glyph c1).horizontal_advance : ℚ) * ((a.pt : ℚ) / 32)) ∧
      (∃ p1 p2, write_text_rounded fl a x y z [c1, c2] = [p1, p2] ∧ p1.x = x ∧
        p2.x = fl (x + fl (fl ((a.glyph c1).horizontal_advance : ℚ) *
          fl (fl (a.pt : ℚ) / fl 32))))) := by
  refine ⟨?_, write_text_rounded_id a x y z _, ?_, ?_⟩
  · have hne : (pre ++ c :: post).length ≠ 0 := by simp
    simp only [write_text_rounded, hne, if_false]
    have := write_text_loop_rounded_at fl a y z (fl (fl (a.pt : ℚ) / fl (base_font_size : ℚ)))
      hlen hc pre post c hu hin x 0
    simpa [base_font_size] using this
  · have hne : (pre ++ c :: post).length ≠ 0 := by simp
    simp only [write_text, hne, if_false]
    have := write_text_loop_at a y z ((a.pt : ℚ) / (base_font_size : ℚ)) hlen hc pre post c hu
      hin x 0
    simpa [base_font_size] using this
  · intro c1 c2 h1 h2
    have g1 := in_range_guard a c1 hlen hc h1
    have g2 := in_range_guard a c2 hlen hc h2
    constructor
    · refine ⟨Placement.mk x y (z + (u32 (0 + 1) : ℚ) / 1000000) (4 * u32_sub c1 a.cstart * 4),
        Placement.mk
          (x + ((a.glyphs.getD (u32_sub c1 a.cstart) Glyph.zero).horizontal_advance : ℚ) *
            ((a.pt : ℚ) / (base_font_size : ℚ)))
          y (z + (u32 (u32 (0 + 1) + 1) : ℚ) / 1000000) (4 * u32_sub c2 a.cstart * 4), ?_, ?_⟩
      · simp only [write_text, List.length_cons, List.length_nil, Nat.add_one_ne_zero, if_false,
          write_text_loop, if_neg (not_le.mpr g1), if_neg (not_le.mpr g2)]
      · simp only [CharacterAtlas.glyph, in_range_index a c1 hc h1, base_font_size]
        norm_num
    · refine ⟨Placement.mk x y (fl (z + fl (fl (u32 (0 + 1) : ℚ) / fl 1000000)))
          (4 * u32_sub c1 a.cstart * 4),
        Placement.mk
          (fl (x + fl (fl ((a.glyphs.getD (u32_sub c1 a.cstart) Glyph.zero).horizontal_advance : ℚ)
            * fl (fl (a.pt : ℚ) / fl (base_font_size : ℚ)))))
          y (fl (z + fl (fl (u32 (u32 (0 + 1) + 1) : ℚ) / fl 1000000)))
          (4 * u32_sub c2 a.cstart * 4), ?_, rfl, ?_⟩
      · simp only [write_text_rounded, List.length_cons, List.length_nil, Nat.add_one_ne_zero,
          if_false, write_text_loop_rounded, if_neg (not_le.mpr g1), if_neg (not_le.mpr g2)]
      · simp only [CharacterAtlas.glyph, in_range_index a c1 hc h1, base_font_size]
        norm_num

/-- Witness of `write_text_pen`: the character 66 in the line of the code points
65, 200, 66, 65 written with `two_glyph_atlas` at the origin `(3, 5)`, in the arithmetic of
the type `float`. -/
theorem write_text_pen_witness :
    two_glyph_atlas.glyphs.length = two_glyph_atlas.ccount ∧
    two_glyph_atlas.cstart + two_glyph_atlas.ccount ≤ 2 ^ 32 ∧
    (∀ c' ∈ ([65, 200] : List Nat), c' < 2 ^ 32) ∧ two_glyph_atlas.in_range 66 = true ∧
    (∃ p, (write_text_rounded binary32 two_glyph_atlas 3 5 0 ([65, 200] ++ 66 :: [65]))[(([65, 200] : List Nat).filter two_glyph_atlas.in_range).length]? = some p ∧
      p.x = float_pen binary32 (binary32 (binary32 (two_glyph_atlas.pt : ℚ) / binary32 32))
        ((([65, 200] : List Nat).filter two_glyph_atlas.in_range).map
          (fun c' => (two_glyph_atlas.glyph c').horizontal_advance)) 3 ∧
      p.y = 5 ∧ p.offset = 4 * (66 - two_glyph_atlas.cstart) * 4) ∧
    (∃ p, (write_text two_glyph_atlas 3 5 0 ([65, 200] ++ 66 :: [65]))[(([65, 200] : List Nat).filter two_glyph_atlas.in_range).length]? = some p ∧
      p.x = 3 + ((([65, 200] : List Nat).filter two_glyph_atlas.in_range).map
        (fun c' => ((two_glyph_atlas.glyph c').horizontal_advance : ℚ) * ((two_glyph_atlas.pt : ℚ) / 32))).sum ∧
      p.y = 5 ∧ p.offset = 4 * (66 - two_glyph_atlas.cstart) * 4) :=
  ⟨by decide, by decide, by decide, by decide,
    (write_text_pen binary32 two_glyph_atlas 3 5 0 [65, 200] [65] 66 (by decide) (by decide)
      (by decide) (by decide)).1,
    (write_text_pen binary32 two_glyph_atlas 3 5 0 [65, 200] [65] 66 (by decide) (by decide)
      (by decide) (by decide)).2.2.1⟩

/-! ## The range guard -/

/-- C11. For a 32-bit code point `c` and an atlas whose glyph table has `ccount` entries
with `cstart + ccount ≤ 2 ^ 32`: the guard of `write_text` and `get_bounding_box`, the
unsigned difference `c - cstart` compared with `glyphs.size()`, accepts `c` exactly when
`cstart ≤ c < cstart + ccount`; a code point below `cstart` is rejected, an accepted code
point yields the index `c - cstart`, which lies inside the glyph table; `write_text` draws
the single code point `c` exactly when it is in that range, and a rejected code point
leaves the bounding box at `(0, 0)`. -/
theorem guard_accepts_range (a : CharacterAtlas) (c : Nat) (x y z : ℚ) (box : Int × Int)
    (hlen : a.glyphs.length = a.ccount) (hc : a.cstart + a.ccount ≤ 2 ^ 32)
    (hcu : c < 2 ^ 32) :
    (u32_sub c a.cstart < a.glyphs.length ↔ a.cstart ≤ c ∧ c < a.cstart + a.ccount) ∧
    (c < a.cstart → ¬ u32_sub c a.cstart < a.glyphs.length) ∧
    (u32_sub c a.cstart < a.glyphs.length →
      u32_sub c a.cstart = c - a.cstart ∧ c - a.cstart < a.glyphs.length) ∧
    ((write_text a x y z [c]).length = 1 ↔ a.cstart ≤ c ∧ c < a.cstart + a.ccount) ∧
    (¬ (a.cstart ≤ c ∧ c < a.cstart + a.ccount) →
      write_text a x y z [c] = [] ∧ get_bounding_box a box [c] = (0, 0)) := by
  have hiff : u32_sub c a.cstart < a.glyphs.length ↔ a.cstart ≤ c ∧ c < a.cstart + a.ccount := by
    rw [guard_iff_in_range a c hlen hc hcu]
    simp [CharacterAtlas.in_range]
  have hidx : u32_sub c a.cstart < a.glyphs.length → u32_sub c a.cstart = c - a.cstart := by
    intro h
    exact in_range_index a c hc ((guard_iff_in_range a c hlen hc hcu).mp h)
  refine ⟨hiff, fun hlt h => ?_, fun h => ⟨hidx h, ?_⟩, ?_, fun hout => ?_⟩
  · have := hiff.mp h
    omega
  · rw [← hidx h]
    exact h
  · by_cases hg : u32_sub c a.cstart < a.glyphs.length
    · simp [write_text, write_text_loop, if_neg (not_le.mpr hg), hiff.mp hg]
    · have hno : ¬ (a.cstart ≤ c ∧ c < a.cstart + a.ccount) := fun h => hg (hiff.mpr h)
      simp [write_text, write_text_loop, if_pos (not_lt.mp hg), hno]
  · have hg : ¬ u32_sub c a.cstart < a.glyphs.length := fun h => hout (hiff.mp h)
    constructor
    · simp [write_text, write_text_loop, if_pos (not_lt.mp hg)]
    · simp [get_bounding_box, hg]

/-- Witness of `guard_accepts_range`: the code point 64, just below the range of
`two_glyph_atlas`. -/
theorem guard_accepts_range_witness :
    two_glyph_atlas.glyphs.length = two_glyph_atlas.ccount ∧
    two_glyph_atlas.cstart + two_glyph_atlas.ccount ≤ 2 ^ 32 ∧ 64 < 2 ^ 32 ∧
    ((u32_sub 64 two_glyph_atlas.cstart < two_glyph_atlas.glyphs.length ↔
        two_glyph_atlas.cstart ≤ 64 ∧ 64 < two_glyph_atlas.cstart + two_glyph_atlas.ccount) ∧
    (64 < two_glyph_atlas.cstart → ¬ u32_sub 64 two_glyph_atlas.cstart <
        two_glyph_atlas.glyphs.length) ∧
    (u32_sub 64 two_glyph_atlas.cstart < two_glyph_atlas.glyphs.length →
      u32_sub 64 two_glyph_atlas.cstart = 64 - two_glyph_atlas.cstart ∧
        64 - two_glyph_atlas.cstart < two_glyph_atlas.glyphs.length) ∧
    ((write_text two_glyph_atlas 3 5 0 [64]).length = 1 ↔
        two_glyph_atlas.cstart ≤ 64 ∧ 64 < two_glyph_atlas.cstart + two_glyph_atlas.ccount) ∧
    (¬ (two_glyph_atlas.cstart ≤ 64 ∧ 64 < two_glyph_atlas.cstart + two_glyph_atlas.ccount) →
      write_text two_glyph_atlas 3 5 0 [64] = [] ∧
        get_bounding_box two_glyph_atlas (3, 9) [64] = (0, 0))) :=
  ⟨by decide, by decide, by decide,
    guard_accepts_range two_glyph_atlas 64 3 5 0 (3, 9) (by decide) (by decide) (by decide)⟩

/-! ## Out-of-range code points -/

theorem write_text_loop_offsets (a : CharacterAtlas) (yy z sc : ℚ)
    (hlen : a.glyphs.length = a.ccount) (hc : a.cstart + a.ccount ≤ 2 ^ 32)
    (line : List Nat) (hu : ∀ c ∈ line, c < 2 ^ 32) (xx : ℚ) (count : Nat) :
    (write_text_loop a yy z sc line xx count).map (fun p => p.offset) =
      (line.filter a.in_range).map (fun c => 4 * (c - a.cstart) * 4) := by
  induction line generalizing xx count with
  | nil => rfl
  | cons c line ih =>
    have hu' : ∀ c' ∈ line, c' < 2 ^ 32 := fun c' h => hu c' (List.mem_cons_of_mem _ h)
    by_cases hin : a.in_range c = true
    · have hg := in_range_guard a c hlen hc hin
      simp only [write_text_loop, if_neg (not_le.mpr hg), List.filter_cons, hin, if_true,
        List.map_cons, ih hu']
      rw [in_range_index a c hc hin]
    · have hg : ¬ u32_sub c a.cstart < a.glyphs.length := fun h =>
        hin ((guard_iff_in_range a c hlen hc (hu c (List.mem_cons_self _ _))).mp h)
      simp only [write_text_loop, if_pos (not_lt.mp hg), List.filter_cons, hin,
        Bool.false_eq_true, if_false, ih hu']

theorem write_text_loop_filter (a : CharacterAtlas) (yy z sc : ℚ)
    (hlen : a.glyphs.length = a.ccount) (hc : a.cstart + a.ccount ≤ 2 ^ 32)
    (line : List Nat) (hu : ∀ c ∈ line, c < 2 ^ 32) (xx : ℚ) (count1 count2 : Nat) :
    (write_text_loop a yy z sc line xx count1).map (fun p => (p.x, p.y, p.offset)) =
      (write_text_loop a yy z sc (line.filter a.in_range) xx count2).map
        (fun p => (p.x, p.y, p.offset)) := by
  induction line generalizing xx count1 count2 with
  | nil => rfl
  | cons c line ih =>
    have hu' : ∀ c' ∈ line, c' < 2 ^ 32 := fun c' h => hu c' (List.mem_cons_of_mem _ h)
    by_cases hin : a.in_range c = true
    · have hg := in_range_guard a c hlen hc hin
      simp only [write_text_loop, if_neg (not_le.mpr hg), List.filter_cons, hin, if_true,
        List.map_cons]
      rw [ih hu' _ (u32 (count1 + 1)) (u32 (count2 + 1))]
    · have hg : ¬ u32_sub c a.cstart < a.glyphs.length := fun h =>
        hin ((guard_iff_in_range a c hlen hc (hu c (List.mem_cons_self _ _))).mp h)
      simp only [write_text_loop, if_pos (not_lt.mp hg), List.filter_cons, hin,
        Bool.false_eq_true, if_false]
      exact ih hu' xx (u32 (count1 + 1)) count2

theorem write_text_eq_loop (a : CharacterAtlas) (x y z : ℚ) (line : List Nat) :
    write_text a x y z line =
      write_text_loop a y z ((a.pt : ℚ) / (base_font_size : ℚ)) line x 0 := by
  unfold write_text
  cases line with
  | nil => rfl
  | cons c line => simp

/-- C12. For every line of 32-bit code points: `write_text` issues one draw call for
each in-range code point and none for the others, in the order of the line (the glyphs
drawn are those of the in-range code points); the translations and glyphs of the draw
calls are those of the line from which the out-of-range code points are removed, so an
out-of-range code point neither moves the pen nor ends the loop. For a line of three code
points with only the middle one out of range there are exactly two draw calls, the first
at `x`, the second at `x` plus the advance of the first code point times `pt / 32`. -/
theorem write_text_skips_out_of_range (a : CharacterAtlas) (x y z : ℚ) (line : List Nat)
    (hlen : a.glyphs.length = a.ccount) (hc : a.cstart + a.ccount ≤ 2 ^ 32)
    (hu : ∀ c ∈ line, c < 2 ^ 32) :
    (write_text a x y z line).map (fun p => p.offset) =
      (line.filter a.in_range).map (fun c => 4 * (c - a.cstart) * 4) ∧
    (write_text a x y z line).map (fun p => (p.x, p.y, p.offset)) =
      (write_text a x y z (line.filter a.in_range)).map (fun p => (p.x, p.y, p.offset)) ∧
    (∀ c1 c2 c3, line = [c1, c2, c3] → a.in_range c1 = true → a.in_range c2 = false →
      a.in_range c3 = true →
      ∃ p1 p2, write_text a x y z line = [p1, p2] ∧
        p1.x = x ∧ p1.y = y ∧ p1.offset = 4 * (c1 - a.cstart) * 4 ∧
        p2.x = x + ((a.glyph c1).horizontal_advance : ℚ) * ((a.pt : ℚ) / 32) ∧ p2.y = y ∧
        p2.offset = 4 * (c3 - a.cstart) * 4) := by
  refine ⟨?_, ?_, ?_⟩
  · rw [write_text_eq_loop]
    exact write_text_loop_offsets a y z _ hlen hc line hu x 0
  · rw [write_text_eq_loop, write_text_eq_loop]
    exact write_text_loop_filter a y z _ hlen hc line hu x 0 0
  · intro c1 c2 c3 hl h1 h2 h3
    subst hl
    have g1 := in_range_guard a c1 hlen hc h1
    have g3 := in_range_guard a c3 hlen hc h3
    have g2 : ¬ u32_sub c2 a.cstart < a.glyphs.length := fun h => by
      have := (guard_iff_in_range a c2 hlen hc (hu c2 (by simp))).mp h
      rw [h2] at this
      exact Bool.false_ne_true this
    refine ⟨Placement.mk x y (z + (u32 (0 + 1) : ℚ) / 1000000) (4 * u32_sub c1 a.cstart * 4),
      Placement.mk
        (x + ((a.glyphs.getD (u32_sub c1 a.cstart) Glyph.zero).horizontal_advance : ℚ) *
          ((a.pt : ℚ) / (base_font_size : ℚ)))
        y (z + (u32 (u32 (u32 (0 + 1) + 1) + 1) : ℚ) / 1000000) (4 * u32_sub c3 a.cstart * 4),
      ?_, rfl, rfl, ?_, ?_, rfl, ?_⟩
    · simp only [write_text, List.length_cons, List.length_nil, Nat.add_one_ne_zero, if_false,
        write_text_loop, if_neg (not_le.mpr g1), if_neg (not_le.mpr g3), if_pos (not_lt.mp g2)]
    · simp only [in_range_index a c1 hc h1]
    · simp only [CharacterAtlas.glyph, in_range_index a c1 hc h1, base_font_size]
      norm_num
    · simp only [in_range_index a c3 hc h3]

/-- Witness of `write_text_skips_out_of_range`: the line of the code points 65, 200, 66
written with `two_glyph_atlas` at the origin `(3, 5)`. -/
theorem write_text_skips_out_of_range_witness :
    two_glyph_atlas.glyphs.length = two_glyph_atlas.ccount ∧
    two_glyph_atlas.cstart + two_glyph_atlas.ccount ≤ 2 ^ 32 ∧
    (∀ c ∈ ([65, 200, 66] : List Nat), c < 2 ^ 32) ∧
    ((write_text two_glyph_atlas 3 5 0 [65, 200, 66]).map (fun p => p.offset) =
      (([65, 200, 66] : List Nat).filter two_glyph_atlas.in_range).map
        (fun c => 4 * (c - two_glyph_atlas.cstart) * 4) ∧
    (write_text two_glyph_atlas 3 5 0 [65, 200, 66]).map (fun p => (p.x, p.y, p.offset)) =
      (write_text two_glyph_atlas 3 5 0
        (([65, 200, 66] : List Nat).filter two_glyph_atlas.in_range)).map
        (fun p => (p.x, p.y, p.offset)) ∧
    (∀ c1 c2 c3, ([65, 200, 66] : List Nat) = [c1, c2, c3] →
      two_glyph_atlas.in_range c1 = true → two_glyph_atlas.in_range c2 = false →
      two_glyph_atlas.in_range c3 = true →
      ∃ p1 p2, write_text two_glyph_atlas 3 5 0 [65, 200, 66] = [p1, p2] ∧
        p1.x = 3 ∧ p1.y = 5 ∧ p1.offset = 4 * (c1 - two_glyph_atlas.cstart) * 4 ∧
        p2.x = 3 + ((two_glyph_atlas.glyph c1).horizontal_advance : ℚ) *
          ((two_glyph_atlas.pt : ℚ) / 32) ∧ p2.y = 5 ∧
        p2.offset = 4 * (c3 - two_glyph_atlas.cstart) * 4)) :=
  ⟨by decide, by decide, by decide,
    write_text_skips_out_of_range two_glyph_atlas 3 5 0 [65, 200, 66] (by decide) (by decide)
      (by decide)⟩

/-! ## The checks of the cached image -/

theorem generate_cached_cases (a : CharacterAtlas) (ft : Nat → FT_GlyphSlot) (png : PngImage)
    (hn : 1 ≤ a.ccount) :
    (png.col ≠ 0 ∧
      generate_character_map a ft (some png) = Except.error Fault.invalid_number_of_colors) ∨
    (png.col = 0 ∧ png.bit_depth ≠ 8 ∧
      generate_character_map a ft (some png) = Except.error Fault.invalid_bit_depth) ∨
    (png.col = 0 ∧ png.bit_depth = 8 ∧
      ∃ r, generate_character_map a ft (some png) = Except.ok r ∧
        r.atlas.texture_width = png.width ∧ r.atlas.texture_height = png.height) := by
  have hcw : Nat.sqrt a.ccount ≠ 0 := by
    have := Nat.sqrt_pos.mpr hn
    omega
  unfold generate_character_map
  simp only [hcw, if_false]
  by_cases hcol : png.col = 0
  · by_cases hbd : png.bit_depth = 8
    · right; right
      simp only [hcol, hbd, ne_eq, not_true_eq_false, if_false]
      exact ⟨trivial, trivial, _, rfl, rfl, rfl⟩
    · right; left
      simp only [hcol, hbd, ne_eq, not_true_eq_false, not_false_eq_true, if_false, if_true]
      exact ⟨trivial, trivial, trivial⟩
  · left
    simp only [hcol, ne_eq, not_false_eq_true, if_true]
    exact ⟨trivial, trivial⟩

/-- C13 as stated fails: for the empty character range (`ccount = 0`) and the cached image
`cached_png`, which is greyscale with bit depth 8, `generate_character_map` produces no
atlas: `charmap_width` is `0` and `counter % charmap_width` (line 453) divides by zero
before the cached image is examined. A greyscale 8-bit cache does not always yield an atlas,
and the construction stops although neither `col ≠ 0` nor `bit_depth ≠ 8` holds. -/
theorem cached_checks_not_reached :
    cached_png.col = 0 ∧ cached_png.bit_depth = 8 ∧
    generate_character_map (CharacterAtlas.init 14 65 0) wide_last_ft (some cached_png) =
      Except.error Fault.division_by_zero ∧
    (¬ ∃ r, generate_character_map (CharacterAtlas.init 14 65 0) wide_last_ft (some cached_png)
      = Except.ok r) ∧
    ¬ ((∃ r, generate_character_map (CharacterAtlas.init 14 65 0) wide_last_ft (some cached_png)
        = Except.ok r) ↔ (cached_png.col = 0 ∧ cached_png.bit_depth = 8)) := by
  have h : generate_character_map (CharacterAtlas.init 14 65 0) wide_last_ft (some cached_png) =
      Except.error Fault.division_by_zero := by
    unfold generate_character_map
    simp [CharacterAtlas.init]
  have hno : ¬ ∃ r, generate_character_map (CharacterAtlas.init 14 65 0) wide_last_ft
      (some cached_png) = Except.ok r := by
    rintro ⟨r, hr⟩
    rw [h] at hr
    cases hr
  exact ⟨rfl, rfl, h, hno, fun hiff => hno (hiff.mpr ⟨rfl, rfl⟩)⟩

/-- C13 (amended). For a non-empty character range (`ccount ≥ 1`) and a cache file that
exists: `generate_character_map` produces an atlas exactly when the loaded image is
greyscale (`col = 0`) with bit depth 8, and stops by one of its two `exit(-1)` calls,
without an atlas, exactly when `col ≠ 0` or the bit depth is not 8; a cache of bit depth 4
never yields an atlas. For the empty range (`ccount = 0`) the function divides by zero
before it examines the image, whatever the image is. -/
theorem cached_image_checks (a : CharacterAtlas) (ft : Nat → FT_GlyphSlot) (png : PngImage)
    (hn : 1 ≤ a.ccount) :
    ((∃ r, generate_character_map a ft (some png) = Except.ok r) ↔
      (png.col = 0 ∧ png.bit_depth = 8)) ∧
    ((generate_character_map a ft (some png) = Except.error Fault.invalid_number_of_colors ∨
      generate_character_map a ft (some png) = Except.error Fault.invalid_bit_depth) ↔
      (png.col ≠ 0 ∨ png.bit_depth ≠ 8)) ∧
    (png.bit_depth = 4 → ∀ r, generate_character_map a ft (some png) ≠ Except.ok r) ∧
    generate_character_map { a with ccount := 0 } ft (some png) =
      Except.error Fault.division_by_zero := by
  have hzero : generate_character_map { a with ccount := 0 } ft (some png) =
      Except.error Fault.division_by_zero := by
    unfold generate_character_map
    simp
  rcases generate_cached_cases a ft png hn with ⟨h1, h2⟩ | ⟨h1, h2, h3⟩ | ⟨h1, h2, r, h3, _⟩
  · refine ⟨⟨fun ⟨r, hr⟩ => ?_, fun h => absurd h.1 h1⟩, ⟨fun _ => Or.inl h1, fun _ => Or.inl h2⟩,
      fun _ r hr => ?_, hzero⟩
    · rw [h2] at hr; cases hr
    · rw [h2] at hr; cases hr
  · refine ⟨⟨fun ⟨r, hr⟩ => ?_, fun h => absurd h.2 h2⟩, ⟨fun _ => Or.inr h2, fun _ => Or.inr h3⟩,
      fun _ r hr => ?_, hzero⟩
    · rw [h3] at hr; cases hr
    · rw [h3] at hr; cases hr
  · refine ⟨⟨fun _ => ⟨h1, h2⟩, fun _ => ⟨r, h3⟩⟩, ⟨fun h => ?_, fun h => ?_⟩, fun h4 => ?_,
      hzero⟩
    · rcases h with h | h <;> rw [h3] at h <;> cases h
    · rcases h with h | h
      · exact absurd h1 h
      · exact absurd h2 h
    · rw [h2] at h4
      omega

/-- Witness of `cached_image_checks`: the five characters `60 .. 64` of `wide_last_ft`
with the cached image `cached_png`. -/
theorem cached_image_checks_witness :
    1 ≤ (CharacterAtlas.init 14 60 5).ccount ∧
    (((∃ r, generate_character_map (CharacterAtlas.init 14 60 5) wide_last_ft (some cached_png)
        = Except.ok r) ↔ (cached_png.col = 0 ∧ cached_png.bit_depth = 8)) ∧
    ((generate_character_map (CharacterAtlas.init 14 60 5) wide_last_ft (some cached_png)
        = Except.error Fault.invalid_number_of_colors ∨
      generate_character_map (CharacterAtlas.init 14 60 5) wide_last_ft (some cached_png)
        = Except.error Fault.invalid_bit_depth) ↔
      (cached_png.col ≠ 0 ∨ cached_png.bit_depth ≠ 8)) ∧
    (cached_png.bit_depth = 4 → ∀ r,
      generate_character_map (CharacterAtlas.init 14 60 5) wide_last_ft (some cached_png)
        ≠ Except.ok r) ∧
    generate_character_map { CharacterAtlas.init 14 60 5 with ccount := 0 } wide_last_ft
      (some cached_png) = Except.error Fault.division_by_zero) :=
  ⟨by decide, cached_image_checks (CharacterAtlas.init 14 60 5) wide_last_ft cached_png
    (by decide)⟩

/-! ## The size of the cached image -/

theorem generate_built_texture (a : CharacterAtlas) (ft : Nat → FT_GlyphSlot)
    (hn : 1 ≤ a.ccount) :
    ∃ r, generate_character_map a ft none = Except.ok r ∧
      r.atlas.texture_width = r.img_width ∧ r.atlas.texture_height = r.img_height := by
  have hcw : Nat.sqrt a.ccount ≠ 0 := by
    have := Nat.sqrt_pos.mpr hn
    omega
  unfold generate_character_map
  simp only [hcw, if_false]
  exact ⟨_, rfl, rfl, rfl⟩

/-- C14 as stated fails: the five characters `65 .. 69` of `wide_last_ft` with a cached
greyscale 8-bit image of one pixel. `generate_character_map` accepts the image and keeps
`texture_width = 1`, `texture_height = 1`, while the texture coordinates are divided by
`img_width = 50`, `img_height = 75`. -/
theorem cached_size_not_checked :
    ∃ r, generate_character_map (CharacterAtlas.init 14 65 5) wide_last_ft (some small_png)
        = Except.ok r ∧
      r.atlas.texture_width = 1 ∧ r.atlas.texture_height = 1 ∧
      r.img_width = 50 ∧ r.img_height = 75 := by
  obtain ⟨r, hr, hW, hH, _⟩ := generate_layout (CharacterAtlas.init 14 65 5) wide_last_ft
    (some small_png) (by decide) (by decide) (by decide) (by
      intro png h
      cases h
      exact ⟨rfl, rfl⟩)
  rcases generate_cached_cases (CharacterAtlas.init 14 65 5) wide_last_ft small_png (by decide)
    with ⟨h1, _⟩ | ⟨_, h2, _⟩ | ⟨_, _, r2, hr2, hw2, hh2⟩
  · exact absurd rfl h1
  · exact absurd rfl h2
  · rw [hr] at hr2
    cases hr2
    refine ⟨r, hr, hw2, hh2, ?_, ?_⟩
    · rw [hW, wide_last_dims]
      simp only [CharacterAtlas.init, sqrt_five]
      decide
    · rw [hH, wide_last_dims]
      simp only [CharacterAtlas.init, sqrt_five]
      decide

/-! ## Lines that are not well formed -/

theorem write_text_loop_utf8_some (a : CharacterAtlas) (yy z sc : ℚ) (pre : List Nat)
    (post : List (Option Nat)) (xx : ℚ) (count : Nat) :
    write_text_loop_utf8 a yy z sc (pre.map some ++ none :: post) xx count =
      (write_text_loop a yy z sc pre xx count, true) := by
  induction pre generalizing xx count with
  | nil => rfl
  | cons c pre ih =>
    by_cases hg : a.glyphs.length ≤ u32_sub c a.cstart
    · simp only [List.map_cons, List.cons_append, write_text_loop_utf8, write_text_loop,
        if_pos hg]
      exact ih _ _
    · simp only [List.map_cons, List.cons_append, write_text_loop_utf8, write_text_loop,
        if_neg hg, List.append_eq, ih]

theorem write_text_loop_utf8_map (a : CharacterAtlas) (yy z sc : ℚ) (line : List Nat)
    (xx : ℚ) (count : Nat) :
    write_text_loop_utf8 a yy z sc (line.map some) xx count =
      (write_text_loop a yy z sc line xx count, false) := by
  induction line generalizing xx count with
  | nil => rfl
  | cons c line ih =>
    by_cases hg : a.glyphs.length ≤ u32_sub c a.cstart
    · simp only [List.map_cons, write_text_loop_utf8, write_text_loop, if_pos hg]
      exact ih _ _
    · simp only [List.map_cons, write_text_loop_utf8, write_text_loop, if_neg hg, ih]

theorem bounding_box_loop_utf8_some (a : CharacterAtlas) (sc : ℚ) (pre : List Nat)
    (post : List (Option Nat)) (box : Int × Int) :
    bounding_box_loop_utf8 a sc (pre.map some ++ none :: post) box =
      (pre.foldl (fun (box : Int × Int) (c : Nat) =>
        if u32_sub c a.cstart < a.glyphs.length then
          (trunc ((box.1 : ℚ) +
              ((a.glyphs.getD (u32_sub c a.cstart) Glyph.zero).horizontal_advance : ℚ) * sc),
            max box.2
              (trunc (((a.glyphs.getD (u32_sub c a.cstart) Glyph.zero).vertical_bearing : ℚ)
                * sc)))
        else box) box, true) := by
  induction pre generalizing box with
  | nil => rfl
  | cons c pre ih =>
    simp only [List.map_cons, List.cons_append, bounding_box_loop_utf8, List.foldl_cons]
    exact ih _

theorem bounding_box_loop_utf8_map (a : CharacterAtlas) (sc : ℚ) (line : List Nat)
    (box : Int × Int) :
    bounding_box_loop_utf8 a sc (line.map some) box =
      (line.foldl (fun (box : Int × Int) (c : Nat) =>
        if u32_sub c a.cstart < a.glyphs.length then
          (trunc ((box.1 : ℚ) +
              ((a.glyphs.getD (u32_sub c a.cstart) Glyph.zero).horizontal_advance : ℚ) * sc),
            max box.2
              (trunc (((a.glyphs.getD (u32_sub c a.cstart) Glyph.zero).vertical_bearing : ℚ)
                * sc)))
        else box) box, false) := by
  induction line generalizing box with
  | nil => rfl
  | cons c line ih =>
    simp only [List.map_cons, bounding_box_loop_utf8, List.foldl_cons]
    exact ih _

/-- C15 as stated fails: the line whose first call of `utf8::next` returns 65, whose
second call fails and whose third call would return 66, with `two_glyph_atlas`. Both
functions are left by the exception; `write_text` has drawn the glyph of 65 only, and
`get_bounding_box` has measured the glyph of 65 only (width 4 instead of 7). -/
theorem decoding_failure_propagates :
    (write_text_utf8 two_glyph_atlas 3 5 0 [some 65, none, some 66]).2 = true ∧
    (write_text_utf8 two_glyph_atlas 3 5 0 [some 65, none, some 66]).1.length = 1 ∧
    (write_text two_glyph_atlas 3 5 0 [65, 66]).length = 2 ∧
    (get_bounding_box_utf8 two_glyph_atlas (0, 0) [some 65, none, some 66]).2 = true ∧
    (get_bounding_box_utf8 two_glyph_atlas (0, 0) [some 65, none, some 66]).1.1 = 4 ∧
    (get_bounding_box two_glyph_atlas (0, 0) [65, 66]).1 = 7 := by
  refine ⟨?_, ?_, ?_, ?_, ?_, ?_⟩
  · simp [write_text_utf8, write_text_loop_utf8, two_glyph_atlas, u32_sub]
  · simp [write_text_utf8, write_text_loop_utf8, two_glyph_atlas, u32_sub]
  · simp [write_text, write_text_loop, two_glyph_atlas, u32_sub]
  · simp [get_bounding_box_utf8, bounding_box_loop_utf8]
  · norm_num [get_bounding_box_utf8, bounding_box_loop_utf8, two_glyph_atlas, u32_sub, trunc,
      Glyph.zero, base_font_size, Int.floor_eq_iff]
  · rw [get_bounding_box_eq two_glyph_atlas (0, 0) [65, 66] (by decide) (by decide) (by decide)]
    norm_num [two_glyph_atlas, CharacterAtlas.glyph, Glyph.zero, trunc, Int.floor_eq_iff]

/-- C15 (amended). When a call of `utf8::next` fails, after the code points `pre` have
been decoded, `write_text` and `get_bounding_box` are left by the exception: the draw calls
are those of `pre`, the box is the one measured for `pre`, and nothing of the rest of the
line is processed. On a well-formed line no exception leaves the functions and they do
what `write_text` and `get_bounding_box` do on its code points. -/
theorem decoding_failure_stops (a : CharacterAtlas) (x y z : ℚ) (box : Int × Int)
    (pre : List Nat) (post : List (Option Nat)) :
    write_text_utf8 a x y z (pre.map some ++ none :: post) = (write_text a x y z pre, true) ∧
    get_bounding_box_utf8 a box (pre.map some ++ none :: post) =
      (get_bounding_box a box pre, true) ∧
    write_text_utf8 a x y z (pre.map some) = (write_text a x y z pre, false) ∧
    get_bounding_box_utf8 a box (pre.map some) = (get_bounding_box a box pre, false) := by
  refine ⟨?_, ?_, ?_, ?_⟩
  · have hne : (pre.map some ++ none :: post).length ≠ 0 := by simp
    simp only [write_text_utf8, hne, if_false, write_text_loop_utf8_some, write_text_eq_loop]
  · have hne : (pre.map some ++ none :: post).length ≠ 0 := by simp
    simp only [get_bounding_box_utf8, hne, if_false, bounding_box_loop_utf8_some]
    cases pre with
    | nil => rfl
    | cons c pre => simp [get_bounding_box]
  · cases pre with
    | nil => rfl
    | cons c pre =>
      have hne : ((c :: pre).map some).length ≠ 0 := by simp
      simp only [write_text_utf8, hne, if_false, write_text_loop_utf8_map, write_text_eq_loop]
  · cases pre with
    | nil => rfl
    | cons c pre =>
      have hne : ((c :: pre).map some).length ≠ 0 := by simp
      simp only [get_bounding_box_utf8, hne, if_false, bounding_box_loop_utf8_map]
      simp [get_bounding_box]

/-! ## A sample depth of zero -/

theorem pixel_byte_at_sample_depth (data : List Bool) (width height l k : Int) :
    pixel_byte_at sample_depth data width height l k =
      some (sdf_byte (data.getD (l + width * k).toNat false)
        (min_dist_sq data width height l k)) := by
  have hm : max_dist_sq_at sample_depth = max_dist_sq := rfl
  have hd : min_dist_sq_at sample_depth data width height l k =
      min_dist_sq data width height l k := rfl
  have h0 : max_dist_sq ≠ 0 := by decide
  simp only [pixel_byte_at, hm, hd, h0, if_false, sdf_byte]
  split <;> rfl

set_option maxRecDepth 200000 in
theorem min_dist_sq_01 :
    min_dist_sq [true, false] 2 1 0 0 = 1 ∧ min_dist_sq [true, false] 2 1 1 0 = 1 := by
  decide

theorem sdf_byte_one : sdf_byte true 1 = 136 ∧ sdf_byte false 1 = 118 := by
  have h1 : Nat.sqrt 325 = 18 := by norm_num [Nat.sqrt, Nat.sqrt.iter]
  have h2 : Nat.sqrt 326 = 18 := by norm_num [Nat.sqrt, Nat.sqrt.iter]
  constructor
  · simp only [sdf_byte, if_true, max_dist_sq_eq]
    norm_num [h1]
  · simp only [sdf_byte, Bool.false_eq_true, if_false, max_dist_sq_eq, ceil_sqrt]
    norm_num [h2]

/-- C16 as stated fails: with `sample_depth = 0` the byte of the only pixel of the
inside bitmap of one pixel is not 255; `max_dist` is zero there and `distance / max_dist`
divides by zero. -/
theorem zero_sample_depth_divides_by_zero :
    max_dist_sq_at 0 = 0 ∧ min_dist_sq_at 0 [true] 1 1 0 0 = 0 ∧
    pixel_byte_at 0 [true] 1 1 0 0 = none ∧ pixel_byte_at 0 [true] 1 1 0 0 ≠ some 255 := by
  have h : pixel_byte_at 0 [true] 1 1 0 0 = none := by
    simp [pixel_byte_at, max_dist_sq_at]
  refine ⟨by decide, by decide, h, ?_⟩
  rw [h]
  exact fun hc => Option.noConfusion hc

/-- C16 (amended). The sample radius of `calculate_distance_field` is the constant
`sample_depth = 10`: for it `max_dist` is not zero, every pixel gets the byte `sdf_byte` of
its distance, and the field is not binary (in the bitmap of an inside pixel followed by an
outside pixel the bytes are 136 and 118). With a sample depth of 0, `max_dist` is zero and
`distance / max_dist` is a division by zero for every pixel of every bitmap. -/
theorem sample_depth_zero_undefined :
    (∀ (data : List Bool) (width height l k : Int),
      pixel_byte_at 0 data width height l k = none) ∧
    max_dist_sq_at sample_depth = 200 ∧
    (∀ (data : List Bool) (width height l k : Int),
      pixel_byte_at sample_depth data width height l k =
        some (sdf_byte (data.getD (l + width * k).toNat false)
          (min_dist_sq data width height l k))) ∧
    (calculate_distance_field [0, 0] [true, false] 2 1).getD 0 0 = 136 ∧
    (calculate_distance_field [0, 0] [true, false] 2 1).getD 1 0 = 118 := by
  refine ⟨fun data width height l k => ?_, by decide, pixel_byte_at_sample_depth, ?_, ?_⟩
  · simp [pixel_byte_at, max_dist_sq_at]
  · have := calculate_distance_field_getD [0, 0] [true, false] 2 1 (by decide) 0 0 (by decide)
      (by decide)
    simp only [Nat.cast_ofNat, CharP.cast_eq_zero, Nat.cast_one, zero_mul, add_zero,
      mul_zero] at this
    rw [this, min_dist_sq_01.1]
    exact sdf_byte_one.1
  · have := calculate_distance_field_getD [0, 0] [true, false] 2 1 (by decide) 1 0 (by decide)
      (by decide)
    simp only [Nat.cast_ofNat, CharP.cast_eq_zero, Nat.cast_one, zero_mul, add_zero,
      mul_zero] at this
    rw [this, min_dist_sq_01.2]
    exact sdf_byte_one.2

/-! ## Rows of the layout -/

theorem div_step_same (m cw : Nat) (hcw : 0 < cw) (h : (m + 1) % cw ≠ 0) :
    (m + 1) / cw = m / cw ∧ cw * (m / cw) ≤ m := by
  have h1 := Nat.div_add_mod m cw
  have h2 := Nat.mod_lt m hcw
  have hne : m % cw + 1 ≠ cw := by
    intro he
    apply h
    have : m + 1 = cw * (m / cw + 1) := by rw [Nat.mul_succ]; omega
    rw [this, Nat.mul_mod_right]
  have := (Nat.div_mod_unique hcw (a := m + 1) (d := m / cw) (c := m % cw + 1)).mpr
    ⟨by omega, by omega⟩
  exact ⟨this.1, by omega⟩

theorem div_step_next (m cw : Nat) (hcw : 0 < cw) (h : (m + 1) % cw = 0) :
    (m + 1) / cw = m / cw + 1 ∧ cw * (m / cw + 1) = m + 1 ∧ cw * (m / cw) ≤ m ∧
      m + 1 - cw * (m / cw) = cw := by
  have h1 := Nat.div_add_mod m cw
  have h2 := Nat.mod_lt m hcw
  have he : m % cw + 1 = cw := by
    by_contra hne
    have := (Nat.div_mod_unique hcw (a := m + 1) (d := m / cw) (c := m % cw + 1)).mpr
      ⟨by omega, by omega⟩
    omega
  have hm : cw * (m / cw + 1) = m + 1 := by rw [Nat.mul_succ]; omega
  have := (Nat.div_mod_unique hcw (a := m + 1) (d := m / cw + 1) (c := 0)).mpr
    ⟨by omega, hcw⟩
  exact ⟨this.1, hm, by omega, by omega⟩

theorem row_width_append (l : List (Nat × Nat)) (d : Nat × Nat) :
    row_width (l ++ [d]) = row_width l + (d.1 + 2 * 12) := by
  simp [row_width]

theorem row_height_append (l : List (Nat × Nat)) (d : Nat × Nat) :
    row_height (l ++ [d]) = max (row_height l) (d.2 + 2 * 12) := by
  unfold row_height
  induction l with
  | nil => simp
  | cons x l ih =>
    simp only [List.cons_append, List.map_cons, List.foldr_cons]
    rw [ih, max_assoc]

theorem take_succ_getD (ds : List (Nat × Nat)) (m : Nat) (hm : m < ds.length) :
    ds.take (m + 1) = ds.take m ++ [ds.getD m (0, 0)] := by
  rw [List.take_succ, List.getD_eq_getElem?_getD, List.getElem?_eq_getElem hm]
  rfl

theorem row_before_same (cw : Nat) (ds : List (Nat × Nat)) (m : Nat) (hm : m < ds.length)
    (hcw : 0 < cw) (h : (m + 1) % cw ≠ 0) :
    row_before cw ds (m + 1) = row_before cw ds m ++ [ds.getD m (0, 0)] := by
  obtain ⟨hq, hle⟩ := div_step_same m cw hcw h
  unfold row_before
  rw [hq, take_succ_getD ds m hm, List.drop_append_of_le_length]
  rw [List.length_take]
  omega

theorem row_before_next (cw : Nat) (ds : List (Nat × Nat)) (m : Nat) (hm : m < ds.length)
    (hcw : 0 < cw) (h : (m + 1) % cw = 0) :
    row_before cw ds (m + 1) = [] ∧
    layout_row cw ds (m / cw) = row_before cw ds m ++ [ds.getD m (0, 0)] := by
  obtain ⟨hq, hmul, hle, hsub⟩ := div_step_next m cw hcw h
  constructor
  · unfold row_before
    rw [hq, hmul]
    apply List.drop_of_length_le
    rw [List.length_take]
    omega
  · unfold row_before layout_row
    have e : (ds.drop (cw * (m / cw))).take cw = (ds.take (m + 1)).drop (cw * (m / cw)) := by
      rw [List.drop_take, hsub]
    rw [e, take_succ_getD ds m hm, List.drop_append_of_le_length]
    rw [List.length_take]
    omega

theorem cells_from_cons (cw : Nat) (d : Nat × Nat) (ds : List (Nat × Nat))
    (gx gy ty cnt : Nat) :
    cells_from cw (d :: ds) gx gy ty cnt =
      Cell.mk gx gy (padded d.1) (padded d.2) ::
        cells_from cw ds (pen_step cw (gx, gy, ty, cnt) d).1 (pen_step cw (gx, gy, ty, cnt) d).2.1
          (pen_step cw (gx, gy, ty, cnt) d).2.2.1 (pen_step cw (gx, gy, ty, cnt) d).2.2.2 := by
  simp only [cells_from, pen_step]
  split <;> rfl

theorem cells_from_getD_pen (cw : Nat) (ds : List (Nat × Nat)) (gx gy ty cnt : Nat) (i : Nat)
    (hi : i < ds.length) :
    (cells_from cw ds gx gy ty cnt).getD i Cell.zero =
      Cell.mk ((ds.take i).foldl (pen_step cw) (gx, gy, ty, cnt)).1
        ((ds.take i).foldl (pen_step cw) (gx, gy, ty, cnt)).2.1
        (padded (ds.getD i (0, 0)).1) (padded (ds.getD i (0, 0)).2) := by
  induction ds generalizing gx gy ty cnt i with
  | nil => simp at hi
  | cons d ds ih =>
    rw [cells_from_cons]
    cases i with
    | zero => rfl
    | succ i =>
      simp only [List.length_cons, Nat.add_lt_add_iff_right] at hi
      simp only [List.getD_cons_succ, List.take_succ_cons, List.foldl_cons]
      exact ih _ _ _ _ i hi

theorem cells_fit_at (cw : Nat) (ds : List (Nat × Nat)) (gx gy ty cnt : Nat)
    (hfit : cells_fit cw ds gx gy ty cnt = true) (i : Nat) (hi : i < ds.length) :
    ((ds.take i).foldl (pen_step cw) (gx, gy, ty, cnt)).2.2.2 + 1 < 2 ^ 32 ∧
    (ds.getD i (0, 0)).1 + 2 * font_padding < 2 ^ 32 ∧
    (ds.getD i (0, 0)).2 + 2 * font_padding < 2 ^ 32 ∧
    ((ds.take i).foldl (pen_step cw) (gx, gy, ty, cnt)).1 + padded (ds.getD i (0, 0)).1
      < 2 ^ 32 ∧
    (u32 (((ds.take i).foldl (pen_step cw) (gx, gy, ty, cnt)).2.2.2 + 1) % cw = 0 →
      ((ds.take i).foldl (pen_step cw) (gx, gy, ty, cnt)).2.1 +
        max ((ds.take i).foldl (pen_step cw) (gx, gy, ty, cnt)).2.2.1
          (padded (ds.getD i (0, 0)).2) < 2 ^ 32) := by
  induction ds generalizing gx gy ty cnt i with
  | nil => simp at hi
  | cons d ds ih =>
    simp only [cells_fit, Bool.and_eq_true, decide_eq_true_eq] at hfit
    obtain ⟨⟨⟨⟨⟨h1, h2⟩, h3⟩, h4⟩, _⟩, hrest⟩ := hfit
    cases i with
    | zero =>
      simp only [List.take_zero, List.foldl_nil, List.getD_cons_zero]
      refine ⟨h1, h2, h3, h4, fun hb => ?_⟩
      simp only [hb, if_true, Bool.and_eq_true, decide_eq_true_eq] at hrest
      exact hrest.1
    | succ i =>
      simp only [List.length_cons, Nat.add_lt_add_iff_right] at hi
      simp only [List.getD_cons_succ, List.take_succ_cons, List.foldl_cons]
      by_cases hb : u32 (cnt + 1) % cw = 0
      · simp only [hb, if_true, Bool.and_eq_true, decide_eq_true_eq] at hrest
        have hp : pen_step cw (gx, gy, ty, cnt) d =
            (0, u32 (gy + max ty (padded d.2)), 0, u32 (cnt + 1)) := by
          unfold pen_step
          exact if_pos hb
        rw [hp]
        exact ih _ _ _ _ hrest.2 i hi
      · simp only [hb, if_false] at hrest
        have hp : pen_step cw (gx, gy, ty, cnt) d =
            (u32 (gx + padded d.1), gy, max ty (padded d.2), u32 (cnt + 1)) := by
          unfold pen_step
          exact if_neg hb
        rw [hp]
        exact ih _ _ _ _ hrest i hi

theorem pen_closed (cw : Nat) (hcw : 0 < cw) (ds : List (Nat × Nat))
    (hfit : cells_fit cw ds 0 0 0 0 = true) (m : Nat) (hm : m ≤ ds.length) :
    (ds.take m).foldl (pen_step cw) (0, 0, 0, 0) =
      (spec_gx cw ds m, spec_gy cw ds m, row_height (row_before cw ds m), m) := by
  induction m with
  | zero =>
    simp [spec_gx, spec_gy, row_before, row_width, row_height]
  | succ m ih =>
    have hm' : m < ds.length := by omega
    obtain ⟨c1, c2, c3, c4, c5⟩ := cells_fit_at cw ds 0 0 0 0 hfit m hm'
    rw [ih (by omega)] at c1 c4 c5
    simp only at c1 c4 c5
    rw [take_succ_getD ds m hm', List.foldl_append, ih (by omega)]
    simp only [List.foldl_cons, List.foldl_nil]
    have hp1 : padded (ds.getD m (0, 0)).1 = (ds.getD m (0, 0)).1 + 2 * 12 := u32_of_lt c2
    have hp2 : padded (ds.getD m (0, 0)).2 = (ds.getD m (0, 0)).2 + 2 * 12 := u32_of_lt c3
    have hcnt : u32 (m + 1) = m + 1 := u32_of_lt c1
    rw [hcnt] at c5
    by_cases hb : (m + 1) % cw = 0
    · obtain ⟨hq, _, _, _⟩ := div_step_next m cw hcw hb
      obtain ⟨r1, r2⟩ := row_before_next cw ds m hm' hcw hb
      have c5' := c5 hb
      simp only [pen_step, hcnt, hb, if_true, u32_of_lt c5']
      have hw0 : row_width [] = 0 := rfl
      have hh0 : row_height [] = 0 := rfl
      simp only [spec_gx, spec_gy, r1, hq, List.range_succ, List.map_append, List.sum_append,
        List.map_cons, List.map_nil, List.sum_cons, List.sum_nil, add_zero, r2,
        row_height_append, hp2, hw0, hh0]
    · obtain ⟨hq, _⟩ := div_step_same m cw hcw hb
      have r1 := row_before_same cw ds m hm' hcw hb
      rw [hp1] at c4
      simp only [pen_step, hcnt, hb, if_false, hp1, u32_of_lt c4]
      simp only [spec_gx, spec_gy, r1, hq, row_width_append, row_height_append, hp2]

theorem size_pen_fold (cw : Nat) (hcw : 0 < cw) (ds : List (Nat × Nat)) (s : SizeState)
    (gx gy ty cnt : Nat) (h1 : s.temp_x = gx) (h2 : s.img_height = gy) (h3 : s.temp_y = ty)
    (h4 : s.counter = cnt % cw) (hfit : cells_fit cw ds gx gy ty cnt = true) :
    (ds.foldl (size_step cw) s).temp_x = (ds.foldl (pen_step cw) (gx, gy, ty, cnt)).1 ∧
    (ds.foldl (size_step cw) s).img_height = (ds.foldl (pen_step cw) (gx, gy, ty, cnt)).2.1 ∧
    (ds.foldl (size_step cw) s).temp_y = (ds.foldl (pen_step cw) (gx, gy, ty, cnt)).2.2.1 ∧
    (ds.foldl (size_step cw) s).counter =
      (ds.foldl (pen_step cw) (gx, gy, ty, cnt)).2.2.2 % cw := by
  induction ds generalizing s gx gy ty cnt with
  | nil => exact ⟨h1, h2, h3, h4⟩
  | cons d ds ih =>
    simp only [cells_fit, Bool.and_eq_true, decide_eq_true_eq] at hfit
    obtain ⟨⟨⟨⟨⟨c1, _⟩, _⟩, _⟩, _⟩, hrest⟩ := hfit
    have hle : cnt % cw ≤ cnt := Nat.mod_le _ _
    have hu1 : u32 (s.counter + 1) = cnt % cw + 1 := by rw [h4]; exact u32_of_lt (by omega)
    have hu2 : u32 (cnt + 1) = cnt + 1 := u32_of_lt c1
    have hmod : (cnt % cw + 1) % cw = (cnt + 1) % cw := Nat.mod_add_mod _ _ _
    simp only [List.foldl_cons]
    by_cases hb : (cnt + 1) % cw = 0
    · have hp : pen_step cw (gx, gy, ty, cnt) d =
          (0, u32 (gy + max ty (padded d.2)), 0, u32 (cnt + 1)) := by
        unfold pen_step
        exact if_pos (by rw [hu2]; exact hb)
      have hs : size_step cw s d =
          { counter := 0, img_width := max s.img_width (u32 (s.temp_x + padded d.1)),
            img_height := u32 (s.img_height + max s.temp_y (padded d.2)),
            temp_x := 0, temp_y := 0 } := by
        unfold size_step
        exact if_pos (by rw [hu1, hmod]; exact hb)
      rw [hp, hs]
      rw [hu2] at hrest
      simp only [hb, if_true, Bool.and_eq_true, decide_eq_true_eq] at hrest
      rw [← hu2] at hrest
      exact ih _ _ _ _ _ rfl (by simp only [h2, h3]) rfl (by rw [hu2, hb]) hrest.2
    · have hp : pen_step cw (gx, gy, ty, cnt) d =
          (u32 (gx + padded d.1), gy, max ty (padded d.2), u32 (cnt + 1)) := by
        unfold pen_step
        exact if_neg (by rw [hu2]; exact hb)
      have hs : size_step cw s d =
          { counter := u32 (s.counter + 1), img_width := s.img_width,
            img_height := s.img_height, temp_x := u32 (s.temp_x + padded d.1),
            temp_y := max s.temp_y (padded d.2) } := by
        unfold size_step
        exact if_neg (by rw [hu1, hmod]; exact hb)
      rw [hp, hs]
      rw [hu2] at hrest
      simp only [hb, if_false] at hrest
      rw [← hu2] at hrest
      refine ih _ _ _ _ _ (by simp only [h1]) h2 (by simp only [h3]) ?_ hrest
      simp only [hu1, hu2]
      have hlt : cnt % cw + 1 < cw := by
        have := Nat.mod_lt cnt hcw
        have hne : cnt % cw + 1 ≠ cw := by
          intro he
          rw [he, Nat.mod_self] at hmod
          exact hb hmod.symm
        omega
      rw [← hmod, Nat.mod_eq_of_lt hlt]

theorem size_fits_final (cw : Nat) (ds : List (Nat × Nat)) (s : SizeState)
    (hfit : size_fits cw ds s = true) :
    (ds.foldl (size_step cw) s).counter % cw ≠ 0 →
      (ds.foldl (size_step cw) s).img_height + (ds.foldl (size_step cw) s).temp_y < 2 ^ 32 := by
  induction ds generalizing s with
  | nil =>
    intro h
    simp only [List.foldl_nil] at h ⊢
    simp only [size_fits, h, ne_eq, not_false_eq_true, if_true, decide_eq_true_eq] at hfit
    exact hfit
  | cons d ds ih =>
    simp only [size_fits, Bool.and_eq_true] at hfit
    exact ih _ hfit.2

theorem atlas_height_closed (cw : Nat) (hcw : 0 < cw) (ds : List (Nat × Nat))
    (hsf : size_fits cw ds
      { img_width := 0, img_height := 0, temp_x := 0, temp_y := 0, counter := 0 } = true)
    (hcf : cells_fit cw ds 0 0 0 0 = true) :
    (atlas_size cw ds).2 = spec_atlas_height cw ds := by
  obtain ⟨_, e2, e3, e4⟩ := size_pen_fold cw hcw ds
    { img_width := 0, img_height := 0, temp_x := 0, temp_y := 0, counter := 0 } 0 0 0 0
    rfl rfl rfl (Nat.zero_mod cw).symm hcf
  have hfin := size_fits_final cw ds _ hsf
  have hpen := pen_closed cw hcw ds hcf ds.length (le_refl _)
  rw [List.take_length] at hpen
  rw [hpen] at e2 e3 e4
  simp only at e2 e3 e4
  have h1 := Nat.div_add_mod ds.length cw
  have h2 := Nat.mod_lt ds.length hcw
  unfold atlas_size
  simp only
  rw [e4, Nat.mod_mod] at hfin ⊢
  rw [e2, e3] at hfin ⊢
  by_cases hr : ds.length % cw = 0
  · simp only [hr, ne_eq, not_true_eq_false, if_false]
    have hrows : (ds.length + cw - 1) / cw = ds.length / cw :=
      ((Nat.div_mod_unique hcw (a := ds.length + cw - 1) (d := ds.length / cw)
        (c := cw - 1)).mpr ⟨by omega, by omega⟩).1
    simp only [spec_atlas_height, spec_gy, hrows]
  · simp only [hr, ne_eq, not_false_eq_true, if_true]
    rw [u32_of_lt (hfin hr)]
    have hrows : (ds.length + cw - 1) / cw = ds.length / cw + 1 :=
      ((Nat.div_mod_unique hcw (a := ds.length + cw - 1) (d := ds.length / cw + 1)
        (c := ds.length % cw - 1)).mpr ⟨by rw [Nat.mul_succ]; omega, by omega⟩).1
    have hrow : layout_row cw ds (ds.length / cw) = row_before cw ds ds.length := by
      unfold layout_row row_before
      rw [List.take_length]
      apply List.take_of_length_le
      rw [List.length_drop]
      omega
    simp only [spec_atlas_height, spec_gy, hrows, List.range_succ, List.map_append,
      List.sum_append, List.map_cons, List.map_nil, List.sum_cons, List.sum_nil, add_zero, hrow]

theorem spec_atlas_height_pos (cw : Nat) (hcw : 0 < cw) (ds : List (Nat × Nat))
    (hds : ds ≠ []) : 0 < spec_atlas_height cw ds := by
  obtain ⟨d, tl, rfl⟩ := List.exists_cons_of_ne_nil hds
  obtain ⟨c, rfl⟩ : ∃ c, cw = c + 1 := ⟨cw - 1, by omega⟩
  have hrows : 1 ≤ ((d :: tl).length + (c + 1) - 1) / (c + 1) := by
    rw [Nat.le_div_iff_mul_le hcw]
    simp only [List.length_cons]
    omega
  obtain ⟨k, hk⟩ : ∃ k, ((d :: tl).length + (c + 1) - 1) / (c + 1) = k + 1 :=
    ⟨((d :: tl).length + (c + 1) - 1) / (c + 1) - 1, by omega⟩
  unfold spec_atlas_height
  rw [hk, List.range_succ_eq_map, List.map_cons, List.sum_cons]
  have : 24 ≤ row_height (layout_row (c + 1) (d :: tl) 0) := by
    simp only [layout_row, Nat.mul_zero, List.drop_zero, List.take_succ_cons, row_height,
      List.map_cons, List.foldr_cons]
    have := le_max_left (d.2 + 2 * 12) (List.foldr max 0 (List.map (fun d => d.2 + 2 * 12)
      (List.take c tl)))
    omega
  omega

/-! ## Offsets and texture coordinates of a glyph -/

theorem generate_offsets (a : CharacterAtlas) (ft : Nat → FT_GlyphSlot)
    (cache : Option PngImage) (hlen : a.glyphs.length = a.ccount) (hn : 1 ≤ a.ccount)
    (hfit : no_overflow a ft = true)
    (hcache : ∀ png, cache = some png → png.col = 0 ∧ png.bit_depth = 8) :
    ∃ r, generate_character_map a ft cache = Except.ok r ∧
      0 < r.img_height ∧
      ∀ i, i < a.ccount →
        r.cells.getD i Cell.zero =
          Cell.mk (spec_gx (Nat.sqrt a.ccount) (glyph_dims a ft) i)
            (spec_gy (Nat.sqrt a.ccount) (glyph_dims a ft) i)
            ((ft (a.cstart + i)).bitmap.width + 2 * 12)
            ((ft (a.cstart + i)).bitmap.rows + 2 * 12) ∧
        (r.atlas.glyphs.getD i Glyph.zero).tex =
          (((spec_gx (Nat.sqrt a.ccount) (glyph_dims a ft) i : Nat) : ℚ) / (r.img_width : ℚ),
           ((spec_gx (Nat.sqrt a.ccount) (glyph_dims a ft) i +
              ((ft (a.cstart + i)).bitmap.width + 2 * 12) : Nat) : ℚ) / (r.img_width : ℚ),
           ((spec_gy (Nat.sqrt a.ccount) (glyph_dims a ft) i +
              ((ft (a.cstart + i)).bitmap.rows + 2 * 12) : Nat) : ℚ) / (r.img_height : ℚ),
           ((spec_gy (Nat.sqrt a.ccount) (glyph_dims a ft) i : Nat) : ℚ) / (r.img_height : ℚ)) := by
  simp only [no_overflow, Bool.and_eq_true, decide_eq_true_eq] at hfit
  obtain ⟨⟨hc, hsf⟩, hcf⟩ := hfit
  have hcw : 0 < Nat.sqrt a.ccount := Nat.sqrt_pos.mpr hn
  obtain ⟨r, hr, _, hH, hcells, _, htex⟩ := generate_layout a ft cache hlen hc hn hcache
  have hdl := glyph_dims_length a ft
  have hne : glyph_dims a ft ≠ [] := by
    intro h
    rw [h] at hdl
    simp at hdl
    omega
  have hpos : 0 < r.img_height := by
    rw [hH, atlas_height_closed _ hcw _ hsf hcf]
    exact spec_atlas_height_pos _ hcw _ hne
  refine ⟨r, hr, hpos, fun i hi => ?_⟩
  have hi' : i < (glyph_dims a ft).length := by omega
  obtain ⟨hw, hh, hx, hy⟩ :=
    cells_from_getD (Nat.sqrt a.ccount) (glyph_dims a ft) 0 0 0 0 hcf i hi'
  have hcell := cells_from_getD_pen (Nat.sqrt a.ccount) (glyph_dims a ft) 0 0 0 0 i hi'
  rw [List.getD_eq_getElem?_getD] at hcell
  have hpen := pen_closed (Nat.sqrt a.ccount) hcw (glyph_dims a ft) hcf i (by omega)
  rw [hpen] at hcell
  simp only at hcell
  have hd := glyph_dims_getD a ft i hi
  have hcell2 : (atlas_cells (Nat.sqrt a.ccount) (glyph_dims a ft)).getD i Cell.zero =
      Cell.mk (spec_gx (Nat.sqrt a.ccount) (glyph_dims a ft) i)
        (spec_gy (Nat.sqrt a.ccount) (glyph_dims a ft) i)
        ((ft (a.cstart + i)).bitmap.width + 2 * 12)
        ((ft (a.cstart + i)).bitmap.rows + 2 * 12) := by
    have e1 := hw
    have e2 := hh
    rw [hd] at e1 e2
    simp only [font_padding] at e1 e2
    unfold atlas_cells
    rw [List.getD_eq_getElem?_getD, hcell] at e1 e2 ⊢
    simp only at e1 e2
    rw [e1, e2]
  have ht := htex i hi
  rw [hcell2] at ht
  unfold atlas_cells at hcell2
  rw [hcell2] at hx hy
  simp only at hx hy
  rw [hcells]
  refine ⟨hcell2, ?_⟩
  rw [ht]
  simp only [Cell.tex, u32_of_lt hx, u32_of_lt hy]

/-! ## The vertex buffers -/

theorem chunk_of_flatMap {α : Type} (f : Nat → List α) (hf : ∀ c, (f c).length = 4) (n : Nat) :
    ((List.range n).flatMap f).length = 4 * n ∧
    ∀ (rest : List α) (g : Nat), g < n →
      ((((List.range n).flatMap f) ++ rest).drop (4 * g)).take 4 = f g := by
  induction n with
  | zero => simp
  | succ n ih =>
    obtain ⟨hl, hc⟩ := ih
    have hlen : ((List.range (n + 1)).flatMap f).length = 4 * (n + 1) := by
      rw [List.range_succ, List.flatMap_append, List.length_append, hl]
      simp [hf]
      omega
    refine ⟨hlen, fun rest g hg => ?_⟩
    rw [List.range_succ, List.flatMap_append, List.append_assoc]
    by_cases hgn : g = n
    · subst hgn
      rw [List.drop_left' hl]
      simp only [List.flatMap_cons, List.flatMap_nil, List.append_nil]
      exact List.take_left' (hf g)
    · exact hc _ g (by omega)

theorem static_load_fold (a : CharacterAtlas) (n : Nat) :
    (List.range n).foldl (static_load_step a)
        { positions := [], texture_coordinates := [], indices := [] } =
      { positions := (List.range n).flatMap (quad_positions a),
        texture_coordinates := (List.range n).flatMap (quad_tex a),
        indices := (List.range n).flatMap
          (fun c => [u32 (4 * c), u32 (4 * c + 1), u32 (4 * c + 2), u32 (4 * c + 3)]) } := by
  induction n with
  | zero => rfl
  | succ n ih =>
    rw [List.range_succ, List.foldl_append, ih]
    simp only [List.foldl_cons, List.foldl_nil, static_load_step, List.flatMap_append,
      List.flatMap_cons, List.flatMap_nil, List.append_nil]
    have hl := (chunk_of_flatMap (quad_positions a) (fun c => rfl) n).1
    have hq : (quad_positions a n).length = 4 := rfl
    have e : quad_indices ((List.range n).flatMap (quad_positions a) ++ quad_positions a n) =
        [u32 (4 * n), u32 (4 * n + 1), u32 (4 * n + 2), u32 (4 * n + 3)] := by
      simp only [quad_indices, List.length_append, hl, hq]
      have e1 : 4 * n + 4 - 4 = 4 * n := by omega
      have e2 : 4 * n + 4 - 3 = 4 * n + 1 := by omega
      have e3 : 4 * n + 4 - 2 = 4 * n + 2 := by omega
      have e4 : 4 * n + 4 - 1 = 4 * n + 3 := by omega
      rw [e1, e2, e3, e4]
    rw [e]

theorem static_load_eq (a : CharacterAtlas) :
    static_load a =
      { positions := (List.range a.ccount).flatMap (quad_positions a) ++
          [((0 : ℚ), (a.texture_height : ℚ)), (0, 0),
           ((a.texture_width : ℚ), (a.texture_height : ℚ)), ((a.texture_width : ℚ), 0)],
        texture_coordinates := (List.range a.ccount).flatMap (quad_tex a) ++
          [((0 : ℚ), (0 : ℚ)), (0, 1), (1, 0), (1, 1)],
        indices := (List.range (a.ccount + 1)).flatMap
          (fun c => [u32 (4 * c), u32 (4 * c + 1), u32 (4 * c + 2), u32 (4 * c + 3)]) } := by
  unfold static_load
  rw [static_load_fold]
  simp only
  have hl := (chunk_of_flatMap (quad_positions a) (fun c => rfl) a.ccount).1
  have e : quad_indices ((List.range a.ccount).flatMap (quad_positions a) ++
      [((0 : ℚ), (a.texture_height : ℚ)), (0, 0),
       ((a.texture_width : ℚ), (a.texture_height : ℚ)), ((a.texture_width : ℚ), 0)]) =
      [u32 (4 * a.ccount), u32 (4 * a.ccount + 1), u32 (4 * a.ccount + 2),
        u32 (4 * a.ccount + 3)] := by
    simp only [quad_indices, List.length_append, hl, List.length_cons, List.length_nil]
    have e1 : 4 * a.ccount + (0 + 1 + 1 + 1 + 1) - 4 = 4 * a.ccount := by omega
    have e2 : 4 * a.ccount + (0 + 1 + 1 + 1 + 1) - 3 = 4 * a.ccount + 1 := by omega
    have e3 : 4 * a.ccount + (0 + 1 + 1 + 1 + 1) - 2 = 4 * a.ccount + 2 := by omega
    have e4 : 4 * a.ccount + (0 + 1 + 1 + 1 + 1) - 1 = 4 * a.ccount + 3 := by omega
    rw [e1, e2, e3, e4]
  rw [e, List.range_succ, List.flatMap_append]
  simp only [List.flatMap_cons, List.flatMap_nil, List.append_nil]

theorem getD_of_chunk {α : Type} (l : List α) (g j : Nat) (hj : j < 4) (d : α) :
    l.getD (4 * g + j) d = ((l.drop (4 * g)).take 4).getD j d := by
  simp [List.getD_eq_getElem?_getD, List.getElem?_take, List.getElem?_drop, hj]

/-- C19. After `static_load` on an atlas with `ccount` glyphs, `4 * (ccount + 1)` not
exceeding the range of the `unsigned int` indices: `positions`, `texture_coordinates` and
`indices` have `4 * (ccount + 1)` entries each, `indices[k] = k` for every `k`; the
entries `4g .. 4g+3` hold the quad of glyph `g` (its four corners with the texture
coordinates `(tx1, ty2)`, `(tx1, ty1)`, `(tx2, ty2)`, `(tx2, ty1)`), which is where
`write_text` starts to draw four indices for a code point with glyph `g`; the entries from
`4 * ccount` on, where `draw_charmap_on_screen` draws, hold the quad with the positions `(0, H)`, `(0, 0)`, `(W, H)`, `(W, 0)` and
the texture coordinates `(0, 0)`, `(0, 1)`, `(1, 0)`, `(1, 1)`. -/
theorem static_load_buffers (a : CharacterAtlas) (hsmall : 4 * (a.ccount + 1) ≤ 2 ^ 32) :
    (static_load a).positions.length = 4 * (a.ccount + 1) ∧
    (static_load a).texture_coordinates.length = 4 * (a.ccount + 1) ∧
    (static_load a).indices.length = 4 * (a.ccount + 1) ∧
    (∀ k, k < 4 * (a.ccount + 1) → (static_load a).indices.getD k 0 = k) ∧
    (∀ g, g < a.ccount →
      ((static_load a).positions.drop (4 * g)).take 4 = quad_positions a g ∧
      ((static_load a).texture_coordinates.drop (4 * g)).take 4 =
        [((a.glyphs.getD g Glyph.zero).tx1, (a.glyphs.getD g Glyph.zero).ty2),
         ((a.glyphs.getD g Glyph.zero).tx1, (a.glyphs.getD g Glyph.zero).ty1),
         ((a.glyphs.getD g Glyph.zero).tx2, (a.glyphs.getD g Glyph.zero).ty2),
         ((a.glyphs.getD g Glyph.zero).tx2, (a.glyphs.getD g Glyph.zero).ty1)]) ∧
    (∀ (c : Nat) (x y z : ℚ), u32_sub c a.cstart < a.glyphs.length →
      (write_text a x y z [c]).map (fun p => p.offset) = [4 * (4 * u32_sub c a.cstart)]) ∧
    draw_charmap_on_screen a = 4 * (4 * a.ccount) ∧
    (static_load a).positions.drop (4 * a.ccount) =
      [((0 : ℚ), (a.texture_height : ℚ)), (0, 0),
       ((a.texture_width : ℚ), (a.texture_height : ℚ)), ((a.texture_width : ℚ), 0)] ∧
    (static_load a).texture_coordinates.drop (4 * a.ccount) =
      [((0 : ℚ), (0 : ℚ)), (0, 1), (1, 0), (1, 1)] ∧
    (static_load a).indices.drop (4 * a.ccount) =
      [4 * a.ccount, 4 * a.ccount + 1, 4 * a.ccount + 2, 4 * a.ccount + 3] := by
  have hp := chunk_of_flatMap (quad_positions a) (fun c => rfl) a.ccount
  have ht := chunk_of_flatMap (quad_tex a) (fun c => rfl) a.ccount
  have hi := chunk_of_flatMap
    (fun c => [u32 (4 * c), u32 (4 * c + 1), u32 (4 * c + 2), u32 (4 * c + 3)])
    (fun c => rfl) (a.ccount + 1)
  have hi' := chunk_of_flatMap
    (fun c => [u32 (4 * c), u32 (4 * c + 1), u32 (4 * c + 2), u32 (4 * c + 3)])
    (fun c => rfl) a.ccount
  rw [static_load_eq]
  simp only
  refine ⟨?_, ?_, hi.1, ?_, ?_, ?_, by unfold draw_charmap_on_screen; ring, ?_, ?_, ?_⟩
  · rw [List.length_append, hp.1]
    simp
    omega
  · rw [List.length_append, ht.1]
    simp
    omega
  · intro k hk
    have hk4 := Nat.div_add_mod k 4
    have hj : k % 4 < 4 := Nat.mod_lt _ (by norm_num)
    have hchunk := hi.2 [] (k / 4) (by omega)
    rw [List.append_nil] at hchunk
    rw [← hk4, getD_of_chunk _ _ _ hj, hchunk]
    have hcases : k % 4 = 0 ∨ k % 4 = 1 ∨ k % 4 = 2 ∨ k % 4 = 3 := by omega
    rcases hcases with h | h | h | h <;> rw [h] <;>
      simp only [List.getD_cons_zero, List.getD_cons_succ] <;>
      exact u32_of_lt (by omega)
  · intro g hg
    exact ⟨hp.2 _ g hg, ht.2 _ g hg⟩
  · intro c x y z hg
    simp only [write_text, List.length_cons, List.length_nil, Nat.add_one_ne_zero, if_false,
      write_text_loop, if_neg (not_le.mpr hg), List.map_cons, List.map_nil]
    congr 1
    ring
  · rw [List.drop_left' hp.1]
  · rw [List.drop_left' ht.1]
  · rw [List.range_succ, List.flatMap_append, List.drop_left' hi'.1]
    simp only [List.flatMap_cons, List.flatMap_nil, List.append_nil]
    rw [u32_of_lt (by omega), u32_of_lt (by omega), u32_of_lt (by omega), u32_of_lt (by omega)]

/-- Witness of `static_load_buffers`: the atlas `two_glyph_atlas`. -/
theorem static_load_buffers_witness :
    4 * (two_glyph_atlas.ccount + 1) ≤ 2 ^ 32 ∧
    ((static_load two_glyph_atlas).positions.length = 4 * (two_glyph_atlas.ccount + 1) ∧
    (static_load two_glyph_atlas).texture_coordinates.length = 4 * (two_glyph_atlas.ccount + 1) ∧
    (static_load two_glyph_atlas).indices.length = 4 * (two_glyph_atlas.ccount + 1) ∧
    (∀ k, k < 4 * (two_glyph_atlas.ccount + 1) →
      (static_load two_glyph_atlas).indices.getD k 0 = k) ∧
    (∀ g, g < two_glyph_atlas.ccount →
      ((static_load two_glyph_atlas).positions.drop (4 * g)).take 4 =
        quad_positions two_glyph_atlas g ∧
      ((static_load two_glyph_atlas).texture_coordinates.drop (4 * g)).take 4 =
        [((two_glyph_atlas.glyphs.getD g Glyph.zero).tx1,
          (two_glyph_atlas.glyphs.getD g Glyph.zero).ty2),
         ((two_glyph_atlas.glyphs.getD g Glyph.zero).tx1,
          (two_glyph_atlas.glyphs.getD g Glyph.zero).ty1),
         ((two_glyph_atlas.glyphs.getD g Glyph.zero).tx2,
          (two_glyph_atlas.glyphs.getD g Glyph.zero).ty2),
         ((two_glyph_atlas.glyphs.getD g Glyph.zero).tx2,
          (two_glyph_atlas.glyphs.getD g Glyph.zero).ty1)]) ∧
    (∀ (c : Nat) (x y z : ℚ), u32_sub c two_glyph_atlas.cstart < two_glyph_atlas.glyphs.length →
      (write_text two_glyph_atlas x y z [c]).map (fun p => p.offset) =
        [4 * (4 * u32_sub c two_glyph_atlas.cstart)]) ∧
    draw_charmap_on_screen two_glyph_atlas = 4 * (4 * two_glyph_atlas.ccount) ∧
    (static_load two_glyph_atlas).positions.drop (4 * two_glyph_atlas.ccount) =
      [((0 : ℚ), (two_glyph_atlas.texture_height : ℚ)), (0, 0),
       ((two_glyph_atlas.texture_width : ℚ), (two_glyph_atlas.texture_height : ℚ)),
       ((two_glyph_atlas.texture_width : ℚ), 0)] ∧
    (static_load two_glyph_atlas).texture_coordinates.drop (4 * two_glyph_atlas.ccount) =
      [((0 : ℚ), (0 : ℚ)), (0, 1), (1, 0), (1, 1)] ∧
    (static_load two_glyph_atlas).indices.drop (4 * two_glyph_atlas.ccount) =
      [4 * two_glyph_atlas.ccount, 4 * two_glyph_atlas.ccount + 1,
        4 * two_glyph_atlas.ccount + 2, 4 * two_glyph_atlas.ccount + 3]) :=
  ⟨by decide, static_load_buffers two_glyph_atlas (by decide)⟩

/-! ## The distance of `calculate_distance_field`, the bitmap and the image -/

theorem fold_min_spec {γ : Type} (p : γ → Prop) [DecidablePred p] (v : γ → Nat)
    (cs : List γ) (init : Nat) :
    cs.foldl (fun d c => if p c then min d (v c) else d) init ≤ init ∧
    (∀ c ∈ cs, p c → cs.foldl (fun d c => if p c then min d (v c) else d) init ≤ v c) ∧
    (cs.foldl (fun d c => if p c then min d (v c) else d) init = init ∨
      ∃ c ∈ cs, p c ∧ cs.foldl (fun d c => if p c then min d (v c) else d) init = v c) := by
  induction cs generalizing init with
  | nil => simp
  | cons c cs ih =>
    simp only [List.foldl_cons]
    obtain ⟨h1, h2, h3⟩ := ih (if p c then min init (v c) else init)
    have hstep : (if p c then min init (v c) else init) ≤ init := by
      split_ifs
      · exact Nat.min_le_left _ _
      · exact Nat.le_refl _
    refine ⟨Nat.le_trans h1 hstep, ?_, ?_⟩
    · intro c2 hc2 hp2
      rcases List.mem_cons.mp hc2 with rfl | hmem
      · refine Nat.le_trans h1 ?_
        rw [if_pos hp2]; exact Nat.min_le_right _ _
      · exact h2 c2 hmem hp2
    · rcases h3 with h3 | ⟨c2, hc2, hp2, h3⟩
      · by_cases hp : p c
        · rw [if_pos hp] at h3 ⊢
          rcases Nat.le_total init (v c) with hle | hle
          · left; rw [h3]; exact Nat.min_eq_left hle
          · right
            exact ⟨c, List.mem_cons_self _ _, hp, by rw [h3]; exact Nat.min_eq_right hle⟩
        · rw [if_neg hp] at h3 ⊢
          left; exact h3
      · right; exact ⟨c2, List.mem_cons_of_mem _ hc2, hp2, h3⟩

theorem nested_min_spec (p : Nat → Nat → Prop) [∀ a b, Decidable (p a b)] (v : Nat → Nat → Nat)
    (is js : List Nat) (init : Nat) :
    js.foldl (fun d tj => is.foldl (fun d ti => if p ti tj then min d (v ti tj) else d) d) init
      ≤ init ∧
    (∀ tj ∈ js, ∀ ti ∈ is, p ti tj →
      js.foldl (fun d tj => is.foldl (fun d ti => if p ti tj then min d (v ti tj) else d) d) init
        ≤ v ti tj) ∧
    (js.foldl (fun d tj => is.foldl (fun d ti => if p ti tj then min d (v ti tj) else d) d) init
        = init ∨
      ∃ tj ∈ js, ∃ ti ∈ is, p ti tj ∧
        js.foldl (fun d tj => is.foldl (fun d ti => if p ti tj then min d (v ti tj) else d) d)
          init = v ti tj) := by
  induction js generalizing init with
  | nil => simp
  | cons tj js ih =>
    simp only [List.foldl_cons]
    obtain ⟨a1, a2, a3⟩ := fold_min_spec (fun ti => p ti tj) (fun ti => v ti tj) is init
    obtain ⟨h1, h2, h3⟩ :=
      ih (is.foldl (fun d ti => if p ti tj then min d (v ti tj) else d) init)
    refine ⟨Nat.le_trans h1 a1, ?_, ?_⟩
    · intro tj2 htj2 ti hti hp
      rcases List.mem_cons.mp htj2 with rfl | hmem
      · exact Nat.le_trans h1 (a2 ti hti hp)
      · exact h2 tj2 hmem ti hti hp
    · rcases h3 with h3 | ⟨tj2, htj2, ti, hti, hp, h3⟩
      · rcases a3 with a3 | ⟨ti, hti, hp, a3⟩
        · left; rw [h3, a3]
        · right; exact ⟨tj, List.mem_cons_self _ _, ti, hti, hp, by rw [h3, a3]⟩
      · right; exact ⟨tj2, List.mem_cons_of_mem _ htj2, ti, hti, hp, h3⟩

/-- The search of `calculate_distance_field` in the form of `nested_min_spec`. -/
theorem min_dist_sq_eq_nested (data : List Bool) (width height l k : Int) :
    min_dist_sq data width height l k =
      (List.range 21).foldl (fun (d : Nat) (tj : Nat) => (List.range 21).foldl
        (fun (d : Nat) (ti : Nat) =>
        if (0 ≤ l - 10 + (ti : Int) ∧ l - 10 + (ti : Int) < width ∧
            0 ≤ k - 10 + (tj : Int) ∧ k - 10 + (tj : Int) < height) ∧
            data.getD (l + width * k).toNat false ≠
              data.getD (l - 10 + (ti : Int) + width * (k - 10 + (tj : Int))).toNat false
        then min d (((l - 10 + (ti : Int) - l) * (l - 10 + (ti : Int) - l)).toNat +
            ((k - 10 + (tj : Int) - k) * (k - 10 + (tj : Int) - k)).toNat)
        else d) d) 200 := by
  unfold min_dist_sq
  rw [max_dist_sq_eq]
  have h21 : (2 * sample_depth + 1).toNat = 21 := by decide
  rw [h21]
  apply List.foldl_ext
  intro d tj _
  apply List.foldl_ext
  intro d ti _
  simp only [sample_depth, bne_iff_ne, ne_eq]
  split_ifs <;> simp_all

/-- The pixel `(i, j)` is in the window of `(l, k)` clipped to the image, and its value
differs from that of `(l, k)`. -/
theorem min_dist_sq_spec (data : List Bool) (width height l k : Int) :
    min_dist_sq data width height l k ≤ 200 ∧
    (∀ i j : Int, |i - l| ≤ 10 → |j - k| ≤ 10 → 0 ≤ i → i < width → 0 ≤ j → j < height →
      data.getD (l + width * k).toNat false ≠ data.getD (i + width * j).toNat false →
      (min_dist_sq data width height l k : Int) ≤ (i - l) ^ 2 + (j - k) ^ 2) ∧
    (min_dist_sq data width height l k = 200 ∨
      ∃ i j : Int, |i - l| ≤ 10 ∧ |j - k| ≤ 10 ∧ 0 ≤ i ∧ i < width ∧ 0 ≤ j ∧ j < height ∧
        data.getD (l + width * k).toNat false ≠ data.getD (i + width * j).toNat false ∧
        (min_dist_sq data width height l k : Int) = (i - l) ^ 2 + (j - k) ^ 2) := by
  rw [min_dist_sq_eq_nested]
  obtain ⟨h1, h2, h3⟩ := nested_min_spec
    (fun (ti tj : Nat) => (0 ≤ l - 10 + (ti : Int) ∧ l - 10 + (ti : Int) < width ∧
            0 ≤ k - 10 + (tj : Int) ∧ k - 10 + (tj : Int) < height) ∧
            data.getD (l + width * k).toNat false ≠
              data.getD (l - 10 + (ti : Int) + width * (k - 10 + (tj : Int))).toNat false)
    (fun (ti tj : Nat) => ((l - 10 + (ti : Int) - l) * (l - 10 + (ti : Int) - l)).toNat +
            ((k - 10 + (tj : Int) - k) * (k - 10 + (tj : Int) - k)).toNat)
    (List.range 21) (List.range 21) 200
  have hv : ∀ ti tj : Nat,
      ((((l - 10 + (ti : Int) - l) * (l - 10 + (ti : Int) - l)).toNat +
        ((k - 10 + (tj : Int) - k) * (k - 10 + (tj : Int) - k)).toNat : Nat) : Int) =
      (l - 10 + (ti : Int) - l) ^ 2 + (k - 10 + (tj : Int) - k) ^ 2 := by
    intro ti tj
    push_cast
    rw [Int.toNat_of_nonneg (mul_self_nonneg _), Int.toNat_of_nonneg (mul_self_nonneg _)]
    ring
  refine ⟨h1, ?_, ?_⟩
  · intro i j hi hj hi0 hiw hj0 hjh hne
    have hi2 := abs_le.mp hi
    have hj2 := abs_le.mp hj
    have e1 : l - 10 + (((i - l + 10).toNat : Nat) : Int) = i := by
      rw [Int.toNat_of_nonneg (by linarith)]; ring
    have e2 : k - 10 + (((j - k + 10).toNat : Nat) : Int) = j := by
      rw [Int.toNat_of_nonneg (by linarith)]; ring
    have := h2 (j - k + 10).toNat (List.mem_range.mpr (by omega)) (i - l + 10).toNat
      (List.mem_range.mpr (by omega)) (by
        simp only [e1, e2]
        exact ⟨⟨hi0, hiw, hj0, hjh⟩, hne⟩)
    have h4 := Int.ofNat_le.mpr this
    rw [hv, e1, e2] at h4
    exact h4
  · rcases h3 with h3 | ⟨tj, htj, ti, hti, ⟨⟨a1, a2, a3, a4⟩, a5⟩, h3⟩
    · left; exact h3
    · right
      have hti2 := List.mem_range.mp hti
      have htj2 := List.mem_range.mp htj
      refine ⟨l - 10 + ti, k - 10 + tj, ?_, ?_, a1, a2, a3, a4, a5, ?_⟩
      · rw [abs_le]; constructor <;> omega
      · rw [abs_le]; constructor <;> omega
      · rw [h3, hv]

theorem sqrt_65025 : Nat.sqrt 65025 = 255 :=
  (Nat.eq_sqrt.mpr ⟨by norm_num, by norm_num⟩).symm

theorem ceil_sqrt_65025 : ceil_sqrt 65025 = 255 := by
  unfold ceil_sqrt
  rw [sqrt_65025]
  norm_num

theorem sdf_byte_max : sdf_byte true max_dist_sq = 255 ∧ sdf_byte false max_dist_sq = 0 := by
  have h1 : 255 * 255 * 200 / 200 = 65025 := by norm_num
  have h2 : (255 * 255 * 200 + (200 - 1)) / 200 = 65025 := by norm_num
  rw [max_dist_sq_eq]
  unfold sdf_byte
  constructor
  · rw [max_dist_sq_eq, if_pos rfl, h1, sqrt_65025]
  · rw [max_dist_sq_eq, if_neg (by simp), h2, ceil_sqrt_65025]

theorem pixel_toNat (W l k : Nat) : ((l : Int) + (W : Int) * (k : Int)).toNat = l + W * k := by
  have : ((l : Int) + (W : Int) * (k : Int)) = ((l + W * k : Nat) : Int) := by push_cast; ring
  rw [this, Int.toNat_natCast]

/-- C21: the distance that `calculate_distance_field` uses for the pixel `(l, k)` of a
bitmap, of which `min_dist_sq` is the square, is the minimum of `max_dist` (square
`2 * 10 ^ 2`) and of the Euclidean distances (squares `(i - l) ^ 2 + (j - k) ^ 2`) to the
pixels `(i, j)` with `|i - l| ≤ 10`, `|j - k| ≤ 10` inside the image whose value differs from
that of `(l, k)`: it is at most each of these numbers and it is one of them. The byte
stored for the pixel is computed from this distance, and when no pixel of the clipped window
differs from `(l, k)` the byte is 255 for an inside pixel and 0 for an outside pixel. -/
theorem distance_is_clipped_minimum (df : List Nat) (data : List Bool) (W H : Nat)
    (hdf : W * H ≤ df.length) (l k : Nat) (hl : l < W) (hk : k < H) :
    max_dist_sq = 2 * 10 ^ 2 ∧
    min_dist_sq data (W : Int) (H : Int) (l : Int) (k : Int) ≤ max_dist_sq ∧
    (∀ i j : Int, |i - l| ≤ 10 → |j - k| ≤ 10 → 0 ≤ i → i < W → 0 ≤ j → j < H →
      data.getD (l + W * k) false ≠ data.getD (i + W * j).toNat false →
      (min_dist_sq data (W : Int) (H : Int) (l : Int) (k : Int) : Int)
        ≤ (i - l) ^ 2 + (j - k) ^ 2) ∧
    (min_dist_sq data (W : Int) (H : Int) (l : Int) (k : Int) = max_dist_sq ∨
      ∃ i j : Int, |i - l| ≤ 10 ∧ |j - k| ≤ 10 ∧ 0 ≤ i ∧ i < W ∧ 0 ≤ j ∧ j < H ∧
        data.getD (l + W * k) false ≠ data.getD (i + W * j).toNat false ∧
        (min_dist_sq data (W : Int) (H : Int) (l : Int) (k : Int) : Int)
          = (i - l) ^ 2 + (j - k) ^ 2) ∧
    (calculate_distance_field df data (W : Int) (H : Int)).getD (l + k * W) 0 =
      sdf_byte (data.getD (l + W * k) false)
        (min_dist_sq data (W : Int) (H : Int) (l : Int) (k : Int)) ∧
    ((∀ i j : Int, |i - l| ≤ 10 → |j - k| ≤ 10 → 0 ≤ i → i < W → 0 ≤ j → j < H →
        data.getD (i + W * j).toNat false = data.getD (l + W * k) false) →
      (calculate_distance_field df data (W : Int) (H : Int)).getD (l + k * W) 0 =
        if data.getD (l + W * k) false = true then 255 else 0) := by
  obtain ⟨h1, h2, h3⟩ := min_dist_sq_spec data (W : Int) (H : Int) (l : Int) (k : Int)
  rw [pixel_toNat] at h2 h3
  have hbyte := calculate_distance_field_getD df data W H hdf l k hl hk
  refine ⟨max_dist_sq_eq, by rw [max_dist_sq_eq]; exact h1, h2, ?_, hbyte, ?_⟩
  · rw [max_dist_sq_eq]; exact h3
  · intro hsame
    have hmax : min_dist_sq data (W : Int) (H : Int) (l : Int) (k : Int) = max_dist_sq := by
      rw [max_dist_sq_eq]
      rcases h3 with h3 | ⟨i, j, a1, a2, a3, a4, a5, a6, a7, -⟩
      · exact h3
      · exact absurd (hsame i j a1 a2 a3 a4 a5 a6).symm a7
    rw [hbyte, hmax]
    cases data.getD (l + W * k) false
    · simp [sdf_byte_max.2]
    · simp [sdf_byte_max.1]

theorem distance_is_clipped_minimum_witness :
    2 * 2 ≤ (List.replicate 4 0).length ∧ 1 < 2 ∧ 0 < 2 ∧
    min_dist_sq [true, false, false, true] ((2 : Nat) : Int) ((2 : Nat) : Int)
      ((1 : Nat) : Int) ((0 : Nat) : Int) ≤ max_dist_sq ∧
    (calculate_distance_field (List.replicate 4 0) [true, false, false, true]
        ((2 : Nat) : Int) ((2 : Nat) : Int)).getD (1 + 0 * 2) 0 =
      sdf_byte (([true, false, false, true] : List Bool).getD (1 + 2 * 0) false)
        (min_dist_sq [true, false, false, true] ((2 : Nat) : Int) ((2 : Nat) : Int)
          ((1 : Nat) : Int) ((0 : Nat) : Int)) :=
  ⟨by decide, by decide, by decide,
    (distance_is_clipped_minimum (List.replicate 4 0) [true, false, false, true] 2 2
      (by decide) 1 0 (by decide) (by decide)).2.1,
    (distance_is_clipped_minimum (List.replicate 4 0) [true, false, false, true] 2 2
      (by decide) 1 0 (by decide) (by decide)).2.2.2.2.1⟩

theorem char_codes_index (cstart ccount : Nat) (hc : cstart + ccount < 2 ^ 32) :
    ∀ i ∈ char_codes cstart ccount, u32_sub i cstart < ccount := by
  intro i hi
  rw [char_codes_eq cstart ccount hc] at hi
  obtain ⟨j, hj, rfl⟩ := List.mem_map.mp hi
  have hj2 := List.mem_range.mp hj
  rw [u32_sub_add_left cstart j (by omega)]
  exact hj2

theorem foldl_flatMap_eq {α β γ : Type} (f : α → List β) (g : γ → β → γ) (l : List α)
    (init : γ) :
    (l.flatMap f).foldl g init = l.foldl (fun acc x => (f x).foldl g acc) init := by
  induction l generalizing init with
  | nil => rfl
  | cons x l ih => simp only [List.flatMap_cons, List.foldl_append, List.foldl_cons, ih]

/-- A sequence of assignments `v[w.1] = w.2` each of which stores the value `val w.1`: an
entry of the vector is `val` of its index if an assignment reaches it, and is unchanged
otherwise. -/
theorem writes_getD {α : Type} (val : Nat → α) (d : α) (ws : List (Nat × α))
    (hval : ∀ w ∈ ws, w.2 = val w.1) (v : List α) :
    (ws.foldl (fun (r : List α) (w : Nat × α) => r.set w.1 w.2) v).length = v.length ∧
    ∀ idx, (ws.foldl (fun (r : List α) (w : Nat × α) => r.set w.1 w.2) v).getD idx d =
      if (∃ w ∈ ws, w.1 = idx) ∧ idx < v.length then val idx else v.getD idx d := by
  induction ws generalizing v with
  | nil => simp
  | cons w ws ih =>
    simp only [List.foldl_cons]
    obtain ⟨h1, h2⟩ := ih (fun w2 hw2 => hval w2 (List.mem_cons_of_mem _ hw2)) (v.set w.1 w.2)
    rw [List.length_set] at h1 h2
    refine ⟨h1, fun idx => ?_⟩
    rw [h2 idx]
    by_cases hlt : idx < v.length
    · by_cases hex : ∃ w2 ∈ ws, w2.1 = idx
      · rw [if_pos ⟨hex, hlt⟩, if_pos]
        obtain ⟨w2, hw2, e⟩ := hex
        exact ⟨⟨w2, List.mem_cons_of_mem _ hw2, e⟩, hlt⟩
      · rw [if_neg (fun h => hex h.1)]
        by_cases hw : w.1 = idx
        · rw [if_pos ⟨⟨w, List.mem_cons_self _ _, hw⟩, hlt⟩, ← hw,
            getD_set_self _ _ _ _ (by rw [hw]; exact hlt)]
          exact hval w (List.mem_cons_self _ _)
        · rw [getD_set_other _ _ _ _ _ hw, if_neg]
          rintro ⟨⟨w2, hw2, e⟩, -⟩
          rcases List.mem_cons.mp hw2 with rfl | hmem
          · exact hw e
          · exact hex ⟨w2, hmem, e⟩
    · rw [if_neg (fun h => hlt h.2), if_neg (fun h => hlt h.2)]
      have hlen : v.length ≤ idx := by omega
      rw [List.getD_eq_default _ _ (by rw [List.length_set]; exact hlen),
        List.getD_eq_default _ _ hlen]

/-- The loops of `unpack_mono_bitmap` on natural numbers, for a bitmap whose sizes are in
the range of `int`. -/
theorem unpack_mono_bitmap_nat (bitmap : FT_Bitmap)
    (hsize : (bitmap.rows + 24) * (bitmap.width + 24) < 2 ^ 31)
    (hpitch : 8 * bitmap.pitch < 2 ^ 31) :
    unpack_mono_bitmap bitmap =
      (List.range bitmap.rows).foldl (fun (result : List Bool) (y : Nat) =>
        (List.range bitmap.pitch.toNat).foldl (fun (result : List Bool) (byte_index : Nat) =>
          (List.range (min 8 (bitmap.width - 8 * byte_index))).foldl
            (fun (result : List Bool) (bit_index : Nat) =>
              result.set ((y + 12) * (bitmap.width + 24) + 8 * byte_index + 12 + bit_index)
                ((bitmap.buffer.getD (y * bitmap.pitch.toNat + byte_index) 0).testBit
                  (7 - bit_index)))
            result)
          result)
        (List.replicate ((bitmap.rows + 24) * (bitmap.width + 24)) false) := by
  have hr : bitmap.rows < 2 ^ 31 := by nlinarith
  have hw : bitmap.width < 2 ^ 31 := by nlinarith
  unfold unpack_mono_bitmap
  simp only [font_padding]
  have e1 : u32 (u32 (bitmap.rows + 2 * 12) * u32 (bitmap.width + 2 * 12)) =
      (bitmap.rows + 24) * (bitmap.width + 24) := by
    have a1 : u32 (bitmap.rows + 2 * 12) = bitmap.rows + 24 := u32_of_lt (by omega)
    have a2 : u32 (bitmap.width + 2 * 12) = bitmap.width + 24 := u32_of_lt (by omega)
    rw [a1, a2]
    exact u32_of_lt (by omega)
  have e2 : (int_of_u32 bitmap.rows).toNat = bitmap.rows := by
    unfold int_of_u32
    have : bitmap.rows % 2 ^ 32 = bitmap.rows := Nat.mod_eq_of_lt (by omega)
    rw [this, if_pos hr, Int.toNat_natCast]
  rw [e1, e2]
  apply List.foldl_ext
  intro result y hy
  have hy2 := List.mem_range.mp hy
  apply List.foldl_ext
  intro result b hb
  have hb2 := List.mem_range.mp hb
  have hb3 : (b : Int) < bitmap.pitch := by omega
  have hb4 : 8 * b < 2 ^ 31 := by omega
  have hrow : (y + 12) * (bitmap.width + 24) + (bitmap.width + 24) ≤
      (bitmap.rows + 24) * (bitmap.width + 24) := by nlinarith
  have e3 : ((y : Int) * bitmap.pitch + (b : Int)).toNat = y * bitmap.pitch.toNat + b := by
    have hp : (bitmap.pitch.toNat : Int) = bitmap.pitch := Int.toNat_of_nonneg (by omega)
    have : (y : Int) * bitmap.pitch + (b : Int) = ((y * bitmap.pitch.toNat + b : Nat) : Int) := by
      push_cast; rw [hp]
    rw [this, Int.toNat_natCast]
  have e4 : u32_of_int ((b : Int) * 8) = 8 * b := by
    unfold u32_of_int
    have : ((b : Int) * 8) % 2 ^ 32 = ((8 * b : Nat) : Int) := by
      push_cast
      rw [Int.emod_eq_of_lt (by omega) (by omega)]; ring
    rw [this, Int.toNat_natCast]
  have e5 : (min 8 (int_of_u32 (u32_sub bitmap.width (u32_of_int ((b : Int) * 8))))).toNat =
      min 8 (bitmap.width - 8 * b) := by
    rw [e4]
    unfold int_of_u32 u32_sub
    by_cases hle : 8 * b ≤ bitmap.width
    · have a1 : (bitmap.width + (2 ^ 32 - 8 * b % 2 ^ 32)) % 2 ^ 32 = bitmap.width - 8 * b := by
        omega
      rw [a1]
      have a2 : (bitmap.width - 8 * b) % 2 ^ 32 = bitmap.width - 8 * b := by omega
      rw [a2, if_pos (by omega)]
      omega
    · have a1 : (bitmap.width + (2 ^ 32 - 8 * b % 2 ^ 32)) % 2 ^ 32 =
          bitmap.width + 2 ^ 32 - 8 * b := by omega
      rw [a1]
      have a2 : (bitmap.width + 2 ^ 32 - 8 * b) % 2 ^ 32 = bitmap.width + 2 ^ 32 - 8 * b := by
        omega
      rw [a2, if_neg (by omega)]
      omega
  rw [e3, e5]
  apply List.foldl_ext
  intro result t ht
  have ht2 := List.mem_range.mp ht
  have e6 : int_of_u32 (u32 (u32 (u32 (u32 (y + 12) * u32 (bitmap.width + 2 * 12)) +
      u32_of_int ((b : Int) * 8)) + 12)) + (t : Int) =
      (((y + 12) * (bitmap.width + 24) + 8 * b + 12 + t : Nat) : Int) := by
    have hbt : 8 * b + t < bitmap.width := by omega
    have a1 : u32 (y + 12) = y + 12 := u32_of_lt (by omega)
    have a2 : u32 (bitmap.width + 2 * 12) = bitmap.width + 24 := u32_of_lt (by omega)
    rw [a1, a2, e4]
    have a3 : u32 ((y + 12) * (bitmap.width + 24)) = (y + 12) * (bitmap.width + 24) :=
      u32_of_lt (by omega)
    rw [a3]
    have a4 : u32 ((y + 12) * (bitmap.width + 24) + 8 * b) =
        (y + 12) * (bitmap.width + 24) + 8 * b := u32_of_lt (by omega)
    rw [a4]
    have a5 : u32 ((y + 12) * (bitmap.width + 24) + 8 * b + 12) =
        (y + 12) * (bitmap.width + 24) + 8 * b + 12 := u32_of_lt (by omega)
    rw [a5]
    unfold int_of_u32
    have a6 : ((y + 12) * (bitmap.width + 24) + 8 * b + 12) % 2 ^ 32 =
        (y + 12) * (bitmap.width + 24) + 8 * b + 12 := Nat.mod_eq_of_lt (by omega)
    rw [a6, if_pos (by omega)]
    push_cast; ring
  rw [e6, set_at_nat]

theorem pixel_div_mod (W x y : Nat) (hx : x + 12 < W + 24) :
    ((y + 12) * (W + 24) + (x + 12)) / (W + 24) = y + 12 ∧
    ((y + 12) * (W + 24) + (x + 12)) % (W + 24) = x + 12 := by
  have h := (Nat.div_mod_unique (a := (y + 12) * (W + 24) + (x + 12)) (b := W + 24)
    (d := y + 12) (c := x + 12) (by omega)).mpr ⟨by ring, hx⟩
  exact h

/-- The entries of the vector that `unpack_mono_bitmap` returns, for a bitmap whose sizes
are in the range of `int`. -/
theorem unpack_mono_bitmap_getD (bitmap : FT_Bitmap)
    (hsize : (bitmap.rows + 24) * (bitmap.width + 24) < 2 ^ 31)
    (hpitch : 8 * bitmap.pitch < 2 ^ 31) (hwidth : (bitmap.width : Int) ≤ 8 * bitmap.pitch) :
    (unpack_mono_bitmap bitmap).length = (bitmap.rows + 24) * (bitmap.width + 24) ∧
    (∀ x y, x < bitmap.width → y < bitmap.rows →
      (unpack_mono_bitmap bitmap).getD ((y + 12) * (bitmap.width + 24) + (x + 12)) false =
        (bitmap.buffer.getD (y * bitmap.pitch.toNat + x / 8) 0).testBit (7 - x % 8)) ∧
    (∀ idx, (¬ ∃ x y, x < bitmap.width ∧ y < bitmap.rows ∧
        idx = (y + 12) * (bitmap.width + 24) + (x + 12)) →
      (unpack_mono_bitmap bitmap).getD idx false = false) := by
  rw [unpack_mono_bitmap_nat bitmap hsize hpitch]
  have hflat : ∀ v : List Bool,
      (List.range bitmap.rows).foldl (fun (result : List Bool) (y : Nat) =>
        (List.range bitmap.pitch.toNat).foldl (fun (result : List Bool) (byte_index : Nat) =>
          (List.range (min 8 (bitmap.width - 8 * byte_index))).foldl
            (fun (result : List Bool) (bit_index : Nat) =>
              result.set ((y + 12) * (bitmap.width + 24) + 8 * byte_index + 12 + bit_index)
                ((bitmap.buffer.getD (y * bitmap.pitch.toNat + byte_index) 0).testBit
                  (7 - bit_index)))
            result)
          result) v =
      (((List.range bitmap.rows).flatMap (fun y =>
        (List.range bitmap.pitch.toNat).flatMap (fun byte_index =>
          (List.range (min 8 (bitmap.width - 8 * byte_index))).map (fun bit_index =>
            ((y + 12) * (bitmap.width + 24) + 8 * byte_index + 12 + bit_index,
              (bitmap.buffer.getD (y * bitmap.pitch.toNat + byte_index) 0).testBit
                (7 - bit_index)))))).foldl
        (fun (r : List Bool) (w : Nat × Bool) => r.set w.1 w.2) v) := by
    intro v
    rw [foldl_flatMap_eq]
    apply List.foldl_ext
    intro r y _
    rw [foldl_flatMap_eq]
    apply List.foldl_ext
    intro r b _
    rw [List.foldl_map]
  rw [hflat]
  have hmem : ∀ w : Nat × Bool,
      w ∈ (List.range bitmap.rows).flatMap (fun y =>
        (List.range bitmap.pitch.toNat).flatMap (fun byte_index =>
          (List.range (min 8 (bitmap.width - 8 * byte_index))).map (fun bit_index =>
            ((y + 12) * (bitmap.width + 24) + 8 * byte_index + 12 + bit_index,
              (bitmap.buffer.getD (y * bitmap.pitch.toNat + byte_index) 0).testBit
                (7 - bit_index))))) ↔
      ∃ y b t, y < bitmap.rows ∧ b < bitmap.pitch.toNat ∧ t < 8 ∧ 8 * b + t < bitmap.width ∧
        w = ((y + 12) * (bitmap.width + 24) + (8 * b + t + 12),
          (bitmap.buffer.getD (y * bitmap.pitch.toNat + b) 0).testBit (7 - t)) := by
    intro w
    simp only [List.mem_flatMap, List.mem_map, List.mem_range]
    constructor
    · rintro ⟨y, hy, b, hb, t, ht, rfl⟩
      exact ⟨y, b, t, hy, hb, by omega, by omega, by
        rw [show (y + 12) * (bitmap.width + 24) + 8 * b + 12 + t =
          (y + 12) * (bitmap.width + 24) + (8 * b + t + 12) by omega]⟩
    · rintro ⟨y, b, t, hy, hb, ht, hbt, rfl⟩
      exact ⟨y, hy, b, hb, t, by omega, by
        rw [show (y + 12) * (bitmap.width + 24) + 8 * b + 12 + t =
          (y + 12) * (bitmap.width + 24) + (8 * b + t + 12) by omega]⟩
  obtain ⟨hlen, hget⟩ := writes_getD
    (fun idx => (bitmap.buffer.getD ((idx / (bitmap.width + 24) - 12) * bitmap.pitch.toNat +
      (idx % (bitmap.width + 24) - 12) / 8) 0).testBit
        (7 - (idx % (bitmap.width + 24) - 12) % 8)) false _
    (by
      intro w hw
      obtain ⟨y, b, t, hy, hb, ht, hbt, rfl⟩ := (hmem w).mp hw
      obtain ⟨q1, q2⟩ := pixel_div_mod bitmap.width (8 * b + t) y (by omega)
      simp only [q1, q2]
      have r1 : (8 * b + t + 12 - 12) / 8 = b := by omega
      have r2 : (8 * b + t + 12 - 12) % 8 = t := by omega
      have r3 : y + 12 - 12 = y := by omega
      rw [r1, r2, r3])
    (List.replicate ((bitmap.rows + 24) * (bitmap.width + 24)) false)
  rw [List.length_replicate] at hlen hget
  refine ⟨hlen, ?_, ?_⟩
  · intro x y hx hy
    rw [hget, if_pos]
    · obtain ⟨q1, q2⟩ := pixel_div_mod bitmap.width x y (by omega)
      simp only [q1, q2]
      have r1 : x + 12 - 12 = x := by omega
      have r3 : y + 12 - 12 = y := by omega
      rw [r1, r3]
    · constructor
      · refine ⟨_, (hmem _).mpr ⟨y, x / 8, x % 8, hy, ?_, ?_, ?_, rfl⟩, ?_⟩
        · omega
        · omega
        · omega
        · simp only
          have : 8 * (x / 8) + x % 8 = x := by omega
          rw [this]
      · have hrow : (y + 12) * (bitmap.width + 24) + (bitmap.width + 24) ≤
            (bitmap.rows + 24) * (bitmap.width + 24) := by nlinarith
        omega
  · intro idx hno
    rw [hget, if_neg]
    · by_cases hlt : idx < (bitmap.rows + 24) * (bitmap.width + 24)
      · rw [List.getD_eq_getElem _ _ (by rw [List.length_replicate]; exact hlt)]
        simp
      · rw [List.getD_eq_default _ _ (by rw [List.length_replicate]; omega)]
    · rintro ⟨⟨w, hw, e⟩, -⟩
      obtain ⟨y, b, t, hy, hb, ht, hbt, rfl⟩ := (hmem w).mp hw
      exact hno ⟨8 * b + t, y, hbt, hy, e.symm⟩

/-- C23: for a monochrome bitmap with `pitch ≥ ceil(width / 8)`, a buffer of at least
`rows * pitch` bytes and sizes in the range of `int`, `unpack_mono_bitmap` returns a vector
of `(rows + 24) * (width + 24)` booleans; for `x < width`, `y < rows` the byte
`buffer[y * pitch + x / 8]` is inside the buffer, the entry
`(y + 12) * (width + 24) + (x + 12)` is inside the vector and is bit `7 - x % 8` of that
byte; every other entry is `false`. The vector is a function of these bits alone: the bits
of a row beyond `width` are not in it. -/
theorem unpack_mono_bitmap_pixels (bitmap : FT_Bitmap)
    (hsize : (bitmap.rows + 24) * (bitmap.width + 24) < 2 ^ 31)
    (hpitch : 8 * bitmap.pitch < 2 ^ 31) (hwidth : (bitmap.width : Int) ≤ 8 * bitmap.pitch)
    (hbuf : bitmap.rows * bitmap.pitch.toNat ≤ bitmap.buffer.length) :
    (unpack_mono_bitmap bitmap).length = (bitmap.rows + 24) * (bitmap.width + 24) ∧
    (∀ x y, x < bitmap.width → y < bitmap.rows →
      y * bitmap.pitch.toNat + x / 8 < bitmap.buffer.length ∧
      (y + 12) * (bitmap.width + 24) + (x + 12) < (unpack_mono_bitmap bitmap).length ∧
      (unpack_mono_bitmap bitmap).getD ((y + 12) * (bitmap.width + 24) + (x + 12)) false =
        (bitmap.buffer.getD (y * bitmap.pitch.toNat + x / 8) 0).testBit (7 - x % 8)) ∧
    (∀ idx, (¬ ∃ x y, x < bitmap.width ∧ y < bitmap.rows ∧
        idx = (y + 12) * (bitmap.width + 24) + (x + 12)) →
      (unpack_mono_bitmap bitmap).getD idx false = false) := by
  obtain ⟨h1, h2, h3⟩ := unpack_mono_bitmap_getD bitmap hsize hpitch hwidth
  refine ⟨h1, fun x y hx hy => ⟨?_, ?_, h2 x y hx hy⟩, h3⟩
  · have hb : x / 8 < bitmap.pitch.toNat := by omega
    have : y * bitmap.pitch.toNat + bitmap.pitch.toNat ≤ bitmap.rows * bitmap.pitch.toNat := by
      nlinarith
    omega
  · rw [h1]
    have hrow : (y + 12) * (bitmap.width + 24) + (bitmap.width + 24) ≤
        (bitmap.rows + 24) * (bitmap.width + 24) := by nlinarith
    omega

theorem unpack_mono_bitmap_pixels_witness :
    (narrow_slot.bitmap.rows + 24) * (narrow_slot.bitmap.width + 24) < 2 ^ 31 ∧
    8 * narrow_slot.bitmap.pitch < 2 ^ 31 ∧
    (narrow_slot.bitmap.width : Int) ≤ 8 * narrow_slot.bitmap.pitch ∧
    narrow_slot.bitmap.rows * narrow_slot.bitmap.pitch.toNat ≤
      narrow_slot.bitmap.buffer.length ∧
    (unpack_mono_bitmap narrow_slot.bitmap).length =
      (narrow_slot.bitmap.rows + 24) * (narrow_slot.bitmap.width + 24) :=
  ⟨by decide, by decide, by decide, by decide,
    (unpack_mono_bitmap_pixels narrow_slot.bitmap (by decide) (by decide) (by decide)
      (by decide)).1⟩

theorem far_pixel_not_glyph (W R l k : Nat) (hl : l < W + 24)
    (hfar : 10 < chebyshev_distance W R l k) :
    ¬ ∃ x y, x < W ∧ y < R ∧ l + (W + 24) * k = (y + 12) * (W + 24) + (x + 12) := by
  rintro ⟨x, y, hx, hy, e⟩
  obtain ⟨q1, q2⟩ := pixel_div_mod W x y (by omega)
  have p := (Nat.div_mod_unique (a := l + (W + 24) * k) (b := W + 24)
    (d := k) (c := l) (by omega)).mpr ⟨by ring, hl⟩
  rw [e] at p
  have hk : k = y + 12 := by omega
  have hl2 : l = x + 12 := by omega
  subst hk hl2
  unfold chebyshev_distance axis_distance at hfar
  rw [if_neg (by omega), if_neg (by omega), if_neg (by omega), if_neg (by omega)] at hfar
  simp at hfar

/-- C28: in the padded cell that `unpack_mono_bitmap` builds for a glyph and that
`calculate_distance_field` receives (`width + 24` columns, `rows + 24` rows), every pixel
whose Chebyshev distance to the rectangle of the glyph exceeds 10 gets the byte 0; the
pixels of the two outermost rings of the cell are such pixels. -/
theorem padding_ring_is_zero (bitmap : FT_Bitmap) (df : List Nat)
    (hsize : (bitmap.rows + 24) * (bitmap.width + 24) < 2 ^ 31)
    (hpitch : 8 * bitmap.pitch < 2 ^ 31) (hwidth : (bitmap.width : Int) ≤ 8 * bitmap.pitch)
    (hdf : (bitmap.width + 24) * (bitmap.rows + 24) ≤ df.length)
    (l k : Nat) (hl : l < bitmap.width + 24) (hk : k < bitmap.rows + 24) :
    (10 < chebyshev_distance bitmap.width bitmap.rows l k →
      (calculate_distance_field df (unpack_mono_bitmap bitmap)
        ((bitmap.width + 24 : Nat) : Int) ((bitmap.rows + 24 : Nat) : Int)).getD
          (l + k * (bitmap.width + 24)) 0 = 0) ∧
    (l < 2 ∨ bitmap.width + 22 ≤ l ∨ k < 2 ∨ bitmap.rows + 22 ≤ k →
      10 < chebyshev_distance bitmap.width bitmap.rows l k) := by
  constructor
  · intro hfar
    obtain ⟨-, -, hout⟩ := unpack_mono_bitmap_getD bitmap hsize hpitch hwidth
    rw [calculate_distance_field_getD df _ _ _ hdf l k hl hk]
    have hself : (unpack_mono_bitmap bitmap).getD (l + (bitmap.width + 24) * k) false = false :=
      hout _ (far_pixel_not_glyph _ _ _ _ hl hfar)
    obtain ⟨-, -, h3⟩ := min_dist_sq_spec (unpack_mono_bitmap bitmap)
      ((bitmap.width + 24 : Nat) : Int) ((bitmap.rows + 24 : Nat) : Int) (l : Int) (k : Int)
    rw [pixel_toNat, hself] at h3
    have hmax : min_dist_sq (unpack_mono_bitmap bitmap) ((bitmap.width + 24 : Nat) : Int)
        ((bitmap.rows + 24 : Nat) : Int) (l : Int) (k : Int) = max_dist_sq := by
      rw [max_dist_sq_eq]
      rcases h3 with h3 | ⟨i, j, a1, a2, a3, a4, a5, a6, a7, -⟩
      · exact h3
      · exfalso
        apply a7
        have e : (i + ((bitmap.width + 24 : Nat) : Int) * j).toNat =
            i.toNat + (bitmap.width + 24) * j.toNat := by
          have hi : ((i.toNat : Nat) : Int) = i := Int.toNat_of_nonneg a3
          have hj : ((j.toNat : Nat) : Int) = j := Int.toNat_of_nonneg a5
          have : i + ((bitmap.width + 24 : Nat) : Int) * j =
              ((i.toNat + (bitmap.width + 24) * j.toNat : Nat) : Int) := by
            push_cast; rw [hi, hj]
          rw [this, Int.toNat_natCast]
        rw [e]
        symm
        apply hout
        rintro ⟨x, y, hx, hy, e2⟩
        obtain ⟨q1, q2⟩ := pixel_div_mod bitmap.width x y (by omega)
        have p := (Nat.div_mod_unique (a := i.toNat + (bitmap.width + 24) * j.toNat)
          (b := bitmap.width + 24) (d := j.toNat) (c := i.toNat) (by omega)).mpr
            ⟨by ring, by omega⟩
        rw [e2] at p
        have hj2 : j.toNat = y + 12 := by omega
        have hi2 : i.toNat = x + 12 := by omega
        have b1 := abs_le.mp a1
        have b2 := abs_le.mp a2
        unfold chebyshev_distance axis_distance at hfar
        rcases lt_max_iff.mp hfar with hf | hf
        · split_ifs at hf <;> omega
        · split_ifs at hf <;> omega
    rw [hself, hmax]
    exact sdf_byte_max.2
  · intro hring
    unfold chebyshev_distance axis_distance
    apply lt_max_iff.mpr
    rcases hring with h | h | h | h
    · left; rw [if_pos (by omega)]; omega
    · left; rw [if_neg (by omega), if_pos (by omega)]; omega
    · right; rw [if_pos (by omega)]; omega
    · right; rw [if_neg (by omega), if_pos (by omega)]; omega

theorem padding_ring_is_zero_witness :
    (narrow_slot.bitmap.rows + 24) * (narrow_slot.bitmap.width + 24) < 2 ^ 31 ∧
    8 * narrow_slot.bitmap.pitch < 2 ^ 31 ∧
    (narrow_slot.bitmap.width : Int) ≤ 8 * narrow_slot.bitmap.pitch ∧
    (narrow_slot.bitmap.width + 24) * (narrow_slot.bitmap.rows + 24) ≤
      (List.replicate 625 0).length ∧
    1 < narrow_slot.bitmap.width + 24 ∧ 5 < narrow_slot.bitmap.rows + 24 ∧
    (10 < chebyshev_distance narrow_slot.bitmap.width narrow_slot.bitmap.rows 1 5 →
      (calculate_distance_field (List.replicate 625 0) (unpack_mono_bitmap narrow_slot.bitmap)
        ((narrow_slot.bitmap.width + 24 : Nat) : Int)
        ((narrow_slot.bitmap.rows + 24 : Nat) : Int)).getD
          (1 + 5 * (narrow_slot.bitmap.width + 24)) 0 = 0) :=
  ⟨by decide, by decide, by decide, by rw [List.length_replicate]; decide, by decide,
    by decide,
    (padding_ring_is_zero narrow_slot.bitmap (List.replicate 625 0) (by decide) (by decide)
      (by decide) (by rw [List.length_replicate]; decide) 1 5 (by decide) (by decide)).1⟩
theorem collect_step_bitmaps_length (ft : Nat → FT_GlyphSlot) (cstart cw : Nat)
    (s : CollectState) (i : Nat) :
    (collect_step ft cstart cw s i).char_bitmaps.length = s.char_bitmaps.length := by
  simp only [collect_step]
  split <;> simp

theorem collect_fold_bitmaps (ft : Nat → FT_GlyphSlot) (cstart cw : Nat) (s0 : CollectState)
    (m : Nat) (hm : m ≤ s0.char_bitmaps.length) (hc : cstart + m ≤ 2 ^ 32) :
    (((List.range m).map (fun j => cstart + j)).foldl
        (collect_step ft cstart cw) s0).char_bitmaps.length = s0.char_bitmaps.length ∧
    ∀ j, j < m →
      (((List.range m).map (fun j => cstart + j)).foldl
          (collect_step ft cstart cw) s0).char_bitmaps.getD j [] =
        unpack_mono_bitmap (ft (cstart + j)).bitmap := by
  induction m with
  | zero => simp
  | succ m ih =>
    obtain ⟨hlen, hd⟩ := ih (by omega) (by omega)
    rw [List.range_succ, List.map_append, List.foldl_append]
    simp only [List.map_cons, List.map_nil, List.foldl_cons, List.foldl_nil]
    have hidx : u32_sub (cstart + m) cstart = m := u32_sub_add_left _ _ (by omega)
    refine ⟨by rw [collect_step_bitmaps_length, hlen], fun j hj => ?_⟩
    have key : ∀ s : CollectState, (collect_step ft cstart cw s (cstart + m)).char_bitmaps =
        s.char_bitmaps.set m (unpack_mono_bitmap (ft (cstart + m)).bitmap) := by
      intro s
      simp only [collect_step, hidx]
      split <;> rfl
    rw [key]
    by_cases hjm : j = m
    · subst hjm
      rw [getD_set_self _ _ _ _ (by rw [hlen]; omega)]
    · rw [getD_set_other _ _ _ _ _ (fun h => hjm h.symm)]
      exact hd j (by omega)

theorem build_step_dims (bm : List (List Bool)) (cstart cw W H : Nat) (s : PlaceState)
    (i k : Nat) :
    ((build_step bm cstart cw W H s i).glyphs.getD k Glyph.zero).dims =
      (s.glyphs.getD k Glyph.zero).dims := by
  have h := build_step_layout bm cstart cw W H s s i rfl
  simp only [PlaceState.layout, Prod.mk.injEq] at h
  rw [h.1]
  exact cached_step_dims cstart cw W H s i k

/-- The image after the loop that builds it: the copies of the distance fields of the
glyphs into their cells. -/
theorem build_fold_data (bm : List (List Bool)) (cstart cw W H : Nat) (D : Nat → Nat × Nat)
    (is : List Nat) (s : PlaceState)
    (h : ∀ i ∈ is, (s.glyphs.getD (u32_sub i cstart) Glyph.zero).dims =
      (int_of_u32 (D i).1, int_of_u32 (D i).2)) :
    (is.foldl (build_step bm cstart cw W H) s).expanded_data =
      blit_cells W
        ((cells_from cw (is.map D) s.gx s.gy s.temp_y s.counter).zip
          (is.map (fun i => calculate_distance_field
            (List.replicate (u32 (padded (D i).1 * padded (D i).2)) 0)
            (bm.getD (u32_sub i cstart) [])
            (int_of_u32 (padded (D i).1)) (int_of_u32 (padded (D i).2)))))
        s.expanded_data := by
  induction is generalizing s with
  | nil => simp [cells_from, blit_cells]
  | cons i is ih =>
    simp only [List.foldl_cons, List.map_cons]
    rw [ih]
    · have hi := h i (List.mem_cons_self _ _)
      simp only [Glyph.dims, Prod.mk.injEq] at hi
      simp only [cells_from, blit_cells]
      by_cases hb : u32 (s.counter + 1) % cw = 0
      · simp only [build_step, hi.1, hi.2, padded_of_int, hb, if_true, List.zip_cons_cons,
          List.foldl_cons]
      · simp only [build_step, hi.1, hi.2, padded_of_int, hb, if_false, List.zip_cons_cons,
          List.foldl_cons]
    · intro i2 hi2
      rw [build_step_dims]
      exact h i2 (List.mem_cons_of_mem _ hi2)

theorem cell_index_unique (W px py qx qy : Nat) (hp : px < W) (hq : qx < W)
    (h : px + py * W = qx + qy * W) : px = qx ∧ py = qy := by
  have h1 := (Nat.div_mod_unique (a := px + py * W) (b := W) (d := py) (c := px)
    (by omega)).mpr ⟨by ring, hp⟩
  have h2 := (Nat.div_mod_unique (a := qx + qy * W) (b := W) (d := qy) (c := qx)
    (by omega)).mpr ⟨by ring, hq⟩
  rw [h] at h1
  omega

/-- The copy of a distance field into a cell that lies inside the image. -/
theorem blit_getD (data df : List Nat) (gx gy w h W : Nat) (hx : gx + w ≤ W)
    (hy : (gy + h) * W ≤ data.length) (hlim : (gy + h) * W < 2 ^ 32) :
    (blit data df gx gy w h W).length = data.length ∧
    (∀ l k, l < w → k < h →
      (blit data df gx gy w h W).getD ((gx + l) + (gy + k) * W) 0 = df.getD (l + w * k) 0) ∧
    (∀ idx, (¬ ∃ l k, l < w ∧ k < h ∧ idx = (gx + l) + (gy + k) * W) →
      (blit data df gx gy w h W).getD idx 0 = data.getD idx 0) := by
  have hnat : blit data df gx gy w h W =
      (List.range h).foldl (fun (data : List Nat) (k : Nat) =>
        (List.range w).foldl (fun (data : List Nat) (l : Nat) =>
          data.set ((gx + l) + (gy + k) * W) (df.getD (l + w * k) 0)) data) data := by
    unfold blit
    apply List.foldl_ext
    intro d k hk
    have hk2 := List.mem_range.mp hk
    apply List.foldl_ext
    intro d l hl
    have hl2 := List.mem_range.mp hl
    have hrow : (gy + k) * W + W ≤ (gy + h) * W := by nlinarith
    have hwk : w * k + w ≤ (gy + h) * W := by nlinarith
    have hgy : k + gy ≤ (gy + k) * W := by nlinarith
    have a1 : u32 (l + gx) = gx + l := by rw [u32_of_lt (by omega)]; omega
    have a2 : u32 (k + gy) = gy + k := by rw [u32_of_lt (by omega)]; omega
    rw [a1, a2]
    have a3 : u32 ((gy + k) * W) = (gy + k) * W := u32_of_lt (by omega)
    rw [a3]
    have a4 : u32 (gx + l + (gy + k) * W) = gx + l + (gy + k) * W := u32_of_lt (by omega)
    rw [a4]
    have a5 : u32 (w * k) = w * k := u32_of_lt (by omega)
    rw [a5]
    have a6 : u32 (l + w * k) = l + w * k := u32_of_lt (by omega)
    rw [a6]
  rw [hnat]
  have hflat : (List.range h).foldl (fun (data : List Nat) (k : Nat) =>
        (List.range w).foldl (fun (data : List Nat) (l : Nat) =>
          data.set ((gx + l) + (gy + k) * W) (df.getD (l + w * k) 0)) data) data =
      (((List.range h).flatMap (fun k => (List.range w).map (fun l =>
        ((gx + l) + (gy + k) * W, df.getD (l + w * k) 0)))).foldl
        (fun (r : List Nat) (p : Nat × Nat) => r.set p.1 p.2) data) := by
    rw [foldl_flatMap_eq]
    apply List.foldl_ext
    intro r k _
    rw [List.foldl_map]
  rw [hflat]
  have hmem : ∀ p : Nat × Nat,
      p ∈ (List.range h).flatMap (fun k => (List.range w).map (fun l =>
        ((gx + l) + (gy + k) * W, df.getD (l + w * k) 0))) ↔
      ∃ l k, l < w ∧ k < h ∧ p = ((gx + l) + (gy + k) * W, df.getD (l + w * k) 0) := by
    intro p
    simp only [List.mem_flatMap, List.mem_map, List.mem_range]
    constructor
    · rintro ⟨k, hk, l, hl, rfl⟩
      exact ⟨l, k, hl, hk, rfl⟩
    · rintro ⟨l, k, hl, hk, rfl⟩
      exact ⟨k, hk, l, hl, rfl⟩
  have hdec : ∀ l k, l < w →
      ((gx + l) + (gy + k) * W) % W - gx + w * (((gx + l) + (gy + k) * W) / W - gy) =
        l + w * k := by
    intro l k hl
    have h1 := (Nat.div_mod_unique (a := (gx + l) + (gy + k) * W) (b := W) (d := gy + k)
      (c := gx + l) (by omega)).mpr ⟨by ring, by omega⟩
    rw [h1.1, h1.2]
    have r1 : gx + l - gx = l := by omega
    have r2 : gy + k - gy = k := by omega
    rw [r1, r2]
  obtain ⟨hlen, hget⟩ := writes_getD
    (fun idx => df.getD (idx % W - gx + w * (idx / W - gy)) 0) 0 _
    (by
      intro p hp
      obtain ⟨l, k, hl, hk, rfl⟩ := (hmem p).mp hp
      simp only
      rw [hdec l k hl])
    data
  refine ⟨hlen, ?_, ?_⟩
  · intro l k hl hk
    rw [hget, if_pos]
    · exact congrArg (fun n => df.getD n 0) (hdec l k hl)
    · refine ⟨⟨_, (hmem _).mpr ⟨l, k, hl, hk, rfl⟩, rfl⟩, ?_⟩
      have hrow : (gy + k) * W + W ≤ (gy + h) * W := by nlinarith
      omega
  · intro idx hno
    rw [hget, if_neg]
    rintro ⟨⟨p, hp, e⟩, -⟩
    obtain ⟨l, k, hl, hk, rfl⟩ := (hmem p).mp hp
    exact hno ⟨l, k, hl, hk, e.symm⟩

/-- The copies of distance fields into cells that lie inside the image and of which each
comes before the later ones: every cell holds its distance field, a pixel outside of all
cells is unchanged. -/
theorem blit_cells_getD (W H : Nat) (hlim : H * W < 2 ^ 32) (cfs : List (Cell × List Nat))
    (hin : ∀ cf ∈ cfs, cf.1.gx + cf.1.width ≤ W ∧ cf.1.gy + cf.1.height ≤ H)
    (hpair : cfs.Pairwise (fun c d => c.1.before d.1)) (data : List Nat)
    (hdata : H * W ≤ data.length) :
    (blit_cells W cfs data).length = data.length ∧
    (∀ cf ∈ cfs, ∀ l k, l < cf.1.width → k < cf.1.height →
      (blit_cells W cfs data).getD ((cf.1.gx + l) + (cf.1.gy + k) * W) 0 =
        cf.2.getD (l + cf.1.width * k) 0) ∧
    (∀ px py, px < W → (∀ cf ∈ cfs, ¬ cf.1.covers px py) →
      (blit_cells W cfs data).getD (px + py * W) 0 = data.getD (px + py * W) 0) := by
  induction cfs generalizing data with
  | nil => simp [blit_cells]
  | cons cf cfs ih =>
    obtain ⟨hx, hy⟩ := hin cf (List.mem_cons_self _ _)
    have hyW : (cf.1.gy + cf.1.height) * W ≤ H * W := Nat.mul_le_mul_right W hy
    obtain ⟨b1, b2, b3⟩ := blit_getD data cf.2 cf.1.gx cf.1.gy cf.1.width cf.1.height W hx
      (by omega) (by omega)
    have hp := List.pairwise_cons.mp hpair
    obtain ⟨i1, i2, i3⟩ := ih (fun c hc => hin c (List.mem_cons_of_mem _ hc)) hp.2
      (blit data cf.2 cf.1.gx cf.1.gy cf.1.width cf.1.height W) (by rw [b1]; exact hdata)
    have hunf : blit_cells W (cf :: cfs) data =
        blit_cells W cfs (blit data cf.2 cf.1.gx cf.1.gy cf.1.width cf.1.height W) := rfl
    rw [hunf]
    refine ⟨by rw [i1, b1], ?_, ?_⟩
    · intro c hc l k hl hk
      rcases List.mem_cons.mp hc with rfl | hmem
      · rw [i3 (c.1.gx + l) (c.1.gy + k) (by omega)]
        · exact b2 l k hl hk
        · intro d hd hcov
          exact before_not_covers c.1 d.1 (hp.1 d hd) (c.1.gx + l) (c.1.gy + k)
            ⟨⟨by omega, by omega, by omega, by omega⟩, hcov⟩
      · exact i2 c hmem l k hl hk
    · intro px py hpx hno
      rw [i3 px py hpx (fun d hd => hno d (List.mem_cons_of_mem _ hd))]
      apply b3
      rintro ⟨l, k, hl, hk, e⟩
      obtain ⟨e1, e2⟩ := cell_index_unique W px py (cf.1.gx + l) (cf.1.gy + k) hpx (by omega) e
      exact hno cf (List.mem_cons_self _ _) ⟨by omega, by omega, by omega, by omega⟩

/-- Without a cache file `generate_character_map` returns the image in which the distance
field of every glyph has been copied into the cell of the glyph, starting from the image
that `resize` leaves. -/
theorem generate_built_data (a : CharacterAtlas) (ft : Nat → FT_GlyphSlot)
    (hlen : a.glyphs.length = a.ccount) (hc : a.cstart + a.ccount < 2 ^ 32)
    (hn : 1 ≤ a.ccount) :
    ∃ r, generate_character_map a ft none = Except.ok r ∧
      r.atlas.texture_width = r.img_width ∧ r.atlas.texture_height = r.img_height ∧
      r.atlas.expanded_data =
        blit_cells r.img_width
          ((atlas_cells (Nat.sqrt a.ccount) (glyph_dims a ft)).zip
            ((List.range a.ccount).map (glyph_field a ft)))
          (resize a.expanded_data (u32 (r.img_width * r.img_height)) 0) := by
  have hcw : Nat.sqrt a.ccount ≠ 0 := by
    have := Nat.sqrt_pos.mpr hn
    omega
  obtain ⟨hl1, hd1⟩ := collect_fold_dims ft a.cstart (Nat.sqrt a.ccount)
    { glyphs := a.glyphs, char_bitmaps := List.replicate a.ccount [],
      img_width := 0, img_height := 0, temp_x := 0, temp_y := 0, counter := 0 }
    a.ccount (by simp [hlen]) (by omega)
  obtain ⟨-, hb1⟩ := collect_fold_bitmaps ft a.cstart (Nat.sqrt a.ccount)
    { glyphs := a.glyphs, char_bitmaps := List.replicate a.ccount [],
      img_width := 0, img_height := 0, temp_x := 0, temp_y := 0, counter := 0 }
    a.ccount (by simp) (by omega)
  simp only at hl1
  unfold generate_character_map
  simp only [hcw, if_false, char_codes_eq _ _ hc]
  generalize ((List.range a.ccount).map (fun j => a.cstart + j)).foldl
    (collect_step ft a.cstart (Nat.sqrt a.ccount))
    { glyphs := a.glyphs, char_bitmaps := List.replicate a.ccount [],
      img_width := 0, img_height := 0, temp_x := 0, temp_y := 0, counter := 0 } = s1
    at hl1 hd1 hb1
  generalize (if s1.counter % Nat.sqrt a.ccount ≠ 0 then u32 (s1.img_height + s1.temp_y)
      else s1.img_height) = H
  refine ⟨_, rfl, rfl, rfl, ?_⟩
  simp only
  rw [build_fold_data s1.char_bitmaps a.cstart (Nat.sqrt a.ccount) s1.img_width H
    (fun i => ((ft i).bitmap.width, (ft i).bitmap.rows))
    ((List.range a.ccount).map (fun j => a.cstart + j)) _ (by
      intro i hi
      simp only [List.mem_map, List.mem_range] at hi
      obtain ⟨j, hj, rfl⟩ := hi
      rw [u32_sub_add_left _ _ (by omega)]
      exact hd1 j hj)]
  simp only
  rw [codes_map_dims]
  have hfields : ((List.range a.ccount).map (fun j => a.cstart + j)).map
      (fun i => calculate_distance_field
        (List.replicate (u32 (padded (ft i).bitmap.width * padded (ft i).bitmap.rows)) 0)
        (s1.char_bitmaps.getD (u32_sub i a.cstart) [])
        (int_of_u32 (padded (ft i).bitmap.width)) (int_of_u32 (padded (ft i).bitmap.rows))) =
      (List.range a.ccount).map (glyph_field a ft) := by
    rw [List.map_map]
    apply List.map_congr_left
    intro j hj
    have hj2 := List.mem_range.mp hj
    simp only [Function.comp, glyph_field]
    rw [u32_sub_add_left _ _ (by omega), hb1 j hj2]
  rw [hfields]
  rfl
theorem row_before_take (cw : Nat) (ds : List (Nat × Nat)) (i : Nat) (hi : i < ds.length)
    (hcw : 0 < cw) :
    row_before cw ds i ++ [ds.getD i (0, 0)] = (layout_row cw ds (i / cw)).take (i % cw + 1) := by
  have h1 := Nat.div_add_mod i cw
  have h2 := Nat.mod_lt i hcw
  unfold row_before layout_row
  rw [List.take_take, Nat.min_eq_left (by omega)]
  have e : (ds.take (i + 1)).drop (cw * (i / cw)) =
      (ds.drop (cw * (i / cw))).take (i % cw + 1) := by
    rw [List.drop_take]
    congr 1
    omega
  rw [← e, take_succ_getD ds i hi, List.drop_append_of_le_length]
  rw [List.length_take]
  omega

theorem row_width_take_le (row : List (Nat × Nat)) (m : Nat) :
    row_width (row.take m) ≤ row_width row := by
  have h : row_width row = row_width (row.take m) + row_width (row.drop m) := by
    conv_lhs => rw [← List.take_append_drop m row]
    simp [row_width]
  omega

theorem row_height_mem (row : List (Nat × Nat)) (d : Nat × Nat) (hd : d ∈ row) :
    d.2 + 2 * 12 ≤ row_height row := by
  unfold row_height
  induction row with
  | nil => simp at hd
  | cons x row ih =>
    simp only [List.map_cons, List.foldr_cons]
    rcases List.mem_cons.mp hd with rfl | hmem
    · exact Nat.le_max_left _ _
    · exact Nat.le_trans (ih hmem) (Nat.le_max_right _ _)

theorem sum_range_mono (f : Nat → Nat) (m n : Nat) (h : m ≤ n) :
    ((List.range m).map f).sum ≤ ((List.range n).map f).sum := by
  induction n with
  | zero =>
    have : m = 0 := by omega
    rw [this]
  | succ n ih =>
    by_cases hm : m = n + 1
    · rw [hm]
    · have := ih (by omega)
      rw [List.range_succ, List.map_append, List.sum_append]
      omega

/-- The cell of glyph `i` ends inside its row and inside the rows of the atlas. -/
theorem cell_inside (cw : Nat) (hcw : 0 < cw) (ds : List (Nat × Nat)) (i : Nat)
    (hi : i < ds.length) :
    spec_gx cw ds i + ((ds.getD i (0, 0)).1 + 2 * 12) ≤ row_width (layout_row cw ds (i / cw)) ∧
    spec_gy cw ds i + ((ds.getD i (0, 0)).2 + 2 * 12) ≤ spec_atlas_height cw ds := by
  have hp := row_before_take cw ds i hi hcw
  constructor
  · unfold spec_gx
    rw [← row_width_append, hp]
    exact row_width_take_le _ _
  · have hmem : ds.getD i (0, 0) ∈ layout_row cw ds (i / cw) := by
      apply List.mem_of_mem_take (n := i % cw + 1)
      rw [← hp]
      simp
    have hh := row_height_mem _ _ hmem
    have hq : i / cw + 1 ≤ (ds.length + cw - 1) / cw := by
      rw [Nat.le_div_iff_mul_le hcw]
      have h1 := Nat.div_add_mod i cw
      have h2 := Nat.mod_lt i hcw
      have : (i / cw + 1) * cw = cw * (i / cw) + cw := by ring
      omega
    have hs := sum_range_mono (fun r => row_height (layout_row cw ds r)) _ _ hq
    rw [List.range_succ, List.map_append, List.sum_append] at hs
    simp only [List.map_cons, List.map_nil, List.sum_cons, List.sum_nil, Nat.add_zero] at hs
    unfold spec_gy spec_atlas_height
    omega
theorem zip_getD_mem {α β : Type} (l1 : List α) (l2 : List β) (d : α) (f : Nat → β) (n : Nat)
    (h1 : l1.length = n) (h2 : l2 = (List.range n).map f) (i : Nat) (hi : i < n) :
    (l1.getD i d, f i) ∈ l1.zip l2 := by
  subst h2
  rw [List.mem_iff_getElem]
  refine ⟨i, by simp [h1, hi], ?_⟩
  rw [List.getElem_zip]
  simp only [List.getElem_map, List.getElem_range, Prod.mk.injEq, and_true]
  rw [List.getD_eq_getElem _ _ (by omega)]

theorem zip_mem_getD {α β : Type} (l1 : List α) (l2 : List β) (d : α) (cf : α × β)
    (h : cf ∈ l1.zip l2) : ∃ i, i < l1.length ∧ cf.1 = l1.getD i d := by
  have h1 := (List.of_mem_zip h).1
  obtain ⟨i, hi, e⟩ := List.mem_iff_getElem.mp h1
  exact ⟨i, hi, by rw [List.getD_eq_getElem _ _ hi]; exact e.symm⟩

/-- C22: without a cache file, when every row of the layout is at most `img_width` wide
(and no unsigned operation wraps around, the product `img_width * img_height` included), the
image `expanded_data` that `generate_character_map` leaves has `img_width * img_height`
pixels; glyph `i` has the cell at the offsets `gx`, `gy` of the layout, of its padded size;
for every pixel `(l, k)` of that cell the index `(gx + l) + (gy + k) * img_width` is inside
the image and the pixel holds the entry `l + k * (width + 24)` of the distance field of the
glyph; every pixel of the image that lies in no cell is 0; this image and its size
`img_width`, `img_height` are the arguments of the call that stores the cache file. -/
theorem atlas_image_assembled (a : CharacterAtlas) (ft : Nat → FT_GlyphSlot)
    (hlen : a.glyphs.length = a.ccount) (hn : 1 ≤ a.ccount)
    (hfit : no_overflow a ft = true) (hempty : a.expanded_data = [])
    (hrows : ∀ rr, row_width (layout_row (Nat.sqrt a.ccount) (glyph_dims a ft) rr) ≤
      (atlas_size (Nat.sqrt a.ccount) (glyph_dims a ft)).1)
    (hprod : (atlas_size (Nat.sqrt a.ccount) (glyph_dims a ft)).1 *
      (atlas_size (Nat.sqrt a.ccount) (glyph_dims a ft)).2 < 2 ^ 32) :
    ∃ r, generate_character_map a ft none = Except.ok r ∧
      r.atlas.expanded_data.length = r.img_width * r.img_height ∧
      (∀ i, i < a.ccount →
        r.cells.getD i Cell.zero =
          Cell.mk (spec_gx (Nat.sqrt a.ccount) (glyph_dims a ft) i)
            (spec_gy (Nat.sqrt a.ccount) (glyph_dims a ft) i)
            ((ft (a.cstart + i)).bitmap.width + 2 * 12)
            ((ft (a.cstart + i)).bitmap.rows + 2 * 12) ∧
        ∀ l k, l < (ft (a.cstart + i)).bitmap.width + 2 * 12 →
          k < (ft (a.cstart + i)).bitmap.rows + 2 * 12 →
          ((r.cells.getD i Cell.zero).gx + l) + ((r.cells.getD i Cell.zero).gy + k) * r.img_width
            < r.img_width * r.img_height ∧
          r.atlas.expanded_data.getD
            (((r.cells.getD i Cell.zero).gx + l) +
              ((r.cells.getD i Cell.zero).gy + k) * r.img_width) 0 =
            (glyph_field a ft i).getD (l + k * ((ft (a.cstart + i)).bitmap.width + 2 * 12)) 0) ∧
      (∀ px py, px < r.img_width → py < r.img_height →
        (∀ i, i < a.ccount → ¬ (r.cells.getD i Cell.zero).covers px py) →
        r.atlas.expanded_data.getD (px + py * r.img_width) 0 = 0) ∧
      stored_image a ft none = some (r.atlas.expanded_data, r.img_width, r.img_height) := by
  have hfit0 := hfit
  simp only [no_overflow, Bool.and_eq_true, decide_eq_true_eq] at hfit
  obtain ⟨⟨hc, hsf⟩, hcf⟩ := hfit
  have hcw : 0 < Nat.sqrt a.ccount := Nat.sqrt_pos.mpr hn
  obtain ⟨r, hr, hW, hH, hcells, -, -⟩ := generate_layout a ft none hlen hc hn
    (by intro png h; cases h)
  obtain ⟨r2, hr2, -, hoff⟩ := generate_offsets a ft none hlen hn hfit0
    (by intro png h; cases h)
  obtain ⟨r3, hr3, htw, hth, hdata⟩ := generate_built_data a ft hlen hc hn
  have e2 : r = r2 := by rw [hr] at hr2; injection hr2 with h
  have e3 : r = r3 := by rw [hr] at hr3; injection hr3 with h
  subst e2
  subst e3
  have hHs : r.img_height = spec_atlas_height (Nat.sqrt a.ccount) (glyph_dims a ft) := by
    rw [hH]; exact atlas_height_closed _ hcw _ hsf hcf
  have hdl := glyph_dims_length a ft
  have hclen : (atlas_cells (Nat.sqrt a.ccount) (glyph_dims a ft)).length = a.ccount := by
    unfold atlas_cells; rw [cells_from_length, hdl]
  have hprod2 : r.img_height * r.img_width < 2 ^ 32 := by
    rw [hW, hH, Nat.mul_comm]; exact hprod
  -- every cell lies inside the image
  have hcell_in : ∀ i, i < a.ccount →
      (r.cells.getD i Cell.zero).gx + (r.cells.getD i Cell.zero).width ≤ r.img_width ∧
      (r.cells.getD i Cell.zero).gy + (r.cells.getD i Cell.zero).height ≤ r.img_height := by
    intro i hi
    obtain ⟨c1, c2⟩ := cell_inside (Nat.sqrt a.ccount) hcw (glyph_dims a ft) i (by omega)
    rw [glyph_dims_getD a ft i hi] at c1 c2
    rw [(hoff i hi).1, hHs, hW]
    exact ⟨Nat.le_trans c1 (hrows _), c2⟩
  have hinit : (resize a.expanded_data (u32 (r.img_width * r.img_height)) 0) =
      List.replicate (r.img_width * r.img_height) 0 := by
    rw [hempty, u32_of_lt (by rw [Nat.mul_comm]; exact hprod2)]
    simp [resize]
  rw [hinit, ← hcells] at hdata
  obtain ⟨b1, b2, b3⟩ := blit_cells_getD r.img_width r.img_height hprod2
    (r.cells.zip ((List.range a.ccount).map (glyph_field a ft)))
    (by
      intro cf hcf2
      obtain ⟨i, hi, e⟩ := zip_mem_getD _ _ Cell.zero cf hcf2
      rw [hcells, hclen] at hi
      rw [e]
      exact hcell_in i hi)
    (by
      have hp : r.cells.Pairwise Cell.before := by
        rw [hcells]; exact cells_from_pairwise _ _ 0 0 0 0 hcf
      have hm : (r.cells.zip ((List.range a.ccount).map (glyph_field a ft))).map Prod.fst =
          r.cells := by
        apply List.map_fst_zip
        rw [hcells, hclen]; simp
      rw [← hm] at hp
      exact List.pairwise_map.mp hp)
    (List.replicate (r.img_width * r.img_height) 0)
    (by rw [List.length_replicate, Nat.mul_comm])
  rw [← hdata] at b1 b2 b3
  rw [List.length_replicate] at b1
  refine ⟨r, hr, b1, ?_, ?_, ?_⟩
  · intro i hi
    refine ⟨(hoff i hi).1, fun l k hl hk => ?_⟩
    obtain ⟨cx, cy⟩ := hcell_in i hi
    have hwd : (r.cells.getD i Cell.zero).width = (ft (a.cstart + i)).bitmap.width + 2 * 12 := by
      rw [(hoff i hi).1]
    have hht : (r.cells.getD i Cell.zero).height = (ft (a.cstart + i)).bitmap.rows + 2 * 12 := by
      rw [(hoff i hi).1]
    constructor
    · have hb := pixel_index_lt r.img_width r.img_height ((r.cells.getD i Cell.zero).gx + l)
        ((r.cells.getD i Cell.zero).gy + k) (by omega) (by omega)
      rw [Nat.mul_comm r.img_width ((r.cells.getD i Cell.zero).gy + k)] at hb
      exact hb
    · have hmem := zip_getD_mem r.cells ((List.range a.ccount).map (glyph_field a ft))
        Cell.zero (glyph_field a ft) a.ccount (by rw [hcells, hclen]) rfl i hi
      have := b2 _ hmem l k (by rw [hwd]; exact hl) (by rw [hht]; exact hk)
      simp only at this
      rw [this, hwd, Nat.mul_comm]
  · intro px py hpx hpy hno
    rw [b3 px py hpx]
    · have : px + py * r.img_width < r.img_width * r.img_height := by
        have hb := pixel_index_lt r.img_width r.img_height px py hpx hpy
        rw [Nat.mul_comm r.img_width py] at hb
        exact hb
      rw [List.getD_eq_getElem _ _ (by rw [List.length_replicate]; exact this)]
      simp
    · intro cf hcf2 hcov
      obtain ⟨i, hi, e⟩ := zip_mem_getD _ _ Cell.zero cf hcf2
      rw [hcells, hclen] at hi
      rw [e] at hcov
      exact hno i hi hcov
  · unfold stored_image
    rw [hr]
    simp only [htw, hth]

theorem sqrt_four : Nat.sqrt 4 = 2 := by norm_num [Nat.sqrt, Nat.sqrt.iter]

theorem narrow_four_dims :
    glyph_dims (CharacterAtlas.init 14 65 4) wide_last_ft = [(1, 1), (1, 1), (1, 1), (1, 1)] := by
  decide

theorem no_overflow_narrow_four :
    no_overflow (CharacterAtlas.init 14 65 4) wide_last_ft = true := by
  unfold no_overflow
  rw [narrow_four_dims]
  simp only [CharacterAtlas.init, sqrt_four]
  decide

theorem rows_fit_narrow_four (rr : Nat) :
    row_width (layout_row (Nat.sqrt (CharacterAtlas.init 14 65 4).ccount)
      (glyph_dims (CharacterAtlas.init 14 65 4) wide_last_ft) rr) ≤
    (atlas_size (Nat.sqrt (CharacterAtlas.init 14 65 4).ccount)
      (glyph_dims (CharacterAtlas.init 14 65 4) wide_last_ft)).1 := by
  rw [narrow_four_dims]
  simp only [CharacterAtlas.init, sqrt_four]
  have hs : (atlas_size 2 [(1, 1), (1, 1), (1, 1), (1, 1)]).1 = 50 := by decide
  rw [hs]
  rcases rr with _ | _ | rr
  · decide
  · decide
  · have : layout_row 2 [(1, 1), (1, 1), (1, 1), (1, 1)] (rr + 1 + 1) = [] := by
      unfold layout_row
      rw [List.drop_of_length_le (by simp only [List.length_cons, List.length_nil]; omega)]
      rfl
    rw [this]
    decide

theorem atlas_image_assembled_witness :
    (CharacterAtlas.init 14 65 4).glyphs.length = (CharacterAtlas.init 14 65 4).ccount ∧
    1 ≤ (CharacterAtlas.init 14 65 4).ccount ∧
    no_overflow (CharacterAtlas.init 14 65 4) wide_last_ft = true ∧
    (CharacterAtlas.init 14 65 4).expanded_data = [] ∧
    ∃ r, generate_character_map (CharacterAtlas.init 14 65 4) wide_last_ft none = Except.ok r ∧
      r.atlas.expanded_data.length = r.img_width * r.img_height ∧
      stored_image (CharacterAtlas.init 14 65 4) wide_last_ft none =
        some (r.atlas.expanded_data, r.img_width, r.img_height) :=
  ⟨by decide, by decide, no_overflow_narrow_four, rfl,
    (atlas_image_assembled (CharacterAtlas.init 14 65 4) wide_last_ft (by decide) (by decide)
      no_overflow_narrow_four rfl rows_fit_narrow_four (by
        rw [narrow_four_dims]
        simp only [CharacterAtlas.init, sqrt_four]
        decide)).imp (fun _ h => ⟨h.1, h.2.1, h.2.2.2.2⟩)⟩

/-! ## The layout on executions that store inside the image

The loop that builds the image writes through an unchecked `operator[]` (line 527). What
follows is stated, for the branch without a cache file, for atlases with `image_fits`, and
says with `stores_inside` that every store of that loop is then inside `expanded_data`. -/

theorem image_fits_no_overflow (a : CharacterAtlas) (ft : Nat → FT_GlyphSlot)
    (h : image_fits a ft = true) : no_overflow a ft = true := by
  simp only [image_fits, Bool.and_eq_true] at h
  exact h.1.1

theorem image_fits_rows (a : CharacterAtlas) (ft : Nat → FT_GlyphSlot) (hn : 1 ≤ a.ccount)
    (h : image_fits a ft = true) (rr : Nat) :
    row_width (layout_row (Nat.sqrt a.ccount) (glyph_dims a ft) rr) ≤
      (atlas_size (Nat.sqrt a.ccount) (glyph_dims a ft)).1 := by
  simp only [image_fits, Bool.and_eq_true, List.all_eq_true, List.mem_range,
    decide_eq_true_eq] at h
  by_cases hrr : rr < a.ccount
  · exact h.1.2 rr hrr
  · have hcw : 0 < Nat.sqrt a.ccount := Nat.sqrt_pos.mpr hn
    have hle : (glyph_dims a ft).length ≤ Nat.sqrt a.ccount * rr := by
      rw [glyph_dims_length]
      calc a.ccount ≤ rr := by omega
        _ = 1 * rr := (Nat.one_mul rr).symm
        _ ≤ Nat.sqrt a.ccount * rr := Nat.mul_le_mul_right rr hcw
    have : layout_row (Nat.sqrt a.ccount) (glyph_dims a ft) rr = [] := by
      unfold layout_row
      rw [List.drop_of_length_le hle, List.take_nil]
    rw [this]
    exact Nat.zero_le _

theorem image_fits_product (a : CharacterAtlas) (ft : Nat → FT_GlyphSlot)
    (h : image_fits a ft = true) :
    (atlas_size (Nat.sqrt a.ccount) (glyph_dims a ft)).1 *
      (atlas_size (Nat.sqrt a.ccount) (glyph_dims a ft)).2 < 2 ^ 32 := by
  simp only [image_fits, Bool.and_eq_true, decide_eq_true_eq] at h
  exact h.2

theorem foldl_set_length {α β : Type} (f : β → Nat) (g : β → α) (ls : List β) (v : List α) :
    (ls.foldl (fun (v : List α) (x : β) => v.set (f x) (g x)) v).length = v.length := by
  induction ls generalizing v with
  | nil => rfl
  | cons x ls ih => rw [List.foldl_cons, ih, List.length_set]

theorem blit_length (data df : List Nat) (gx gy w h W : Nat) :
    (blit data df gx gy w h W).length = data.length := by
  unfold blit
  generalize List.range h = ks
  induction ks generalizing data with
  | nil => rfl
  | cons k ks ih =>
    rw [List.foldl_cons, ih]
    exact foldl_set_length (fun (l : Nat) => u32 (u32 (l + gx) + u32 (u32 (k + gy) * W)))
      (fun (l : Nat) => df.getD (u32 (l + u32 (w * k))) 0) (List.range w) data

theorem blit_cells_length (W : Nat) (cfs : List (Cell × List Nat)) (data : List Nat) :
    (blit_cells W cfs data).length = data.length := by
  unfold blit_cells
  induction cfs generalizing data with
  | nil => rfl
  | cons cf cfs ih => rw [List.foldl_cons, ih, blit_length]

/-- Under `image_fits` every store of the loop that builds the image is inside the image:
the vector `expanded_data` has `img_width * img_height` entries from the `resize` on, and
for every pixel `(l, k)` of the cell of a glyph the index of the store of line 527,
computed in `unsigned int`, is below that number. -/
theorem built_stores_inside (a : CharacterAtlas) (ft : Nat → FT_GlyphSlot)
    (hlen : a.glyphs.length = a.ccount) (hn : 1 ≤ a.ccount)
    (hstore : image_fits a ft = true) :
    ∃ r, generate_character_map a ft none = Except.ok r ∧
      r.atlas.expanded_data.length = r.img_width * r.img_height ∧
      stores_inside r.cells r.img_width r.atlas.expanded_data.length = true := by
  have hfit0 := image_fits_no_overflow a ft hstore
  have hfit := hfit0
  simp only [no_overflow, Bool.and_eq_true, decide_eq_true_eq] at hfit
  obtain ⟨⟨hc, hsf⟩, hcf⟩ := hfit
  have hcw : 0 < Nat.sqrt a.ccount := Nat.sqrt_pos.mpr hn
  obtain ⟨r, hr, hW, hH, hcells, -, -⟩ := generate_layout a ft none hlen hc hn
    (by intro png h; cases h)
  obtain ⟨r2, hr2, -, hoff⟩ := generate_offsets a ft none hlen hn hfit0
    (by intro png h; cases h)
  obtain ⟨r3, hr3, -, -, hdata⟩ := generate_built_data a ft hlen hc hn
  have e2 : r = r2 := by rw [hr] at hr2; injection hr2 with h
  have e3 : r = r3 := by rw [hr] at hr3; injection hr3 with h
  subst e2
  subst e3
  have hHs : r.img_height = spec_atlas_height (Nat.sqrt a.ccount) (glyph_dims a ft) := by
    rw [hH]; exact atlas_height_closed _ hcw _ hsf hcf
  have hprod : r.img_width * r.img_height < 2 ^ 32 := by
    rw [hW, hH]; exact image_fits_product a ft hstore
  have hsize : r.atlas.expanded_data.length = r.img_width * r.img_height := by
    rw [hdata, blit_cells_length, u32_of_lt hprod]
    simp only [resize, List.length_append, List.length_take, List.length_replicate]
    omega
  have hclen : r.cells.length = a.ccount := by
    rw [hcells]; unfold atlas_cells; rw [cells_from_length, glyph_dims_length]
  refine ⟨r, hr, hsize, ?_⟩
  simp only [stores_inside, List.all_eq_true, List.mem_range, decide_eq_true_eq]
  intro c hcm k hk l hl
  obtain ⟨i, hi, rfl⟩ := List.mem_iff_getElem.mp hcm
  rw [hclen] at hi
  have hcell := (hoff i hi).1
  rw [List.getD_eq_getElem _ _ (by rw [hclen]; exact hi)] at hcell
  rw [hcell] at hl hk ⊢
  simp only at hl hk ⊢
  obtain ⟨c1, c2⟩ := cell_inside (Nat.sqrt a.ccount) hcw (glyph_dims a ft) i
    (by rw [glyph_dims_length]; exact hi)
  rw [glyph_dims_getD a ft i hi] at c1 c2
  have hx : l + spec_gx (Nat.sqrt a.ccount) (glyph_dims a ft) i < r.img_width := by
    have := image_fits_rows a ft hn hstore (i / Nat.sqrt a.ccount)
    rw [hW]
    omega
  have hy : k + spec_gy (Nat.sqrt a.ccount) (glyph_dims a ft) i < r.img_height := by
    rw [hHs]
    omega
  have hb := pixel_index_lt r.img_width r.img_height _ _ hx hy
  have hb2 : l + spec_gx (Nat.sqrt a.ccount) (glyph_dims a ft) i +
      (k + spec_gy (Nat.sqrt a.ccount) (glyph_dims a ft) i) * r.img_width <
      r.img_width * r.img_height := by
    rw [Nat.mul_comm (k + spec_gy (Nat.sqrt a.ccount) (glyph_dims a ft) i)]
    exact hb
  have hhpos : 0 < r.img_height := by omega
  have hwlt : r.img_width < 2 ^ 32 := by
    calc r.img_width = r.img_width * 1 := (Nat.mul_one _).symm
      _ ≤ r.img_width * r.img_height := Nat.mul_le_mul_left _ hhpos
      _ < 2 ^ 32 := hprod
  have hwpos : 0 < r.img_width := by omega
  have hhlt : r.img_height < 2 ^ 32 := by
    calc r.img_height = 1 * r.img_height := (Nat.one_mul _).symm
      _ ≤ r.img_width * r.img_height := Nat.mul_le_mul_right _ hwpos
      _ < 2 ^ 32 := hprod
  rw [u32_of_lt (by omega : l + spec_gx (Nat.sqrt a.ccount) (glyph_dims a ft) i < 2 ^ 32),
    u32_of_lt (by omega : k + spec_gy (Nat.sqrt a.ccount) (glyph_dims a ft) i < 2 ^ 32),
    u32_of_lt (by omega : (k + spec_gy (Nat.sqrt a.ccount) (glyph_dims a ft) i) *
      r.img_width < 2 ^ 32),
    u32_of_lt (by omega), hsize]
  exact hb2

/-- The same for a call of either branch: when the branch without a cache file is taken
for an atlas with `image_fits`, every store of its loop is inside `expanded_data`. -/
theorem stores_inside_of_fits (a : CharacterAtlas) (ft : Nat → FT_GlyphSlot)
    (cache : Option PngImage) (hlen : a.glyphs.length = a.ccount) (hn : 1 ≤ a.ccount)
    (hstore : cache = none → image_fits a ft = true) (r : Generated)
    (hr : generate_character_map a ft cache = Except.ok r) (hc : cache = none) :
    stores_inside r.cells r.img_width r.atlas.expanded_data.length = true := by
  subst hc
  obtain ⟨r2, hr2, -, h⟩ := built_stores_inside a ft hlen hn (hstore rfl)
  rw [hr] at hr2
  cases hr2
  exact h

/-- C1. For a non-empty character range and glyph dimensions for which no 32-bit
addition wraps around, `generate_character_map` (both branches; the branch that builds the
image for an atlas with `image_fits`) returns, glyph `i` gets the cell
`[gx, gx + width_i + 2 * 12) x [gy, gy + height_i + 2 * 12)` whose corners, divided by the
atlas size, are its stored texture coordinates; the cells of two distinct glyphs have no
pixel in common, and their texture rectangles `tx1 .. tx2` by `ty2 .. ty1` have no point in
common. On the branch that builds the image every store of line 527 is inside
`expanded_data`. -/
theorem glyph_cells_disjoint (a : CharacterAtlas) (ft : Nat → FT_GlyphSlot)
    (cache : Option PngImage) (hlen : a.glyphs.length = a.ccount) (hn : 1 ≤ a.ccount)
    (hfit : no_overflow a ft = true)
    (hcache : ∀ png, cache = some png → png.col = 0 ∧ png.bit_depth = 8)
    (hstore : cache = none → image_fits a ft = true) :
    ∃ r, generate_character_map a ft cache = Except.ok r ∧
      r.cells.length = a.ccount ∧
      (∀ i, i < a.ccount →
        (r.cells.getD i Cell.zero).width = (ft (a.cstart + i)).bitmap.width + 2 * 12 ∧
        (r.cells.getD i Cell.zero).height = (ft (a.cstart + i)).bitmap.rows + 2 * 12 ∧
        (r.atlas.glyphs.getD i Glyph.zero).tx1 =
          ((r.cells.getD i Cell.zero).gx : ℚ) / (r.img_width : ℚ) ∧
        (r.atlas.glyphs.getD i Glyph.zero).tx2 =
          (((r.cells.getD i Cell.zero).gx + (r.cells.getD i Cell.zero).width : Nat) : ℚ)
            / (r.img_width : ℚ) ∧
        (r.atlas.glyphs.getD i Glyph.zero).ty1 =
          (((r.cells.getD i Cell.zero).gy + (r.cells.getD i Cell.zero).height : Nat) : ℚ)
            / (r.img_height : ℚ) ∧
        (r.atlas.glyphs.getD i Glyph.zero).ty2 =
          ((r.cells.getD i Cell.zero).gy : ℚ) / (r.img_height : ℚ)) ∧
      (∀ i j, i < a.ccount → j < a.ccount → i ≠ j → ∀ px py : Nat,
        ¬ ((r.cells.getD i Cell.zero).covers px py ∧ (r.cells.getD j Cell.zero).covers px py)) ∧
      (∀ i j, i < a.ccount → j < a.ccount → i ≠ j → ∀ u v : ℚ,
        ¬ ((r.atlas.glyphs.getD i Glyph.zero).covers u v ∧
           (r.atlas.glyphs.getD j Glyph.zero).covers u v)) ∧
      (cache = none →
        stores_inside r.cells r.img_width r.atlas.expanded_data.length = true) := by
  simp only [no_overflow, Bool.and_eq_true, decide_eq_true_eq] at hfit
  obtain ⟨⟨hc, _⟩, hcf⟩ := hfit
  obtain ⟨r, hr, _, _, hcells, _, htex⟩ := generate_layout a ft cache hlen hc hn hcache
  have hdl := glyph_dims_length a ft
  have hfld : ∀ i, i < a.ccount → _ :=
    fun i hi => cells_from_getD (Nat.sqrt a.ccount) (glyph_dims a ft) 0 0 0 0 hcf i (by omega)
  have hbef : ∀ i j, i < j → j < a.ccount → _ :=
    fun i j hij hj => atlas_cells_before (Nat.sqrt a.ccount) (glyph_dims a ft) hcf i j hij
      (by omega)
  refine ⟨r, hr, ?_, ?_, ?_, ?_, stores_inside_of_fits a ft cache hlen hn hstore r hr⟩
  · rw [hcells, atlas_cells, cells_from_length, hdl]
  · intro i hi
    obtain ⟨hw, hh, hx, hy⟩ := hfld i hi
    have ht := htex i hi
    rw [glyph_dims_getD a ft i hi] at hw hh
    rw [hcells]
    simp only [Glyph.tex, Cell.tex, Prod.mk.injEq, atlas_cells, u32_of_lt hx, u32_of_lt hy] at ht
    simp only [font_padding] at hw hh
    exact ⟨hw, hh, ht.1, ht.2.1, ht.2.2.1, ht.2.2.2⟩
  · intro i j hi hj hij px py
    rw [hcells]
    rcases Nat.lt_or_gt_of_ne hij with h | h
    · exact before_not_covers _ _ (hbef i j h hj) px py
    · intro hcov
      exact before_not_covers _ _ (hbef j i h hi) px py ⟨hcov.2, hcov.1⟩
  · intro i j hi hj hij u v
    rcases Nat.lt_or_gt_of_ne hij with h | h
    · exact before_not_tex_covers _ _ _ _ _ _ (htex i hi) (htex j hj)
        (hfld i hi).2.2.1 (hfld i hi).2.2.2 (hbef i j h hj) u v
    · intro hcov
      exact before_not_tex_covers _ _ _ _ _ _ (htex j hj) (htex i hi)
        (hfld j hj).2.2.1 (hfld j hj).2.2.2 (hbef j i h hi) u v ⟨hcov.2, hcov.1⟩

/-- Witness of `glyph_cells_disjoint`: the atlas of the five characters `60 .. 64` of
`wide_last_ft` (three rows, the last one partially filled, image of 50 by 75 pixels),
built without a cache file. -/
theorem glyph_cells_disjoint_witness :
    (CharacterAtlas.init 14 60 5).glyphs.length = (CharacterAtlas.init 14 60 5).ccount ∧
    1 ≤ (CharacterAtlas.init 14 60 5).ccount ∧
    no_overflow (CharacterAtlas.init 14 60 5) wide_last_ft = true ∧
    image_fits (CharacterAtlas.init 14 60 5) wide_last_ft = true ∧
    ∃ r, generate_character_map (CharacterAtlas.init 14 60 5) wide_last_ft none = Except.ok r ∧
      r.cells.length = (CharacterAtlas.init 14 60 5).ccount ∧
      (∀ i, i < (CharacterAtlas.init 14 60 5).ccount →
        (r.cells.getD i Cell.zero).width = (wide_last_ft ((CharacterAtlas.init 14 60 5).cstart + i)).bitmap.width + 2 * 12 ∧
        (r.cells.getD i Cell.zero).height = (wide_last_ft ((CharacterAtlas.init 14 60 5).cstart + i)).bitmap.rows + 2 * 12 ∧
        (r.atlas.glyphs.getD i Glyph.zero).tx1 =
          ((r.cells.getD i Cell.zero).gx : ℚ) / (r.img_width : ℚ) ∧
        (r.atlas.glyphs.getD i Glyph.zero).tx2 =
          (((r.cells.getD i Cell.zero).gx + (r.cells.getD i Cell.zero).width : Nat) : ℚ)
            / (r.img_width : ℚ) ∧
        (r.atlas.glyphs.getD i Glyph.zero).ty1 =
          (((r.cells.getD i Cell.zero).gy + (r.cells.getD i Cell.zero).height : Nat) : ℚ)
            / (r.img_height : ℚ) ∧
        (r.atlas.glyphs.getD i Glyph.zero).ty2 =
          ((r.cells.getD i Cell.zero).gy : ℚ) / (r.img_height : ℚ)) ∧
      (∀ i j, i < (CharacterAtlas.init 14 60 5).ccount → j < (CharacterAtlas.init 14 60 5).ccount → i ≠ j → ∀ px py : Nat,
        ¬ ((r.cells.getD i Cell.zero).covers px py ∧ (r.cells.getD j Cell.zero).covers px py)) ∧
      (∀ i j, i < (CharacterAtlas.init 14 60 5).ccount → j < (CharacterAtlas.init 14 60 5).ccount → i ≠ j → ∀ u v : ℚ,
        ¬ ((r.atlas.glyphs.getD i Glyph.zero).covers u v ∧
           (r.atlas.glyphs.getD j Glyph.zero).covers u v)) ∧
      stores_inside r.cells r.img_width r.atlas.expanded_data.length = true :=
  ⟨by decide, by decide, no_overflow_narrow_five, image_fits_narrow_five,
    (glyph_cells_disjoint (CharacterAtlas.init 14 60 5) wide_last_ft none (by decide)
      (by decide) no_overflow_narrow_five (by intro png h; cases h)
      (fun _ => image_fits_narrow_five)).imp
      (fun _ h => ⟨h.1, h.2.1, h.2.2.1, h.2.2.2.1, h.2.2.2.2.1, h.2.2.2.2.2 rfl⟩)⟩

/-- C4. Two atlases with the same number of glyphs whose rasterisers yield the same
sequence of bitmap dimensions, one built from a cache image that passes the format checks
and one built without a cache file (an atlas with `image_fits`): both calls of
`generate_character_map` return, and both store, for every glyph, the texture coordinates
`layout_tex ccount dimensions`, a function of the glyph count and the dimensions alone
(bitmaps, bearings, advances, cached pixels, the first character code and the point size do
not enter). In the call that builds the image every store of line 527 is inside
`expanded_data`. -/
theorem cached_and_built_tex_agree (a1 a2 : CharacterAtlas) (ft1 ft2 : Nat → FT_GlyphSlot)
    (png : PngImage) (hlen1 : a1.glyphs.length = a1.ccount)
    (hlen2 : a2.glyphs.length = a2.ccount) (hcount : a1.ccount = a2.ccount)
    (hc1 : a1.cstart + a1.ccount < 2 ^ 32) (hc2 : a2.cstart + a2.ccount < 2 ^ 32)
    (hn : 1 ≤ a1.ccount) (hcol : png.col = 0) (hbd : png.bit_depth = 8)
    (hdims : glyph_dims a1 ft1 = glyph_dims a2 ft2)
    (hstore : image_fits a2 ft2 = true) :
    ∃ r1 r2, generate_character_map a1 ft1 (some png) = Except.ok r1 ∧
      generate_character_map a2 ft2 none = Except.ok r2 ∧
      r1.atlas.glyphs.map Glyph.tex = r2.atlas.glyphs.map Glyph.tex ∧
      r1.atlas.glyphs.map Glyph.tex = layout_tex a1.ccount (glyph_dims a1 ft1) ∧
      stores_inside r2.cells r2.img_width r2.atlas.expanded_data.length = true := by
  obtain ⟨r1, hr1, h1⟩ := generate_tex a1 ft1 (some png) hlen1 hc1 hn (by
    intro q hq
    cases hq
    exact ⟨hcol, hbd⟩)
  obtain ⟨r2, hr2, h2⟩ := generate_tex a2 ft2 none hlen2 hc2 (by omega)
    (by intro q hq; cases hq)
  exact ⟨r1, r2, hr1, hr2, by rw [h1, h2, hcount, hdims], h1,
    stores_inside_of_fits a2 ft2 none hlen2 (by omega) (fun _ => hstore) r2 hr2 rfl⟩

/-- Witness of `cached_and_built_tex_agree`: the characters `60 .. 64` of `wide_last_ft`
with the cached image `cached_png`, and the characters `92 .. 96` of `shifted_ft` without
a cache file; both layouts are 50 by 75 pixels with rows of widths 50, 50 and 25. -/
theorem cached_and_built_tex_agree_witness :
    (CharacterAtlas.init 14 60 5).glyphs.length = (CharacterAtlas.init 14 60 5).ccount ∧
    (CharacterAtlas.init 20 92 5).glyphs.length = (CharacterAtlas.init 20 92 5).ccount ∧
    (CharacterAtlas.init 14 60 5).ccount = (CharacterAtlas.init 20 92 5).ccount ∧
    (CharacterAtlas.init 14 60 5).cstart + (CharacterAtlas.init 14 60 5).ccount < 2 ^ 32 ∧
    (CharacterAtlas.init 20 92 5).cstart + (CharacterAtlas.init 20 92 5).ccount < 2 ^ 32 ∧
    1 ≤ (CharacterAtlas.init 14 60 5).ccount ∧ cached_png.col = 0 ∧ cached_png.bit_depth = 8 ∧
    glyph_dims (CharacterAtlas.init 14 60 5) wide_last_ft =
      glyph_dims (CharacterAtlas.init 20 92 5) shifted_ft ∧
    image_fits (CharacterAtlas.init 20 92 5) shifted_ft = true ∧
    ∃ r1 r2, generate_character_map (CharacterAtlas.init 14 60 5) wide_last_ft (some cached_png) = Except.ok r1 ∧
      generate_character_map (CharacterAtlas.init 20 92 5) shifted_ft none = Except.ok r2 ∧
      r1.atlas.glyphs.map Glyph.tex = r2.atlas.glyphs.map Glyph.tex ∧
      r1.atlas.glyphs.map Glyph.tex = layout_tex (CharacterAtlas.init 14 60 5).ccount (glyph_dims (CharacterAtlas.init 14 60 5) wide_last_ft) ∧
      stores_inside r2.cells r2.img_width r2.atlas.expanded_data.length = true :=
  ⟨by decide, by decide, by decide, by decide, by decide, by decide, by decide, by decide,
    by decide, image_fits_shifted_five,
    cached_and_built_tex_agree (CharacterAtlas.init 14 60 5) (CharacterAtlas.init 20 92 5)
      wide_last_ft shifted_ft cached_png (by decide) (by decide) (by decide) (by decide)
      (by decide) (by decide) (by decide) (by decide) (by decide) image_fits_shifted_five⟩

/-- C14 (amended). On a cache hit that `generate_character_map` accepts (greyscale,
8 bit), the atlas dimensions it keeps are those of the cache image, whatever they are; they
are the size `(img_width, img_height)` that the texture coordinates are divided by exactly
when the cache image has that size. The branch without a cache file, for an atlas with
`image_fits`, keeps (and writes to the cache file) an image of the size
`(img_width, img_height)`, the same size as the one computed on the cache hit, and every
store of line 527 is inside `expanded_data`. -/
theorem cached_size_kept (a : CharacterAtlas) (ft : Nat → FT_GlyphSlot) (png : PngImage)
    (hlen : a.glyphs.length = a.ccount) (hc : a.cstart + a.ccount < 2 ^ 32)
    (hn : 1 ≤ a.ccount) (hcol : png.col = 0) (hbd : png.bit_depth = 8) :
    ∃ r, generate_character_map a ft (some png) = Except.ok r ∧
      r.atlas.texture_width = png.width ∧ r.atlas.texture_height = png.height ∧
      ((r.atlas.texture_width = r.img_width ∧ r.atlas.texture_height = r.img_height) ↔
        (png.width = (atlas_size (Nat.sqrt a.ccount) (glyph_dims a ft)).1 ∧
         png.height = (atlas_size (Nat.sqrt a.ccount) (glyph_dims a ft)).2)) ∧
      (image_fits a ft = true →
        ∃ r2, generate_character_map a ft none = Except.ok r2 ∧
          r2.atlas.texture_width = r2.img_width ∧ r2.atlas.texture_height = r2.img_height ∧
          r2.img_width = r.img_width ∧ r2.img_height = r.img_height ∧
          stores_inside r2.cells r2.img_width r2.atlas.expanded_data.length = true) := by
  obtain ⟨r, hr, hW, hH, _⟩ := generate_layout a ft (some png) hlen hc hn (by
    intro q hq
    cases hq
    exact ⟨hcol, hbd⟩)
  obtain ⟨r2, hr2, hW2, hH2, _⟩ := generate_layout a ft none hlen hc hn (by
    intro q hq
    cases hq)
  obtain ⟨r3, hr3, hw3, hh3⟩ := generate_built_texture a ft hn
  rw [hr2] at hr3
  cases hr3
  rcases generate_cached_cases a ft png hn with ⟨h1, _⟩ | ⟨_, h2, _⟩ | ⟨_, _, r4, hr4, hw4, hh4⟩
  · exact absurd hcol h1
  · exact absurd hbd h2
  · rw [hr] at hr4
    cases hr4
    refine ⟨r, hr, hw4, hh4, ?_, fun hstore => ⟨r2, hr2, hw3, hh3, by rw [hW, hW2],
      by rw [hH, hH2],
      stores_inside_of_fits a ft none hlen hn (fun _ => hstore) r2 hr2 rfl⟩⟩
    rw [hw4, hh4, hW, hH]

/-- Witness of `cached_size_kept`: the five characters `60 .. 64` of `wide_last_ft`, whose
layout is 50 by 75 pixels with rows of widths 50, 50 and 25, with the cached image
`cached_png` of that size. -/
theorem cached_size_kept_witness :
    (CharacterAtlas.init 14 60 5).glyphs.length = (CharacterAtlas.init 14 60 5).ccount ∧
    (CharacterAtlas.init 14 60 5).cstart + (CharacterAtlas.init 14 60 5).ccount < 2 ^ 32 ∧
    1 ≤ (CharacterAtlas.init 14 60 5).ccount ∧ cached_png.col = 0 ∧ cached_png.bit_depth = 8 ∧
    image_fits (CharacterAtlas.init 14 60 5) wide_last_ft = true ∧
    ∃ r, generate_character_map (CharacterAtlas.init 14 60 5) wide_last_ft (some cached_png)
        = Except.ok r ∧
      r.atlas.texture_width = cached_png.width ∧ r.atlas.texture_height = cached_png.height ∧
      ((r.atlas.texture_width = r.img_width ∧ r.atlas.texture_height = r.img_height) ↔
        (cached_png.width = (atlas_size (Nat.sqrt (CharacterAtlas.init 14 60 5).ccount)
            (glyph_dims (CharacterAtlas.init 14 60 5) wide_last_ft)).1 ∧
         cached_png.height = (atlas_size (Nat.sqrt (CharacterAtlas.init 14 60 5).ccount)
            (glyph_dims (CharacterAtlas.init 14 60 5) wide_last_ft)).2)) ∧
      ∃ r2, generate_character_map (CharacterAtlas.init 14 60 5) wide_last_ft none
          = Except.ok r2 ∧
        r2.atlas.texture_width = r2.img_width ∧ r2.atlas.texture_height = r2.img_height ∧
        r2.img_width = r.img_width ∧ r2.img_height = r.img_height ∧
        stores_inside r2.cells r2.img_width r2.atlas.expanded_data.length = true :=
  ⟨by decide, by decide, by decide, by decide, by decide, image_fits_narrow_five,
    (cached_size_kept (CharacterAtlas.init 14 60 5) wide_last_ft cached_png (by decide)
      (by decide) (by decide) (by decide) (by decide)).imp
      (fun _ h => ⟨h.1, h.2.1, h.2.2.1, h.2.2.2.1, h.2.2.2.2 image_fits_narrow_five⟩)⟩

/-- C17 as stated fails: in the atlas of the five characters `60 .. 64` of `wide_last_ft`
(bitmaps of one pixel, image of 50 by 75 pixels, every row inside the image), built without
a cache file or read with the cached image `cached_png`, the first glyph is stored with
`ty1 = 25 / 75` and `ty2 = 0`, so `ty1 < ty2` is false. -/
theorem ty1_not_below_ty2 :
    image_fits (CharacterAtlas.init 14 60 5) wide_last_ft = true ∧
    (∃ r, generate_character_map (CharacterAtlas.init 14 60 5) wide_last_ft none = Except.ok r ∧
      (r.atlas.glyphs.getD 0 Glyph.zero).ty1 = 25 / 75 ∧
      (r.atlas.glyphs.getD 0 Glyph.zero).ty2 = 0 ∧
      ¬ (r.atlas.glyphs.getD 0 Glyph.zero).ty1 < (r.atlas.glyphs.getD 0 Glyph.zero).ty2) ∧
    (∃ r, generate_character_map (CharacterAtlas.init 14 60 5) wide_last_ft (some cached_png)
        = Except.ok r ∧
      (r.atlas.glyphs.getD 0 Glyph.zero).ty1 = 25 / 75 ∧
      (r.atlas.glyphs.getD 0 Glyph.zero).ty2 = 0 ∧
      ¬ (r.atlas.glyphs.getD 0 Glyph.zero).ty1 < (r.atlas.glyphs.getD 0 Glyph.zero).ty2) := by
  have key : ∀ cache, cache = none ∨ cache = some cached_png →
      ∃ r, generate_character_map (CharacterAtlas.init 14 60 5) wide_last_ft cache
          = Except.ok r ∧
        (r.atlas.glyphs.getD 0 Glyph.zero).ty1 = 25 / 75 ∧
        (r.atlas.glyphs.getD 0 Glyph.zero).ty2 = 0 ∧
        ¬ (r.atlas.glyphs.getD 0 Glyph.zero).ty1 <
          (r.atlas.glyphs.getD 0 Glyph.zero).ty2 := by
    intro cache hcache
    obtain ⟨r, hr, _, hH, _, _, htex⟩ := generate_layout (CharacterAtlas.init 14 60 5)
      wide_last_ft cache (by decide) (by decide) (by decide) (by
        intro png h
        rcases hcache with h2 | h2
        · rw [h2] at h; cases h
        · rw [h2] at h; cases h; exact ⟨rfl, rfl⟩)
    have h0 := htex 0 (by decide)
    rw [hH, narrow_five_dims] at h0
    simp only [CharacterAtlas.init, sqrt_five] at h0
    have hcell : (atlas_cells 2 [(1, 1), (1, 1), (1, 1), (1, 1), (1, 1)]).getD 0 Cell.zero =
        { gx := 0, gy := 0, width := 25, height := 25 } := by decide
    have hsize : (atlas_size 2 [(1, 1), (1, 1), (1, 1), (1, 1), (1, 1)]).2 = 75 := by decide
    rw [hcell, hsize] at h0
    simp only [Glyph.tex, Cell.tex, Prod.mk.injEq] at h0
    have h1 : (r.atlas.glyphs.getD 0 Glyph.zero).ty1 = 25 / 75 := by
      rw [h0.2.2.1]
      have : u32 (0 + 25) = 25 := by decide
      rw [this]
      norm_num
    have h2 : (r.atlas.glyphs.getD 0 Glyph.zero).ty2 = 0 := by
      rw [h0.2.2.2]
      norm_num
    exact ⟨r, hr, h1, h2, by rw [h1, h2]; norm_num⟩
  exact ⟨image_fits_narrow_five, key none (Or.inl rfl), key (some cached_png) (Or.inr rfl)⟩

/-- C17 (amended). For a non-empty character range and glyph dimensions for which no
32-bit addition wraps around, every glyph produced by `generate_character_map` (either
branch; the branch that builds the image for an atlas with `image_fits`) is stored with
`ty2 < ty1`: `ty2 = gy / img_height` is the top of the cell and
`ty1 = (gy + height + 24) / img_height` its bottom. On the branch that builds the image
every store of line 527 is inside `expanded_data`. -/
theorem ty2_below_ty1 (a : CharacterAtlas) (ft : Nat → FT_GlyphSlot)
    (cache : Option PngImage) (hlen : a.glyphs.length = a.ccount) (hn : 1 ≤ a.ccount)
    (hfit : no_overflow a ft = true)
    (hcache : ∀ png, cache = some png → png.col = 0 ∧ png.bit_depth = 8)
    (hstore : cache = none → image_fits a ft = true) :
    ∃ r, generate_character_map a ft cache = Except.ok r ∧
      (∀ i, i < a.ccount →
        (r.atlas.glyphs.getD i Glyph.zero).ty2 < (r.atlas.glyphs.getD i Glyph.zero).ty1) ∧
      (cache = none →
        stores_inside r.cells r.img_width r.atlas.expanded_data.length = true) := by
  obtain ⟨r, hr, hpos, h⟩ := generate_offsets a ft cache hlen hn hfit hcache
  refine ⟨r, hr, fun i hi => ?_, stores_inside_of_fits a ft cache hlen hn hstore r hr⟩
  obtain ⟨_, ht⟩ := h i hi
  simp only [Glyph.tex, Prod.mk.injEq] at ht
  rw [ht.2.2.1, ht.2.2.2]
  apply div_lt_div_of_pos_right _ (by exact_mod_cast hpos)
  exact_mod_cast (by omega : spec_gy (Nat.sqrt a.ccount) (glyph_dims a ft) i <
    spec_gy (Nat.sqrt a.ccount) (glyph_dims a ft) i + ((ft (a.cstart + i)).bitmap.rows + 2 * 12))

/-- Witness of `ty2_below_ty1`: the atlas of the five characters `60 .. 64` of
`wide_last_ft` (image of 50 by 75 pixels, rows of widths 50, 50 and 25), built without a
cache file. -/
theorem ty2_below_ty1_witness :
    (CharacterAtlas.init 14 60 5).glyphs.length = (CharacterAtlas.init 14 60 5).ccount ∧
    1 ≤ (CharacterAtlas.init 14 60 5).ccount ∧
    no_overflow (CharacterAtlas.init 14 60 5) wide_last_ft = true ∧
    image_fits (CharacterAtlas.init 14 60 5) wide_last_ft = true ∧
    ∃ r, generate_character_map (CharacterAtlas.init 14 60 5) wide_last_ft none = Except.ok r ∧
      (∀ i, i < (CharacterAtlas.init 14 60 5).ccount →
        (r.atlas.glyphs.getD i Glyph.zero).ty2 < (r.atlas.glyphs.getD i Glyph.zero).ty1) ∧
      stores_inside r.cells r.img_width r.atlas.expanded_data.length = true :=
  ⟨by decide, by decide, no_overflow_narrow_five, image_fits_narrow_five,
    (ty2_below_ty1 (CharacterAtlas.init 14 60 5) wide_last_ft none (by decide) (by decide)
      no_overflow_narrow_five (by intro png h; cases h) (fun _ => image_fits_narrow_five)).imp
      (fun _ h => ⟨h.1, h.2.1, h.2.2 rfl⟩)⟩

/-- C18. For a non-empty character range and glyph dimensions for which no 32-bit
addition wraps around, `generate_character_map` (both branches; the branch that builds the
image for an atlas with `image_fits`) returns with `img_height` equal to the sum, over all
rows of the row-major layout with `floor(sqrt(ccount))` columns, the partially filled last
row included, of the largest padded height `height + 2 * 12` of the row. On the branch that
builds the image every store of line 527 is inside `expanded_data`. -/
theorem img_height_is_sum_of_rows (a : CharacterAtlas) (ft : Nat → FT_GlyphSlot)
    (cache : Option PngImage) (hlen : a.glyphs.length = a.ccount) (hn : 1 ≤ a.ccount)
    (hfit : no_overflow a ft = true)
    (hcache : ∀ png, cache = some png → png.col = 0 ∧ png.bit_depth = 8)
    (hstore : cache = none → image_fits a ft = true) :
    ∃ r, generate_character_map a ft cache = Except.ok r ∧
      r.img_height = spec_atlas_height (Nat.sqrt a.ccount) (glyph_dims a ft) ∧
      (cache = none →
        stores_inside r.cells r.img_width r.atlas.expanded_data.length = true) := by
  simp only [no_overflow, Bool.and_eq_true, decide_eq_true_eq] at hfit
  obtain ⟨⟨hc, hsf⟩, hcf⟩ := hfit
  obtain ⟨r, hr, _, hH, _⟩ := generate_layout a ft cache hlen hc hn hcache
  exact ⟨r, hr, by rw [hH, atlas_height_closed _ (Nat.sqrt_pos.mpr hn) _ hsf hcf],
    stores_inside_of_fits a ft cache hlen hn hstore r hr⟩

/-- Witness of `img_height_is_sum_of_rows`: the atlas of the five characters `60 .. 64`
of `wide_last_ft` (three rows, the last one partially filled, image of 50 by 75 pixels),
built without a cache file. -/
theorem img_height_is_sum_of_rows_witness :
    (CharacterAtlas.init 14 60 5).glyphs.length = (CharacterAtlas.init 14 60 5).ccount ∧
    1 ≤ (CharacterAtlas.init 14 60 5).ccount ∧
    no_overflow (CharacterAtlas.init 14 60 5) wide_last_ft = true ∧
    image_fits (CharacterAtlas.init 14 60 5) wide_last_ft = true ∧
    ∃ r, generate_character_map (CharacterAtlas.init 14 60 5) wide_last_ft none = Except.ok r ∧
      r.img_height = spec_atlas_height (Nat.sqrt (CharacterAtlas.init 14 60 5).ccount)
        (glyph_dims (CharacterAtlas.init 14 60 5) wide_last_ft) ∧
      stores_inside r.cells r.img_width r.atlas.expanded_data.length = true :=
  ⟨by decide, by decide, no_overflow_narrow_five, image_fits_narrow_five,
    (img_height_is_sum_of_rows (CharacterAtlas.init 14 60 5) wide_last_ft none (by decide)
      (by decide) no_overflow_narrow_five (by intro png h; cases h)
      (fun _ => image_fits_narrow_five)).imp (fun _ h => ⟨h.1, h.2.1, h.2.2 rfl⟩)⟩

/-- C20. For a non-empty character range and glyph dimensions for which no 32-bit
addition wraps around, `generate_character_map` (both branches; the branch that builds the
image for an atlas with `image_fits`, where every store of line 527 is inside
`expanded_data`) returns and places glyph `i` at the column offset `gx`, the sum of `width + 24` over the glyphs before it in its row
(row `i / cols`, `cols = floor(sqrt(ccount))`), and at the row offset `gy`, the sum over the
earlier rows of the largest `height + 24` of the row; it stores `tx1 = gx / W`,
`tx2 = (gx + width_i + 24) / W`, `ty2 = gy / H`, `ty1 = (gy + height_i + 24) / H` with
`(W, H) = (img_width, img_height)`. -/
theorem glyph_offsets_closed_form (a : CharacterAtlas) (ft : Nat → FT_GlyphSlot)
    (cache : Option PngImage) (hlen : a.glyphs.length = a.ccount) (hn : 1 ≤ a.ccount)
    (hfit : no_overflow a ft = true)
    (hcache : ∀ png, cache = some png → png.col = 0 ∧ png.bit_depth = 8)
    (hstore : cache = none → image_fits a ft = true) :
    ∃ r, generate_character_map a ft cache = Except.ok r ∧
      (cache = none →
        stores_inside r.cells r.img_width r.atlas.expanded_data.length = true) ∧
      ∀ i, i < a.ccount →
        (r.cells.getD i Cell.zero).gx = spec_gx (Nat.sqrt a.ccount) (glyph_dims a ft) i ∧
        (r.cells.getD i Cell.zero).gy = spec_gy (Nat.sqrt a.ccount) (glyph_dims a ft) i ∧
        (r.atlas.glyphs.getD i Glyph.zero).tx1 =
          (spec_gx (Nat.sqrt a.ccount) (glyph_dims a ft) i : ℚ) / (r.img_width : ℚ) ∧
        (r.atlas.glyphs.getD i Glyph.zero).tx2 =
          ((spec_gx (Nat.sqrt a.ccount) (glyph_dims a ft) i : ℚ) +
            ((ft (a.cstart + i)).bitmap.width : ℚ) + 24) / (r.img_width : ℚ) ∧
        (r.atlas.glyphs.getD i Glyph.zero).ty2 =
          (spec_gy (Nat.sqrt a.ccount) (glyph_dims a ft) i : ℚ) / (r.img_height : ℚ) ∧
        (r.atlas.glyphs.getD i Glyph.zero).ty1 =
          ((spec_gy (Nat.sqrt a.ccount) (glyph_dims a ft) i : ℚ) +
            ((ft (a.cstart + i)).bitmap.rows : ℚ) + 24) / (r.img_height : ℚ) := by
  obtain ⟨r, hr, _, h⟩ := generate_offsets a ft cache hlen hn hfit hcache
  refine ⟨r, hr, stores_inside_of_fits a ft cache hlen hn hstore r hr, fun i hi => ?_⟩
  obtain ⟨hcell, ht⟩ := h i hi
  simp only [Glyph.tex, Prod.mk.injEq] at ht
  obtain ⟨t1, t2, t3, t4⟩ := ht
  refine ⟨by rw [hcell], by rw [hcell], t1, ?_, t4, ?_⟩
  · rw [t2]
    push_cast
    ring
  · rw [t3]
    push_cast
    ring

/-- Witness of `glyph_offsets_closed_form`: the atlas of the five characters `60 .. 64`
of `wide_last_ft` (three rows, the last one partially filled, image of 50 by 75 pixels),
built without a cache file. -/
theorem glyph_offsets_closed_form_witness :
    (CharacterAtlas.init 14 60 5).glyphs.length = (CharacterAtlas.init 14 60 5).ccount ∧
    1 ≤ (CharacterAtlas.init 14 60 5).ccount ∧
    no_overflow (CharacterAtlas.init 14 60 5) wide_last_ft = true ∧
    image_fits (CharacterAtlas.init 14 60 5) wide_last_ft = true ∧
    ∃ r, generate_character_map (CharacterAtlas.init 14 60 5) wide_last_ft none = Except.ok r ∧
      stores_inside r.cells r.img_width r.atlas.expanded_data.length = true ∧
      ∀ i, i < (CharacterAtlas.init 14 60 5).ccount →
        (r.cells.getD i Cell.zero).gx = spec_gx (Nat.sqrt (CharacterAtlas.init 14 60 5).ccount)
          (glyph_dims (CharacterAtlas.init 14 60 5) wide_last_ft) i ∧
        (r.cells.getD i Cell.zero).gy = spec_gy (Nat.sqrt (CharacterAtlas.init 14 60 5).ccount)
          (glyph_dims (CharacterAtlas.init 14 60 5) wide_last_ft) i ∧
        (r.atlas.glyphs.getD i Glyph.zero).tx1 =
          (spec_gx (Nat.sqrt (CharacterAtlas.init 14 60 5).ccount)
            (glyph_dims (CharacterAtlas.init 14 60 5) wide_last_ft) i : ℚ) / (r.img_width : ℚ) ∧
        (r.atlas.glyphs.getD i Glyph.zero).tx2 =
          ((spec_gx (Nat.sqrt (CharacterAtlas.init 14 60 5).ccount)
            (glyph_dims (CharacterAtlas.init 14 60 5) wide_last_ft) i : ℚ) +
            ((wide_last_ft ((CharacterAtlas.init 14 60 5).cstart + i)).bitmap.width : ℚ) + 24)
              / (r.img_width : ℚ) ∧
        (r.atlas.glyphs.getD i Glyph.zero).ty2 =
          (spec_gy (Nat.sqrt (CharacterAtlas.init 14 60 5).ccount)
            (glyph_dims (CharacterAtlas.init 14 60 5) wide_last_ft) i : ℚ) / (r.img_height : ℚ) ∧
        (r.atlas.glyphs.getD i Glyph.zero).ty1 =
          ((spec_gy (Nat.sqrt (CharacterAtlas.init 14 60 5).ccount)
            (glyph_dims (CharacterAtlas.init 14 60 5) wide_last_ft) i : ℚ) +
            ((wide_last_ft ((CharacterAtlas.init 14 60 5).cstart + i)).bitmap.rows : ℚ) + 24)
              / (r.img_height : ℚ) :=
  ⟨by decide, by decide, no_overflow_narrow_five, image_fits_narrow_five,
    (glyph_offsets_closed_form (CharacterAtlas.init 14 60 5) wide_last_ft none (by decide)
      (by decide) no_overflow_narrow_five (by intro png h; cases h)
      (fun _ => image_fits_narrow_five)).imp (fun _ h => ⟨h.1, h.2.1 rfl, h.2.2⟩)⟩

/-- C29: for `ccount ≥ 1` and `cstart + ccount < 2 ^ 32` the column count
`charmap_width = floor(sqrt(ccount))` of `generate_character_map` is at least 1, every index
`i - cstart` that the three loops use is below `ccount`, the length of the glyph table, and
`generate_character_map` does not stop with a division by zero; it returns an atlas with a
glyph table of that length when the cached image, if any, is in the accepted format and,
without a cache file, the atlas has `image_fits` (every store of line 527 is then inside
`expanded_data`). For `ccount = 0` the divisor is `0` and the function stops with the
division by zero. -/
theorem charmap_width_positive (a : CharacterAtlas) (ft : Nat → FT_GlyphSlot)
    (cache : Option PngImage) (hlen : a.glyphs.length = a.ccount) (hn : 1 ≤ a.ccount)
    (hc : a.cstart + a.ccount < 2 ^ 32) :
    1 ≤ Nat.sqrt a.ccount ∧
    (∀ i ∈ char_codes a.cstart a.ccount,
      u32_sub i a.cstart < a.ccount ∧ u32_sub i a.cstart < a.glyphs.length) ∧
    generate_character_map a ft cache ≠ Except.error Fault.division_by_zero ∧
    ((∀ png, cache = some png → png.col = 0 ∧ png.bit_depth = 8) →
      (cache = none → image_fits a ft = true) →
      ∃ r, generate_character_map a ft cache = Except.ok r ∧
        r.atlas.glyphs.length = a.ccount ∧
        (cache = none →
          stores_inside r.cells r.img_width r.atlas.expanded_data.length = true)) ∧
    Nat.sqrt 0 = 0 ∧
    generate_character_map { a with ccount := 0 } ft cache =
      Except.error Fault.division_by_zero := by
  have hpos : 1 ≤ Nat.sqrt a.ccount := Nat.sqrt_pos.mpr hn
  refine ⟨hpos, ?_, ?_, ?_, Nat.sqrt_zero, ?_⟩
  · intro i hi
    have := char_codes_index a.cstart a.ccount hc i hi
    exact ⟨this, by rw [hlen]; exact this⟩
  · unfold generate_character_map
    simp only
    rw [if_neg (by omega)]
    cases cache with
    | none => simp
    | some png =>
      simp only
      split_ifs <;> simp
  · intro hcache hstore
    obtain ⟨r, hr, -, -, -, hl, -⟩ := generate_layout a ft cache hlen hc hn hcache
    exact ⟨r, hr, hl, stores_inside_of_fits a ft cache hlen hn hstore r hr⟩
  · unfold generate_character_map
    simp

/-- Witness of `charmap_width_positive`: the atlas of the five characters `60 .. 64` of
`wide_last_ft`, built without a cache file. -/
theorem charmap_width_positive_witness :
    (CharacterAtlas.init 14 60 5).glyphs.length = (CharacterAtlas.init 14 60 5).ccount ∧
    1 ≤ (CharacterAtlas.init 14 60 5).ccount ∧
    (CharacterAtlas.init 14 60 5).cstart + (CharacterAtlas.init 14 60 5).ccount < 2 ^ 32 ∧
    image_fits (CharacterAtlas.init 14 60 5) wide_last_ft = true ∧
    1 ≤ Nat.sqrt (CharacterAtlas.init 14 60 5).ccount ∧
    generate_character_map (CharacterAtlas.init 14 60 5) wide_last_ft none ≠
      Except.error Fault.division_by_zero ∧
    ∃ r, generate_character_map (CharacterAtlas.init 14 60 5) wide_last_ft none = Except.ok r ∧
      r.atlas.glyphs.length = (CharacterAtlas.init 14 60 5).ccount ∧
      stores_inside r.cells r.img_width r.atlas.expanded_data.length = true :=
  ⟨by decide, by decide, by decide, image_fits_narrow_five,
    (charmap_width_positive (CharacterAtlas.init 14 60 5) wide_last_ft none (by decide)
      (by decide) (by decide)).1,
    (charmap_width_positive (CharacterAtlas.init 14 60 5) wide_last_ft none (by decide)
      (by decide) (by decide)).2.2.1,
    ((charmap_width_positive (CharacterAtlas.init 14 60 5) wide_last_ft none (by decide)
      (by decide) (by decide)).2.2.2.1 (by intro png h; cases h)
      (fun _ => image_fits_narrow_five)).imp (fun _ h => ⟨h.1, h.2.1, h.2.2 rfl⟩)⟩

end FontWriter

namespace Quadtree

/-! ## The quadtree -/

theorem add_leaf (fuel : Nat) (objects : List QuadTreeObject) (cx cy width height : ℚ)
    (level : Nat) (c1 c2 c3 : QuadTreeNode) (obj : QuadTreeObject) :
    QuadTreeNode.add (fuel + 1)
        (QuadTreeNode.node objects cx cy width height level QuadTreeNode.null c1 c2 c3) obj =
      if 5 ≤ (objects ++ [obj]).length then
        QuadTreeNode.split (QuadTreeNode.add fuel)
          (QuadTreeNode.node (objects ++ [obj]) cx cy width height level QuadTreeNode.null c1 c2 c3)
      else
        Except.ok
          (QuadTreeNode.node (objects ++ [obj]) cx cy width height level QuadTreeNode.null c1 c2 c3) := by
  simp [QuadTreeNode.add]

theorem add_q0 (fuel : Nat) (objects : List QuadTreeObject) (cx cy width height : ℚ)
    (level : Nat) (c0 c1 c2 c3 : QuadTreeNode) (obj : QuadTreeObject)
    (hc : c0 ≠ QuadTreeNode.null) (hq : cx < obj.x ∧ cy < obj.y) :
    QuadTreeNode.add (fuel + 1) (QuadTreeNode.node objects cx cy width height level c0 c1 c2 c3) obj =
      (QuadTreeNode.add fuel c0 obj).map
        (fun c => QuadTreeNode.node objects cx cy width height level c c1 c2 c3) := by
  simp only [QuadTreeNode.add, if_neg hc, gt_iff_lt, if_pos hq]
  cases QuadTreeNode.add fuel c0 obj <;> rfl

theorem add_q1 (fuel : Nat) (objects : List QuadTreeObject) (cx cy width height : ℚ)
    (level : Nat) (c0 c1 c2 c3 : QuadTreeNode) (obj : QuadTreeObject)
    (hc : c0 ≠ QuadTreeNode.null) (h0 : ¬ (cx < obj.x ∧ cy < obj.y))
    (hq : obj.x < cx ∧ cy < obj.y) :
    QuadTreeNode.add (fuel + 1) (QuadTreeNode.node objects cx cy width height level c0 c1 c2 c3) obj =
      (QuadTreeNode.add fuel c1 obj).map
        (fun c => QuadTreeNode.node objects cx cy width height level c0 c c2 c3) := by
  simp only [QuadTreeNode.add, if_neg hc, gt_iff_lt, if_neg h0, if_pos hq]
  cases QuadTreeNode.add fuel c1 obj <;> rfl

theorem add_q2 (fuel : Nat) (objects : List QuadTreeObject) (cx cy width height : ℚ)
    (level : Nat) (c0 c1 c2 c3 : QuadTreeNode) (obj : QuadTreeObject)
    (hc : c0 ≠ QuadTreeNode.null) (h0 : ¬ (cx < obj.x ∧ cy < obj.y))
    (h1 : ¬ (obj.x < cx ∧ cy < obj.y)) (hq : obj.x < cx ∧ obj.y < cy) :
    QuadTreeNode.add (fuel + 1) (QuadTreeNode.node objects cx cy width height level c0 c1 c2 c3) obj =
      (QuadTreeNode.add fuel c2 obj).map
        (fun c => QuadTreeNode.node objects cx cy width height level c0 c1 c c3) := by
  simp only [QuadTreeNode.add, if_neg hc, gt_iff_lt, if_neg h0, if_neg h1, if_pos hq]
  cases QuadTreeNode.add fuel c2 obj <;> rfl

theorem add_q3 (fuel : Nat) (objects : List QuadTreeObject) (cx cy width height : ℚ)
    (level : Nat) (c0 c1 c2 c3 : QuadTreeNode) (obj : QuadTreeObject)
    (hc : c0 ≠ QuadTreeNode.null) (h0 : ¬ (cx < obj.x ∧ cy < obj.y))
    (h1 : ¬ (obj.x < cx ∧ cy < obj.y)) (h2 : ¬ (obj.x < cx ∧ obj.y < cy)) :
    QuadTreeNode.add (fuel + 1) (QuadTreeNode.node objects cx cy width height level c0 c1 c2 c3) obj =
      (QuadTreeNode.add fuel c3 obj).map
        (fun c => QuadTreeNode.node objects cx cy width height level c0 c1 c2 c) := by
  simp only [QuadTreeNode.add, if_neg hc, gt_iff_lt, if_neg h0, if_neg h1, if_neg h2]
  cases QuadTreeNode.add fuel c3 obj <;> rfl

theorem add_cases (fuel : Nat) (objects : List QuadTreeObject) (cx cy width height : ℚ)
    (level : Nat) (c0 c1 c2 c3 : QuadTreeNode) (obj : QuadTreeObject) (n : QuadTreeNode)
    (hc : c0 ≠ QuadTreeNode.null)
    (h : QuadTreeNode.add (fuel + 1)
      (QuadTreeNode.node objects cx cy width height level c0 c1 c2 c3) obj = Except.ok n) :
    (∃ c, QuadTreeNode.add fuel c0 obj = Except.ok c ∧
      n = QuadTreeNode.node objects cx cy width height level c c1 c2 c3) ∨
    (∃ c, QuadTreeNode.add fuel c1 obj = Except.ok c ∧
      n = QuadTreeNode.node objects cx cy width height level c0 c c2 c3) ∨
    (∃ c, QuadTreeNode.add fuel c2 obj = Except.ok c ∧
      n = QuadTreeNode.node objects cx cy width height level c0 c1 c c3) ∨
    (∃ c, QuadTreeNode.add fuel c3 obj = Except.ok c ∧
      n = QuadTreeNode.node objects cx cy width height level c0 c1 c2 c) := by
  by_cases h0 : cx < obj.x ∧ cy < obj.y
  · rw [add_q0 _ _ _ _ _ _ _ _ _ _ _ _ hc h0] at h
    left
    cases hr : QuadTreeNode.add fuel c0 obj with
    | error e => rw [hr] at h; cases h
    | ok c => rw [hr] at h; injection h with h; exact ⟨c, rfl, h.symm⟩
  · by_cases h1 : obj.x < cx ∧ cy < obj.y
    · rw [add_q1 _ _ _ _ _ _ _ _ _ _ _ _ hc h0 h1] at h
      right; left
      cases hr : QuadTreeNode.add fuel c1 obj with
      | error e => rw [hr] at h; cases h
      | ok c => rw [hr] at h; injection h with h; exact ⟨c, rfl, h.symm⟩
    · by_cases h2 : obj.x < cx ∧ obj.y < cy
      · rw [add_q2 _ _ _ _ _ _ _ _ _ _ _ _ hc h0 h1 h2] at h
        right; right; left
        cases hr : QuadTreeNode.add fuel c2 obj with
        | error e => rw [hr] at h; cases h
        | ok c => rw [hr] at h; injection h with h; exact ⟨c, rfl, h.symm⟩
      · rw [add_q3 _ _ _ _ _ _ _ _ _ _ _ _ hc h0 h1 h2] at h
        right; right; right
        cases hr : QuadTreeNode.add fuel c3 obj with
        | error e => rw [hr] at h; cases h
        | ok c => rw [hr] at h; injection h with h; exact ⟨c, rfl, h.symm⟩

theorem migrate_nil (add : QuadTreeNode → QuadTreeObject → Except Stop QuadTreeNode)
    (n : QuadTreeNode) : QuadTreeNode.migrate add [] n = Except.ok n := rfl

theorem migrate_cons_ok (add : QuadTreeNode → QuadTreeObject → Except Stop QuadTreeNode)
    (obj : QuadTreeObject) (rest : List QuadTreeObject) (n n1 : QuadTreeNode)
    (h : add n obj = Except.ok n1) :
    QuadTreeNode.migrate add (obj :: rest) n = QuadTreeNode.migrate add rest n1 := by
  simp only [QuadTreeNode.migrate, h]

theorem migrate_cons_error (add : QuadTreeNode → QuadTreeObject → Except Stop QuadTreeNode)
    (obj : QuadTreeObject) (rest : List QuadTreeObject) (n : QuadTreeNode) (e : Stop)
    (h : add n obj = Except.error e) :
    QuadTreeNode.migrate add (obj :: rest) n = Except.error e := by
  simp only [QuadTreeNode.migrate, h]

theorem child_of_frame (width height : ℚ) (level : Nat) (c d : QuadTreeNode)
    (h : d.frame = c.frame) (hc : c.child_of width height level) :
    d.child_of width height level := by
  cases c with
  | null => exact absurd hc (by simp [QuadTreeNode.child_of])
  | node o cx cy w hh l c0 c1 c2 c3 =>
    cases d with
    | null => simp [QuadTreeNode.frame] at h
    | node o2 cx2 cy2 w2 hh2 l2 d0 d1 d2 d3 =>
      simp only [QuadTreeNode.frame, Option.some.injEq, Prod.mk.injEq] at h
      obtain ⟨-, -, h3, h4, h5⟩ := h
      simp only [QuadTreeNode.child_of] at hc ⊢
      rw [h3, h4, h5]; exact hc

theorem frame_ne_null (c d : QuadTreeNode) (h : d.frame = c.frame)
    (hc : c ≠ QuadTreeNode.null) : d ≠ QuadTreeNode.null := by
  cases c with
  | null => exact absurd rfl hc
  | node o cx cy w hh l c0 c1 c2 c3 =>
    cases d with
    | null => simp [QuadTreeNode.frame] at h
    | node o2 cx2 cy2 w2 hh2 l2 d0 d1 d2 d3 => simp

theorem perm_of_coe {α : Type} (l1 l2 : List α)
    (h : (l1 : Multiset α) = (l2 : Multiset α)) : l1.Perm l2 := Multiset.coe_eq_coe.mp h

/-- What a call of `add` on a node with children does, when the calls of `add` on the
children behave as stated. -/
theorem descend_spec (fuel : Nat)
    (IH : ∀ n obj n1, QuadTreeNode.add fuel n obj = Except.ok n1 →
      n1.frame = n.frame ∧ (n.shape → n1.shape ∧ n1.all_objects.Perm (obj :: n.all_objects)))
    (objects : List QuadTreeObject) (cx cy width height : ℚ)
    (level : Nat) (c0 c1 c2 c3 : QuadTreeNode) (obj : QuadTreeObject) (n1 : QuadTreeNode)
    (hc : c0 ≠ QuadTreeNode.null)
    (h : QuadTreeNode.add (fuel + 1)
      (QuadTreeNode.node objects cx cy width height level c0 c1 c2 c3) obj = Except.ok n1) :
    ∃ d0 d1 d2 d3, n1 = QuadTreeNode.node objects cx cy width height level d0 d1 d2 d3 ∧
      d0.frame = c0.frame ∧ d1.frame = c1.frame ∧ d2.frame = c2.frame ∧ d3.frame = c3.frame ∧
      (c0.shape ∧ c1.shape ∧ c2.shape ∧ c3.shape →
        (d0.shape ∧ d1.shape ∧ d2.shape ∧ d3.shape) ∧
        (d0.all_objects ++ (d1.all_objects ++ (d2.all_objects ++ d3.all_objects))).Perm
          (obj :: (c0.all_objects ++ (c1.all_objects ++ (c2.all_objects ++ c3.all_objects))))) := by
  rcases add_cases _ _ _ _ _ _ _ _ _ _ _ _ _ hc h with ⟨c, hr, rfl⟩ | ⟨c, hr, rfl⟩ |
    ⟨c, hr, rfl⟩ | ⟨c, hr, rfl⟩
  · obtain ⟨hf, hs⟩ := IH _ _ _ hr
    refine ⟨c, c1, c2, c3, rfl, hf, rfl, rfl, rfl, fun hh => ?_⟩
    obtain ⟨hs1, hp⟩ := hs hh.1
    refine ⟨⟨hs1, hh.2⟩, ?_⟩
    apply perm_of_coe
    have hp2 := Multiset.coe_eq_coe.mpr hp
    simp only [← Multiset.coe_add, ← Multiset.cons_coe, ← Multiset.singleton_add] at hp2 ⊢
    rw [hp2]; abel
  · obtain ⟨hf, hs⟩ := IH _ _ _ hr
    refine ⟨c0, c, c2, c3, rfl, rfl, hf, rfl, rfl, fun hh => ?_⟩
    obtain ⟨hs1, hp⟩ := hs hh.2.1
    refine ⟨⟨hh.1, hs1, hh.2.2⟩, ?_⟩
    apply perm_of_coe
    have hp2 := Multiset.coe_eq_coe.mpr hp
    simp only [← Multiset.coe_add, ← Multiset.cons_coe, ← Multiset.singleton_add] at hp2 ⊢
    rw [hp2]; abel
  · obtain ⟨hf, hs⟩ := IH _ _ _ hr
    refine ⟨c0, c1, c, c3, rfl, rfl, rfl, hf, rfl, fun hh => ?_⟩
    obtain ⟨hs1, hp⟩ := hs hh.2.2.1
    refine ⟨⟨hh.1, hh.2.1, hs1, hh.2.2.2⟩, ?_⟩
    apply perm_of_coe
    have hp2 := Multiset.coe_eq_coe.mpr hp
    simp only [← Multiset.coe_add, ← Multiset.cons_coe, ← Multiset.singleton_add] at hp2 ⊢
    rw [hp2]; abel
  · obtain ⟨hf, hs⟩ := IH _ _ _ hr
    refine ⟨c0, c1, c2, c, rfl, rfl, rfl, rfl, hf, fun hh => ?_⟩
    obtain ⟨hs1, hp⟩ := hs hh.2.2.2
    refine ⟨⟨hh.1, hh.2.1, hh.2.2.1, hs1⟩, ?_⟩
    apply perm_of_coe
    have hp2 := Multiset.coe_eq_coe.mpr hp
    simp only [← Multiset.coe_add, ← Multiset.cons_coe, ← Multiset.singleton_add] at hp2 ⊢
    rw [hp2]; abel

/-- What the loop of `split` does to a node with children, when the calls of `add` on the
children behave as stated. -/
theorem migrate_spec (fuel : Nat)
    (IH : ∀ n obj n1, QuadTreeNode.add fuel n obj = Except.ok n1 →
      n1.frame = n.frame ∧ (n.shape → n1.shape ∧ n1.all_objects.Perm (obj :: n.all_objects)))
    (objects : List QuadTreeObject) (cx cy width height : ℚ) (level : Nat)
    (os : List QuadTreeObject) (c0 c1 c2 c3 : QuadTreeNode) (n1 : QuadTreeNode)
    (hc : c0 ≠ QuadTreeNode.null)
    (h : QuadTreeNode.migrate (QuadTreeNode.add (fuel + 1)) os
      (QuadTreeNode.node objects cx cy width height level c0 c1 c2 c3) = Except.ok n1) :
    ∃ d0 d1 d2 d3, n1 = QuadTreeNode.node objects cx cy width height level d0 d1 d2 d3 ∧
      d0.frame = c0.frame ∧ d1.frame = c1.frame ∧ d2.frame = c2.frame ∧ d3.frame = c3.frame ∧
      (c0.shape ∧ c1.shape ∧ c2.shape ∧ c3.shape →
        (d0.shape ∧ d1.shape ∧ d2.shape ∧ d3.shape) ∧
        (d0.all_objects ++ (d1.all_objects ++ (d2.all_objects ++ d3.all_objects))).Perm
          (os ++ (c0.all_objects ++ (c1.all_objects ++ (c2.all_objects ++ c3.all_objects))))) := by
  induction os generalizing c0 c1 c2 c3 with
  | nil =>
    rw [migrate_nil] at h
    injection h with h
    exact ⟨c0, c1, c2, c3, h.symm, rfl, rfl, rfl, rfl, fun hh => ⟨hh, List.Perm.refl _⟩⟩
  | cons o rest ih =>
    cases hr : QuadTreeNode.add (fuel + 1)
        (QuadTreeNode.node objects cx cy width height level c0 c1 c2 c3) o with
    | error e => rw [migrate_cons_error _ _ _ _ _ hr] at h; cases h
    | ok m =>
      rw [migrate_cons_ok _ _ _ _ _ hr] at h
      obtain ⟨e0, e1, e2, e3, rfl, f0, f1, f2, f3, hs⟩ :=
        descend_spec fuel IH _ _ _ _ _ _ _ _ _ _ _ _ hc hr
      obtain ⟨d0, d1, d2, d3, hn, g0, g1, g2, g3, hs2⟩ :=
        ih e0 e1 e2 e3 (frame_ne_null _ _ f0 hc) h
      refine ⟨d0, d1, d2, d3, hn, g0.trans f0, g1.trans f1, g2.trans f2, g3.trans f3,
        fun hh => ?_⟩
      obtain ⟨hse, hp⟩ := hs hh
      obtain ⟨hsd, hp2⟩ := hs2 hse
      refine ⟨hsd, ?_⟩
      apply perm_of_coe
      have hp3 := Multiset.coe_eq_coe.mpr hp
      have hp4 := Multiset.coe_eq_coe.mpr hp2
      simp only [← Multiset.coe_add, ← Multiset.cons_coe, ← Multiset.singleton_add] at hp3 hp4 ⊢
      rw [hp4, hp3]; abel

theorem create_shape (cx cy width height : ℚ) (level : Nat) :
    (QuadTreeNode.create cx cy width height level).shape := by
  simp [QuadTreeNode.create, QuadTreeNode.shape]

theorem create_child_of (cx cy width height : ℚ) (level : Nat) :
    (QuadTreeNode.create cx (cy) (width / 2) (height / 2) ((level + 1) % 2 ^ 32)).child_of
      width height level := by
  simp [QuadTreeNode.create, QuadTreeNode.child_of]

/-- A call of `add` that returns keeps the centre, the size and the level of the node; on a
tree of the right shape it keeps the shape and adds the entry to the entries of the tree. -/
theorem add_spec (fuel : Nat) : ∀ n obj n1, QuadTreeNode.add fuel n obj = Except.ok n1 →
    n1.frame = n.frame ∧ (n.shape → n1.shape ∧ n1.all_objects.Perm (obj :: n.all_objects)) := by
  induction fuel using Nat.strong_induction_on with
  | _ fuel IH =>
    intro n obj n1 h
    cases fuel with
    | zero => simp [QuadTreeNode.add] at h
    | succ fuel =>
      cases n with
      | null => simp [QuadTreeNode.add] at h
      | node objects cx cy width height level c0 c1 c2 c3 =>
        by_cases hc : c0 = QuadTreeNode.null
        · subst hc
          rw [add_leaf] at h
          by_cases hlen : 5 ≤ (objects ++ [obj]).length
          · rw [if_pos hlen] at h
            simp only [QuadTreeNode.split, ne_eq, not_true_eq_false, if_false] at h
            cases fuel with
            | zero =>
              exfalso
              cases hobj : objects ++ [obj] with
              | nil => simp at hobj
              | cons o rest =>
                rw [hobj] at h
                simp [QuadTreeNode.migrate, QuadTreeNode.add] at h
            | succ fuel =>
              cases hm : QuadTreeNode.migrate (QuadTreeNode.add (fuel + 1)) (objects ++ [obj])
                (QuadTreeNode.node (objects ++ [obj]) cx cy width height level
                  (QuadTreeNode.create (cx + width / 2 / 2) (cy + height / 2 / 2) (width / 2)
                    (height / 2) ((level + 1) % 2 ^ 32))
                  (QuadTreeNode.create (cx - width / 2 / 2) (cy + height / 2 / 2) (width / 2)
                    (height / 2) ((level + 1) % 2 ^ 32))
                  (QuadTreeNode.create (cx - width / 2 / 2) (cy - height / 2 / 2) (width / 2)
                    (height / 2) ((level + 1) % 2 ^ 32))
                  (QuadTreeNode.create (cx + width / 2 / 2) (cy - height / 2 / 2) (width / 2)
                    (height / 2) ((level + 1) % 2 ^ 32))) with
              | error e => rw [hm] at h; cases h
              | ok m =>
                rw [hm] at h
                injection h with h
                obtain ⟨d0, d1, d2, d3, rfl, f0, f1, f2, f3, hs⟩ :=
                  migrate_spec fuel (IH fuel (by omega)) _ _ _ _ _ _ _ _ _ _ _ _
                    (by simp [QuadTreeNode.create]) hm
                subst h
                refine ⟨rfl, fun hsh => ?_⟩
                obtain ⟨⟨e0, e1, e2, e3⟩, hp⟩ := hs ⟨create_shape _ _ _ _ _,
                  create_shape _ _ _ _ _, create_shape _ _ _ _ _, create_shape _ _ _ _ _⟩
                constructor
                · simp only [QuadTreeNode.clear_objects, QuadTreeNode.shape]
                  refine ⟨Or.inr ⟨trivial, ?_, ?_, ?_, ?_⟩, e0, e1, e2, e3⟩
                  · exact child_of_frame _ _ _ _ _ f0 (create_child_of _ _ _ _ _)
                  · exact child_of_frame _ _ _ _ _ f1 (create_child_of _ _ _ _ _)
                  · exact child_of_frame _ _ _ _ _ f2 (create_child_of _ _ _ _ _)
                  · exact child_of_frame _ _ _ _ _ f3 (create_child_of _ _ _ _ _)
                · simp only [QuadTreeNode.shape] at hsh
                  rcases hsh.1 with ⟨-, h1, h2, h3, -⟩ | ⟨-, h0, -⟩
                  · subst h1 h2 h3
                    simp only [QuadTreeNode.clear_objects, QuadTreeNode.all_objects,
                      List.nil_append]
                    refine hp.trans ?_
                    simp only [QuadTreeNode.create, QuadTreeNode.all_objects, List.append_nil]
                    exact List.perm_append_singleton _ _
                  · exact absurd h0 (by simp [QuadTreeNode.child_of])
          · rw [if_neg hlen] at h
            injection h with h
            subst h
            refine ⟨rfl, fun hsh => ⟨?_, ?_⟩⟩
            · simp only [QuadTreeNode.shape] at hsh ⊢
              obtain ⟨hl, hrest⟩ := hsh
              refine ⟨?_, hrest⟩
              rcases hl with ⟨-, h1, h2, h3, -⟩ | ⟨-, h0, -⟩
              · left
                refine ⟨trivial, h1, h2, h3, ?_⟩
                simp only [List.length_append, List.length_singleton] at hlen ⊢
                omega
              · exact absurd h0 (by simp [QuadTreeNode.child_of])
            · simp only [QuadTreeNode.all_objects, List.append_assoc, List.singleton_append]
              exact List.perm_middle
        · obtain ⟨d0, d1, d2, d3, rfl, f0, f1, f2, f3, hs⟩ :=
            descend_spec fuel (IH fuel (by omega)) _ _ _ _ _ _ _ _ _ _ _ _ hc h
          refine ⟨rfl, fun hsh => ?_⟩
          simp only [QuadTreeNode.shape] at hsh
          obtain ⟨hl, hrest⟩ := hsh
          obtain ⟨hsd, hp⟩ := hs hrest
          constructor
          · simp only [QuadTreeNode.shape]
            refine ⟨?_, hsd⟩
            rcases hl with ⟨h0, -⟩ | ⟨ho, h0, h1, h2, h3⟩
            · exact absurd h0 hc
            · right
              exact ⟨ho, child_of_frame _ _ _ _ _ f0 h0, child_of_frame _ _ _ _ _ f1 h1,
                child_of_frame _ _ _ _ _ f2 h2, child_of_frame _ _ _ _ _ f3 h3⟩
          · simp only [QuadTreeNode.all_objects]
            apply perm_of_coe
            have hp3 := Multiset.coe_eq_coe.mpr hp
            simp only [← Multiset.coe_add, ← Multiset.cons_coe, ← Multiset.singleton_add]
              at hp3 ⊢
            rw [hp3]; abel

theorem five_objects_tree :
    (QuadTree.create 0 0 8 8).add_all 3 five_objects = Except.ok five_tree := by
  simp only [QuadTree.add_all, QuadTree.add, QuadTree.create, QuadTreeNode.create, five_objects,
    five_tree]
  simp (disch := first | decide | norm_num) [add_leaf, add_q0, add_q1, add_q2, add_q3,
    QuadTreeNode.split, QuadTreeNode.migrate, QuadTreeNode.clear_objects, QuadTreeNode.create,
    Except.map]
  norm_num

theorem add_push (fuel : Nat) (objects : List QuadTreeObject) (cx cy width height : ℚ)
    (level : Nat) (c1 c2 c3 : QuadTreeNode) (obj : QuadTreeObject) (h : objects.length < 4) :
    QuadTreeNode.add (fuel + 1)
        (QuadTreeNode.node objects cx cy width height level QuadTreeNode.null c1 c2 c3) obj =
      Except.ok
        (QuadTreeNode.node (objects ++ [obj]) cx cy width height level QuadTreeNode.null
          c1 c2 c3) := by
  rw [add_leaf, if_neg]
  simp only [List.length_append, List.length_singleton]
  omega

theorem centre_line_objects_tree :
    (QuadTree.create 0 0 8 8).add_all 3 centre_line_objects = Except.ok centre_line_tree := by
  simp only [QuadTree.add_all, QuadTree.add, QuadTree.create, QuadTreeNode.create,
    centre_line_objects, centre_line_tree]
  simp (disch := first | decide | norm_num) [add_leaf, add_q0, add_q1, add_q2, add_q3,
    QuadTreeNode.split, QuadTreeNode.migrate, QuadTreeNode.clear_objects, QuadTreeNode.create,
    Except.map]
  norm_num

theorem line_objects_tree :
    (QuadTree.create 0 0 16 16).add_all 1 line_objects = Except.ok line_tree := by
  simp only [QuadTree.add_all, QuadTree.add, QuadTree.create, QuadTreeNode.create,
    line_objects, line_tree]
  simp (disch := first | decide | norm_num) [add_leaf]

/-- Five entries on the line `x = 0` above `y = 0`, and a node without children that holds
the first four, whose centre `(width / 2, -(height / 2))` is to the right of that line and
below `y = 0`: the call of `add` for the fifth entry splits the node, all five entries go to
its second child, whose centre is `(width / 4, -(height / 4))`, and the call of `add` for
the fifth entry on that child is a call of the same kind. -/
theorem add_line_never_returns (o1 o2 o3 o4 o5 : QuadTreeObject)
    (hx : o1.x = 0 ∧ o2.x = 0 ∧ o3.x = 0 ∧ o4.x = 0 ∧ o5.x = 0)
    (hy : 0 < o1.y ∧ 0 < o2.y ∧ 0 < o3.y ∧ 0 < o4.y ∧ 0 < o5.y) (fuel : Nat) :
    ∀ (width height : ℚ) (level : Nat), 0 < width → 0 < height →
      QuadTreeNode.add fuel
        (QuadTreeNode.node [o1, o2, o3, o4] (width / 2) (-(height / 2)) width height level
          QuadTreeNode.null QuadTreeNode.null QuadTreeNode.null QuadTreeNode.null) o5 =
        Except.error Stop.out_of_fuel := by
  induction fuel using Nat.strong_induction_on with
  | _ fuel IH =>
    intro width height level hw hh
    obtain ⟨x1, x2, x3, x4, x5⟩ := hx
    obtain ⟨y1, y2, y3, y4, y5⟩ := hy
    cases fuel with
    | zero => rfl
    | succ fuel =>
      rw [add_leaf, if_pos (by simp)]
      simp only [QuadTreeNode.split, ne_eq, not_true_eq_false, if_false, List.cons_append,
        List.nil_append]
      cases fuel with
      | zero => simp [QuadTreeNode.migrate, QuadTreeNode.add]
      | succ fuel =>
        have hroute : ∀ (o : QuadTreeObject) (objects : List QuadTreeObject) (a b c d : ℚ)
            (l : Nat) (c1 c2 c3 : QuadTreeNode), o.x = 0 → 0 < o.y →
            QuadTreeNode.add (fuel + 1)
              (QuadTreeNode.node objects (width / 2) (-(height / 2)) width height level
                (QuadTreeNode.node [] a b c d l QuadTreeNode.null QuadTreeNode.null
                  QuadTreeNode.null QuadTreeNode.null) c1 c2 c3) o =
            (QuadTreeNode.add fuel c1 o).map (fun c1 =>
              QuadTreeNode.node objects (width / 2) (-(height / 2)) width height level
                (QuadTreeNode.node [] a b c d l QuadTreeNode.null QuadTreeNode.null
                  QuadTreeNode.null QuadTreeNode.null) c1 c2 c3) := by
          intro o objects a b c d l c1 c2 c3 ox oy
          apply add_q1 _ _ _ _ _ _ _ _ _ _ _ _ (by simp)
          · rw [ox]; intro h; linarith [h.1]
          · rw [ox]; constructor <;> linarith
        simp only [QuadTreeNode.create]
        cases fuel with
        | zero =>
          simp only [QuadTreeNode.migrate]
          rw [hroute _ _ _ _ _ _ _ _ _ _ x1 y1]
          rfl
        | succ fuel =>
          have hcx : width / 2 - width / 2 / 2 = width / 2 / 2 := by ring
          have hcy : -(height / 2) + height / 2 / 2 = -(height / 2 / 2) := by ring
          rw [hcx, hcy]
          rw [migrate_cons_ok _ _ _ _ _ (by
            rw [hroute _ _ _ _ _ _ _ _ _ _ x1 y1, add_push _ _ _ _ _ _ _ _ _ _ _ (by simp)]; rfl)]
          rw [migrate_cons_ok _ _ _ _ _ (by
            rw [hroute _ _ _ _ _ _ _ _ _ _ x2 y2, add_push _ _ _ _ _ _ _ _ _ _ _ (by simp)]; rfl)]
          rw [migrate_cons_ok _ _ _ _ _ (by
            rw [hroute _ _ _ _ _ _ _ _ _ _ x3 y3, add_push _ _ _ _ _ _ _ _ _ _ _ (by simp)]; rfl)]
          rw [migrate_cons_ok _ _ _ _ _ (by
            rw [hroute _ _ _ _ _ _ _ _ _ _ x4 y4, add_push _ _ _ _ _ _ _ _ _ _ _ (by simp)]; rfl)]
          rw [migrate_cons_error _ _ _ _ Stop.out_of_fuel (by
            rw [hroute _ _ _ _ _ _ _ _ _ _ x5 y5]
            simp only [List.nil_append, List.cons_append]
            rw [IH (fuel + 1) (by omega) (width / 2) (height / 2) _ (by positivity)
              (by positivity)]
            rfl)]

theorem tree_add_spec (fuel : Nat) (t t1 : QuadTree) (obj : Nat) (x y : ℚ)
    (hroot : t.root ≠ QuadTreeNode.null) (hs : t.root.shape)
    (h : t.add fuel obj x y = Except.ok t1) :
    t1.root.frame = t.root.frame ∧ t1.root.shape ∧
      t1.root.all_objects.Perm ({ objptr := obj, x := x, y := y } :: t.root.all_objects) := by
  unfold QuadTree.add at h
  rw [if_pos hroot] at h
  cases hr : t.root.add fuel { objptr := obj, x := x, y := y } with
  | error e => rw [hr] at h; cases h
  | ok n =>
    rw [hr] at h
    injection h with h
    subst h
    obtain ⟨hf, hsp⟩ := add_spec fuel _ _ _ hr
    exact ⟨hf, (hsp hs).1, (hsp hs).2⟩

theorem add_all_spec (fuel : Nat) (objs : List QuadTreeObject) :
    ∀ (t t1 : QuadTree), t.root ≠ QuadTreeNode.null → t.root.shape →
      t.add_all fuel objs = Except.ok t1 →
      t1.root.frame = t.root.frame ∧ t1.root.shape ∧
        t1.root.all_objects.Perm (t.root.all_objects ++ objs) := by
  induction objs with
  | nil =>
    intro t t1 _ hs h
    simp only [QuadTree.add_all] at h
    injection h with h
    subst h
    exact ⟨rfl, hs, by simp⟩
  | cons obj rest ih =>
    intro t t1 hroot hs h
    simp only [QuadTree.add_all] at h
    cases hr : t.add fuel obj.objptr obj.x obj.y with
    | error e => rw [hr] at h; cases h
    | ok t2 =>
      rw [hr] at h
      obtain ⟨hf, hs2, hp⟩ := tree_add_spec fuel t t2 _ _ _ hroot hs hr
      obtain ⟨hf3, hs3, hp3⟩ := ih t2 t1 (frame_ne_null _ _ hf hroot) hs2 h
      refine ⟨hf3.trans hf, hs3, ?_⟩
      apply perm_of_coe
      have hp4 := Multiset.coe_eq_coe.mpr hp
      have hp5 := Multiset.coe_eq_coe.mpr hp3
      simp only [← Multiset.coe_add, ← Multiset.cons_coe, ← Multiset.singleton_add] at hp4 hp5 ⊢
      rw [hp5, hp4]; abel

/-- C24: after every sequence of calls of `QuadTree::add` that returns, on a tree built with
a root node, the tree has the shape `QuadTreeNode.shape`: every node has no child and at
most four objects, or four children and no object, and every child has the level of its
parent plus one (in `unsigned int`) and half the width and half the height of its parent.
The root keeps its centre, its size and the level 0. -/
theorem quadtree_shape (fuel : Nat) (cx cy width height : ℚ) (objs : List QuadTreeObject)
    (t : QuadTree)
    (h : (QuadTree.create cx cy width height).add_all fuel objs = Except.ok t) :
    t.root.shape ∧ t.root.frame = some (cx, cy, width, height, 0) := by
  obtain ⟨hf, hs, -⟩ := add_all_spec fuel objs (QuadTree.create cx cy width height) t
    (by simp [QuadTree.create, QuadTreeNode.create]) (create_shape _ _ _ _ _) h
  exact ⟨hs, hf⟩

theorem quadtree_shape_witness :
    (QuadTree.create 0 0 8 8).add_all 3 five_objects = Except.ok five_tree ∧
    five_tree.root.shape ∧ five_tree.root.frame = some (0, 0, 8, 8, 0) :=
  ⟨five_objects_tree, quadtree_shape 3 0 0 8 8 five_objects five_tree five_objects_tree⟩

/-- C25: after every sequence of calls of `QuadTree::add` that returns, on a tree built with
a root node, the multiset of the entries `(objptr, x, y)` stored in the nodes of the tree
is the multiset of the entries that were added. -/
theorem quadtree_keeps_objects (fuel : Nat) (cx cy width height : ℚ)
    (objs : List QuadTreeObject) (t : QuadTree)
    (h : (QuadTree.create cx cy width height).add_all fuel objs = Except.ok t) :
    (t.root.all_objects : Multiset QuadTreeObject) = (objs : Multiset QuadTreeObject) := by
  obtain ⟨-, -, hp⟩ := add_all_spec fuel objs (QuadTree.create cx cy width height) t
    (by simp [QuadTree.create, QuadTreeNode.create]) (create_shape _ _ _ _ _) h
  apply Multiset.coe_eq_coe.mpr
  simpa [QuadTree.create, QuadTreeNode.create, QuadTreeNode.all_objects] using hp

theorem quadtree_keeps_objects_witness :
    (QuadTree.create 0 0 8 8).add_all 3 five_objects = Except.ok five_tree ∧
    (five_tree.root.all_objects : Multiset QuadTreeObject) =
      (five_objects : Multiset QuadTreeObject) :=
  ⟨five_objects_tree, quadtree_keeps_objects 3 0 0 8 8 five_objects five_tree five_objects_tree⟩

/-- C26: five points inside the box of the root, the last of which lies on the vertical
centre line above the centre (`x = cx`, `y > cy`). None of the three tests of `add` holds
for that point, it goes to `children[3]`, the child below the centre: the entry
`(5, 0, 1)` is stored in the node of centre `(2, -2)` and size `4 x 4`, whose bounding box
`[0, 4] x [-4, 0]` does not contain `(0, 1)`. -/
theorem centre_line_point_misplaced :
    (∀ obj ∈ centre_line_objects, in_box 0 0 8 8 obj.x obj.y) ∧
    (QuadTree.create 0 0 8 8).add_all 3 centre_line_objects = Except.ok centre_line_tree ∧
    ¬ centre_line_tree.root.contained ∧
    ¬ in_box 2 (-2) 4 4 0 1 := by
  refine ⟨?_, centre_line_objects_tree, ?_, ?_⟩
  · simp only [centre_line_objects, in_box]
    intro obj hobj
    simp only [List.mem_cons, List.mem_singleton, List.not_mem_nil, or_false] at hobj
    rcases hobj with rfl | rfl | rfl | rfl | rfl <;> norm_num
  · simp only [centre_line_tree, QuadTreeNode.contained, in_box]
    intro h
    have := h.2.2.2.2.1 { objptr := 5, x := 0, y := 1 } (by simp)
    norm_num at this
  · simp only [in_box]; norm_num

/-- C27: four pairwise distinct points on the vertical centre line of the box of the root,
above the centre, are in the tree; the call of `QuadTree::add` for a fifth such point does
not return, whatever the depth of calls that is allowed: every split sends the five entries
to one and the same child. -/
theorem add_on_centre_line_never_returns :
    (∀ obj ∈ line_objects ++ [line_fifth], in_box 0 0 16 16 obj.x obj.y) ∧
    ((line_objects ++ [line_fifth]).map (fun obj => (obj.x, obj.y))).Nodup ∧
    (QuadTree.create 0 0 16 16).add_all 1 line_objects = Except.ok line_tree ∧
    ∀ fuel, line_tree.add fuel line_fifth.objptr line_fifth.x line_fifth.y =
      Except.error Stop.out_of_fuel := by
  refine ⟨?_, ?_, line_objects_tree, ?_⟩
  · simp only [line_objects, line_fifth, in_box]
    intro obj hobj
    simp only [List.cons_append, List.nil_append, List.mem_cons, List.mem_singleton,
      List.not_mem_nil, or_false] at hobj
    rcases hobj with rfl | rfl | rfl | rfl | rfl <;> norm_num
  · simp [line_objects, line_fifth]
  · intro fuel
    simp only [QuadTree.add, line_tree, line_objects, line_fifth, ne_eq, reduceCtorEq, not_false_eq_true,
      if_true]
    cases fuel with
    | zero => rfl
    | succ fuel =>
      rw [add_leaf, if_pos (by simp)]
      simp only [QuadTreeNode.split, ne_eq, not_true_eq_false, if_false, List.cons_append,
        List.nil_append, QuadTreeNode.create]
      cases fuel with
      | zero => simp [QuadTreeNode.migrate, QuadTreeNode.add]
      | succ fuel =>
        have hroute : ∀ (o : QuadTreeObject) (objects : List QuadTreeObject) (a b c d : ℚ)
            (l : Nat) (c1 c2 c3 : QuadTreeNode), o.x = 0 → 0 < o.y →
            QuadTreeNode.add (fuel + 1)
              (QuadTreeNode.node objects 0 0 16 16 0
                (QuadTreeNode.node [] a b c d l QuadTreeNode.null QuadTreeNode.null
                  QuadTreeNode.null QuadTreeNode.null) c1 c2 c3) o =
            (QuadTreeNode.add fuel c3 o).map (fun c3 =>
              QuadTreeNode.node objects 0 0 16 16 0
                (QuadTreeNode.node [] a b c d l QuadTreeNode.null QuadTreeNode.null
                  QuadTreeNode.null QuadTreeNode.null) c1 c2 c3) := by
          intro o objects a b c d l c1 c2 c3 ox oy
          apply add_q3 _ _ _ _ _ _ _ _ _ _ _ _ (by simp)
          · rw [ox]; intro h; exact lt_irrefl _ h.1
          · rw [ox]; intro h; exact lt_irrefl _ h.1
          · rw [ox]; intro h; exact lt_irrefl _ h.1
        cases fuel with
        | zero =>
          simp only [QuadTreeNode.migrate]
          rw [hroute _ _ _ _ _ _ _ _ _ _ rfl (by norm_num)]
          rfl
        | succ fuel =>
          have hcx : (0 : ℚ) + 16 / 2 / 2 = 8 / 2 := by norm_num
          have hcy : (0 : ℚ) - 16 / 2 / 2 = -(8 / 2) := by norm_num
          have hw : (16 : ℚ) / 2 = 8 := by norm_num
          rw [hcx, hcy, hw]
          rw [migrate_cons_ok _ _ _ _ _ (by
            rw [hroute _ _ _ _ _ _ _ _ _ _ rfl (by norm_num),
              add_push _ _ _ _ _ _ _ _ _ _ _ (by simp)]; rfl)]
          rw [migrate_cons_ok _ _ _ _ _ (by
            rw [hroute _ _ _ _ _ _ _ _ _ _ rfl (by norm_num),
              add_push _ _ _ _ _ _ _ _ _ _ _ (by simp)]; rfl)]
          rw [migrate_cons_ok _ _ _ _ _ (by
            rw [hroute _ _ _ _ _ _ _ _ _ _ rfl (by norm_num),
              add_push _ _ _ _ _ _ _ _ _ _ _ (by simp)]; rfl)]
          rw [migrate_cons_ok _ _ _ _ _ (by
            rw [hroute _ _ _ _ _ _ _ _ _ _ rfl (by norm_num),
              add_push _ _ _ _ _ _ _ _ _ _ _ (by simp)]; rfl)]
          rw [migrate_cons_error _ _ _ _ Stop.out_of_fuel (by
            rw [hroute _ _ _ _ _ _ _ _ _ _ rfl (by norm_num)]
            simp only [List.nil_append, List.cons_append]
            rw [add_line_never_returns _ _ _ _ _ ⟨rfl, rfl, rfl, rfl, rfl⟩
              ⟨by norm_num, by norm_num, by norm_num, by norm_num, by norm_num⟩ (fuel + 1) 8 8 _
              (by norm_num) (by norm_num)]
            rfl)]

end Quadtree

namespace Settings

/-! ## Boolean settings -/

theorem compare_chars_eq_zero (s t : List Char) : compare_chars s t = 0 ↔ s = t := by
  induction s generalizing t with
  | nil => cases t <;> simp [compare_chars]
  | cons a s ih =>
    cases t with
    | nil => simp [compare_chars]
    | cons b t =>
      simp only [compare_chars]
      by_cases h1 : a.toNat < b.toNat
      · have : a ≠ b := by rintro rfl; omega
        simp [h1, this]
      · by_cases h2 : b.toNat < a.toNat
        · have : a ≠ b := by rintro rfl; omega
          simp [h1, h2, this]
        · have hab : a = b := by
            apply Char.ext
            apply UInt32.ext
            have : a.toNat = b.toNat := by omega
            exact this
          simp [h1, h2, hab, ih]

theorem compare_eq_zero (s t : String) : compare s t = 0 ↔ s = t := by
  unfold compare
  rw [compare_chars_eq_zero]
  constructor
  · intro h; exact String.ext h
  · intro h; rw [h]

theorem get_boolean_from_keyword_eq (root : ptree) (keyword value : String)
    (h : root.get keyword = some value) :
    get_boolean_from_keyword root keyword = some (decide (value ≠ "true")) := by
  unfold get_boolean_from_keyword
  rw [h]
  simp only [ne_eq, compare_eq_zero]

/-- C30: the settings tree of `Display::Display` with the keyword
`settings.screen.full_screen`. `Settings::get_boolean_from_keyword` returns the result of
`std::string::compare`, which is zero when the strings are equal: for the stored value
`true` it returns `false`, for the stored value `false` it returns `true`. -/
theorem boolean_keyword_inverted :
    (screen_settings "true").get full_screen_keyword = some "true" ∧
    get_boolean_from_keyword (screen_settings "true") full_screen_keyword = some false ∧
    (screen_settings "false").get full_screen_keyword = some "false" ∧
    get_boolean_from_keyword (screen_settings "false") full_screen_keyword = some true := by
  have h1 : (screen_settings "true").get full_screen_keyword = some "true" := by
    simp [screen_settings]
  have h2 : (screen_settings "false").get full_screen_keyword = some "false" := by
    simp [screen_settings]
  refine ⟨h1, ?_, h2, ?_⟩
  · rw [get_boolean_from_keyword_eq _ _ _ h1]; simp
  · rw [get_boolean_from_keyword_eq _ _ _ h2]; simp

end Settings
